import Mathlib

/-! PFSP branch-and-bound baselines: nodes, pools and decomposition.

A shallow embedding of the C baselines under `baselines/pfsp`:

* `pfsp_c.c`: the sequential depth-first search (`SinglePool`);
* `pfsp_gpu_cuda.c`: the single-GPU search and its `generate_children`;
* `pfsp_multi_gpu_cuda.c`: the operations of the lock-protected pool `SinglePool_ext`;
* `pfsp_multigpu_cuda.c`: `decompose_*` and `generate_children` over `SinglePool_ext`, the
  command-line parameters and the three steps of the multi-GPU search;
* `pfsp_dist_multigpu_cuda.c`: the command-line parameters, the partition and the
  reassembly of the pools of the distributed search.

Conventions of the embedding.

* A C `int` is an `Int`; the `uint8_t` field `depth` is a `Nat` reduced modulo 256 at
  every store; the `unsigned long long` counters are `Nat`.  The bounds and `best` are
  only compared and copied; the sizes and indices of a pool stay in the range of `int`
  as long as its block has fewer than `2^30` nodes, and a counter grows by one per child
  examined, so no wrap-around is modelled for them.
* A C array is a `List`; `rd` and `wr` are the indexed read and write with a C `int`
  index.  A write outside the allocated block is dropped and a read outside of it
  yields the filler value, so that an overrun is visible as lost data.
* `indet` stands for the contents of storage that the program has not initialised
  (an automatic `Node`, a fresh `malloc` block).
* The bound functions of `lib/c_bound_simple.h` and `lib/c_bound_johnson.h` are
  parameters.  They receive the array `prmu` as its first `jobs` entries, which are the
  entries the node functions initialise.
* A function that can fail to return (a spin on a held lock, `exit`, a loop that has
  used up its fuel) returns an `Option`.
-/

namespace PFSP

/-! ## Arrays -/

/-- Indexed read `a[i]` with a C `int` index; `dflt` is what an out-of-block read sees. -/
def rd {α : Type} (dflt : α) (a : List α) (i : Int) : α :=
  if 0 ≤ i then a.getD i.toNat dflt else dflt

/-- Indexed write `a[i] = v` with a C `int` index; a write outside the block is dropped. -/
def wr {α : Type} (a : List α) (i : Int) (v : α) : List α :=
  if 0 ≤ i then a.set i.toNat v else a

/-- The values `lo, lo+1, ..., hi-1` taken by `i` in `for (int i = lo; i < hi; i++)`. -/
def idxs (lo hi : Int) : List Int :=
  (List.range (hi - lo).toNat).map (fun (k : Nat) => lo + (k : Int))

/-- The call `memcpy(dst, src, n * sizeof(T))`: the first `n` entries of `src` followed by
the remaining entries of `dst`. -/
def memcpy {α : Type} (dst src : List α) (n : Int) : List α :=
  src.take n.toNat ++ dst.drop n.toNat

/-- The function `swap(&a[x], &a[y])`: `tmp = a[y]; a[y] = a[x]; a[x] = tmp`. -/
def swap (a : List Int) (x y : Int) : List Int :=
  let tmp := rd 0 a y
  let a1 := wr a y (rd 0 a x)
  wr a1 x tmp

/-! ## Nodes -/

/-- The constant `MAX_JOBS`. -/
def MAX_JOBS : Nat := 20

/-- The C struct `Node { uint8_t depth; int limit1; int prmu[MAX_JOBS]; }`. -/
structure Node where
  depth : Nat
  limit1 : Int
  prmu : List Int
deriving DecidableEq

/-- The compound literal `(Node){0}`. -/
def zeroNode : Node := ⟨0, 0, List.replicate MAX_JOBS 0⟩

/-- Contents of a `Node` that has not been initialised. -/
def indet : Node := ⟨0, 0, List.replicate MAX_JOBS 0⟩

/-- The function `initRoot(Node* root, const int jobs)`. -/
def initRoot (root : Node) (jobs : Int) : Node :=
  let root1 : Node := { root with depth := 0 }
  let root2 : Node := { root1 with limit1 := -1 }
  (idxs 0 jobs).foldl (fun r i => { r with prmu := wr r.prmu i i }) root2

/-! ## The pool of `pfsp_c.c` -/

/-- The constant `CAPACITY`. -/
def CAPACITY : Int := 1024

/-- The call `realloc(buf, n * sizeof(Node))`: a block of `n` nodes that keeps the old
contents. -/
def realloc (buf : List Node) (n : Int) : List Node :=
  buf.take n.toNat ++ List.replicate (n.toNat - buf.length) indet

/-- The C struct `SinglePool { Node* elements; int capacity; int size; }`. -/
structure SinglePool where
  elements : List Node
  capacity : Int
  size : Int
deriving DecidableEq

/-- The function `initSinglePool(SinglePool* pool)` of `pfsp_c.c`. -/
def initSinglePool : SinglePool :=
  { elements := List.replicate CAPACITY.toNat indet, capacity := CAPACITY, size := 0 }

/-- The function `pushBack(SinglePool* pool, Node node)` of `pfsp_c.c`. -/
def SinglePool.pushBack (pool : SinglePool) (node : Node) : SinglePool :=
  let pool1 : SinglePool :=
    if pool.size ≥ pool.capacity then
      { pool with capacity := pool.capacity * 2,
                  elements := realloc pool.elements (pool.capacity * 2) }
    else pool
  { pool1 with elements := wr pool1.elements pool1.size node, size := pool1.size + 1 }

/-- The function `popBack(SinglePool* pool, int* hasWork)` of `pfsp_c.c`; the result is
the returned node, the value of `*hasWork` and the pool. -/
def SinglePool.popBack (pool : SinglePool) (hasWork : Int) : Node × Int × SinglePool :=
  if pool.size > 0 then
    (rd indet pool.elements (pool.size - 1), 1, { pool with size := pool.size - 1 })
  else
    (zeroNode, hasWork, pool)

/-! ## The pool of `pfsp_multi_gpu_cuda.c` -/

/-- The C struct `SinglePool_ext { Node* elements; int capacity; int front; int size;
bool lock; }`. -/
structure SinglePool_ext where
  elements : List Node
  capacity : Int
  front : Int
  size : Int
  lock : Bool
deriving DecidableEq

/-- The function `initSinglePool` of `pfsp_multi_gpu_cuda.c`. -/
def initSinglePool_ext : SinglePool_ext :=
  { elements := List.replicate CAPACITY.toNat indet, capacity := CAPACITY, front := 0,
    size := 0, lock := false }

/-- The function `pushBack(SinglePool_ext* pool, Node* node)`.  The loop
`while (true) { if (__sync_bool_compare_and_swap(&pool->lock, false, true)) {...} }`
leaves only through the branch of a successful compare-and-swap, so a call on a pool
whose lock is held does not return (`none`). -/
def SinglePool_ext.pushBack (pool : SinglePool_ext) (node : Node) : Option SinglePool_ext :=
  if pool.lock then none
  else
    let pool0 : SinglePool_ext := { pool with lock := true }
    let pool1 : SinglePool_ext :=
      if pool0.front + pool0.size ≥ pool0.capacity then
        { pool0 with capacity := pool0.capacity * 2,
                     elements := realloc pool0.elements (pool0.capacity * 2) }
      else pool0
    let pool2 : SinglePool_ext :=
      { pool1 with elements := wr pool1.elements (pool1.front + pool1.size) node }
    let pool3 : SinglePool_ext := { pool2 with size := pool2.size + 1 }
    some { pool3 with lock := false }

/-- The function `popBack(SinglePool_ext* pool, int* hasWork)`; the result is the
returned node, the value of `*hasWork` and the pool. -/
def SinglePool_ext.popBack (pool : SinglePool_ext) (hasWork : Int) :
    Option (Node × Int × SinglePool_ext) :=
  if pool.lock then none
  else
    let pool0 : SinglePool_ext := { pool with lock := true }
    if pool0.size > 0 then
      let pool1 : SinglePool_ext := { pool0 with size := pool0.size - 1 }
      let elt := rd indet pool1.elements (pool1.front + pool1.size)
      some (elt, 1, { pool1 with lock := false })
    else
      some (zeroNode, hasWork, { pool0 with lock := false })

/-- The function `popBackFree(SinglePool_ext* pool, int* hasWork)`. -/
def SinglePool_ext.popBackFree (pool : SinglePool_ext) (hasWork : Int) :
    Node × Int × SinglePool_ext :=
  if pool.size > 0 then
    let pool1 : SinglePool_ext := { pool with size := pool.size - 1 }
    (rd indet pool1.elements (pool1.front + pool1.size), 1, pool1)
  else
    (zeroNode, hasWork, pool)

/-- The function `popBackBulk(SinglePool_ext* pool, const int m, const int M,
Node* parents)`; the result is the returned count, the array `parents` and the pool. -/
def SinglePool_ext.popBackBulk (pool : SinglePool_ext) (m M : Int) (parents : List Node) :
    Option (Int × List Node × SinglePool_ext) :=
  if pool.lock then none
  else
    let pool0 : SinglePool_ext := { pool with lock := true }
    if pool0.size < m then
      some (0, parents, { pool0 with lock := false })
    else
      let poolSize := min pool0.size M
      let pool1 : SinglePool_ext := { pool0 with size := pool0.size - poolSize }
      let parents1 := (idxs 0 poolSize).foldl
        (fun p i => wr p i (rd indet pool1.elements ((pool1.front + pool1.size) + i))) parents
      some (poolSize, parents1, { pool1 with lock := false })

/-- The function `popBackBulkFree(SinglePool_ext* pool, const int m, const int M,
int* poolSize)`; the result is the returned array (`none` for `NULL`), the value of
`*poolSize` and the pool.  The returned block is a fresh `malloc` of `*poolSize`
nodes. -/
def SinglePool_ext.popBackBulkFree (pool : SinglePool_ext) (m _M : Int) (poolSize : Int) :
    Option (List Node) × Int × SinglePool_ext :=
  if pool.size ≥ 2 * m then
    let poolSize1 := Int.tdiv pool.size 2
    let pool1 : SinglePool_ext := { pool with size := pool.size - poolSize1 }
    let parents0 := List.replicate poolSize1.toNat indet
    let parents := (idxs 0 poolSize1).foldl
      (fun p i => wr p i (rd indet pool1.elements ((pool1.front + pool1.size) + i))) parents0
    (some parents, poolSize1, pool1)
  else
    (none, poolSize, pool)

/-- The function `popFront(SinglePool_ext* pool, int* hasWork)`. -/
def SinglePool_ext.popFront (pool : SinglePool_ext) (hasWork : Int) :
    Node × Int × SinglePool_ext :=
  if pool.size > 0 then
    let node := rd indet pool.elements pool.front
    let pool1 : SinglePool_ext := { pool with front := pool.front + 1 }
    let pool2 : SinglePool_ext := { pool1 with size := pool1.size - 1 }
    (node, 1, pool2)
  else
    (zeroNode, hasWork, pool)

/-! ## Decomposition of a node (`pfsp_c.c`, `pfsp_multigpu_cuda.c`) -/

/-- The variables a decomposition updates through its pointer arguments: `*best`,
`*tree_loc`, `*num_sol` and `*pool`. -/
structure Search (P : Type) where
  best : Int
  tree_loc : Nat
  num_sol : Nat
  pool : P

/-- The function `decompose_lb1`.  Its text is the same in `pfsp_c.c` and in
`pfsp_multigpu_cuda.c` up to the type of the pool, whose `pushBack` is the argument
`push`; `lb1_bound` is the bound of `lib/c_bound_simple.h` with the bound data fixed. -/
def decompose_lb1 {P : Type} (push : P → Node → Option P)
    (lb1_bound : List Int → Int → Int → Int) (jobs : Int) (parent : Node)
    (s : Search P) : Option (Search P) :=
  (idxs (parent.limit1 + 1) jobs).foldlM (fun (s : Search P) (i : Int) =>
    let child0 : Node := { indet with prmu := memcpy indet.prmu parent.prmu jobs }
    let child1 : Node := { child0 with prmu := swap child0.prmu parent.depth i }
    let child2 : Node := { child1 with depth := (parent.depth + 1) % 256 }
    let child : Node := { child2 with limit1 := parent.limit1 + 1 }
    let lowerbound := lb1_bound (child.prmu.take jobs.toNat) child.limit1 jobs
    if (child.depth : Int) = jobs then
      let s1 : Search P := { s with num_sol := s.num_sol + 1 }
      if lowerbound < s1.best then some { s1 with best := lowerbound } else some s1
    else
      if lowerbound < s.best then
        (push s.pool child).map (fun p => { s with pool := p, tree_loc := s.tree_loc + 1 })
      else some s) s

/-- The function `decompose_lb1_d`; `lb1_children_bounds` returns the array `lb_begin`
that the C function fills. -/
def decompose_lb1_d {P : Type} (push : P → Node → Option P)
    (lb1_children_bounds : List Int → Int → Int → List Int) (jobs : Int) (parent : Node)
    (s : Search P) : Option (Search P) :=
  let lb_begin := lb1_children_bounds (parent.prmu.take jobs.toNat) parent.limit1 jobs
  (idxs (parent.limit1 + 1) jobs).foldlM (fun (s : Search P) (i : Int) =>
    let job := rd 0 parent.prmu i
    let lb := rd 0 lb_begin job
    if (parent.depth : Int) + 1 = jobs then
      let s1 : Search P := { s with num_sol := s.num_sol + 1 }
      if lb < s1.best then some { s1 with best := lb } else some s1
    else
      if lb < s.best then
        let child0 : Node := { indet with prmu := memcpy indet.prmu parent.prmu jobs }
        let child1 : Node := { child0 with depth := (parent.depth + 1) % 256 }
        let child2 : Node := { child1 with limit1 := parent.limit1 + 1 }
        let child : Node := { child2 with prmu := swap child2.prmu child2.limit1 i }
        (push s.pool child).map (fun p => { s with pool := p, tree_loc := s.tree_loc + 1 })
      else some s) s

/-- The function `decompose_lb2`; `lb2_bound` is the bound of `lib/c_bound_johnson.h`
with the bound data fixed, its last argument the value of `*best`. -/
def decompose_lb2 {P : Type} (push : P → Node → Option P)
    (lb2_bound : List Int → Int → Int → Int → Int) (jobs : Int) (parent : Node)
    (s : Search P) : Option (Search P) :=
  (idxs (parent.limit1 + 1) jobs).foldlM (fun (s : Search P) (i : Int) =>
    let child0 : Node := { indet with prmu := memcpy indet.prmu parent.prmu jobs }
    let child1 : Node := { child0 with prmu := swap child0.prmu parent.depth i }
    let child2 : Node := { child1 with depth := (parent.depth + 1) % 256 }
    let child : Node := { child2 with limit1 := parent.limit1 + 1 }
    let lowerbound := lb2_bound (child.prmu.take jobs.toNat) child.limit1 jobs s.best
    if (child.depth : Int) = jobs then
      let s1 : Search P := { s with num_sol := s.num_sol + 1 }
      if lowerbound < s1.best then some { s1 with best := lowerbound } else some s1
    else
      if lowerbound < s.best then
        (push s.pool child).map (fun p => { s with pool := p, tree_loc := s.tree_loc + 1 })
      else some s) s

/-- The bound functions of the two bound libraries, with the bound data fixed. -/
structure Bounds where
  lb1_bound : List Int → Int → Int → Int
  lb1_children_bounds : List Int → Int → Int → List Int
  lb2_bound : List Int → Int → Int → Int → Int

/-- The function `decompose` of `pfsp_c.c`: the `default` case of the `switch` ends the
program with `exit(EXIT_FAILURE)`. -/
def decompose {P : Type} (push : P → Node → Option P) (B : Bounds) (jobs : Int) (lb : Int)
    (parent : Node) (s : Search P) : Option (Search P) :=
  if lb = 1 then decompose_lb1 push B.lb1_bound jobs parent s
  else if lb = 0 then decompose_lb1_d push B.lb1_children_bounds jobs parent s
  else if lb = 2 then decompose_lb2 push B.lb2_bound jobs parent s
  else none

/-- The function `decompose` of `pfsp_multigpu_cuda.c`: the `switch` has no `default`
case, so another value of `lb` leaves everything as it is. -/
def decompose_ext {P : Type} (push : P → Node → Option P) (B : Bounds) (jobs : Int) (lb : Int)
    (parent : Node) (s : Search P) : Option (Search P) :=
  if lb = 0 then decompose_lb1_d push B.lb1_children_bounds jobs parent s
  else if lb = 1 then decompose_lb1 push B.lb1_bound jobs parent s
  else if lb = 2 then decompose_lb2 push B.lb2_bound jobs parent s
  else some s

/-- The function `generate_children` of `pfsp_multigpu_cuda.c`; the fields of the state
are `*best`, `*exploredTree`, `*exploredSol` and `*pool`. -/
def generate_children {P : Type} (push : P → Node → Option P) (parents : List Node)
    (size : Int) (jobs : Int) (bounds : List Int) (s : Search P) : Option (Search P) :=
  (idxs 0 size).foldlM (fun (s : Search P) (i : Int) =>
    let parent := rd indet parents i
    let depth := parent.depth
    (idxs (parent.limit1 + 1) jobs).foldlM (fun (s : Search P) (j : Int) =>
      let lowerbound := rd 0 bounds (j + i * jobs)
      if (depth : Int) + 1 = jobs then
        let s1 : Search P := { s with num_sol := s.num_sol + 1 }
        if lowerbound < s1.best then some { s1 with best := lowerbound } else some s1
      else
        if lowerbound < s.best then
          let child0 : Node := { indet with prmu := memcpy indet.prmu parent.prmu jobs }
          let child1 : Node := { child0 with prmu := swap child0.prmu depth j }
          let child2 : Node := { child1 with depth := (depth + 1) % 256 }
          let child : Node := { child2 with limit1 := parent.limit1 + 1 }
          (push s.pool child).map (fun p => { s with pool := p, tree_loc := s.tree_loc + 1 })
        else some s) s) s

/-! ## The sequential search of `pfsp_c.c` -/

/-- The argument `push` of the decomposition for the pool of `pfsp_c.c`, whose `pushBack`
always returns. -/
def SinglePool.push (pool : SinglePool) (node : Node) : Option SinglePool :=
  some (pool.pushBack node)

/-- The loop `while (1) { ... }` of `pfsp_search` in `pfsp_c.c`, run for at most `fuel`
iterations; `none` when the fuel does not suffice or the decomposition does not return. -/
def pfsp_search_loop (B : Bounds) (jobs : Int) (lb : Int) :
    Nat → Search SinglePool → Option (Search SinglePool)
  | 0, _ => none
  | fuel + 1, s =>
    let r := s.pool.popBack 0
    let parent := r.1
    let hasWork := r.2.1
    if hasWork = 0 then some { s with pool := r.2.2 }
    else
      (decompose SinglePool.push B jobs lb parent { s with pool := r.2.2 }).bind
        (pfsp_search_loop B jobs lb fuel)

/-- The function `pfsp_search` of `pfsp_c.c`: `jobs` is `taillard_get_nb_jobs(inst)`, `B`
the bounds built from the instance, and `best`, `exploredTree`, `exploredSol` the values
behind the pointer arguments at the call. -/
def pfsp_search (B : Bounds) (jobs : Int) (lb : Int) (best : Int)
    (exploredTree exploredSol : Nat) (fuel : Nat) : Option (Search SinglePool) :=
  let root := initRoot indet jobs
  let pool := initSinglePool
  let pool1 := pool.pushBack root
  pfsp_search_loop B jobs lb fuel
    { best := best, tree_loc := exploredTree, num_sol := exploredSol, pool := pool1 }

/-! ## Abstraction of the pools -/

/-- Well-formedness of a pool of `pfsp_c.c`: the block holds `capacity` nodes, of which
the first `size` are in use. -/
def SinglePool.WF (p : SinglePool) : Prop :=
  0 < p.capacity ∧ 0 ≤ p.size ∧ p.size ≤ p.capacity ∧ (p.elements.length : Int) = p.capacity

/-- The nodes a pool of `pfsp_c.c` holds, oldest first. -/
def SinglePool.contents (p : SinglePool) : List Node :=
  p.elements.take p.size.toNat

/-- Well-formedness of a `SinglePool_ext`: the block holds `capacity` nodes and the
valid ones occupy the indices `front, ..., front + size - 1`. -/
def SinglePool_ext.WF (p : SinglePool_ext) : Prop :=
  0 < p.capacity ∧ 0 ≤ p.front ∧ 0 ≤ p.size ∧ p.front + p.size ≤ p.capacity ∧
    (p.elements.length : Int) = p.capacity

/-- The valid nodes of a `SinglePool_ext`, those at the indices `front, ...,
front + size - 1`, oldest first. -/
def SinglePool_ext.contents (p : SinglePool_ext) : List Node :=
  (p.elements.drop p.front.toNat).take p.size.toNat

/-! ## Sequences of pool calls -/

/-- Successive calls `pushBack(&pool, n)` of `pfsp_c.c` for the nodes of `ns` in order. -/
def SinglePool.pushBackAll (p : SinglePool) (ns : List Node) : SinglePool :=
  ns.foldl SinglePool.pushBack p

/-- The calls `hasWork = 0; popBack(&pool, &hasWork)` of `pfsp_c.c` made `n` times in a
row: the returned nodes with the value of `hasWork`, in call order, and the pool. -/
def SinglePool.popBackN : Nat → SinglePool → List (Node × Int) × SinglePool
  | 0, p => ([], p)
  | n + 1, p =>
    let r := p.popBack 0
    let rest := SinglePool.popBackN n r.2.2
    ((r.1, r.2.1) :: rest.1, rest.2)

/-- Successive calls `pushBack(pool, n)` on a `SinglePool_ext` for the nodes of `ns` in
order. -/
def SinglePool_ext.pushBackAll (p : SinglePool_ext) (ns : List Node) : Option SinglePool_ext :=
  ns.foldlM SinglePool_ext.pushBack p

/-- The calls `hasWork = 0; popBack(pool, &hasWork)` on a `SinglePool_ext` made `n` times
in a row. -/
def SinglePool_ext.popBackN : Nat → SinglePool_ext → Option (List (Node × Int) × SinglePool_ext)
  | 0, p => some ([], p)
  | n + 1, p =>
    (p.popBack 0).bind (fun r =>
      (SinglePool_ext.popBackN n r.2.2).map (fun rest => ((r.1, r.2.1) :: rest.1, rest.2)))

/-- The calls `hasWork = 0; popFront(pool, &hasWork)` made `n` times in a row. -/
def SinglePool_ext.popFrontN : Nat → SinglePool_ext → List (Node × Int) × SinglePool_ext
  | 0, p => ([], p)
  | n + 1, p =>
    let r := p.popFront 0
    let rest := SinglePool_ext.popFrontN n r.2.2
    ((r.1, r.2.1) :: rest.1, rest.2)

/-! ## Vocabulary for the decomposition theorems -/

/-- The child that `decompose_lb1`, `decompose_lb2` and `generate_children` build for the
loop index `i`: a copy of the first `jobs` entries of the parent, the entries at the
positions `parent.depth` and `i` exchanged. -/
def child_fwd (jobs : Int) (parent : Node) (i : Int) : Node :=
  { depth := (parent.depth + 1) % 256, limit1 := parent.limit1 + 1,
    prmu := swap (memcpy indet.prmu parent.prmu jobs) parent.depth i }

/-- The child that `decompose_lb1_d` builds for the loop index `i`: the exchange is at
the positions `parent.limit1 + 1` and `i`. -/
def child_lb1_d (jobs : Int) (parent : Node) (i : Int) : Node :=
  { depth := (parent.depth + 1) % 256, limit1 := parent.limit1 + 1,
    prmu := swap (memcpy indet.prmu parent.prmu jobs) (parent.limit1 + 1) i }

/-- The bound that `decompose_lb1` computes for the loop index `i`. -/
def bound_lb1 (lb1_bound : List Int → Int → Int → Int) (jobs : Int) (parent : Node)
    (i : Int) : Int :=
  lb1_bound ((child_fwd jobs parent i).prmu.take jobs.toNat) (parent.limit1 + 1) jobs

/-- The bound that `decompose_lb1_d` reads for the loop index `i`. -/
def bound_lb1_d (lb1_children_bounds : List Int → Int → Int → List Int) (jobs : Int)
    (parent : Node) (i : Int) : Int :=
  rd 0 (lb1_children_bounds (parent.prmu.take jobs.toNat) parent.limit1 jobs)
    (rd 0 parent.prmu i)

/-- The bound that `decompose_lb2` computes for the loop index `i` when `*best` is
`best`. -/
def bound_lb2 (lb2_bound : List Int → Int → Int → Int → Int) (jobs : Int) (parent : Node)
    (i : Int) (best : Int) : Int :=
  lb2_bound ((child_fwd jobs parent i).prmu.take jobs.toNat) (parent.limit1 + 1) jobs best

/-- The disposition of one candidate child, as each of the four functions writes it out:
a leaf is counted and lowers `best` when its bound is below it; another child is pushed
and counted when its bound is below `best`. -/
def dispose {P : Type} (push : P → Node → Option P) (leaf : Prop) [Decidable leaf]
    (lowerbound : Int) (child : Node) (s : Search P) : Option (Search P) :=
  if leaf then
    let s1 : Search P := { s with num_sol := s.num_sol + 1 }
    if lowerbound < s1.best then some { s1 with best := lowerbound } else some s1
  else
    if lowerbound < s.best then
      (push s.pool child).map (fun p => { s with pool := p, tree_loc := s.tree_loc + 1 })
    else some s

/-- What the decomposition needs of a pool: on a pool that satisfies `Inv` the push
returns, keeps `Inv` and appends the node to the nodes `abs` of the pool. -/
def PoolLaw {P : Type} (push : P → Node → Option P) (Inv : P → Prop) (abs : P → List Node) :
    Prop :=
  ∀ p n, Inv p → ∃ q, push p n = some q ∧ Inv q ∧ abs q = abs p ++ [n]

/-- A `SinglePool_ext` on which the locking operations return: well-formed and unlocked. -/
def SinglePool_ext.Ready (p : SinglePool_ext) : Prop := p.WF ∧ p.lock = false

/-- The jobs `0, 1, ..., J-1` in increasing order. -/
def identity (J : Int) : List Int := (List.range J.toNat).map (fun (k : Nat) => (k : Int))

/-- The node invariant: `depth == limit1 + 1` and `prmu[0..J)` is a permutation of
`{0..J)`. -/
def NodeInv (J : Int) (n : Node) : Prop :=
  (n.depth : Int) = n.limit1 + 1 ∧ (n.prmu.take J.toNat).Perm (identity J)

/-- The bounds of the candidates `l` as a loop computes them in turn when every candidate
is a leaf: `best` is the value of `*best` when the first one is examined, and each bound
that is lower replaces it before the next one is examined. -/
def examined (bnd : Int → Int → Int) : List Int → Int → List Int
  | [], _ => []
  | i :: l, best => bnd i best :: examined bnd l (min best (bnd i best))

/-- The bounds of the leaf children that `decompose_lb1` examines. -/
def leafBounds_lb1 (lb1_bound : List Int → Int → Int → Int) (jobs : Int) (parent : Node) :
    List Int :=
  if (((parent.depth + 1) % 256 : Nat) : Int) = jobs then
    (idxs (parent.limit1 + 1) jobs).map (bound_lb1 lb1_bound jobs parent)
  else []

/-- The bounds of the leaf children that `decompose_lb1_d` examines. -/
def leafBounds_lb1_d (lbs : List Int → Int → Int → List Int) (jobs : Int) (parent : Node) :
    List Int :=
  if (parent.depth : Int) + 1 = jobs then
    (idxs (parent.limit1 + 1) jobs).map (bound_lb1_d lbs jobs parent)
  else []

/-- The bounds of the leaf children that `decompose_lb2` examines when `*best` is `best`
at the call. -/
def leafBounds_lb2 (lb2_bound : List Int → Int → Int → Int → Int) (jobs : Int) (parent : Node)
    (best : Int) : List Int :=
  if (((parent.depth + 1) % 256 : Nat) : Int) = jobs then
    examined (bound_lb2 lb2_bound jobs parent) (idxs (parent.limit1 + 1) jobs) best
  else []

/-- The bounds of the leaf children that `generate_children` examines: for every parent
`i` of the batch with `depth + 1 == jobs`, the entries `bounds[j + i * jobs]` for
`limit1 < j < jobs`. -/
def leafBounds_gen (parents : List Node) (size jobs : Int) (bounds : List Int) : List Int :=
  (idxs 0 size).flatMap (fun i =>
    if ((rd indet parents i).depth : Int) + 1 = jobs then
      (idxs ((rd indet parents i).limit1 + 1) jobs).map (fun j => rd 0 bounds (j + i * jobs))
    else [])

/-- The nodes reachable from the root: the root that `initRoot` builds, and every node
that one of the four functions pushes to a pool when it is given reachable parents. -/
inductive Generated (J : Int) : Node → Prop
  | root : Generated J (initRoot indet J)
  | lb1 (lb1_bound : List Int → Int → Int → Int) (parent : Node)
      (s s1 : Search SinglePool_ext) (cs : List Node) (c : Node) :
      Generated J parent → s.pool.Ready →
      decompose_lb1 SinglePool_ext.pushBack lb1_bound J parent s = some s1 →
      s1.pool.contents = s.pool.contents ++ cs → c ∈ cs → Generated J c
  | lb1_d (lbs : List Int → Int → Int → List Int) (parent : Node)
      (s s1 : Search SinglePool_ext) (cs : List Node) (c : Node) :
      Generated J parent → s.pool.Ready →
      decompose_lb1_d SinglePool_ext.pushBack lbs J parent s = some s1 →
      s1.pool.contents = s.pool.contents ++ cs → c ∈ cs → Generated J c
  | lb2 (lb2_bound : List Int → Int → Int → Int → Int) (parent : Node)
      (s s1 : Search SinglePool_ext) (cs : List Node) (c : Node) :
      Generated J parent → s.pool.Ready →
      decompose_lb2 SinglePool_ext.pushBack lb2_bound J parent s = some s1 →
      s1.pool.contents = s.pool.contents ++ cs → c ∈ cs → Generated J c
  | gen (parents : List Node) (size : Int) (bounds : List Int)
      (s s1 : Search SinglePool_ext) (cs : List Node) (c : Node) :
      (∀ i, 0 ≤ i → i < size → Generated J (rd indet parents i)) → s.pool.Ready →
      generate_children SinglePool_ext.pushBack parents size J bounds s = some s1 →
      s1.pool.contents = s.pool.contents ++ cs → c ∈ cs → Generated J c

/-! ## Vocabulary for the completeness of the sequential search -/

/-- The bound `lb` is admissible for `J` jobs: its value at an interior node, given by
an array `p` whose positions `0..k` are fixed (`0 ≤ k`, `k + 1 < J`), does not exceed its
value at any leaf below that node, that is, at any complete permutation `q` that has the
same jobs at the positions `0..k`. -/
def Admissible (J : Int) (lb : List Int → Int → Int → Int) : Prop :=
  ∀ (p q : List Int) (k : Int), 0 ≤ k → k + 1 < J →
    p.Perm (identity J) → q.Perm (identity J) →
    (∀ j : Nat, (j : Int) ≤ k → p.getD j 0 = q.getD j 0) → lb p k J ≤ lb q (J - 1) J

/-- The minimum of `b0` and of the leaf bound values of all the complete permutations
of the `J` jobs. -/
def optimum (J : Int) (lb : List Int → Int → Int → Int) (b0 : Int) : Int :=
  ((identity J).permutations.map (fun q => lb q (J - 1) J)).foldl min b0

/-- The complete permutation `q` lies below the node `n`: it has the jobs of `n` at the
fixed positions of `n`. -/
def Below (q : List Int) (n : Node) : Prop :=
  ∀ j : Nat, j < n.depth → q.getD j 0 = n.prmu.getD j 0

/-- The weight of the pool of nodes `c` that bounds the number of iterations the search
still makes: a node of depth `d` weighs `(J + 1) ^ (J - d)`. -/
def poolWeight (J : Nat) (c : List Node) : Nat :=
  (c.map (fun n => (J + 1) ^ (J - n.depth))).sum

/-- The invariant of the loop of `pfsp_search` that gives its completeness: the nodes of
the pool are interior nodes with the node invariant, `best` is `b0` or the value of a
leaf and is not above `b0`, and every complete permutation either has a value that
`best` does not exceed or lies below a node of the pool. -/
def SearchInv (J : Int) (lb : List Int → Int → Int → Int) (b0 : Int)
    (s : Search SinglePool) : Prop :=
  s.pool.WF ∧
  (∀ n ∈ s.pool.contents, NodeInv J n ∧ (n.depth : Int) < J) ∧
  s.best ≤ b0 ∧
  (s.best = b0 ∨ ∃ q, q.Perm (identity J) ∧ s.best = lb q (J - 1) J) ∧
  (∀ q, q.Perm (identity J) →
    s.best ≤ lb q (J - 1) J ∨ ∃ n ∈ s.pool.contents, Below q n)

/-! ## Command-line parameters (`pfsp_multigpu_cuda.c`, `pfsp_dist_multigpu_cuda.c`) -/

/-- The values behind the pointer arguments of `parse_parameters`. -/
structure Params where
  inst : Int
  lb : Int
  ub : Int
  m : Int
  M : Int
  D : Int
deriving DecidableEq

/-- The values `parse_parameters` stores before it reads the options. -/
def defaultParams : Params := { m := 25, M := 50000, inst := 14, lb := 1, ub := 1, D := 1 }

/-- The function `parse_parameters` of `pfsp_multigpu_cuda.c`.  The argument lists, in
the order of the command line, what the calls of `getopt_long` return: the option
character `opt` and `value = atoi(optarg)`.  `none` stands for `exit(EXIT_FAILURE)`. -/
def parse_parameters (opts : List (Char × Int)) : Option Params :=
  opts.foldlM (fun (p : Params) (o : Char × Int) =>
    let opt := o.1
    let value := o.2
    if opt = 'i' then
      if value < 1 ∨ value > 120 then none else some { p with inst := value }
    else if opt = 'l' then
      if value < 0 ∨ value > 2 then none else some { p with lb := value }
    else if opt = 'u' then
      if value ≠ 0 ∧ value ≠ 1 then none else some { p with ub := value }
    else if opt = 'm' then
      if value < 1 ∨ value > 100 then none else some { p with m := value }
    else if opt = 'M' then
      if value < p.m then none else some { p with M := value }
    else if opt = 'D' then
      if value < 0 ∨ value > 16 then none else some { p with D := value }
    else none) defaultParams

/-- The function `parse_parameters` of `pfsp_dist_multigpu_cuda.c`, which differs from
the one of `pfsp_multigpu_cuda.c` in the test of the case `'m'`. -/
def parse_parameters_dist (opts : List (Char × Int)) : Option Params :=
  opts.foldlM (fun (p : Params) (o : Char × Int) =>
    let opt := o.1
    let value := o.2
    if opt = 'i' then
      if value < 1 ∨ value > 120 then none else some { p with inst := value }
    else if opt = 'l' then
      if value < 0 ∨ value > 2 then none else some { p with lb := value }
    else if opt = 'u' then
      if value ≠ 0 ∧ value ≠ 1 then none else some { p with ub := value }
    else if opt = 'm' then
      if value < 1 then none else some { p with m := value }
    else if opt = 'M' then
      if value < p.m then none else some { p with M := value }
    else if opt = 'D' then
      if value < 0 ∨ value > 16 then none else some { p with D := value }
    else none) defaultParams

/-! ## The critical section of a steal (`pfsp_multigpu_cuda.c`, `pfsp_dist_multigpu_cuda.c`) -/

/-- What a thief has done when it releases the lock of its victim: whether it has gone
through the branch that prints `DEADCODE`, the array `p` and the count it passes to
`pushBackBulk` (when it steals), and the pool of the victim. -/
structure StealSection where
  deadcode : Bool
  stolen : Option (Option (List Node) × Int)
  victim : SinglePool_ext

/-- The statements of `pfsp_search` in `pfsp_multigpu_cuda.c` between a successful
compare-and-swap on `victim->lock` and the release of the lock: `size = victim->size`,
and when `size >= 2*m` the call `popBackBulkFree(victim, m, M, &size)` followed by the
test `size == 0` that guards the `DEADCODE` branch. -/
def steal_section (victim : SinglePool_ext) (m M : Int) : StealSection :=
  let size := victim.size
  if size ≥ 2 * m then
    let r := victim.popBackBulkFree m M size
    let p := r.1
    let size1 := r.2.1
    { deadcode := decide (size1 = 0), stolen := some (p, size1), victim := r.2.2 }
  else
    { deadcode := false, stolen := none, victim := victim }

/-- The same statements in `pfsp_dist_multigpu_cuda.c`: the count is received in
`nodeSize`, and the test that guards the `DEADCODE` branch is on `size`. -/
def steal_section_dist (victim : SinglePool_ext) (m M : Int) : StealSection :=
  let size := victim.size
  let nodeSize := 0
  if size ≥ 2 * m then
    let r := victim.popBackBulkFree m M nodeSize
    let p := r.1
    let nodeSize1 := r.2.1
    { deadcode := decide (size = 0), stolen := some (p, nodeSize1), victim := r.2.2 }
  else
    { deadcode := false, stolen := none, victim := victim }

/-- The function `pushBackBulk(SinglePool_ext* pool, SinglePool_ext* nodes)` of
`pfsp_multi_gpu_cuda.c`: `s = nodes->size` nodes are copied from `nodes.elements[i]`
to `pool->elements[(pool->front + pool->size) + i]`, after one test of the capacity. -/
def SinglePool_ext.pushBackBulk (pool nodes : SinglePool_ext) : Option SinglePool_ext :=
  let s := nodes.size
  if pool.lock then none
  else
    let pool0 : SinglePool_ext := { pool with lock := true }
    let pool1 : SinglePool_ext :=
      if pool0.front + pool0.size ≥ pool0.capacity then
        { pool0 with capacity := pool0.capacity * 2,
                     elements := realloc pool0.elements (pool0.capacity * 2) }
      else pool0
    let elements2 := (idxs 0 s).foldl
      (fun e i => wr e ((pool1.front + pool1.size) + i) (rd indet nodes.elements i))
      pool1.elements
    let pool2 : SinglePool_ext := { pool1 with elements := elements2 }
    let pool3 : SinglePool_ext := { pool2 with size := pool2.size + s }
    some { pool3 with lock := false }

/-! ## Reassembly of the residual pools (`pfsp_dist_multigpu_cuda.c`) -/

/-- Number of `int`-sized words of a `Node`: the word that holds `depth`, the word of
`limit1` and the `MAX_JOBS` words of `prmu`. -/
def NODE_WORDS : Nat := 2 + MAX_JOBS

/-- Word `k` of a `Node` seen as an array of `int`; the bytes that pad `depth` to a word
are taken to be zero. -/
def Node.word (n : Node) (k : Nat) : Int :=
  if k = 0 then (n.depth : Int) else if k = 1 then n.limit1 else n.prmu.getD (k - 2) 0

/-- The `Node` number `j` of a block of words. -/
def Node.ofWords (w : List Int) (j : Nat) : Node :=
  { depth := (w.getD (NODE_WORDS * j) 0 % 256).toNat,
    limit1 := w.getD (NODE_WORDS * j + 1) 0,
    prmu := (List.range MAX_JOBS).map (fun (k : Nat) => w.getD (NODE_WORDS * j + 2 + k) 0) }

/-- Word `i` of a block of nodes seen as an array of `int`. -/
def wordAt (buf : List Node) (i : Int) : Int :=
  Node.word (rd indet buf (i / (NODE_WORDS : Int))) (i % (NODE_WORDS : Int)).toNat

/-- The loop of rank 0 that fills `displs` from `recvcounts`:
`displs[i] = total_size; total_size += recvcounts[i]`.  The result is `displs` and
`total_size`. -/
def gather_displs (numLocales : Int) (recvcounts : List Int) : List Int × Int :=
  (idxs 0 numLocales).foldl
    (fun (st : List Int × Int) i => (wr st.1 i st.2, st.2 + rd 0 recvcounts i))
    (List.replicate numLocales.toNat 0, 0)

/-- The effect on the receive buffer of rank 0 of the call
`MPI_Gatherv(sendbuf, sendcount, MPI_INTEGER, recvbuf, recvcounts, displs, MPI_INTEGER,
0, MPI_COMM_WORLD)`: rank `r` contributes `recvcounts[r]` integers, taken from the start
of its send buffer and stored from the integer `displs[r]` of the receive buffer. -/
def MPI_Gatherv (sendbufs : List (List Node)) (recvbuf : List Int)
    (recvcounts displs : List Int) : List Int :=
  (idxs 0 (sendbufs.length : Int)).foldl (fun (w : List Int) r =>
    (idxs 0 (rd 0 recvcounts r)).foldl
      (fun (w : List Int) i => wr w (rd 0 displs r + i) (wordAt (rd [] sendbufs r) i)) w)
    recvbuf

/-- What rank 0 holds after the reassembly. -/
structure Gathered where
  displs : List Int
  total_size : Int
  pool : SinglePool_ext

/-- The statements of `pfsp_search` of `pfsp_dist_multigpu_cuda.c` from `MPI_Gather` to
the end of "Combine data into the master pool", as seen by rank 0: `locales` lists the
pools `pool_lloc` of the ranks `0, 1, ...` and `pool` is the pool of rank 0. -/
def gather_pools (locales : List SinglePool_ext) (pool : SinglePool_ext) : Gathered :=
  let numLocales : Int := (locales.length : Int)
  let recvcounts := locales.map (fun p => p.size)
  let dt := gather_displs numLocales recvcounts
  let displs := dt.1
  let total_size := dt.2
  let all_elems0 : List Int := List.replicate (total_size.toNat * NODE_WORDS) 0
  let all_elems := MPI_Gatherv (locales.map (fun p => p.elements)) all_elems0 recvcounts displs
  let size := (idxs 0 numLocales).foldl (fun (s : Int) i => s + rd 0 recvcounts i) pool.size
  { displs := displs, total_size := total_size,
    pool := { pool with size := size,
                        elements := (List.range total_size.toNat).map (Node.ofWords all_elems) } }

/-! ## Partition of the seed pool (`pfsp_multigpu_cuda.c`, `pfsp_dist_multigpu_cuda.c`) -/

/-- The statements under "each task gets its chunk" of `pfsp_search`, and with
`numLocales`, `locID`, `pool_lloc` for `D`, `gpuID`, `pool_loc` the statements under
"each locale gets its chunk": the first loop copies `elements[gpuID + f + i*D]` to
`pool_loc->elements[i]` for `i < c`, and the task `D - 1` also copies
`elements[D*c + f + i - c]` to `pool_loc->elements[i]` for `c ≤ i < l`. -/
def chunk (elements : List Node) (f c l D gpuID : Int) (pool_loc : SinglePool_ext) :
    SinglePool_ext :=
  let elements1 := (idxs 0 c).foldl
    (fun e i => wr e i (rd indet elements (gpuID + f + i * D))) pool_loc.elements
  let pool_loc1 : SinglePool_ext := { pool_loc with elements := elements1 }
  let pool_loc2 : SinglePool_ext := { pool_loc1 with size := pool_loc1.size + c }
  if gpuID = D - 1 then
    let elements3 := (idxs c l).foldl
      (fun e i => wr e i (rd indet elements ((D * c) + f + i - c))) pool_loc2.elements
    let pool_loc3 : SinglePool_ext := { pool_loc2 with elements := elements3 }
    { pool_loc3 with size := pool_loc3.size + (l - c) }
  else pool_loc2

/-- The partition of `pfsp_search` in `pfsp_multigpu_cuda.c`: `c = poolSize / D`,
`l = poolSize - (D-1)*c`, `f = pool.front`, the pool is emptied and each of the `D` pools
of `multiPool`, fresh from `initSinglePool`, gets its chunk.  The result is the pool and
`multiPool`.  The quotient is the one of C when `D` is not 0; the division by `D = 0` is
in `chunk_sizes`. -/
def partition (pool : SinglePool_ext) (D : Int) : SinglePool_ext × List SinglePool_ext :=
  let poolSize := pool.size
  let c := Int.tdiv poolSize D
  let l := poolSize - (D - 1) * c
  let f := pool.front
  let pool1 : SinglePool_ext := { pool with front := 0 }
  let pool2 : SinglePool_ext := { pool1 with size := 0 }
  (pool2, (idxs 0 D).map (fun gpuID => chunk pool2.elements f c l D gpuID initSinglePool_ext))

/-- The two-level partition of `pfsp_search` in `pfsp_dist_multigpu_cuda.c` on the rank
`locID`: the rank takes its chunk of the pool into `pool_lloc`, then each of its `D`
tasks takes its chunk of `pool_lloc`.  The result is the pool, `pool_lloc` and
`multiPool`. -/
def partition_dist (pool : SinglePool_ext) (numLocales D locID : Int) :
    SinglePool_ext × SinglePool_ext × List SinglePool_ext :=
  let poolSize := pool.size
  let c := Int.tdiv poolSize numLocales
  let l := poolSize - (numLocales - 1) * c
  let f := pool.front
  let pool1 : SinglePool_ext := { pool with front := 0 }
  let pool2 : SinglePool_ext := { pool1 with size := 0 }
  let pool_lloc := chunk pool2.elements f c l numLocales locID initSinglePool_ext
  let poolSize_l := pool_lloc.size
  let c_l := Int.tdiv poolSize_l D
  let l_l := poolSize_l - (D - 1) * c_l
  let f_l := pool_lloc.front
  let pool_lloc1 : SinglePool_ext := { pool_lloc with front := 0 }
  let pool_lloc2 : SinglePool_ext := { pool_lloc1 with size := 0 }
  (pool2, pool_lloc2,
    (idxs 0 D).map (fun gpuID => chunk pool_lloc2.elements f_l c_l l_l D gpuID initSinglePool_ext))

/-! ## Vocabulary for the searches on several pools -/

/-- The children that `decompose_lb1` pushes for `parent` when `*best` is `best`: none
when the children are leaves, else the children whose bound is below `best`, in the
order of the loop. -/
def kids_lb1 (lb : List Int → Int → Int → Int) (J : Int) (parent : Node) (best : Int) :
    List Node :=
  if (((parent.depth + 1) % 256 : Nat) : Int) = J then []
  else ((idxs (parent.limit1 + 1) J).filter
    (fun i => decide (bound_lb1 lb J parent i < best))).map (child_fwd J parent)

/-- The nodes `c` are interior nodes with the node invariant. -/
def NodesOK (J : Int) (c : List Node) : Prop :=
  ∀ n ∈ c, NodeInv J n ∧ (n.depth : Int) < J

/-- The incumbent `best` is `b0` or the value of a leaf, and is not above `b0`. -/
def BestOK (J : Int) (lb : List Int → Int → Int → Int) (b0 best : Int) : Prop :=
  best ≤ b0 ∧ (best = b0 ∨ ∃ q, q.Perm (identity J) ∧ best = lb q (J - 1) J)

/-- Every complete permutation has a value that one of the incumbents `bests` does not
exceed, or lies below one of the nodes `c`. -/
def Covered (J : Int) (lb : List Int → Int → Int → Int) (bests : List Int) (c : List Node) :
    Prop :=
  ∀ q, q.Perm (identity J) → (∃ b ∈ bests, b ≤ lb q (J - 1) J) ∨ ∃ n ∈ c, Below q n

/-! ## Step 1 of `pfsp_search` (`pfsp_multigpu_cuda.c`, `pfsp_dist_multigpu_cuda.c`) -/

/-- The loop `while (pool.size < T) { parent = popFront(&pool, &hasWork); if (!hasWork)
break; decompose(...); }` of step 1, where `T` is `D*m` in `pfsp_multigpu_cuda.c` and
`numLocales*D*m` in `pfsp_dist_multigpu_cuda.c`, run for at most `fuel` iterations. -/
def step1_loop (B : Bounds) (jobs : Int) (lb : Int) (T : Int) :
    Nat → Search SinglePool_ext → Option (Search SinglePool_ext)
  | 0, _ => none
  | fuel + 1, s =>
    if s.pool.size < T then
      let r := s.pool.popFront 0
      let parent := r.1
      let hasWork := r.2.1
      if hasWork = 0 then some { s with pool := r.2.2 }
      else
        (decompose_ext SinglePool_ext.pushBack B jobs lb parent { s with pool := r.2.2 }).bind
          (step1_loop B jobs lb T fuel)
    else some s

/-- The start of `pfsp_search` up to the end of step 1: the root is pushed to a fresh
pool and the loop of step 1 runs. -/
def step1 (B : Bounds) (jobs : Int) (lb : Int) (T : Int) (best : Int)
    (exploredTree exploredSol : Nat) (fuel : Nat) : Option (Search SinglePool_ext) :=
  let root := initRoot indet jobs
  let pool := initSinglePool_ext
  (pool.pushBack root).bind (fun pool1 =>
    step1_loop B jobs lb T fuel
      { best := best, tree_loc := exploredTree, num_sol := exploredSol, pool := pool1 })

/-- The fields `depth` and `limit1` of an interior node: `depth == limit1 + 1` and
`depth < J`. -/
def Shape (J : Int) (n : Node) : Prop :=
  (n.depth : Int) = n.limit1 + 1 ∧ (n.depth : Int) < J

/-! ## Steps 2 and 3 of `pfsp_search` (`pfsp_multigpu_cuda.c`) -/

/-- Modelled from the spec: the kernel launch `evaluate_gpu` (in `lib/`, not part of the
sources at hand) fills `bounds[j + i*jobs]` with the bound of the child of parent `i`
that puts the job `prmu[j]` at the position `limit1 + 1`, for the bound selected by
`lb`; `best` is the value of `best_l` at the launch. -/
def evaluate_gpu (B : Bounds) (jobs lb numBounds best : Int) (parents : List Node) : List Int :=
  (idxs 0 numBounds).map (fun k =>
    let parent := rd indet parents (k / jobs)
    let j := k % jobs
    if lb = 0 then bound_lb1_d B.lb1_children_bounds jobs parent j
    else if lb = 1 then bound_lb1 B.lb1_bound jobs parent j
    else bound_lb2 B.lb2_bound jobs parent j best)

/-- Modelled from the spec: the call `pushBackBulk(pool, nodes, size)` of
`pfsp_multigpu_cuda.c`, whose function with three arguments is in `lib/Pool_ext`, not
part of the sources at hand: the atomic append of all `size` nodes. -/
def SinglePool_ext.pushBackBulk3 (pool : SinglePool_ext) (nodes : List Node) (size : Int) :
    Option SinglePool_ext :=
  pool.pushBackAll (nodes.take size.toNat)

/-- Modelled from the spec: the call `findMin(eachBest, D)` of `lib/Auxiliary`, not part
of the sources at hand: the least of the `D` values. -/
def findMin (eachBest : List Int) (D : Int) : Int :=
  (idxs 1 D).foldl (fun mn i => min mn (rd 0 eachBest i)) (rd 0 eachBest 0)

/-- One pass of a task through the branch `poolSize > 0` of the loop of step 2: the call
`popBackBulk(pool_loc, m, M, parents)`, the kernel launch and `generate_children`.  The
state holds `best_l`, `tree`, `sol` and `*pool_loc`; `none` when `popBackBulk` returns 0
(the task turns to work stealing) or a call does not return.  The block `parents` of `M`
nodes is taken as it comes from `malloc`: the entries that `popBackBulk` does not write
are not read. -/
def task_batch (B : Bounds) (jobs lb m M : Int) (w : Search SinglePool_ext) :
    Option (Search SinglePool_ext) :=
  (w.pool.popBackBulk m M (List.replicate M.toNat indet)).bind (fun r =>
    let poolSize := r.1
    let parents := r.2.1
    if poolSize > 0 then
      let numBounds := jobs * poolSize
      let bounds := evaluate_gpu B jobs lb numBounds w.best parents
      generate_children SinglePool_ext.pushBack parents poolSize jobs bounds
        { w with pool := r.2.2 }
    else none)

/-- One attempt of a task to steal from a victim whose lock it finds free, so that its
first compare-and-swap succeeds: the critical section, then
`pushBackBulk(pool_loc, p, size)` when the victim had `size >= 2*m`.  The result is the
pool of the thief and the pool of the victim; `none` when a call does not return. -/
def task_steal (m M : Int) (pool_loc victim : SinglePool_ext) :
    Option (SinglePool_ext × SinglePool_ext) :=
  let r := steal_section victim m M
  match r.stolen with
  | some (some p, size) => (pool_loc.pushBackBulk3 p size).map (fun t => (t, r.victim))
  | some (none, _) => none
  | none => some (pool_loc, victim)

/-- The steps of step 2, on the states of the `D` tasks (`best_l`, `tree`, `sol` and the
pool `multiPool[gpuID]` of each): a task `g` makes a pass with `poolSize > 0`, or a task
`g` makes a steal attempt on another task `v` whose lock is free. -/
inductive Step2 (B : Bounds) (jobs lb m M : Int) :
    List (Search SinglePool_ext) → List (Search SinglePool_ext) → Prop
  | batch (ws : List (Search SinglePool_ext)) (g : Nat) (w w1 : Search SinglePool_ext) :
      ws[g]? = some w → task_batch B jobs lb m M w = some w1 →
      Step2 B jobs lb m M ws (ws.set g w1)
  | steal (ws : List (Search SinglePool_ext)) (g v : Nat) (w u : Search SinglePool_ext)
      (t q : SinglePool_ext) :
      ws[g]? = some w → ws[v]? = some u → g ≠ v → u.pool.lock = false →
      task_steal m M w.pool u.pool = some (t, q) →
      Step2 B jobs lb m M ws ((ws.set g { w with pool := t }).set v { u with pool := q })

/-- The states of the tasks that step 2 can reach from `ws` in any number of steps. -/
inductive Reach2 (B : Bounds) (jobs lb m M : Int) :
    List (Search SinglePool_ext) → List (Search SinglePool_ext) → Prop
  | refl (ws : List (Search SinglePool_ext)) : Reach2 B jobs lb m M ws ws
  | step (ws ws1 ws2 : List (Search SinglePool_ext)) :
      Reach2 B jobs lb m M ws ws1 → Step2 B jobs lb m M ws1 ws2 → Reach2 B jobs lb m M ws ws2

/-- The states of the tasks at the start of step 2: the partition gives each task its
pool, and each task starts with `best_l = *best`, `tree = 0` and `sol = 0`. -/
def init_tasks (s : Search SinglePool_ext) (D : Int) : List (Search SinglePool_ext) :=
  (partition s.pool D).2.map (fun p => { best := s.best, tree_loc := 0, num_sol := 0, pool := p })

/-- The critical section at the end of the parallel region: `poolLocSize` times, a node
is popped from `pool_loc` and pushed to `pool`, until a pop finds no work.  The result is
`*pool_loc` and `pool`. -/
def drain (pool_loc pool : SinglePool_ext) : Option (SinglePool_ext × SinglePool_ext) :=
  ((idxs 0 pool_loc.size).foldlM
    (fun (st : SinglePool_ext × SinglePool_ext × Bool) (_ : Int) =>
      if st.2.2 then some st
      else
        (st.1.popBack 0).bind (fun r =>
          (st.2.1.pushBack r.1).map (fun p => (r.2.2, p, decide (r.2.1 = 0)))))
    (pool_loc, pool, false)).map (fun st => (st.1, st.2.1))

/-- The loop `while (1) { parent = popBack(&pool, &hasWork); if (!hasWork) break;
decompose(...); }` of step 3, run for at most `fuel` iterations. -/
def step3_loop (B : Bounds) (jobs : Int) (lb : Int) :
    Nat → Search SinglePool_ext → Option (Search SinglePool_ext)
  | 0, _ => none
  | fuel + 1, s =>
    (s.pool.popBack 0).bind (fun r =>
      let parent := r.1
      let hasWork := r.2.1
      if hasWork = 0 then some { s with pool := r.2.2 }
      else
        (decompose_ext SinglePool_ext.pushBack B jobs lb parent { s with pool := r.2.2 }).bind
          (step3_loop B jobs lb fuel))

/-- The end of `pfsp_search` from the end of the parallel region: the tasks move their
nodes to the pool, in the order `ord` in which they enter the critical section; the
counters of the tasks `ws` are added to `*exploredTree` and `*exploredSol`, `*best`
becomes `findMin(eachBest, D)`, and step 3 runs.  The state `s` holds `*best`,
`*exploredTree`, `*exploredSol` after step 1 and the pool emptied by the partition. -/
def finish (B : Bounds) (jobs lb : Int) (ws ord : List (Search SinglePool_ext))
    (s : Search SinglePool_ext) (fuel : Nat) : Option (Search SinglePool_ext) :=
  (ord.foldlM (fun (pool : SinglePool_ext) (w : Search SinglePool_ext) =>
      (drain w.pool pool).map (fun r => r.2)) s.pool).bind (fun pool =>
    step3_loop B jobs lb fuel
      { best := findMin (ws.map (fun w => w.best)) (ws.length : Int),
        tree_loc := ws.foldl (fun t w => t + w.tree_loc) s.tree_loc,
        num_sol := ws.foldl (fun t w => t + w.num_sol) s.num_sol,
        pool := pool })

/-- The runs of `pfsp_search` of `pfsp_multigpu_cuda.c` that return the state `r`: step 1
with the threshold `D*m`, the partition, any number of steps of step 2, and the end of
the search with the tasks entering the critical section in any order. -/
def MultiRun (B : Bounds) (jobs lb m M D : Int) (best : Int) (exploredTree exploredSol : Nat)
    (fuel : Nat) (r : Search SinglePool_ext) : Prop :=
  ∃ s1 ws ord, step1 B jobs lb (D * m) best exploredTree exploredSol fuel = some s1 ∧
    Reach2 B jobs lb m M (init_tasks s1 D) ws ∧ ord.Perm ws ∧
    finish B jobs lb ws ord { s1 with pool := (partition s1.pool D).1 } fuel = some r

/-- The number of nodes pushed (first component) and of leaves counted (second
component) below the node `n` by decompositions with the bound `lb` when `*best` stays
`b`, for a node at most `fuel` levels above the leaves. -/
def subtreeCount (lb : List Int → Int → Int → Int) (J : Int) (b : Int) : Nat → Node → Nat × Nat
  | 0, _ => (0, 0)
  | fuel + 1, n =>
    (((kids_lb1 lb J n b).map (fun c => 1 + (subtreeCount lb J b fuel c).1)).sum,
      (leafBounds_lb1 lb J n).length
        + ((kids_lb1 lb J n b).map (fun c => (subtreeCount lb J b fuel c).2)).sum)

/-- The counts of `subtreeCount` summed over the nodes `c`. -/
def potential (lb : List Int → Int → Int → Int) (J : Int) (b : Int) (c : List Node) :
    Nat × Nat :=
  ((c.map (fun n => (subtreeCount lb J b (J.toNat - n.depth) n).1)).sum,
    (c.map (fun n => (subtreeCount lb J b (J.toNat - n.depth) n).2)).sum)

/-- The children pushed by the decompositions of the parents `ps` in turn, from
`*best = b`. -/
def batch_kids (lb : List Int → Int → Int → Int) (J : Int) : List Node → Int → List Node
  | [], _ => []
  | p :: ps, b =>
    kids_lb1 lb J p b ++ batch_kids lb J ps ((leafBounds_lb1 lb J p).foldl min b)

/-- The value of `*best` after the decompositions of the parents `ps` in turn, from
`*best = b`. -/
def batch_best (lb : List Int → Int → Int → Int) (J : Int) : List Node → Int → Int
  | [], b => b
  | p :: ps, b => batch_best lb J ps ((leafBounds_lb1 lb J p).foldl min b)

/-- The number of leaves counted by the decompositions of the parents `ps`. -/
def batch_leaves (lb : List Int → Int → Int → Int) (J : Int) (ps : List Node) : Nat :=
  (ps.map (fun p => (leafBounds_lb1 lb J p).length)).sum

/-- The invariant of step 2 that gives the completeness of the search on several pools:
the pool of every task is well-formed and unlocked and holds interior nodes with the
node invariant, every `best_l` is `b0` or the value of a leaf, and every complete
permutation has a value that some `best_l` does not exceed or lies below a node of some
pool. -/
def TasksInv (J : Int) (lb : List Int → Int → Int → Int) (b0 : Int)
    (ws : List (Search SinglePool_ext)) : Prop :=
  (∀ w ∈ ws, w.pool.Ready ∧ NodesOK J w.pool.contents ∧ BestOK J lb b0 w.best) ∧
  Covered J lb (ws.map (fun w => w.best)) (ws.flatMap (fun w => w.pool.contents))

/-- The weight of the pools of the tasks. -/
def tasksWeight (J : Nat) (ws : List (Search SinglePool_ext)) : Nat :=
  (ws.map (fun w => poolWeight J w.pool.contents)).sum

/-- The invariant of step 2 when no leaf improves `b0`: the pool of every task is
well-formed and unlocked and holds interior nodes with the node invariant, every
`best_l` is `b0`, and the counters of the tasks plus the counts still to come below the
nodes of their pools add up to `K`. -/
def CountInv (J : Int) (lb : List Int → Int → Int → Int) (b0 : Int) (K : Nat × Nat)
    (ws : List (Search SinglePool_ext)) : Prop :=
  (∀ w ∈ ws, w.pool.Ready ∧ NodesOK J w.pool.contents ∧ w.best = b0) ∧
  (ws.map (fun w => w.tree_loc + (potential lb J b0 w.pool.contents).1)).sum = K.1 ∧
  (ws.map (fun w => w.num_sol + (potential lb J b0 w.pool.contents).2)).sum = K.2

/-! ## The single-GPU search of `pfsp_gpu_cuda.c` -/

/-- The local variables of `generate_children` of `pfsp_gpu_cuda.c` next to the variables
behind its pointer arguments: the number of elements by which the pointer arguments
`exploredTree` and `exploredSol` have been advanced. -/
structure GenLocals where
  s : Search SinglePool
  exploredTree : Nat
  exploredSol : Nat

/-- The function `generate_children` of `pfsp_gpu_cuda.c`.  Its statements
`exploredSol += 1` and `exploredTree += 1` advance the pointer arguments, which are local
to the call and are not dereferenced; the fields of `s` are `*best`, the counters of the
caller that `exploredTree` and `exploredSol` point to at the call, and `*pool`. -/
def generate_children_gpu (parents : List Node) (size : Int) (jobs : Int)
    (bounds : List Int) (s : Search SinglePool) : GenLocals :=
  (idxs 0 size).foldl (fun (g : GenLocals) (i : Int) =>
    let parent := rd indet parents i
    let depth := parent.depth
    (idxs (parent.limit1 + 1) jobs).foldl (fun (g : GenLocals) (j : Int) =>
      let lowerbound := rd 0 bounds (j + i * jobs)
      if (depth : Int) + 1 = jobs then
        let g1 : GenLocals := { g with exploredSol := g.exploredSol + 1 }
        if lowerbound < g1.s.best then { g1 with s := { g1.s with best := lowerbound } } else g1
      else
        if lowerbound < g.s.best then
          let child0 : Node := { indet with prmu := memcpy indet.prmu parent.prmu jobs }
          let child1 : Node := { child0 with prmu := swap child0.prmu parent.depth j }
          let child2 : Node := { child1 with depth := (parent.depth + 1) % 256 }
          let child : Node := { child2 with limit1 := parent.limit1 + 1 }
          let g1 : GenLocals := { g with s := { g.s with pool := g.s.pool.pushBack child } }
          { g1 with exploredTree := g1.exploredTree + 1 }
        else g) g) { s := s, exploredTree := 0, exploredSol := 0 }

/-- The loop `while (1) { ... }` of `pfsp_search` in `pfsp_gpu_cuda.c`, run for at most
`fuel` iterations: a node is popped and decomposed on the CPU, and when
`poolSize = MIN(pool.size, M)` is at least `m`, `poolSize` nodes are popped into
`parents`, their children are evaluated by the kernel and `generate_children` is called
with the counters of the caller.  The function `decompose` of `pfsp_gpu_cuda.c` has the
text of the one of `pfsp_multigpu_cuda.c`, a `switch` without `default` case.  The block
`parents` of `M` nodes is taken as it comes from `malloc`. -/
def pfsp_search_gpu_loop (B : Bounds) (jobs : Int) (lb : Int) (m M : Int) :
    Nat → Search SinglePool → Option (Search SinglePool)
  | 0, _ => none
  | fuel + 1, s =>
    let r := s.pool.popBack 0
    let parent := r.1
    let hasWork := r.2.1
    if hasWork = 0 then some { s with pool := r.2.2 }
    else
      (decompose_ext SinglePool.push B jobs lb parent { s with pool := r.2.2 }).bind (fun s1 =>
        let poolSize := min s1.pool.size M
        if poolSize ≥ m then
          let st := (idxs 0 poolSize).foldl
            (fun (st : List Node × SinglePool × Bool) (i : Int) =>
              if st.2.2 then st
              else
                let r := st.2.1.popBack 0
                (wr st.1 i r.1, r.2.2, decide (r.2.1 = 0)))
            (List.replicate M.toNat indet, s1.pool, false)
          let parents := st.1
          let numBounds := jobs * poolSize
          let bounds := evaluate_gpu B jobs lb numBounds s1.best parents
          let g := generate_children_gpu parents poolSize jobs bounds { s1 with pool := st.2.1 }
          pfsp_search_gpu_loop B jobs lb m M fuel g.s
        else pfsp_search_gpu_loop B jobs lb m M fuel s1)

/-- The function `pfsp_search` of `pfsp_gpu_cuda.c`, with `best`, `exploredTree` and
`exploredSol` the values behind its pointer arguments at the call. -/
def pfsp_search_gpu (B : Bounds) (jobs : Int) (lb : Int) (m M : Int) (best : Int)
    (exploredTree exploredSol : Nat) (fuel : Nat) : Option (Search SinglePool) :=
  let root := initRoot indet jobs
  let pool := initSinglePool
  let pool1 := pool.pushBack root
  pfsp_search_gpu_loop B jobs lb m M fuel
    { best := best, tree_loc := exploredTree, num_sol := exploredSol, pool := pool1 }

/-! ## The acquisition of the lock of a victim (`pfsp_multigpu_cuda.c`,
`pfsp_dist_multigpu_cuda.c`) -/

/-- The C11 function `atomic_compare_exchange_weak(obj, expected, desired)`, spurious
failures left out: when `*obj == *expected`, `*obj` becomes `desired` and the call
returns true; else `*expected` becomes `*obj` and the call returns false.  The result is
the returned value, `*obj` and `*expected`. -/
def atomic_compare_exchange_weak (obj expected desired : Bool) : Bool × Bool × Bool :=
  if obj = expected then (true, desired, expected) else (false, obj, obj)

/-- The C11 function `atomic_compare_exchange_strong(obj, expected, desired)`. -/
def atomic_compare_exchange_strong (obj expected desired : Bool) : Bool × Bool × Bool :=
  if obj = expected then (true, desired, expected) else (false, obj, obj)

/-- How a task leaves the loop `while (nn < 10)` on one victim: `entered` gives, when a
compare-and-swap has succeeded, the value of `nn` and the value that `victim->lock` had
immediately before that compare-and-swap; `expected` is the value of the variable
`expected` at the exit. -/
structure Acquire where
  entered : Option (Nat × Bool)
  expected : Bool
deriving DecidableEq

/-- The loop `while (nn < 10) { if (atomic_compare_exchange_weak(&(victim->lock),
&expected, desired)) { ...; break; } nn++; }` of `pfsp_multigpu_cuda.c`, for the `k`
iterations that remain from `nn` on.  The variables `desired` and `expected` are declared
once per task, before the loop of step 2; `lockAt nn` is the value that the other tasks
have left in `victim->lock` when the task makes its attempt number `nn`. -/
def ws1_loop (lockAt : Nat → Bool) (desired : Bool) : Nat → Nat → Bool → Acquire
  | 0, _, expected => { entered := none, expected := expected }
  | k + 1, nn, expected =>
    let r := atomic_compare_exchange_weak (lockAt nn) expected desired
    if r.1 then { entered := some (nn, lockAt nn), expected := r.2.2 }
    else ws1_loop lockAt desired k (nn + 1) r.2.2

/-- The loop `while (nn < 10) { expected = false; count++;
if (atomic_compare_exchange_strong(&(victim->lock), &expected, true)) { ...; goto ...; }
nn++; }` of `pfsp_dist_multigpu_cuda.c`. -/
def ws1_loop_dist (lockAt : Nat → Bool) : Nat → Nat → Bool → Acquire
  | 0, _, expected => { entered := none, expected := expected }
  | k + 1, nn, _ =>
    let expected := false
    let r := atomic_compare_exchange_strong (lockAt nn) expected true
    if r.1 then { entered := some (nn, lockAt nn), expected := r.2.2 }
    else ws1_loop_dist lockAt k (nn + 1) r.2.2

/-! ## The sizes of the chunks (`pfsp_multigpu_cuda.c`, `pfsp_dist_multigpu_cuda.c`) -/

/-- The division `a / b` of two C `int`: the quotient truncated towards zero, and no
result (`none`) when `b` is 0, for which the behaviour of the program is undefined. -/
def int_div (a b : Int) : Option Int :=
  if b = 0 then none else some (Int.tdiv a b)

/-- The statements `const int c = poolSize / D; const int l = poolSize - (D-1)*c;` of
`pfsp_search` in `pfsp_multigpu_cuda.c`, and with `poolSize_l`, `c_l`, `l_l` the
statements of `pfsp_search` in `pfsp_dist_multigpu_cuda.c`.  The result is `c` and `l`. -/
def chunk_sizes (poolSize D : Int) : Option (Int × Int) :=
  (int_div poolSize D).map (fun c => (c, poolSize - (D - 1) * c))

/-! ## Concrete pools and nodes used to instantiate the theorems -/

/-- A node told apart by its depth. -/
def sampleNode (d : Nat) : Node := ⟨d, (d : Int) - 1, List.replicate MAX_JOBS 0⟩

/-- An empty pool of `pfsp_c.c` whose block holds a single node. -/
def samplePool : SinglePool := ⟨[indet], 1, 0⟩

/-- A `SinglePool_ext` with a block of four nodes that holds the three nodes
`sampleNode 1`, `sampleNode 2`, `sampleNode 3` from index `front = 1` on. -/
def samplePool_ext : SinglePool_ext :=
  ⟨[indet, sampleNode 1, sampleNode 2, sampleNode 3], 4, 1, 3, false⟩

/-- Bound functions used to instantiate the theorems: the bound of a node is the sum of
`(j + 1) * prmu[j]` over its fixed positions `j ≤ limit1`, which does not exceed the
value of any leaf below the node when the jobs are non-negative. -/
def sampleBounds : Bounds :=
  { lb1_bound := fun p k _ =>
      (List.range (k + 1).toNat).foldl (fun (acc : Int) (j : Nat) => acc + ((j : Int) + 1) * p.getD j 0) 0,
    lb1_children_bounds := fun p k J =>
      (List.range J.toNat).map (fun (job : Nat) =>
        (List.range (k + 1).toNat).foldl (fun (acc : Int) (j : Nat) => acc + ((j : Int) + 1) * p.getD j 0) 0
          + (k + 2) * (job : Int)),
    lb2_bound := fun p k _ _ =>
      (List.range (k + 1).toNat).foldl (fun (acc : Int) (j : Nat) => acc + ((j : Int) + 1) * p.getD j 0) 0 }

/-- A batch of 1025 nodes at the front of a block of 2048. -/
def sampleBatch : SinglePool_ext :=
  { elements := List.replicate 1025 (sampleNode 1) ++ List.replicate 1023 indet,
    capacity := 2048, front := 0, size := 1025, lock := false }

/-- The pool that `initSinglePool` and one `pushBack` of `n` give. -/
def sampleLocale (n : Node) : SinglePool_ext :=
  { elements := n :: List.replicate 1023 indet, capacity := 1024, front := 0, size := 1,
    lock := false }

/-- Bound functions that give the value `c` to every node and every leaf. -/
def flatBounds (c : Int) : Bounds :=
  { lb1_bound := fun _ _ _ => c,
    lb1_children_bounds := fun _ _ J => List.replicate J.toNat c,
    lb2_bound := fun _ _ _ _ => c }

/-- Bound functions that give 7 to every interior node and 9 to every leaf. -/
def stepBounds : Bounds :=
  { lb1_bound := fun _ k J => if k + 1 = J then 9 else 7,
    lb1_children_bounds := fun _ k J => List.replicate J.toNat (if k + 2 = J then 9 else 7),
    lb2_bound := fun _ k J _ => if k + 1 = J then 9 else 7 }

/-- A batch of 5 nodes in a block of 8. -/
def sampleBatch5 : SinglePool_ext :=
  { elements := List.replicate 5 (sampleNode 4) ++ List.replicate 3 indet,
    capacity := 8, front := 0, size := 5, lock := false }

/-! # Theorems -/

/-! ## Lemmas on arrays -/

theorem idxs_nil {lo hi : Int} (h : hi ≤ lo) : idxs lo hi = [] := by
  have : (hi - lo).toNat = 0 := by omega
  simp [idxs, this]

theorem idxs_cons {lo hi : Int} (h : lo < hi) : idxs lo hi = lo :: idxs (lo + 1) hi := by
  obtain ⟨n, hn⟩ : ∃ n : Nat, (hi - lo).toNat = n + 1 := ⟨(hi - lo).toNat - 1, by omega⟩
  have h2 : (hi - (lo + 1)).toNat = n := by omega
  simp only [idxs, hn, h2, List.range_succ_eq_map, List.map_cons, List.map_map]
  simp only [Nat.cast_zero, add_zero, List.cons.injEq, true_and]
  apply List.map_congr_left
  intro a _
  simp only [Function.comp, Nat.cast_succ]
  ring

theorem idxs_length (lo hi : Int) : (idxs lo hi).length = (hi - lo).toNat := by
  simp [idxs]

theorem mem_idxs {lo hi i : Int} : i ∈ idxs lo hi ↔ lo ≤ i ∧ i < hi := by
  simp only [idxs, List.mem_map, List.mem_range]
  constructor
  · rintro ⟨k, hk, rfl⟩
    omega
  · rintro ⟨h1, h2⟩
    exact ⟨(i - lo).toNat, by omega, by omega⟩

theorem idxs_snoc {lo hi : Int} (h : lo ≤ hi) : idxs lo (hi + 1) = idxs lo hi ++ [hi] := by
  have h1 : (hi + 1 - lo).toNat = (hi - lo).toNat + 1 := by omega
  simp only [idxs, h1, List.range_succ, List.map_append, List.map_cons, List.map_nil]
  congr 2
  omega

theorem rd_natCast {α : Type} (d : α) (a : List α) (k : Nat) : rd d a (k : Int) = a.getD k d := by
  simp [rd]

theorem wr_natCast {α : Type} (a : List α) (k : Nat) (v : α) : wr a (k : Int) v = a.set k v := by
  simp [wr]

theorem wr_length {α : Type} (a : List α) (i : Int) (v : α) : (wr a i v).length = a.length := by
  unfold wr
  split <;> simp

theorem take_set_succ {α : Type} (l : List α) (k : Nat) (v : α) (h : k < l.length) :
    (l.set k v).take (k + 1) = l.take k ++ [v] := by
  induction l generalizing k with
  | nil => simp at h
  | cons x xs ih =>
    cases k with
    | zero => simp
    | succ k =>
      simp only [List.length_cons, Nat.add_lt_add_iff_right] at h
      simp [ih k h]

theorem take_succ_getD {α : Type} (l : List α) (k : Nat) (d : α) (h : k < l.length) :
    l.take (k + 1) = l.take k ++ [l.getD k d] := by
  induction l generalizing k with
  | nil => simp at h
  | cons x xs ih =>
    cases k with
    | zero => simp
    | succ k =>
      simp only [List.length_cons, Nat.add_lt_add_iff_right] at h
      simpa using ih k h

theorem realloc_double (buf : List Node) (c : Nat) (h : buf.length = c) :
    realloc buf (((c : Int)) * 2) = buf ++ List.replicate c indet := by
  have h1 : ((c : Int) * 2).toNat = c * 2 := by omega
  simp only [realloc, h1, h]
  rw [List.take_of_length_le (by omega)]
  congr 2
  omega

/-! ## Lemmas on the pool of `pfsp_c.c` -/

theorem initSinglePool_wf : initSinglePool.WF := by
  refine ⟨by decide, by decide, by decide, ?_⟩
  show ((List.replicate CAPACITY.toNat indet).length : Int) = CAPACITY
  rw [List.length_replicate]
  decide

theorem initSinglePool_contents : initSinglePool.contents = [] := by
  show List.take (0 : Int).toNat _ = []
  simp

theorem SinglePool.pushBack_spec (p : SinglePool) (n : Node) (h : p.WF) :
    (p.pushBack n).WF ∧ (p.pushBack n).contents = p.contents ++ [n] ∧
      (p.pushBack n).size = p.size + 1 := by
  obtain ⟨els, cap, sz⟩ := p
  obtain ⟨h1, h2, h3, h4⟩ := h
  simp only at h1 h2 h3 h4
  obtain ⟨s, rfl⟩ := Int.eq_ofNat_of_zero_le h2
  obtain ⟨c, rfl⟩ := Int.eq_ofNat_of_zero_le h1.le
  have hlen : els.length = c := by exact_mod_cast h4
  have hsc : s ≤ c := by exact_mod_cast h3
  have hc : 0 < c := by exact_mod_cast h1
  by_cases hfull : (s : Int) ≥ (c : Int)
  · have hs : s = c := by omega
    subst hs
    simp only [SinglePool.pushBack, hfull, if_true, SinglePool.WF, SinglePool.contents,
      realloc_double els s hlen, wr_natCast, wr_length, List.length_append,
      List.length_replicate, List.length_set]
    refine ⟨⟨by omega, by omega, by omega, by push_cast; omega⟩, ?_, trivial⟩
    have e1 : ((s : Int) + 1).toNat = s + 1 := by omega
    rw [e1, take_set_succ _ _ _ (by simp; omega)]
    simp [hlen]
  · simp only [SinglePool.pushBack, hfull, if_false, SinglePool.WF, SinglePool.contents,
      wr_natCast, List.length_set]
    refine ⟨⟨by omega, by omega, by omega, by omega⟩, ?_, trivial⟩
    have e1 : ((s : Int) + 1).toNat = s + 1 := by omega
    rw [e1, take_set_succ _ _ _ (by omega)]
    simp

theorem SinglePool.popBack_empty (p : SinglePool) (hw : Int) (h : p.size ≤ 0) :
    p.popBack hw = (zeroNode, hw, p) := by
  have : ¬ p.size > 0 := by omega
  simp [SinglePool.popBack, this]

theorem SinglePool.popBack_snoc (p : SinglePool) (hw : Int) (xs : List Node) (n : Node)
    (h : p.WF) (hc : p.contents = xs ++ [n]) :
    (p.popBack hw).1 = n ∧ (p.popBack hw).2.1 = 1 ∧ (p.popBack hw).2.2.WF ∧
      (p.popBack hw).2.2.contents = xs ∧ (p.popBack hw).2.2.size = p.size - 1 := by
  obtain ⟨els, cap, sz⟩ := p
  obtain ⟨h1, h2, h3, h4⟩ := h
  simp only at h1 h2 h3 h4
  obtain ⟨s, rfl⟩ := Int.eq_ofNat_of_zero_le h2
  simp only [SinglePool.contents, Int.toNat_ofNat] at hc
  have hlen : (els.take s).length = xs.length + 1 := by rw [hc]; simp
  have hs' : s ≤ els.length := by
    have : ((s : Int)) ≤ (els.length : Int) := by omega
    exact_mod_cast this
  rw [List.length_take, Nat.min_eq_left hs'] at hlen
  subst hlen
  have hpos : ((xs.length + 1 : Nat) : Int) > 0 := by omega
  have e1 : (((xs.length + 1 : Nat) : Int) - 1) = (xs.length : Int) := by omega
  rw [take_succ_getD els xs.length indet (by omega)] at hc
  have hc2 := List.append_inj hc (by simp; omega)
  simp only [SinglePool.popBack, hpos, if_true, e1, rd_natCast, SinglePool.WF,
    SinglePool.contents, Int.toNat_ofNat]
  refine ⟨by simpa using hc2.2, trivial, ⟨h1, by omega, by omega, h4⟩, hc2.1, trivial⟩

theorem SinglePool.contents_nil_iff (p : SinglePool) (h : p.WF) :
    p.contents = [] ↔ p.size = 0 := by
  obtain ⟨els, cap, sz⟩ := p
  obtain ⟨h1, h2, h3, h4⟩ := h
  simp only at h1 h2 h3 h4
  obtain ⟨s, rfl⟩ := Int.eq_ofNat_of_zero_le h2
  simp only [SinglePool.contents, Int.toNat_ofNat, List.take_eq_nil_iff]
  constructor
  · rintro (h | h)
    · simp [h]
    · subst h
      simp at h4
      omega
  · intro h
    left
    exact_mod_cast h

theorem SinglePool.contents_length (p : SinglePool) (h : p.WF) :
    (p.contents.length : Int) = p.size := by
  obtain ⟨els, cap, sz⟩ := p
  obtain ⟨h1, h2, h3, h4⟩ := h
  simp only at h1 h2 h3 h4
  simp only [SinglePool.contents, List.length_take]
  omega

/-! ## Lemmas on the pool of `pfsp_multi_gpu_cuda.c` -/

theorem copy_loop {α : Type} (d : α) (src : List α) (off : Int) (h0 : 0 ≤ off) (dst : List α)
    (k : Nat) (hk : k ≤ dst.length) (hs : off.toNat + k ≤ src.length) :
    (idxs 0 (k : Int)).foldl (fun p i => wr p i (rd d src (off + i))) dst
      = (src.drop off.toNat).take k ++ dst.drop k := by
  induction k with
  | zero => simp [idxs]
  | succ k ih =>
    have e : ((k + 1 : Nat) : Int) = (k : Int) + 1 := by push_cast; rfl
    rw [e, idxs_snoc (by omega), List.foldl_append, ih (by omega) (by omega)]
    simp only [List.foldl_cons, List.foldl_nil, wr_natCast]
    have e2 : off + (k : Int) = ((off.toNat + k : Nat) : Int) := by omega
    rw [e2, rd_natCast]
    have hlen : ((src.drop off.toNat).take k).length = k := by
      rw [List.length_take, List.length_drop]; omega
    rw [List.set_append, if_neg (by omega), hlen, Nat.sub_self]
    rw [take_succ_getD (src.drop off.toNat) k d (by rw [List.length_drop]; omega)]
    have hd : dst.drop k = dst.getD k d :: dst.drop (k + 1) := by
      rw [List.getD_eq_getElem _ _ (by omega)]
      exact List.drop_eq_getElem_cons (by omega)
    rw [hd, List.set_cons_zero, List.append_assoc, List.singleton_append]
    congr 2
    rw [List.getD_eq_getElem?_getD, List.getD_eq_getElem?_getD, List.getElem?_drop]

theorem SinglePool_ext.ext_pushBack_spec (p : SinglePool_ext) (n : Node) (h : p.WF)
    (hl : p.lock = false) :
    ∃ q, p.pushBack n = some q ∧ q.WF ∧ q.lock = false ∧ q.contents = p.contents ++ [n] ∧
      q.size = p.size + 1 ∧ q.front = p.front := by
  obtain ⟨els, cap, fr, sz, lk⟩ := p
  obtain ⟨h1, hf, h2, h3, h4⟩ := h
  simp only at h1 hf h2 h3 h4 hl
  subst hl
  obtain ⟨s, rfl⟩ := Int.eq_ofNat_of_zero_le h2
  obtain ⟨f, rfl⟩ := Int.eq_ofNat_of_zero_le hf
  obtain ⟨c, rfl⟩ := Int.eq_ofNat_of_zero_le h1.le
  have hlen : els.length = c := by exact_mod_cast h4
  have hsc : f + s ≤ c := by exact_mod_cast h3
  have hc : 0 < c := by exact_mod_cast h1
  have e0 : (f : Int) + (s : Int) = ((f + s : Nat) : Int) := by push_cast; rfl
  have e1 : ((s : Int) + 1).toNat = s + 1 := by omega
  by_cases hfull : (f : Int) + (s : Int) ≥ (c : Int)
  · have hs : f + s = c := by omega
    refine ⟨_, by simp only [SinglePool_ext.pushBack, Bool.false_eq_true, if_false, hfull, if_true]; rfl, ?_⟩
    simp only [SinglePool_ext.WF, SinglePool_ext.contents, realloc_double els c hlen, e0,
      wr_natCast, List.length_set, List.length_append, List.length_replicate, Int.toNat_ofNat, e1]
    refine ⟨⟨by omega, by omega, by omega, by omega, by push_cast; omega⟩, trivial, ?_, trivial,
      trivial⟩
    rw [List.drop_set, if_neg (by omega), Nat.add_sub_cancel_left,
      take_set_succ _ _ _ (by simp; omega)]
    rw [List.drop_append_of_le_length (by omega), List.take_append_of_le_length (by simp; omega)]
  · refine ⟨_, by simp only [SinglePool_ext.pushBack, Bool.false_eq_true, if_false, hfull]; rfl, ?_⟩
    simp only [SinglePool_ext.WF, SinglePool_ext.contents, e0, wr_natCast, List.length_set,
      Int.toNat_ofNat, e1]
    refine ⟨⟨by omega, by omega, by omega, by omega, by omega⟩, trivial, ?_, trivial, trivial⟩
    rw [List.drop_set, if_neg (by omega), Nat.add_sub_cancel_left,
      take_set_succ _ _ _ (by simp; omega)]

theorem SinglePool_ext.ext_contents_length (p : SinglePool_ext) (h : p.WF) :
    (p.contents.length : Int) = p.size := by
  obtain ⟨els, cap, fr, sz, lk⟩ := p
  obtain ⟨h1, hf, h2, h3, h4⟩ := h
  simp only at h1 hf h2 h3 h4
  simp only [SinglePool_ext.contents, List.length_take, List.length_drop]
  omega

theorem SinglePool_ext.ext_popBack_snoc (p : SinglePool_ext) (hw : Int) (xs : List Node) (n : Node)
    (h : p.WF) (hl : p.lock = false) (hc : p.contents = xs ++ [n]) :
    ∃ q, p.popBack hw = some (n, 1, q) ∧ q.WF ∧ q.lock = false ∧ q.contents = xs ∧
      q.size = p.size - 1 ∧ q.front = p.front := by
  have hlen := SinglePool_ext.ext_contents_length p h
  obtain ⟨els, cap, fr, sz, lk⟩ := p
  obtain ⟨h1, hf, h2, h3, h4⟩ := h
  simp only at h1 hf h2 h3 h4 hl hlen
  subst hl
  rw [hc] at hlen
  simp only [List.length_append, List.length_singleton] at hlen
  obtain ⟨f, rfl⟩ := Int.eq_ofNat_of_zero_le hf
  have hsz : sz = ((xs.length + 1 : Nat) : Int) := by rw [← hlen]
  subst hsz
  simp only [SinglePool_ext.contents, Int.toNat_ofNat] at hc
  have hpos : ((xs.length + 1 : Nat) : Int) > 0 := by omega
  have e1 : (f : Int) + (((xs.length + 1 : Nat) : Int) - 1) = ((f + xs.length : Nat) : Int) := by
    push_cast; ring
  have e2 : (((xs.length + 1 : Nat) : Int) - 1) = (xs.length : Int) := by omega
  have hdl : xs.length < (els.drop f).length := by rw [List.length_drop]; omega
  rw [take_succ_getD (els.drop f) xs.length indet hdl] at hc
  have hc2 := List.append_inj hc (by simp; omega)
  have hn : els.getD (f + xs.length) indet = n := by
    have := hc2.2
    simp only [List.cons.injEq, and_true] at this
    rw [← this, List.getD_eq_getElem?_getD, List.getD_eq_getElem?_getD, List.getElem?_drop]
  refine ⟨⟨els, cap, (f : Int), (xs.length : Int), false⟩, ?_, ?_⟩
  · simp only [SinglePool_ext.popBack, Bool.false_eq_true, if_false, hpos, if_true, e2]
    rw [show (f : Int) + (xs.length : Int) = ((f + xs.length : Nat) : Int) by push_cast; rfl,
      rd_natCast, hn]
  · simp only [SinglePool_ext.WF, SinglePool_ext.contents, Int.toNat_ofNat]
    exact ⟨⟨h1, by omega, by omega, by omega, h4⟩, trivial, hc2.1, by omega, trivial⟩

theorem SinglePool_ext.ext_popBack_empty (p : SinglePool_ext) (hw : Int) (hl : p.lock = false)
    (h : p.size ≤ 0) : p.popBack hw = some (zeroNode, hw, p) := by
  obtain ⟨els, cap, fr, sz, lk⟩ := p
  simp only at hl h
  subst hl
  have : ¬ sz > 0 := by omega
  simp [SinglePool_ext.popBack, this]

theorem SinglePool_ext.popFront_cons (p : SinglePool_ext) (hw : Int) (xs : List Node) (n : Node)
    (h : p.WF) (hc : p.contents = n :: xs) :
    p.popFront hw = (n, 1, { p with front := p.front + 1, size := p.size - 1 }) ∧
      (p.popFront hw).2.2.WF ∧ (p.popFront hw).2.2.contents = xs := by
  have hlen := SinglePool_ext.ext_contents_length p h
  obtain ⟨els, cap, fr, sz, lk⟩ := p
  obtain ⟨h1, hf, h2, h3, h4⟩ := h
  simp only at h1 hf h2 h3 h4 hlen
  rw [hc] at hlen
  simp only [List.length_cons] at hlen
  obtain ⟨f, rfl⟩ := Int.eq_ofNat_of_zero_le hf
  have hsz : sz = ((xs.length + 1 : Nat) : Int) := by rw [← hlen]
  subst hsz
  simp only [SinglePool_ext.contents, Int.toNat_ofNat] at hc
  have hpos : ((xs.length + 1 : Nat) : Int) > 0 := by omega
  have hfl : f < els.length := by omega
  rw [List.drop_eq_getElem_cons hfl, List.take_succ_cons] at hc
  simp only [List.cons.injEq] at hc
  have hrd : rd indet els (f : Int) = n := by
    rw [rd_natCast, List.getD_eq_getElem _ _ hfl]; exact hc.1
  have hfun : SinglePool_ext.popFront ⟨els, cap, (f : Int), ((xs.length + 1 : Nat) : Int), lk⟩ hw
      = (n, 1, ⟨els, cap, (f : Int) + 1, ((xs.length + 1 : Nat) : Int) - 1, lk⟩) := by
    simp only [SinglePool_ext.popFront, hpos, if_true, hrd]
  rw [hfun]
  refine ⟨rfl, ⟨h1, by simp only; omega, by simp only; omega, by simp only; omega, h4⟩, ?_⟩
  simp only [SinglePool_ext.contents]
  have e1 : ((f : Int) + 1).toNat = f + 1 := by omega
  have e2 : (((xs.length + 1 : Nat) : Int) - 1).toNat = xs.length := by omega
  rw [e1, e2]
  exact hc.2

theorem SinglePool_ext.popFront_empty (p : SinglePool_ext) (hw : Int) (h : p.size ≤ 0) :
    p.popFront hw = (zeroNode, hw, p) := by
  have : ¬ p.size > 0 := by omega
  simp [SinglePool_ext.popFront, this]

/-! ## Sequences of pool calls -/

theorem SinglePool.pushBackAll_spec (ns : List Node) (p : SinglePool) (h : p.WF) :
    (p.pushBackAll ns).WF ∧ (p.pushBackAll ns).contents = p.contents ++ ns ∧
      (p.pushBackAll ns).size = p.size + ns.length := by
  induction ns generalizing p with
  | nil => simp [SinglePool.pushBackAll, h]
  | cons n ns ih =>
    obtain ⟨w1, c1, s1⟩ := SinglePool.pushBack_spec p n h
    obtain ⟨w2, c2, s2⟩ := ih (p.pushBack n) w1
    simp only [SinglePool.pushBackAll, List.foldl_cons] at w2 c2 s2 ⊢
    refine ⟨w2, by rw [c2, c1]; simp, ?_⟩
    rw [s2, s1]
    simp only [List.length_cons]
    push_cast
    ring

theorem SinglePool.popBackN_spec (rs : List Node) (xs : List Node) (p : SinglePool) (h : p.WF)
    (hc : p.contents = xs ++ rs.reverse) :
    (p.popBackN rs.length).1 = rs.map (fun n => (n, 1)) ∧ (p.popBackN rs.length).2.WF ∧
      (p.popBackN rs.length).2.contents = xs ∧
      (p.popBackN rs.length).2.size = p.size - rs.length := by
  induction rs generalizing p with
  | nil => simpa [SinglePool.popBackN, h] using hc
  | cons r rs ih =>
    rw [List.reverse_cons, ← List.append_assoc] at hc
    obtain ⟨e1, e2, w, c, s⟩ := SinglePool.popBack_snoc p 0 _ r h hc
    obtain ⟨i1, i2, i3, i4⟩ := ih (p.popBack 0).2.2 w c
    simp only [List.length_cons, SinglePool.popBackN, List.map_cons]
    refine ⟨by rw [e1, e2, i1], i2, i3, ?_⟩
    rw [i4, s]
    push_cast
    ring

theorem SinglePool_ext.ext_pushBackAll_spec (ns : List Node) (p : SinglePool_ext) (h : p.WF)
    (hl : p.lock = false) :
    ∃ q, p.pushBackAll ns = some q ∧ q.WF ∧ q.lock = false ∧ q.contents = p.contents ++ ns ∧
      q.size = p.size + ns.length ∧ q.front = p.front := by
  induction ns generalizing p with
  | nil => exact ⟨p, rfl, h, hl, by simp, by simp, rfl⟩
  | cons n ns ih =>
    obtain ⟨q1, e1, w1, l1, c1, s1, f1⟩ := SinglePool_ext.ext_pushBack_spec p n h hl
    obtain ⟨q2, e2, w2, l2, c2, s2, f2⟩ := ih q1 w1 l1
    refine ⟨q2, ?_, w2, l2, by rw [c2, c1]; simp, ?_, by rw [f2, f1]⟩
    · simp only [SinglePool_ext.pushBackAll, List.foldlM_cons, e1] at e2 ⊢
      exact e2
    · rw [s2, s1]
      simp only [List.length_cons]
      push_cast
      ring

theorem SinglePool_ext.ext_popBackN_spec (rs : List Node) (xs : List Node) (p : SinglePool_ext)
    (h : p.WF) (hl : p.lock = false) (hc : p.contents = xs ++ rs.reverse) :
    ∃ q, p.popBackN rs.length = some (rs.map (fun n => (n, 1)), q) ∧ q.WF ∧ q.lock = false ∧
      q.contents = xs ∧ q.size = p.size - rs.length ∧ q.front = p.front := by
  induction rs generalizing p with
  | nil => exact ⟨p, rfl, h, hl, by simpa using hc, by simp, rfl⟩
  | cons r rs ih =>
    rw [List.reverse_cons, ← List.append_assoc] at hc
    obtain ⟨q1, e1, w1, l1, c1, s1, f1⟩ := SinglePool_ext.ext_popBack_snoc p 0 _ r h hl hc
    obtain ⟨q2, e2, w2, l2, c2, s2, f2⟩ := ih q1 w1 l1 c1
    refine ⟨q2, ?_, w2, l2, c2, ?_, by rw [f2, f1]⟩
    · simp only [List.length_cons, SinglePool_ext.popBackN, e1, List.map_cons]
      show Option.map _ (SinglePool_ext.popBackN rs.length q1) = _
      rw [e2]
      rfl
    · rw [s2, s1]
      simp only [List.length_cons]
      push_cast
      ring

theorem SinglePool_ext.popFrontN_spec (ys : List Node) (zs : List Node) (p : SinglePool_ext)
    (h : p.WF) (hc : p.contents = ys ++ zs) :
    (p.popFrontN ys.length).1 = ys.map (fun n => (n, 1)) ∧ (p.popFrontN ys.length).2.WF ∧
      (p.popFrontN ys.length).2.contents = zs := by
  induction ys generalizing p with
  | nil => simpa [SinglePool_ext.popFrontN, h] using hc
  | cons y ys ih =>
    obtain ⟨e, w, c⟩ := SinglePool_ext.popFront_cons p 0 (ys ++ zs) y h (by simpa using hc)
    obtain ⟨i1, i2, i3⟩ := ih (p.popFront 0).2.2 w c
    simp only [List.length_cons, SinglePool_ext.popFrontN, List.map_cons]
    refine ⟨?_, i2, i3⟩
    rw [i1, e]

/-- The nodes that a bulk removal of `k` nodes from the back takes and leaves. -/
theorem SinglePool_ext.bulk_split (els : List Node) (cap : Int) (f s k : Nat) (lk : Bool)
    (hk : k ≤ s) :
    (els.drop (f + (s - k))).take k
        = (SinglePool_ext.contents ⟨els, cap, f, s, lk⟩).drop (s - k) ∧
      SinglePool_ext.contents ⟨els, cap, f, ((s - k : Nat) : Int), lk⟩
        = (SinglePool_ext.contents ⟨els, cap, f, s, lk⟩).take (s - k) ∧
      SinglePool_ext.contents ⟨els, cap, f, s, lk⟩
        = SinglePool_ext.contents ⟨els, cap, f, ((s - k : Nat) : Int), lk⟩
          ++ (els.drop (f + (s - k))).take k := by
  simp only [SinglePool_ext.contents, Int.toNat_ofNat]
  have a : (els.drop (f + (s - k))).take k = ((els.drop f).take s).drop (s - k) := by
    rw [List.drop_take, List.drop_drop]
    congr 1
    · omega
  have b : (els.drop f).take (s - k) = ((els.drop f).take s).take (s - k) := by
    rw [List.take_take, Nat.min_eq_left (by omega)]
  refine ⟨a, b, ?_⟩
  rw [a, b, List.take_append_drop]

/-! ## Claims on the pools -/

/-- C7 (pool LIFO).  For a well-formed pool of `pfsp_c.c` and a well-formed, unlocked
`SinglePool_ext`, after the nodes `ns` have been pushed with `pushBack` (the block being
doubled as often as needed), `ns.length` calls of `popBack` return the nodes of `ns` in
reverse order, each with `hasWork = 1`, and leave a pool with the size and the contents
it had before the pushes; if that pool is empty, one more `popBack` reports no work and
leaves the pool as it is. -/
theorem pool_lifo (p : SinglePool) (q : SinglePool_ext) (ns : List Node) (hp : p.WF)
    (hq : q.WF) (hl : q.lock = false) :
    (((p.pushBackAll ns).popBackN ns.length).1 = ns.reverse.map (fun n => (n, 1)) ∧
      ((p.pushBackAll ns).popBackN ns.length).2.size = p.size ∧
      ((p.pushBackAll ns).popBackN ns.length).2.contents = p.contents ∧
      (p.size = 0 →
        ((p.pushBackAll ns).popBackN ns.length).2.popBack 0
          = (zeroNode, 0, ((p.pushBackAll ns).popBackN ns.length).2))) ∧
    (∃ q1 q2, q.pushBackAll ns = some q1 ∧
      q1.popBackN ns.length = some (ns.reverse.map (fun n => (n, 1)), q2) ∧
      q2.size = q.size ∧ q2.front = q.front ∧ q2.contents = q.contents ∧
      (q.size = 0 → q2.popBack 0 = some (zeroNode, 0, q2))) := by
  constructor
  · obtain ⟨w1, c1, s1⟩ := SinglePool.pushBackAll_spec ns p hp
    have hc : (p.pushBackAll ns).contents = p.contents ++ ns.reverse.reverse := by
      rw [c1, List.reverse_reverse]
    obtain ⟨r1, r2, r3, r4⟩ := SinglePool.popBackN_spec ns.reverse p.contents _ w1 hc
    rw [List.length_reverse] at r1 r2 r3 r4
    have hsz : ((p.pushBackAll ns).popBackN ns.length).2.size = p.size := by
      rw [r4, s1]; ring
    refine ⟨r1, hsz, r3, fun h0 => ?_⟩
    exact SinglePool.popBack_empty _ 0 (by rw [hsz, h0])
  · obtain ⟨q1, e1, w1, l1, c1, s1, f1⟩ := SinglePool_ext.ext_pushBackAll_spec ns q hq hl
    have hc : q1.contents = q.contents ++ ns.reverse.reverse := by
      rw [c1, List.reverse_reverse]
    obtain ⟨q2, e2, w2, l2, c2, s2, f2⟩ :=
      SinglePool_ext.ext_popBackN_spec ns.reverse q.contents q1 w1 l1 hc
    rw [List.length_reverse] at e2 s2
    have hsz : q2.size = q.size := by rw [s2, s1]; ring
    refine ⟨q1, q2, e1, e2, hsz, by rw [f2, f1], c2, fun h0 => ?_⟩
    exact SinglePool_ext.ext_popBack_empty _ 0 l2 (by rw [hsz, h0])

/-- Instance of C7: three nodes pushed on an empty one-slot pool of `pfsp_c.c` (two
doublings) and on a `SinglePool_ext` that already holds three nodes. -/
theorem pool_lifo_witness :
    (samplePool.WF ∧ samplePool_ext.WF ∧ samplePool_ext.lock = false) ∧
    ((((samplePool.pushBackAll [sampleNode 4, sampleNode 5, sampleNode 6]).popBackN 3).1
        = [(sampleNode 6, 1), (sampleNode 5, 1), (sampleNode 4, 1)] ∧
      ((samplePool.pushBackAll [sampleNode 4, sampleNode 5, sampleNode 6]).popBackN 3).2.size
        = 0) ∧
      ∃ q1 q2, samplePool_ext.pushBackAll [sampleNode 4, sampleNode 5, sampleNode 6] = some q1 ∧
        q1.popBackN 3 = some ([(sampleNode 6, 1), (sampleNode 5, 1), (sampleNode 4, 1)], q2) ∧
        q2.size = 3) := by
  have hp : samplePool.WF := by unfold SinglePool.WF; decide
  have hq : samplePool_ext.WF := by unfold SinglePool_ext.WF; decide
  have hl : samplePool_ext.lock = false := rfl
  refine ⟨⟨hp, hq, hl⟩, ?_⟩
  obtain ⟨⟨a1, a2, _, _⟩, ⟨q1, q2, b1, b2, b3, _⟩⟩ :=
    pool_lifo samplePool samplePool_ext [sampleNode 4, sampleNode 5, sampleNode 6] hp hq hl
  exact ⟨⟨a1, a2⟩, q1, q2, b1, b2, b3⟩

/-- C8 (pool FIFO at the front).  On a well-formed `SinglePool_ext` with `size > 0`,
`popFront` returns the node at index `front`, which is the oldest valid node, sets
`hasWork = 1`, adds 1 to `front`, takes 1 from `size` and leaves `elements` and
`capacity` as they are, so the valid nodes that remain are the former ones without the
first; with `size ≤ 0` it returns with `hasWork` and the pool untouched.  Hence after
the nodes `ns` have been pushed with `pushBack`, successive calls of `popFront` return
the former contents followed by `ns`, in the order of the pushes. -/
theorem popFront_fifo (p : SinglePool_ext) (hw : Int) (ns : List Node) (hp : p.WF)
    (hl : p.lock = false) :
    (0 < p.size →
      p.popFront hw
        = (rd indet p.elements p.front, 1, { p with front := p.front + 1, size := p.size - 1 }) ∧
      p.contents.head? = some (rd indet p.elements p.front) ∧
      (p.popFront hw).2.2.contents = p.contents.tail ∧ (p.popFront hw).2.2.WF) ∧
    (p.size ≤ 0 → p.popFront hw = (zeroNode, hw, p)) ∧
    (∃ q, p.pushBackAll ns = some q ∧
      (q.popFrontN (p.contents.length + ns.length)).1
        = (p.contents ++ ns).map (fun n => (n, 1)) ∧
      (q.popFrontN (p.contents.length + ns.length)).2.contents = []) := by
  refine ⟨fun hpos => ?_, SinglePool_ext.popFront_empty p hw, ?_⟩
  · have hlen := SinglePool_ext.ext_contents_length p hp
    cases hc : p.contents with
    | nil => rw [hc] at hlen; simp at hlen; omega
    | cons n xs =>
      obtain ⟨e, w, c⟩ := SinglePool_ext.popFront_cons p hw xs n hp hc
      have hn : rd indet p.elements p.front = n := by
        have := congrArg Prod.fst e
        simp only [SinglePool_ext.popFront, hpos, if_true] at this
        exact this
      refine ⟨by rw [e, hn], by simp [hn], by simpa using c, w⟩
  · obtain ⟨q, e1, w1, _, c1, _, _⟩ := SinglePool_ext.ext_pushBackAll_spec ns p hp hl
    have hc : q.contents = (p.contents ++ ns) ++ [] := by rw [c1]; simp
    obtain ⟨r1, _, r3⟩ := SinglePool_ext.popFrontN_spec (p.contents ++ ns) [] q w1 hc
    rw [List.length_append] at r1 r3
    exact ⟨q, e1, r1, r3⟩

/-- Instance of C8 on a pool that holds three nodes from index `front = 1` on. -/
theorem popFront_fifo_witness :
    (samplePool_ext.WF ∧ samplePool_ext.lock = false) ∧
    samplePool_ext.popFront 0
      = (sampleNode 1, 1, ⟨[indet, sampleNode 1, sampleNode 2, sampleNode 3], 4, 2, 2, false⟩) ∧
    ∃ q, samplePool_ext.pushBackAll [sampleNode 4] = some q ∧
      (q.popFrontN 4).1
        = [(sampleNode 1, 1), (sampleNode 2, 1), (sampleNode 3, 1), (sampleNode 4, 1)] := by
  have hq : samplePool_ext.WF := by unfold SinglePool_ext.WF; decide
  have hl : samplePool_ext.lock = false := rfl
  obtain ⟨a, _, ⟨q, b1, b2, _⟩⟩ := popFront_fifo samplePool_ext 0 [sampleNode 4] hq hl
  refine ⟨⟨hq, hl⟩, ?_, q, b1, ?_⟩
  · rw [(a (by decide)).1]
    rfl
  · exact b2

/-- C9 (contract of `popBackBulk`).  On a well-formed, unlocked pool, with `0 ≤ M` and an
array `parents` of at least `M` nodes: when `size < m` the call returns 0 and leaves the
pool and `parents` as they are; otherwise it returns `k = min(size, M)`, takes `k` from
`size` and changes no other field, `parents[0..k)` holds the last `k` valid nodes in pool
order and the first `size - k` valid nodes stay in the pool.  With `1 ≤ m ≤ M` the count
returned by such a call satisfies `m ≤ k ≤ M`. -/
theorem popBackBulk_contract (p : SinglePool_ext) (m M : Int) (parents : List Node)
    (hp : p.WF) (hl : p.lock = false) (hM : 0 ≤ M) (hpar : M ≤ (parents.length : Int)) :
    (p.size < m → p.popBackBulk m M parents = some (0, parents, p)) ∧
    (m ≤ p.size → ∃ ps,
      p.popBackBulk m M parents
        = some (min p.size M, ps, { p with size := p.size - min p.size M }) ∧
      ps.take (min p.size M).toNat = p.contents.drop (p.size - min p.size M).toNat ∧
      ps.drop (min p.size M).toNat = parents.drop (min p.size M).toNat ∧
      SinglePool_ext.contents { p with size := p.size - min p.size M }
        = p.contents.take (p.size - min p.size M).toNat ∧
      p.contents = SinglePool_ext.contents { p with size := p.size - min p.size M }
        ++ ps.take (min p.size M).toNat ∧
      SinglePool_ext.WF { p with size := p.size - min p.size M } ∧
      (1 ≤ m → m ≤ M → m ≤ min p.size M ∧ min p.size M ≤ M)) := by
  obtain ⟨els, cap, fr, sz, lk⟩ := p
  obtain ⟨h1, hf, h2, h3, h4⟩ := hp
  simp only at h1 hf h2 h3 h4 hl
  subst hl
  constructor
  · intro hlt
    simp only at hlt
    simp [SinglePool_ext.popBackBulk, hlt]
  · intro hge
    simp only at hge
    obtain ⟨s, rfl⟩ := Int.eq_ofNat_of_zero_le h2
    obtain ⟨f, rfl⟩ := Int.eq_ofNat_of_zero_le hf
    obtain ⟨k, hk⟩ : ∃ k : Nat, min (s : Int) M = (k : Int) :=
      ⟨(min (s : Int) M).toNat, by omega⟩
    have hks : k ≤ s := by omega
    have hnlt : ¬ ((s : Int) < m) := by omega
    have hlen : f + s ≤ els.length := by omega
    have hoff : (f : Int) + ((s : Int) - (k : Int)) = ((f + (s - k) : Nat) : Int) := by omega
    have hsk : (s : Int) - (k : Int) = ((s - k : Nat) : Int) := by omega
    obtain ⟨b1, b2, b3⟩ := SinglePool_ext.bulk_split els cap f s k false hks
    have hloop := copy_loop indet els ((f : Int) + ((s : Int) - (k : Int))) (by omega) parents k
      (by omega) (by omega)
    rw [hoff, Int.toNat_ofNat] at hloop
    refine ⟨(els.drop (f + (s - k))).take k ++ parents.drop k, ?_, ?_⟩
    · simp only [SinglePool_ext.popBackBulk, Bool.false_eq_true, if_false, hnlt, hk]
      rw [← hloop, hoff]
    · have hl2 : ((els.drop (f + (s - k))).take k).length = k := by
        rw [List.length_take, List.length_drop]; omega
      simp only [hk, hsk, Int.toNat_ofNat]
      refine ⟨?_, ?_, b2, ?_, ⟨h1, by simp only; omega, by simp only; omega, by simp only; omega, h4⟩,
        fun _ _ => by omega⟩
      · rw [List.take_append_of_le_length (by omega), List.take_of_length_le (by omega)]
        exact b1
      · rw [List.drop_append_of_le_length (by omega), List.drop_of_length_le (by omega)]
        simp
      · rw [List.take_append_of_le_length (by omega), List.take_of_length_le (by omega)]
        exact b3

/-- Instance of C9: a batch of at least 2 and at most 2 nodes taken from a pool of three. -/
theorem popBackBulk_contract_witness :
    (samplePool_ext.WF ∧ samplePool_ext.lock = false ∧ (0 : Int) ≤ 2 ∧
      (2 : Int) ≤ (([indet, indet] : List Node).length : Int)) ∧
    samplePool_ext.popBackBulk 2 2 [indet, indet]
      = some (2, [sampleNode 2, sampleNode 3],
          ⟨[indet, sampleNode 1, sampleNode 2, sampleNode 3], 4, 1, 1, false⟩) ∧
    samplePool_ext.popBackBulk 4 5 [indet, indet, indet, indet, indet]
      = some (0, [indet, indet, indet, indet, indet], samplePool_ext) := by
  have hq : samplePool_ext.WF := by unfold SinglePool_ext.WF; decide
  have hl : samplePool_ext.lock = false := rfl
  obtain ⟨_, a⟩ := popBackBulk_contract samplePool_ext 2 2 [indet, indet] hq hl (by decide)
    (by decide)
  obtain ⟨ps, e, t⟩ := a (by decide)
  obtain ⟨b, _⟩ := popBackBulk_contract samplePool_ext 4 5 [indet, indet, indet, indet, indet]
    hq hl (by decide) (by decide)
  refine ⟨⟨hq, hl, by decide, by decide⟩, ?_, b (by decide)⟩
  have hps : ps = [sampleNode 2, sampleNode 3] := by
    have h2 : ps.drop 2 = [] := t.2.1
    have h3 : ps.take 2 = [sampleNode 2, sampleNode 3] := t.1
    rw [← List.take_append_drop 2 ps, h2, h3]
    rfl
  rw [e, hps]
  rfl

/-- C10 (contract of `popBackBulkFree`, the steal of one half).  On a well-formed pool
with `size = s`: when `s ≥ 2m` the call sets `*poolSize` to `s / 2` (rounded down),
takes that many nodes from `size` and changes no other field, returns the last `s / 2`
valid nodes in pool order and leaves the first `s - s / 2` valid nodes in the pool; when
`s < 2m` it returns `NULL` and leaves `*poolSize` and the pool as they are. -/
theorem popBackBulkFree_contract (p : SinglePool_ext) (m M n : Int) (hp : p.WF) :
    (2 * m ≤ p.size → ∃ ps,
      p.popBackBulkFree m M n
        = (some ps, p.size / 2, { p with size := p.size - p.size / 2 }) ∧
      (ps.length : Int) = p.size / 2 ∧
      ps = p.contents.drop (p.size - p.size / 2).toNat ∧
      SinglePool_ext.contents { p with size := p.size - p.size / 2 }
        = p.contents.take (p.size - p.size / 2).toNat ∧
      p.contents = SinglePool_ext.contents { p with size := p.size - p.size / 2 } ++ ps ∧
      SinglePool_ext.WF { p with size := p.size - p.size / 2 }) ∧
    (p.size < 2 * m → p.popBackBulkFree m M n = (none, n, p)) := by
  obtain ⟨els, cap, fr, sz, lk⟩ := p
  obtain ⟨h1, hf, h2, h3, h4⟩ := hp
  simp only at h1 hf h2 h3 h4
  constructor
  · intro hge
    simp only at hge
    obtain ⟨s, rfl⟩ := Int.eq_ofNat_of_zero_le h2
    obtain ⟨f, rfl⟩ := Int.eq_ofNat_of_zero_le hf
    have htd : Int.tdiv (s : Int) 2 = (s : Int) / 2 := Int.tdiv_eq_ediv h2 (by decide)
    obtain ⟨k, hk⟩ : ∃ k : Nat, (s : Int) / 2 = (k : Int) := ⟨s / 2, by omega⟩
    have hks : k ≤ s := by omega
    have hoff : (f : Int) + ((s : Int) - (k : Int)) = ((f + (s - k) : Nat) : Int) := by omega
    have hsk : (s : Int) - (k : Int) = ((s - k : Nat) : Int) := by omega
    obtain ⟨b1, b2, b3⟩ := SinglePool_ext.bulk_split els cap f s k lk hks
    have hloop := copy_loop indet els ((f : Int) + ((s : Int) - (k : Int))) (by omega)
      (List.replicate k indet) k (by simp) (by omega)
    rw [hoff, Int.toNat_ofNat] at hloop
    have hl2 : ((els.drop (f + (s - k))).take k).length = k := by
      rw [List.length_take, List.length_drop]; omega
    refine ⟨(els.drop (f + (s - k))).take k, ?_, ?_⟩
    · have hge2 : (s : Int) ≥ 2 * m := hge
      simp only [SinglePool_ext.popBackBulkFree, hge2, if_true, htd, hk, Int.toNat_ofNat]
      rw [hoff, hloop]
      simp
    · simp only [hk, hsk, Int.toNat_ofNat]
      exact ⟨by rw [hl2], b1, b2, b3,
        ⟨h1, by simp only; omega, by simp only; omega, by simp only; omega, h4⟩⟩
  · intro hlt
    simp only at hlt
    have : ¬ (sz ≥ 2 * m) := by omega
    simp [SinglePool_ext.popBackBulkFree, this]

/-- Instance of C10: with `m = 1` a pool of three nodes gives up its last node, and with
`m = 2` it gives up nothing. -/
theorem popBackBulkFree_contract_witness :
    samplePool_ext.WF ∧
    samplePool_ext.popBackBulkFree 1 5 0
      = (some [sampleNode 3], 1,
          ⟨[indet, sampleNode 1, sampleNode 2, sampleNode 3], 4, 1, 2, false⟩) ∧
    samplePool_ext.popBackBulkFree 2 5 0 = (none, 0, samplePool_ext) := by
  have hq : samplePool_ext.WF := by unfold SinglePool_ext.WF; decide
  obtain ⟨a, b⟩ := popBackBulkFree_contract samplePool_ext 1 5 0 hq
  obtain ⟨ps, e, _, t, _⟩ := a (by decide)
  obtain ⟨_, c⟩ := popBackBulkFree_contract samplePool_ext 2 5 0 hq
  refine ⟨hq, ?_, c (by decide)⟩
  rw [e, t]
  rfl

/-! ## The decomposition as a fold of dispositions -/

theorem decompose_lb1_eq {P : Type} (push : P → Node → Option P)
    (lb1_bound : List Int → Int → Int → Int) (jobs : Int) (parent : Node) (s : Search P) :
    decompose_lb1 push lb1_bound jobs parent s
      = (idxs (parent.limit1 + 1) jobs).foldlM (fun (s : Search P) (i : Int) =>
          dispose push ((((parent.depth + 1) % 256 : Nat) : Int) = jobs)
            (bound_lb1 lb1_bound jobs parent i) (child_fwd jobs parent i) s) s := rfl

theorem decompose_lb1_d_eq {P : Type} (push : P → Node → Option P)
    (lbs : List Int → Int → Int → List Int) (jobs : Int) (parent : Node) (s : Search P) :
    decompose_lb1_d push lbs jobs parent s
      = (idxs (parent.limit1 + 1) jobs).foldlM (fun (s : Search P) (i : Int) =>
          dispose push ((parent.depth : Int) + 1 = jobs)
            (bound_lb1_d lbs jobs parent i) (child_lb1_d jobs parent i) s) s := rfl

theorem decompose_lb2_eq {P : Type} (push : P → Node → Option P)
    (lb2_bound : List Int → Int → Int → Int → Int) (jobs : Int) (parent : Node)
    (s : Search P) :
    decompose_lb2 push lb2_bound jobs parent s
      = (idxs (parent.limit1 + 1) jobs).foldlM (fun (s : Search P) (i : Int) =>
          dispose push ((((parent.depth + 1) % 256 : Nat) : Int) = jobs)
            (bound_lb2 lb2_bound jobs parent i s.best) (child_fwd jobs parent i) s) s := rfl

theorem generate_children_eq {P : Type} (push : P → Node → Option P) (parents : List Node)
    (size jobs : Int) (bounds : List Int) (s : Search P) :
    generate_children push parents size jobs bounds s
      = (idxs 0 size).foldlM (fun (s : Search P) (i : Int) =>
          (idxs ((rd indet parents i).limit1 + 1) jobs).foldlM (fun (s : Search P) (j : Int) =>
            dispose push (((rd indet parents i).depth : Int) + 1 = jobs)
              (rd 0 bounds (j + i * jobs)) (child_fwd jobs (rd indet parents i) j) s) s) s := rfl

/-! ## Folds of dispositions -/

theorem foldlM_dispose_leaf {P : Type} (push : P → Node → Option P) (leaf : Prop)
    [Decidable leaf] (hleaf : leaf) (bnd : Int → Int → Int) (ch : Int → Node) (l : List Int)
    (s : Search P) :
    l.foldlM (fun (s : Search P) (i : Int) => dispose push leaf (bnd i s.best) (ch i) s) s
      = some { s with num_sol := s.num_sol + l.length,
                      best := l.foldl (fun b i => min b (bnd i b)) s.best } := by
  induction l generalizing s with
  | nil => simp
  | cons i l ih =>
    rw [List.foldlM_cons]
    by_cases hlt : bnd i s.best < s.best
    · have hd : dispose push leaf (bnd i s.best) (ch i) s
          = some { s with num_sol := s.num_sol + 1, best := bnd i s.best } := by
        simp [dispose, hleaf, hlt]
      rw [hd]
      show List.foldlM _ _ l = _
      rw [ih]
      simp only [List.foldl_cons, List.length_cons, min_eq_right hlt.le]
      congr 2
      omega
    · have hd : dispose push leaf (bnd i s.best) (ch i) s
          = some { s with num_sol := s.num_sol + 1 } := by
        simp [dispose, hleaf, hlt]
      rw [hd]
      show List.foldlM _ _ l = _
      rw [ih]
      simp only [List.foldl_cons, List.length_cons, min_eq_left (not_lt.mp hlt)]
      congr 2
      omega

theorem foldlM_dispose_inner {P : Type} (push : P → Node → Option P) (Inv : P → Prop)
    (abs : P → List Node) (law : PoolLaw push Inv abs) (leaf : Prop) [Decidable leaf]
    (hleaf : ¬ leaf) (bnd : Int → Int → Int) (ch : Int → Node) (l : List Int) (s : Search P)
    (hinv : Inv s.pool) :
    ∃ q, l.foldlM (fun (s : Search P) (i : Int) => dispose push leaf (bnd i s.best) (ch i) s) s
        = some { s with pool := q,
                        tree_loc := s.tree_loc
                          + (l.filter (fun i => decide (bnd i s.best < s.best))).length } ∧
      Inv q ∧
      abs q = abs s.pool ++ (l.filter (fun i => decide (bnd i s.best < s.best))).map ch := by
  induction l generalizing s with
  | nil => exact ⟨s.pool, by simp, hinv, by simp⟩
  | cons i l ih =>
    rw [List.foldlM_cons]
    by_cases hlt : bnd i s.best < s.best
    · obtain ⟨q1, e1, i1, a1⟩ := law s.pool (ch i) hinv
      have hd : dispose push leaf (bnd i s.best) (ch i) s
          = some { s with pool := q1, tree_loc := s.tree_loc + 1 } := by
        simp [dispose, hleaf, hlt, e1]
      obtain ⟨q, e, iq, aq⟩ := ih { s with pool := q1, tree_loc := s.tree_loc + 1 } i1
      refine ⟨q, ?_, iq, ?_⟩
      · rw [hd]
        show List.foldlM _ _ l = _
        rw [e]
        simp only [List.filter_cons, hlt, decide_True, if_true, List.length_cons]
        congr 2
        omega
      · rw [aq, a1]
        simp [List.filter_cons, hlt]
    · have hd : dispose push leaf (bnd i s.best) (ch i) s = some s := by
        simp [dispose, hleaf, hlt]
      obtain ⟨q, e, iq, aq⟩ := ih s hinv
      refine ⟨q, ?_, iq, ?_⟩
      · rw [hd]
        show List.foldlM _ _ l = _
        rw [e]
        simp [List.filter_cons, hlt]
      · rw [aq]
        simp [List.filter_cons, hlt]

theorem foldlM_dispose_inner_any {P : Type} (push : P → Node → Option P) (leaf : Prop)
    [Decidable leaf] (hleaf : ¬ leaf) (bnd : Int → Int → Int) (ch : Int → Node) (l : List Int)
    (s s1 : Search P)
    (h : l.foldlM (fun (s : Search P) (i : Int) => dispose push leaf (bnd i s.best) (ch i) s) s
      = some s1) :
    s1.best = s.best ∧ s1.num_sol = s.num_sol := by
  induction l generalizing s with
  | nil =>
    simp only [List.foldlM_nil] at h
    cases h
    exact ⟨rfl, rfl⟩
  | cons i l ih =>
    rw [List.foldlM_cons] at h
    by_cases hlt : bnd i s.best < s.best
    · cases hp : push s.pool (ch i) with
      | none =>
        have hd : dispose push leaf (bnd i s.best) (ch i) s = none := by
          simp [dispose, hleaf, hlt, hp]
        rw [hd] at h
        cases h
      | some q1 =>
        have hd : dispose push leaf (bnd i s.best) (ch i) s
            = some { s with pool := q1, tree_loc := s.tree_loc + 1 } := by
          simp [dispose, hleaf, hlt, hp]
        rw [hd] at h
        exact ih { s with pool := q1, tree_loc := s.tree_loc + 1 } h
    · have hd : dispose push leaf (bnd i s.best) (ch i) s = some s := by
        simp [dispose, hleaf, hlt]
      rw [hd] at h
      exact ih _ h

/-! ## The two pools satisfy the law of the decomposition -/

theorem SinglePool.law : PoolLaw SinglePool.push SinglePool.WF SinglePool.contents := by
  intro p n h
  obtain ⟨w, c, _⟩ := SinglePool.pushBack_spec p n h
  exact ⟨p.pushBack n, rfl, w, c⟩

theorem SinglePool_ext.ext_law :
    PoolLaw SinglePool_ext.pushBack SinglePool_ext.Ready SinglePool_ext.contents := by
  intro p n h
  obtain ⟨q, e, w, l, c, _, _⟩ := SinglePool_ext.ext_pushBack_spec p n h.1 h.2
  exact ⟨q, e, ⟨w, l⟩, c⟩

/-! ## Lemmas on `swap`, `memcpy` and `initRoot` -/

theorem swap_natCast (a : List Int) (x y : Nat) :
    swap a (x : Int) (y : Int) = (a.set y (a.getD x 0)).set x (a.getD y 0) := by
  simp [swap, rd, wr]

theorem swap_length (a : List Int) (x y : Int) : (swap a x y).length = a.length := by
  simp [swap, wr_length]

theorem set_set_perm (a : List Int) (x y : Nat) (hx : x < a.length) (hy : y < a.length) :
    ((a.set y (a.getD x 0)).set x (a.getD y 0)).Perm a := by
  rw [List.getD_eq_getElem _ _ hx, List.getD_eq_getElem _ _ hy]
  by_cases hxy : x = y
  · subst hxy
    rw [List.set_set, List.perm_iff_count]
    intro b
    rw [List.count_set _ _ _ _ hx]
    have c1 : a[x] = b → 0 < List.count b a := fun h =>
      List.count_pos_iff.2 (h ▸ List.getElem_mem hx)
    by_cases e1 : a[x] = b
    · have := c1 e1
      simp [e1]
      omega
    · simp [e1]
  · rw [List.perm_iff_count]
    intro b
    have hx2 : x < (a.set y a[x]).length := by rw [List.length_set]; exact hx
    rw [List.count_set _ _ _ _ hx2, List.count_set _ _ _ _ hy]
    rw [List.getElem_set_ne (fun h => hxy h.symm)]
    have c1 : a[x] = b → 0 < List.count b a := fun h =>
      List.count_pos_iff.2 (h ▸ List.getElem_mem hx)
    have c2 : a[y] = b → 0 < List.count b a := fun h =>
      List.count_pos_iff.2 (h ▸ List.getElem_mem hy)
    have c3 : a[x] = b → a[y] = b → 1 < List.count b a := by
      intro h1 h2
      have hsub : List.Sublist [b, b] a := by
        rcases Nat.lt_or_gt_of_ne hxy with hlt | hgt
        · have := @List.map_getElem_sublist _ a [⟨x, hx⟩, ⟨y, hy⟩]
            (by simp [List.pairwise_cons]; exact hlt)
          simpa [h1, h2] using this
        · have := @List.map_getElem_sublist _ a [⟨y, hy⟩, ⟨x, hx⟩]
            (by simp [List.pairwise_cons]; exact hgt)
          simpa [h1, h2] using this
      have := hsub.count_le b
      simpa using this
    by_cases e1 : a[x] = b <;> by_cases e2 : a[y] = b
    · have := c3 e1 e2
      simp [e1, e2]
      omega
    · have := c1 e1
      simp [e1, e2]
    · have := c2 e2
      simp [e1, e2]
      omega
    · simp [e1, e2]

theorem swap_perm (a : List Int) (x y : Int) (hx0 : 0 ≤ x) (hy0 : 0 ≤ y)
    (hx : x < (a.length : Int)) (hy : y < (a.length : Int)) : (swap a x y).Perm a := by
  obtain ⟨x, rfl⟩ := Int.eq_ofNat_of_zero_le hx0
  obtain ⟨y, rfl⟩ := Int.eq_ofNat_of_zero_le hy0
  rw [swap_natCast]
  exact set_set_perm a x y (by omega) (by omega)

theorem take_swap (a : List Int) (x y : Int) (n : Nat) (hx : x < (n : Int)) (hy : y < (n : Int)) :
    (swap a x y).take n = swap (a.take n) x y := by
  have key : ∀ z : Int, z < (n : Int) → rd 0 (a.take n) z = rd 0 a z := by
    intro z hz
    unfold rd
    split
    · have : z.toNat < n := by omega
      rw [List.getD_eq_getElem?_getD, List.getD_eq_getElem?_getD, List.getElem?_take_of_lt this]
    · rfl
  unfold swap
  simp only [key x hx, key y hy]
  unfold wr
  split <;> split <;> simp [List.set_take]

theorem take_memcpy (dst src : List Int) (n : Nat) (h : n ≤ src.length) :
    (memcpy dst src (n : Int)).take n = src.take n := by
  simp only [memcpy, Int.toNat_ofNat]
  rw [List.take_append_of_le_length (by simp; omega), List.take_take, Nat.min_self]

theorem swap_getD (a : List Int) (x y j : Nat) (hx : x < a.length) (hy : y < a.length) :
    (swap a (x : Int) (y : Int)).getD j 0
      = if j = x then a.getD y 0 else if j = y then a.getD x 0 else a.getD j 0 := by
  rw [swap_natCast]
  simp only [List.getD_eq_getElem?_getD, List.getElem?_set]
  by_cases h1 : x = j
  · subst h1
    simp [hx]
  · have h1b : ¬ j = x := fun h => h1 h.symm
    by_cases h2 : y = j
    · subst h2
      simp [h1, h1b, hy]
    · have h2b : ¬ j = y := fun h => h2 h.symm
      simp [h1, h1b, h2, h2b]

theorem initRoot_loop (k : Nat) (r : Node) (hk : k ≤ r.prmu.length) :
    (idxs 0 (k : Int)).foldl (fun (r : Node) (i : Int) => { r with prmu := wr r.prmu i i }) r
      = { r with prmu := identity k ++ r.prmu.drop k } := by
  induction k with
  | zero => simp [idxs, identity]
  | succ k ih =>
    have e : ((k + 1 : Nat) : Int) = (k : Int) + 1 := by push_cast; rfl
    rw [e, idxs_snoc (by omega), List.foldl_append, ih (by omega)]
    simp only [List.foldl_cons, List.foldl_nil, wr_natCast]
    have hil : (identity (k : Int)).length = k := by simp [identity]
    have hd : r.prmu.drop k = r.prmu.getD k 0 :: r.prmu.drop (k + 1) := by
      rw [List.getD_eq_getElem _ _ (by omega)]
      exact List.drop_eq_getElem_cons (by omega)
    rw [List.set_append, if_neg (by omega), hil, Nat.sub_self, hd, List.set_cons_zero]
    have hid : identity ((k : Int) + 1) = identity (k : Int) ++ [(k : Int)] := by
      have : ((k : Int) + 1).toNat = k + 1 := by omega
      simp [identity, this, List.range_succ]
    rw [hid, List.append_assoc, List.singleton_append]

theorem initRoot_spec (J : Int) (hJ : J ≤ 20) :
    (initRoot indet J).depth = 0 ∧ (initRoot indet J).limit1 = -1 ∧
      (initRoot indet J).prmu.take J.toNat = identity J ∧
      (initRoot indet J).prmu.length = MAX_JOBS := by
  by_cases h0 : 0 ≤ J
  · obtain ⟨k, rfl⟩ := Int.eq_ofNat_of_zero_le h0
    have hk : k ≤ 20 := by omega
    have hl : (indet.prmu).length = 20 := by simp [indet, MAX_JOBS]
    have := initRoot_loop k { indet with depth := 0, limit1 := -1 } (by simp only; omega)
    unfold initRoot
    rw [this]
    have hil : (identity (k : Int)).length = k := by simp [identity]
    refine ⟨rfl, rfl, ?_, ?_⟩
    · simp only [Int.toNat_ofNat]
      rw [List.take_append_of_le_length (by omega), List.take_of_length_le (by omega)]
    · simp only [List.length_append, List.length_drop, hil, hl, MAX_JOBS]
      omega
  · have hn : idxs 0 J = [] := idxs_nil (by omega)
    have ht : J.toNat = 0 := by omega
    simp [initRoot, hn, ht, identity, indet, MAX_JOBS]

/-! ## The children of a node that satisfies the invariant -/

theorem identity_length (J : Int) : (identity J).length = J.toNat := by
  simp [identity]

theorem NodeInv.take_length {J : Int} {n : Node} (h : NodeInv J n) :
    (n.prmu.take J.toNat).length = J.toNat := by
  rw [h.2.length_eq, identity_length]

theorem NodeInv.le_length {J : Int} {n : Node} (h : NodeInv J n) : J.toNat ≤ n.prmu.length := by
  have := h.take_length
  rw [List.length_take] at this
  omega

theorem child_fwd_take (J : Int) (parent : Node) (i : Int) (hle : J.toNat ≤ parent.prmu.length)
    (hd : (parent.depth : Int) < J) (hi : i < J) :
    (child_fwd J parent i).prmu.take J.toNat
      = swap (parent.prmu.take J.toNat) (parent.depth : Int) i := by
  have hJ : J = ((J.toNat : Nat) : Int) := by omega
  show (swap (memcpy indet.prmu parent.prmu J) (parent.depth : Int) i).take J.toNat = _
  rw [take_swap _ _ _ _ (by omega) (by omega)]
  congr 1
  conv_lhs => rw [hJ]
  exact take_memcpy _ _ _ hle

theorem child_lb1_d_eq (J : Int) (parent : Node) (i : Int) (h : NodeInv J parent) :
    child_lb1_d J parent i = child_fwd J parent i := by
  simp only [child_lb1_d, child_fwd, h.1]

theorem child_fwd_inv (J : Int) (parent : Node) (i : Int) (hJ : J ≤ 20) (h : NodeInv J parent)
    (hlo : parent.limit1 + 1 ≤ i) (hi : i < J) :
    NodeInv J (child_fwd J parent i) ∧ (child_fwd J parent i).depth = parent.depth + 1 := by
  have hd : (parent.depth : Int) < J := by have := h.1; omega
  have hdep : (child_fwd J parent i).depth = parent.depth + 1 := by
    show (parent.depth + 1) % 256 = parent.depth + 1
    omega
  refine ⟨⟨?_, ?_⟩, hdep⟩
  · rw [hdep]
    show ((parent.depth + 1 : Nat) : Int) = parent.limit1 + 1 + 1
    have := h.1
    push_cast
    omega
  · rw [child_fwd_take J parent i h.le_length hd hi]
    have hl := h.take_length
    have hi0 : 0 ≤ i := by have := h.1; omega
    exact (swap_perm _ _ _ (by omega) hi0 (by rw [hl]; omega) (by rw [hl]; omega)).trans h.2

theorem initRoot_inv (J : Int) (hJ : J ≤ 20) : NodeInv J (initRoot indet J) := by
  obtain ⟨h1, h2, h3, _⟩ := initRoot_spec J hJ
  refine ⟨by rw [h1, h2]; rfl, ?_⟩
  rw [h3]

/-! ## What a decomposition returns -/

theorem foldl_min_le (l : List Int) (b : Int) : l.foldl min b ≤ b := by
  induction l generalizing b with
  | nil => simp
  | cons x l ih =>
    simp only [List.foldl_cons]
    exact (ih _).trans (min_le_left _ _)

theorem foldl_min_le_of_mem (l : List Int) (b v : Int) (h : v ∈ l) : l.foldl min b ≤ v := by
  induction l generalizing b with
  | nil => simp at h
  | cons x l ih =>
    simp only [List.foldl_cons]
    rcases List.mem_cons.1 h with rfl | h
    · exact (foldl_min_le _ _).trans (min_le_right _ _)
    · exact ih _ h

theorem foldl_min_mem (l : List Int) (b : Int) : l.foldl min b = b ∨ l.foldl min b ∈ l := by
  induction l generalizing b with
  | nil => simp
  | cons x l ih =>
    simp only [List.foldl_cons, List.mem_cons]
    rcases ih (min b x) with h | h
    · rw [h]
      rcases min_choice b x with h2 | h2
      · left; exact h2
      · right; left; exact h2
    · right; right; exact h

theorem foldl_min_examined (bnd : Int → Int → Int) (l : List Int) (b : Int) :
    l.foldl (fun b i => min b (bnd i b)) b = (examined bnd l b).foldl min b := by
  induction l generalizing b with
  | nil => rfl
  | cons i l ih => simp only [List.foldl_cons, examined, ih]

theorem examined_const (f : Int → Int) (l : List Int) (b : Int) :
    examined (fun i _ => f i) l b = l.map f := by
  induction l generalizing b with
  | nil => rfl
  | cons i l ih => simp only [examined, List.map_cons, ih]

theorem examined_length (bnd : Int → Int → Int) (l : List Int) (b : Int) :
    (examined bnd l b).length = l.length := by
  induction l generalizing b with
  | nil => rfl
  | cons i l ih => simp only [examined, List.length_cons, ih]

theorem foldlM_dispose_any {P : Type} (push : P → Node → Option P) (leaf : Prop)
    [Decidable leaf] (bnd : Int → Int → Int) (ch : Int → Node) (l : List Int)
    (s s1 : Search P)
    (h : l.foldlM (fun (s : Search P) (i : Int) => dispose push leaf (bnd i s.best) (ch i) s) s
      = some s1) :
    s1.best = (if leaf then examined bnd l s.best else []).foldl min s.best ∧
      s1.num_sol = s.num_sol + (if leaf then l.length else 0) ∧
      (leaf → s1.tree_loc = s.tree_loc ∧ s1.pool = s.pool) := by
  by_cases hleaf : leaf
  · rw [foldlM_dispose_leaf push leaf hleaf] at h
    cases h
    simp only [hleaf, if_true, foldl_min_examined]
    exact ⟨trivial, trivial, fun _ => ⟨trivial, trivial⟩⟩
  · obtain ⟨h1, h2⟩ := foldlM_dispose_inner_any push leaf hleaf bnd ch l s s1 h
    refine ⟨?_, ?_, fun h => absurd h hleaf⟩
    · simp only [hleaf, if_false, List.foldl_nil]
      exact h1
    · simp only [hleaf, if_false, Nat.add_zero]
      exact h2

theorem foldlM_dispose_spec {P : Type} (push : P → Node → Option P) (Inv : P → Prop)
    (abs : P → List Node) (law : PoolLaw push Inv abs) (leaf : Prop) [Decidable leaf]
    (bnd : Int → Int → Int) (ch : Int → Node) (l : List Int) (s : Search P)
    (hinv : Inv s.pool) :
    ∃ s1, l.foldlM (fun (s : Search P) (i : Int) => dispose push leaf (bnd i s.best) (ch i) s) s
        = some s1 ∧ Inv s1.pool ∧
      abs s1.pool = abs s.pool ++
        (if leaf then [] else (l.filter (fun i => decide (bnd i s.best < s.best))).map ch) ∧
      s1.tree_loc = s.tree_loc +
        (if leaf then 0 else (l.filter (fun i => decide (bnd i s.best < s.best))).length) := by
  by_cases hleaf : leaf
  · refine ⟨_, foldlM_dispose_leaf push leaf hleaf bnd ch l s, hinv, ?_, ?_⟩ <;> simp [hleaf]
  · obtain ⟨q, e, iq, aq⟩ := foldlM_dispose_inner push Inv abs law leaf hleaf bnd ch l s hinv
    refine ⟨_, e, iq, ?_, ?_⟩ <;> simp [hleaf, aq]

theorem generate_children_any {P : Type} (push : P → Node → Option P) (parents : List Node)
    (jobs : Int) (bounds : List Int) (l : List Int) (s s1 : Search P)
    (h : l.foldlM (fun (s : Search P) (i : Int) =>
          (idxs ((rd indet parents i).limit1 + 1) jobs).foldlM (fun (s : Search P) (j : Int) =>
            dispose push (((rd indet parents i).depth : Int) + 1 = jobs)
              (rd 0 bounds (j + i * jobs)) (child_fwd jobs (rd indet parents i) j) s) s) s
        = some s1) :
    s1.best = (l.flatMap (fun i =>
        if ((rd indet parents i).depth : Int) + 1 = jobs then
          (idxs ((rd indet parents i).limit1 + 1) jobs).map (fun j => rd 0 bounds (j + i * jobs))
        else [])).foldl min s.best ∧
    s1.num_sol = s.num_sol + (l.flatMap (fun i =>
        if ((rd indet parents i).depth : Int) + 1 = jobs then
          (idxs ((rd indet parents i).limit1 + 1) jobs).map (fun j => rd 0 bounds (j + i * jobs))
        else [])).length := by
  induction l generalizing s with
  | nil =>
    simp only [List.foldlM_nil] at h
    cases h
    simp
  | cons i l ih =>
    rw [List.foldlM_cons] at h
    obtain ⟨s2, h2, h3⟩ := Option.bind_eq_some.1 h
    obtain ⟨a1, a2, _⟩ := foldlM_dispose_any push _ (fun j _ => rd 0 bounds (j + i * jobs))
      (child_fwd jobs (rd indet parents i)) _ s s2 h2
    obtain ⟨b1, b2⟩ := ih s2 h3
    rw [examined_const] at a1
    rw [List.flatMap_cons, List.foldl_append, List.length_append, b1, b2, a1, a2]
    constructor
    · rfl
    · split <;> simp [Nat.add_assoc]

theorem generate_children_spec {P : Type} (push : P → Node → Option P) (Inv : P → Prop)
    (abs : P → List Node) (law : PoolLaw push Inv abs) (parents : List Node)
    (jobs : Int) (bounds : List Int) (l : List Int) (s : Search P) (hinv : Inv s.pool) :
    ∃ s1 cs, l.foldlM (fun (s : Search P) (i : Int) =>
          (idxs ((rd indet parents i).limit1 + 1) jobs).foldlM (fun (s : Search P) (j : Int) =>
            dispose push (((rd indet parents i).depth : Int) + 1 = jobs)
              (rd 0 bounds (j + i * jobs)) (child_fwd jobs (rd indet parents i) j) s) s) s
        = some s1 ∧ Inv s1.pool ∧ abs s1.pool = abs s.pool ++ cs ∧
      s1.tree_loc = s.tree_loc + cs.length ∧
      ∀ c ∈ cs, ∃ i j, i ∈ l ∧ j ∈ idxs ((rd indet parents i).limit1 + 1) jobs ∧
        ¬ (((rd indet parents i).depth : Int) + 1 = jobs) ∧
        c = child_fwd jobs (rd indet parents i) j := by
  induction l generalizing s with
  | nil => exact ⟨s, [], rfl, hinv, by simp, by simp, by simp⟩
  | cons i l ih =>
    obtain ⟨s2, e2, i2, a2, t2⟩ := foldlM_dispose_spec push Inv abs law
      (((rd indet parents i).depth : Int) + 1 = jobs) (fun j _ => rd 0 bounds (j + i * jobs))
      (child_fwd jobs (rd indet parents i)) (idxs ((rd indet parents i).limit1 + 1) jobs) s hinv
    obtain ⟨s1, cs, e1, i1, a1, t1, m1⟩ := ih s2 i2
    refine ⟨s1, (if ((rd indet parents i).depth : Int) + 1 = jobs then []
      else ((idxs ((rd indet parents i).limit1 + 1) jobs).filter
        (fun j => decide (rd 0 bounds (j + i * jobs) < s.best))).map
          (child_fwd jobs (rd indet parents i))) ++ cs, ?_, i1,
      by rw [a1, a2, List.append_assoc], ?_, ?_⟩
    · rw [List.foldlM_cons, e2]
      exact e1
    · rw [t1, t2, List.length_append]
      split <;> simp [Nat.add_assoc]
    · intro c hc
      rcases List.mem_append.1 hc with hc | hc
      · by_cases hleaf : ((rd indet parents i).depth : Int) + 1 = jobs
        · simp [hleaf] at hc
        · simp only [hleaf, if_false, List.mem_map, List.mem_filter] at hc
          obtain ⟨j, ⟨hj, _⟩, rfl⟩ := hc
          exact ⟨i, j, List.mem_cons_self _ _, hj, hleaf, rfl⟩
      · obtain ⟨i', j, hi, hj, hl, rfl⟩ := m1 c hc
        exact ⟨i', j, List.mem_cons_of_mem _ hi, hj, hl, rfl⟩

/-! ## Claims on the decomposition -/

theorem dispose_pool (leaf : Prop) [Decidable leaf] (lowerbound : Int) (child : Node)
    (s : Search SinglePool) (hwf : s.pool.WF) :
    ∃ s1, dispose SinglePool.push leaf lowerbound child s = some s1 ∧ s1.pool.WF ∧
      s1.pool.contents
        = s.pool.contents ++ (if ¬ leaf ∧ lowerbound < s.best then [child] else []) := by
  obtain ⟨w, c, _⟩ := SinglePool.pushBack_spec s.pool child hwf
  by_cases hleaf : leaf
  · by_cases hlt : lowerbound < s.best
    · exact ⟨{ s with num_sol := s.num_sol + 1, best := lowerbound },
        by simp only [dispose, hleaf, if_true, hlt], hwf, by simp [hleaf]⟩
    · exact ⟨{ s with num_sol := s.num_sol + 1 },
        by simp only [dispose, hleaf, if_true, hlt, if_false], hwf, by simp [hleaf]⟩
  · by_cases hlt : lowerbound < s.best
    · refine ⟨{ s with pool := s.pool.pushBack child, tree_loc := s.tree_loc + 1 }, ?_, w, ?_⟩
      · simp only [dispose, hleaf, if_false, hlt, if_true, SinglePool.push, Option.map_some']
      · simp [hleaf, hlt, c]
    · exact ⟨s, by simp only [dispose, hleaf, if_false, hlt], hwf, by simp [hlt]⟩

theorem filter_and_const (l : List Int) (a : Prop) [Decidable a] (p : Int → Prop)
    [DecidablePred p] :
    l.filter (fun i => decide (a ∧ p i)) = if a then l.filter (fun i => decide (p i)) else [] := by
  by_cases h : a <;> simp [h]

/-- C2 (pruning rule).  On a well-formed pool of `pfsp_c.c`, for a parent whose depth is
below 255: each of `decompose_lb1`, `decompose_lb1_d` and `decompose_lb2` returns, and
the nodes it has appended to the pool are, in the order of the loop, the children whose
depth differs from `jobs` and whose bound is strictly below `best`; `best` keeps its
value at the call as long as the children are not leaves, so that this is the value at
the moment each child is examined.  A child whose bound equals `best`, and a leaf
whatever its bound, is not pushed.  The rule for a single child is the first part: the
step `dispose`, of which the three loops are folds, pushes the child exactly when it is
no leaf and its bound is strictly below the current `best`. -/
theorem pruning_rule (B : Bounds) (jobs : Int) (parent : Node) (s : Search SinglePool)
    (hwf : s.pool.WF) (hd : parent.depth < 255) :
    (∀ (leaf : Prop) [Decidable leaf] (lowerbound : Int) (child : Node) (t : Search SinglePool),
      t.pool.WF → ∃ t1, dispose SinglePool.push leaf lowerbound child t = some t1 ∧
        t1.pool.contents
          = t.pool.contents ++ (if ¬ leaf ∧ lowerbound < t.best then [child] else [])) ∧
    (∃ s1, decompose_lb1 SinglePool.push B.lb1_bound jobs parent s = some s1 ∧
      s1.pool.contents = s.pool.contents ++
        ((idxs (parent.limit1 + 1) jobs).filter (fun i =>
          decide (((child_fwd jobs parent i).depth : Int) ≠ jobs ∧
            bound_lb1 B.lb1_bound jobs parent i < s.best))).map (child_fwd jobs parent) ∧
      ((((parent.depth + 1) % 256 : Nat) : Int) ≠ jobs → s1.best = s.best)) ∧
    (∃ s1, decompose_lb1_d SinglePool.push B.lb1_children_bounds jobs parent s = some s1 ∧
      s1.pool.contents = s.pool.contents ++
        ((idxs (parent.limit1 + 1) jobs).filter (fun i =>
          decide (((child_lb1_d jobs parent i).depth : Int) ≠ jobs ∧
            bound_lb1_d B.lb1_children_bounds jobs parent i < s.best))).map
              (child_lb1_d jobs parent) ∧
      ((((parent.depth + 1) % 256 : Nat) : Int) ≠ jobs → s1.best = s.best)) ∧
    (∃ s1, decompose_lb2 SinglePool.push B.lb2_bound jobs parent s = some s1 ∧
      s1.pool.contents = s.pool.contents ++
        ((idxs (parent.limit1 + 1) jobs).filter (fun i =>
          decide (((child_fwd jobs parent i).depth : Int) ≠ jobs ∧
            bound_lb2 B.lb2_bound jobs parent i s.best < s.best))).map (child_fwd jobs parent) ∧
      ((((parent.depth + 1) % 256 : Nat) : Int) ≠ jobs → s1.best = s.best)) := by
  have hmod : (parent.depth + 1) % 256 = parent.depth + 1 := by omega
  refine ⟨fun leaf _ lowerbound child t ht => ?_, ?_, ?_, ?_⟩
  · obtain ⟨t1, e, _, c⟩ := dispose_pool leaf lowerbound child t ht
    exact ⟨t1, e, c⟩
  · obtain ⟨s1, e, _, a, _⟩ := foldlM_dispose_spec SinglePool.push _ _ SinglePool.law
      ((((parent.depth + 1) % 256 : Nat) : Int) = jobs)
      (fun i _ => bound_lb1 B.lb1_bound jobs parent i) (child_fwd jobs parent)
      (idxs (parent.limit1 + 1) jobs) s hwf
    refine ⟨s1, by rw [decompose_lb1_eq]; exact e, ?_, fun hne => ?_⟩
    · rw [a]
      congr 1
      show _ = List.map _ (List.filter (fun i =>
        decide (¬ ((((parent.depth + 1) % 256 : Nat) : Int) = jobs) ∧ _)) _)
      rw [filter_and_const]
      by_cases hl : (((parent.depth + 1) % 256 : Nat) : Int) = jobs
      · rw [if_pos hl, if_neg (not_not.2 hl)]
        rfl
      · rw [if_neg hl, if_pos hl]
    · exact (foldlM_dispose_inner_any SinglePool.push _ hne
        (fun i _ => bound_lb1 B.lb1_bound jobs parent i) (child_fwd jobs parent) _ s s1 e).1
  · obtain ⟨s1, e, _, a, _⟩ := foldlM_dispose_spec SinglePool.push _ _ SinglePool.law
      ((parent.depth : Int) + 1 = jobs)
      (fun i _ => bound_lb1_d B.lb1_children_bounds jobs parent i) (child_lb1_d jobs parent)
      (idxs (parent.limit1 + 1) jobs) s hwf
    have hiff : ((((parent.depth + 1) % 256 : Nat) : Int) = jobs) ↔ ((parent.depth : Int) + 1 = jobs) := by
      rw [hmod]; push_cast; rfl
    refine ⟨s1, by rw [decompose_lb1_d_eq]; exact e, ?_, fun hne => ?_⟩
    · rw [a]
      congr 1
      show _ = List.map _ (List.filter (fun i =>
        decide (¬ ((((parent.depth + 1) % 256 : Nat) : Int) = jobs) ∧ _)) _)
      rw [filter_and_const]
      by_cases hl : (parent.depth : Int) + 1 = jobs
      · rw [if_pos hl, if_neg (not_not.2 (hiff.2 hl))]
        rfl
      · have : ¬ ((((parent.depth + 1) % 256 : Nat) : Int) = jobs) := fun h => hl (hiff.1 h)
        rw [if_neg hl, if_pos this]
    · exact (foldlM_dispose_inner_any SinglePool.push _ (fun h => hne (hiff.2 h))
        (fun i _ => bound_lb1_d B.lb1_children_bounds jobs parent i) (child_lb1_d jobs parent)
        _ s s1 e).1
  · obtain ⟨s1, e, _, a, _⟩ := foldlM_dispose_spec SinglePool.push _ _ SinglePool.law
      ((((parent.depth + 1) % 256 : Nat) : Int) = jobs)
      (fun i b => bound_lb2 B.lb2_bound jobs parent i b) (child_fwd jobs parent)
      (idxs (parent.limit1 + 1) jobs) s hwf
    refine ⟨s1, by rw [decompose_lb2_eq]; exact e, ?_, fun hne => ?_⟩
    · rw [a]
      congr 1
      show _ = List.map _ (List.filter (fun i =>
        decide (¬ ((((parent.depth + 1) % 256 : Nat) : Int) = jobs) ∧ _)) _)
      rw [filter_and_const]
      by_cases hl : (((parent.depth + 1) % 256 : Nat) : Int) = jobs
      · rw [if_pos hl, if_neg (not_not.2 hl)]
        rfl
      · rw [if_neg hl, if_pos hl]
    · exact (foldlM_dispose_inner_any SinglePool.push _ hne
        (fun i b => bound_lb2 B.lb2_bound jobs parent i b) (child_fwd jobs parent) _ s s1 e).1

/-- Instance of C2: the root of a 3-job instance with `best = 2`, where the three
children have the bounds 0, 1 and 2. -/
theorem pruning_rule_witness :
    (samplePool.WF ∧ (initRoot indet 3).depth < 255) ∧
    ∃ s1, decompose_lb1 SinglePool.push sampleBounds.lb1_bound 3 (initRoot indet 3)
        { best := 2, tree_loc := 0, num_sol := 0, pool := samplePool } = some s1 ∧
      s1.pool.contents = samplePool.contents ++
        ((idxs ((initRoot indet 3).limit1 + 1) 3).filter (fun i =>
          decide (((child_fwd 3 (initRoot indet 3) i).depth : Int) ≠ 3 ∧
            bound_lb1 sampleBounds.lb1_bound 3 (initRoot indet 3) i < 2))).map
              (child_fwd 3 (initRoot indet 3)) ∧
      ((((((initRoot indet 3).depth + 1) % 256 : Nat) : Int) ≠ 3) → s1.best = 2) := by
  have hp : samplePool.WF := by unfold SinglePool.WF; decide
  have hd : (initRoot indet 3).depth < 255 := by decide
  exact ⟨⟨hp, hd⟩, (pruning_rule sampleBounds 3 (initRoot indet 3)
    { best := 2, tree_loc := 0, num_sol := 0, pool := samplePool } hp hd).2.1⟩

theorem idxs_getElem? (lo hi : Int) (t : Nat) (h : (t : Int) < hi - lo) :
    (idxs lo hi)[t]? = some (lo + (t : Int)) := by
  unfold idxs
  rw [List.getElem?_map, List.getElem?_range (by omega)]
  rfl

/-- C3 (forward branching).  For a parent of a `J ≤ 20` job instance with `limit1 = k`,
`depth = k + 1`, `k + 2 < J` and an array `prmu` of `MAX_JOBS` entries, when the bound of
every child is strictly below `best`, `decompose_lb1` appends exactly `J - k - 1`
children to the pool; the child number `t` is the one for `i = k + 1 + t`: it has
`depth = parent.depth + 1`, `limit1 = k + 1`, and its `prmu[0..J)` is the parent's with
the positions `k + 1` and `i` exchanged. -/
theorem forward_branching (lb1_bound : List Int → Int → Int → Int) (J k : Int) (parent : Node)
    (s : Search SinglePool) (hwf : s.pool.WF) (hJ : J ≤ 20)
    (hlen : parent.prmu.length = MAX_JOBS) (hl : parent.limit1 = k)
    (hdep : (parent.depth : Int) = k + 1) (hk : k + 2 < J)
    (hall : ∀ i, k < i → i < J → bound_lb1 lb1_bound J parent i < s.best) :
    ∃ s1 cs, decompose_lb1 SinglePool.push lb1_bound J parent s = some s1 ∧
      s1.pool.contents = s.pool.contents ++ cs ∧
      (cs.length : Int) = J - k - 1 ∧ s1.tree_loc = s.tree_loc + cs.length ∧
      ∀ t : Nat, (t : Int) < J - k - 1 →
        ∃ c, cs[t]? = some c ∧ c.depth = parent.depth + 1 ∧ c.limit1 = k + 1 ∧
          c.prmu.take J.toNat
            = (swap parent.prmu (k + 1) (k + 1 + (t : Int))).take J.toNat := by
  have hleaf : ¬ ((((parent.depth + 1) % 256 : Nat) : Int) = J) := by omega
  obtain ⟨s1, e, _, a, tl⟩ := foldlM_dispose_spec SinglePool.push _ _ SinglePool.law
    ((((parent.depth + 1) % 256 : Nat) : Int) = J)
    (fun i _ => bound_lb1 lb1_bound J parent i) (child_fwd J parent)
    (idxs (parent.limit1 + 1) J) s hwf
  have hfil : (idxs (parent.limit1 + 1) J).filter
      (fun i => decide (bound_lb1 lb1_bound J parent i < s.best)) = idxs (parent.limit1 + 1) J := by
    rw [List.filter_eq_self]
    intro i hi
    have := mem_idxs.1 hi
    exact decide_eq_true (hall i (by omega) this.2)
  rw [if_neg hleaf, hfil] at a tl
  refine ⟨s1, (idxs (parent.limit1 + 1) J).map (child_fwd J parent),
    by rw [decompose_lb1_eq]; exact e, a, ?_, ?_, ?_⟩
  · rw [List.length_map, idxs_length]; omega
  · rw [tl, List.length_map]
  · intro t ht
    have hle : J.toNat ≤ parent.prmu.length := by rw [hlen, MAX_JOBS]; omega
    refine ⟨child_fwd J parent (k + 1 + (t : Int)), ?_, ?_, ?_, ?_⟩
    · rw [List.getElem?_map, idxs_getElem? _ _ _ (by omega), hl]
      rfl
    · show (parent.depth + 1) % 256 = parent.depth + 1
      omega
    · show parent.limit1 + 1 = k + 1
      rw [hl]
    · rw [child_fwd_take J parent _ hle (by omega) (by omega), hdep]
      have hJn : ((J.toNat : Nat) : Int) = J := by omega
      rw [take_swap _ _ _ _ (by omega) (by omega)]

/-- Instance of C3: the root of a 3-job instance (`k = -1`) with `best = 100`. -/
theorem forward_branching_witness :
    ∃ s1 cs, decompose_lb1 SinglePool.push sampleBounds.lb1_bound 3 (initRoot indet 3)
        { best := 100, tree_loc := 0, num_sol := 0, pool := samplePool } = some s1 ∧
      s1.pool.contents = samplePool.contents ++ cs ∧
      (cs.length : Int) = 3 - (-1) - 1 ∧ s1.tree_loc = 0 + cs.length ∧
      ∀ t : Nat, (t : Int) < 3 - (-1) - 1 →
        ∃ c, cs[t]? = some c ∧ c.depth = (initRoot indet 3).depth + 1 ∧ c.limit1 = -1 + 1 ∧
          c.prmu.take (3 : Int).toNat
            = (swap (initRoot indet 3).prmu (-1 + 1) (-1 + 1 + (t : Int))).take (3 : Int).toNat :=
  forward_branching sampleBounds.lb1_bound 3 (-1) (initRoot indet 3)
    { best := 100, tree_loc := 0, num_sol := 0, pool := samplePool }
    (by unfold SinglePool.WF; decide) (by decide) (by decide) (by decide) (by decide) (by decide)
    (by
      intro i h1 h2
      have hi : i = 0 ∨ i = 1 ∨ i = 2 := by omega
      rcases hi with rfl | rfl | rfl <;> decide)

theorem kept_children_inv (J : Int) (hJ : J ≤ 20) (parent : Node) (h : NodeInv J parent)
    (leaf : Prop) [Decidable leaf] (p : Int → Bool) (c : Node)
    (hc : c ∈ (if leaf then []
      else ((idxs (parent.limit1 + 1) J).filter p).map (child_fwd J parent))) :
    NodeInv J c := by
  by_cases hl : leaf
  · simp [hl] at hc
  · simp only [hl, if_false, List.mem_map, List.mem_filter] at hc
    obtain ⟨i, ⟨hi, _⟩, rfl⟩ := hc
    have := mem_idxs.1 hi
    exact (child_fwd_inv J parent i hJ h this.1 this.2).1

theorem child_lb1_d_fun (J : Int) (parent : Node) (h : NodeInv J parent) :
    child_lb1_d J parent = child_fwd J parent :=
  funext (fun i => child_lb1_d_eq J parent i h)

/-- C4 (node invariant).  For `J ≤ 20`: the root built by `initRoot` has
`depth == limit1 + 1` and a `prmu[0..J)` that is a permutation of `{0..J)`; for a parent
with this invariant and a well-formed, unlocked pool, each of `decompose_lb1`,
`decompose_lb1_d` and `decompose_lb2` returns and every node it has appended to the pool
has the invariant, and so does `generate_children` for a batch of parents with the
invariant; hence every node reachable from the root has the invariant. -/
theorem node_invariant (J : Int) (hJ : J ≤ 20) :
    NodeInv J (initRoot indet J) ∧
    (∀ (B : Bounds) (parent : Node) (s : Search SinglePool_ext),
      NodeInv J parent → s.pool.Ready →
      (∃ s1 cs, decompose_lb1 SinglePool_ext.pushBack B.lb1_bound J parent s = some s1 ∧
        s1.pool.Ready ∧ s1.pool.contents = s.pool.contents ++ cs ∧ ∀ c ∈ cs, NodeInv J c) ∧
      (∃ s1 cs, decompose_lb1_d SinglePool_ext.pushBack B.lb1_children_bounds J parent s
          = some s1 ∧
        s1.pool.Ready ∧ s1.pool.contents = s.pool.contents ++ cs ∧ ∀ c ∈ cs, NodeInv J c) ∧
      (∃ s1 cs, decompose_lb2 SinglePool_ext.pushBack B.lb2_bound J parent s = some s1 ∧
        s1.pool.Ready ∧ s1.pool.contents = s.pool.contents ++ cs ∧ ∀ c ∈ cs, NodeInv J c)) ∧
    (∀ (parents : List Node) (size : Int) (bounds : List Int) (s : Search SinglePool_ext),
      (∀ i, 0 ≤ i → i < size → NodeInv J (rd indet parents i)) → s.pool.Ready →
      ∃ s1 cs, generate_children SinglePool_ext.pushBack parents size J bounds s = some s1 ∧
        s1.pool.Ready ∧ s1.pool.contents = s.pool.contents ++ cs ∧ ∀ c ∈ cs, NodeInv J c) ∧
    (∀ n, Generated J n → NodeInv J n) := by
  have h1 : ∀ (B : Bounds) (parent : Node) (s : Search SinglePool_ext),
      NodeInv J parent → s.pool.Ready →
      (∃ s1 cs, decompose_lb1 SinglePool_ext.pushBack B.lb1_bound J parent s = some s1 ∧
        s1.pool.Ready ∧ s1.pool.contents = s.pool.contents ++ cs ∧ ∀ c ∈ cs, NodeInv J c) ∧
      (∃ s1 cs, decompose_lb1_d SinglePool_ext.pushBack B.lb1_children_bounds J parent s
          = some s1 ∧
        s1.pool.Ready ∧ s1.pool.contents = s.pool.contents ++ cs ∧ ∀ c ∈ cs, NodeInv J c) ∧
      (∃ s1 cs, decompose_lb2 SinglePool_ext.pushBack B.lb2_bound J parent s = some s1 ∧
        s1.pool.Ready ∧ s1.pool.contents = s.pool.contents ++ cs ∧ ∀ c ∈ cs, NodeInv J c) := by
    intro B parent s hp hr
    refine ⟨?_, ?_, ?_⟩
    · obtain ⟨s1, e, r, a, _⟩ := foldlM_dispose_spec SinglePool_ext.pushBack _ _
        SinglePool_ext.ext_law ((((parent.depth + 1) % 256 : Nat) : Int) = J)
        (fun i _ => bound_lb1 B.lb1_bound J parent i) (child_fwd J parent)
        (idxs (parent.limit1 + 1) J) s hr
      exact ⟨s1, _, by rw [decompose_lb1_eq]; exact e, r, a,
        fun c hc => kept_children_inv J hJ parent hp _ _ c hc⟩
    · obtain ⟨s1, e, r, a, _⟩ := foldlM_dispose_spec SinglePool_ext.pushBack _ _
        SinglePool_ext.ext_law ((parent.depth : Int) + 1 = J)
        (fun i _ => bound_lb1_d B.lb1_children_bounds J parent i) (child_lb1_d J parent)
        (idxs (parent.limit1 + 1) J) s hr
      refine ⟨s1, _, by rw [decompose_lb1_d_eq]; exact e, r, a, fun c hc => ?_⟩
      rw [child_lb1_d_fun J parent hp] at hc
      exact kept_children_inv J hJ parent hp _ _ c hc
    · obtain ⟨s1, e, r, a, _⟩ := foldlM_dispose_spec SinglePool_ext.pushBack _ _
        SinglePool_ext.ext_law ((((parent.depth + 1) % 256 : Nat) : Int) = J)
        (fun i b => bound_lb2 B.lb2_bound J parent i b) (child_fwd J parent)
        (idxs (parent.limit1 + 1) J) s hr
      exact ⟨s1, _, by rw [decompose_lb2_eq]; exact e, r, a,
        fun c hc => kept_children_inv J hJ parent hp _ _ c hc⟩
  have h2 : ∀ (parents : List Node) (size : Int) (bounds : List Int)
      (s : Search SinglePool_ext),
      (∀ i, 0 ≤ i → i < size → NodeInv J (rd indet parents i)) → s.pool.Ready →
      ∃ s1 cs, generate_children SinglePool_ext.pushBack parents size J bounds s = some s1 ∧
        s1.pool.Ready ∧ s1.pool.contents = s.pool.contents ++ cs ∧ ∀ c ∈ cs, NodeInv J c := by
    intro parents size bounds s hp hr
    obtain ⟨s1, cs, e, r, a, _, m⟩ := generate_children_spec SinglePool_ext.pushBack _ _
      SinglePool_ext.ext_law parents J bounds (idxs 0 size) s hr
    refine ⟨s1, cs, by rw [generate_children_eq]; exact e, r, a, fun c hc => ?_⟩
    obtain ⟨i, j, hi, hj, _, rfl⟩ := m c hc
    have hi2 := mem_idxs.1 hi
    have hj2 := mem_idxs.1 hj
    exact (child_fwd_inv J _ j hJ (hp i hi2.1 hi2.2) hj2.1 hj2.2).1
  refine ⟨initRoot_inv J hJ, h1, h2, ?_⟩
  intro n hn
  induction hn with
  | root => exact initRoot_inv J hJ
  | lb1 lb1_bound parent s s1 cs c _ hr e a hc ih =>
    obtain ⟨t1, cs1, e1, _, a1, m1⟩ := (h1 ⟨lb1_bound, fun _ _ _ => [], fun _ _ _ _ => 0⟩
      parent s ih hr).1
    rw [e] at e1
    cases e1
    exact m1 c (by rwa [List.append_cancel_left (a.symm.trans a1)] at hc)
  | lb1_d lbs parent s s1 cs c _ hr e a hc ih =>
    obtain ⟨t1, cs1, e1, _, a1, m1⟩ := (h1 ⟨fun _ _ _ => 0, lbs, fun _ _ _ _ => 0⟩
      parent s ih hr).2.1
    rw [e] at e1
    cases e1
    exact m1 c (by rwa [List.append_cancel_left (a.symm.trans a1)] at hc)
  | lb2 lb2_bound parent s s1 cs c _ hr e a hc ih =>
    obtain ⟨t1, cs1, e1, _, a1, m1⟩ := (h1 ⟨fun _ _ _ => 0, fun _ _ _ => [], lb2_bound⟩
      parent s ih hr).2.2
    rw [e] at e1
    cases e1
    exact m1 c (by rwa [List.append_cancel_left (a.symm.trans a1)] at hc)
  | gen parents size bounds s s1 cs c _ hr e a hc ih =>
    obtain ⟨t1, cs1, e1, _, a1, m1⟩ := h2 parents size bounds s ih hr
    rw [e] at e1
    cases e1
    exact m1 c (by rwa [List.append_cancel_left (a.symm.trans a1)] at hc)

/-- Instance of C4 for a 3-job instance: the root, and the children of the root that
`decompose_lb1` pushes to a pool holding three nodes. -/
theorem node_invariant_witness :
    NodeInv 3 (initRoot indet 3) ∧
    ∃ s1 cs, decompose_lb1 SinglePool_ext.pushBack sampleBounds.lb1_bound 3 (initRoot indet 3)
        { best := 2, tree_loc := 0, num_sol := 0, pool := samplePool_ext } = some s1 ∧
      s1.pool.Ready ∧ s1.pool.contents = samplePool_ext.contents ++ cs ∧
      ∀ c ∈ cs, NodeInv 3 c := by
  obtain ⟨a, b, _, _⟩ := node_invariant 3 (by decide)
  exact ⟨a, (b sampleBounds (initRoot indet 3)
    { best := 2, tree_loc := 0, num_sol := 0, pool := samplePool_ext } a
    ⟨by unfold SinglePool_ext.WF; decide, rfl⟩).1⟩

theorem decompose_lb1_any {P : Type} (push : P → Node → Option P)
    (lb1_bound : List Int → Int → Int → Int) (jobs : Int) (parent : Node) (s s1 : Search P)
    (h : decompose_lb1 push lb1_bound jobs parent s = some s1) :
    s1.best = (leafBounds_lb1 lb1_bound jobs parent).foldl min s.best ∧
      s1.num_sol = s.num_sol + (leafBounds_lb1 lb1_bound jobs parent).length ∧
      ((((parent.depth + 1) % 256 : Nat) : Int) = jobs →
        s1.tree_loc = s.tree_loc ∧ s1.pool = s.pool) := by
  rw [decompose_lb1_eq] at h
  obtain ⟨a, b, c⟩ := foldlM_dispose_any push _ (fun i _ => bound_lb1 lb1_bound jobs parent i)
    (child_fwd jobs parent) _ s s1 h
  rw [examined_const] at a
  refine ⟨a, ?_, c⟩
  rw [b]
  unfold leafBounds_lb1
  split <;> simp

theorem decompose_lb1_d_any {P : Type} (push : P → Node → Option P)
    (lbs : List Int → Int → Int → List Int) (jobs : Int) (parent : Node) (s s1 : Search P)
    (h : decompose_lb1_d push lbs jobs parent s = some s1) :
    s1.best = (leafBounds_lb1_d lbs jobs parent).foldl min s.best ∧
      s1.num_sol = s.num_sol + (leafBounds_lb1_d lbs jobs parent).length ∧
      ((parent.depth : Int) + 1 = jobs → s1.tree_loc = s.tree_loc ∧ s1.pool = s.pool) := by
  rw [decompose_lb1_d_eq] at h
  obtain ⟨a, b, c⟩ := foldlM_dispose_any push _ (fun i _ => bound_lb1_d lbs jobs parent i)
    (child_lb1_d jobs parent) _ s s1 h
  rw [examined_const] at a
  refine ⟨a, ?_, c⟩
  rw [b]
  unfold leafBounds_lb1_d
  split <;> simp

theorem decompose_lb2_any {P : Type} (push : P → Node → Option P)
    (lb2_bound : List Int → Int → Int → Int → Int) (jobs : Int) (parent : Node)
    (s s1 : Search P) (h : decompose_lb2 push lb2_bound jobs parent s = some s1) :
    s1.best = (leafBounds_lb2 lb2_bound jobs parent s.best).foldl min s.best ∧
      s1.num_sol = s.num_sol + (leafBounds_lb2 lb2_bound jobs parent s.best).length ∧
      ((((parent.depth + 1) % 256 : Nat) : Int) = jobs →
        s1.tree_loc = s.tree_loc ∧ s1.pool = s.pool) := by
  rw [decompose_lb2_eq] at h
  obtain ⟨a, b, c⟩ := foldlM_dispose_any push _ (fun i b => bound_lb2 lb2_bound jobs parent i b)
    (child_fwd jobs parent) _ s s1 h
  refine ⟨a, ?_, c⟩
  rw [b]
  unfold leafBounds_lb2
  split <;> simp [examined_length]

theorem generate_children_leaves {P : Type} (push : P → Node → Option P) (parents : List Node)
    (size jobs : Int) (bounds : List Int) (s s1 : Search P)
    (h : generate_children push parents size jobs bounds s = some s1) :
    s1.best = (leafBounds_gen parents size jobs bounds).foldl min s.best ∧
      s1.num_sol = s.num_sol + (leafBounds_gen parents size jobs bounds).length := by
  rw [generate_children_eq] at h
  exact generate_children_any push parents jobs bounds _ s s1 h

theorem foldl_min_of_le (l : List Int) (b : Int) (h : ∀ v ∈ l, b ≤ v) : l.foldl min b = b := by
  induction l with
  | nil => rfl
  | cons x l ih =>
    simp only [List.foldl_cons]
    rw [min_eq_left (h x (List.mem_cons_self _ _))]
    exact ih (fun v hv => h v (List.mem_cons_of_mem _ hv))

/-- C5 (monotone incumbent).  Whatever the pool and its `pushBack`, whenever one of
`decompose_lb1`, `decompose_lb1_d`, `decompose_lb2` or `generate_children` returns, the
value of `best` it leaves is the minimum of the value at the call and of the bounds of
the leaf children it has examined; so `best` does not increase, and it is unchanged when
no leaf child is examined.  The two `decompose` dispatchers do not increase `best`
either, and on a well-formed, unlocked `SinglePool_ext` the four functions do return. -/
theorem monotone_incumbent {P : Type} (push : P → Node → Option P) (B : Bounds) (jobs : Int)
    (parent : Node) (parents : List Node) (size : Int) (bounds : List Int) (lb : Int)
    (s s1 : Search P) :
    (decompose_lb1 push B.lb1_bound jobs parent s = some s1 →
      s1.best = (leafBounds_lb1 B.lb1_bound jobs parent).foldl min s.best ∧
      s1.best ≤ s.best ∧ (leafBounds_lb1 B.lb1_bound jobs parent = [] → s1.best = s.best)) ∧
    (decompose_lb1_d push B.lb1_children_bounds jobs parent s = some s1 →
      s1.best = (leafBounds_lb1_d B.lb1_children_bounds jobs parent).foldl min s.best ∧
      s1.best ≤ s.best ∧
      (leafBounds_lb1_d B.lb1_children_bounds jobs parent = [] → s1.best = s.best)) ∧
    (decompose_lb2 push B.lb2_bound jobs parent s = some s1 →
      s1.best = (leafBounds_lb2 B.lb2_bound jobs parent s.best).foldl min s.best ∧
      s1.best ≤ s.best ∧
      (leafBounds_lb2 B.lb2_bound jobs parent s.best = [] → s1.best = s.best)) ∧
    (generate_children push parents size jobs bounds s = some s1 →
      s1.best = (leafBounds_gen parents size jobs bounds).foldl min s.best ∧
      s1.best ≤ s.best ∧ (leafBounds_gen parents size jobs bounds = [] → s1.best = s.best)) ∧
    (decompose push B jobs lb parent s = some s1 → s1.best ≤ s.best) ∧
    (decompose_ext push B jobs lb parent s = some s1 → s1.best ≤ s.best) ∧
    (∀ t : Search SinglePool_ext, t.pool.Ready →
      (decompose_lb1 SinglePool_ext.pushBack B.lb1_bound jobs parent t).isSome ∧
      (decompose_lb1_d SinglePool_ext.pushBack B.lb1_children_bounds jobs parent t).isSome ∧
      (decompose_lb2 SinglePool_ext.pushBack B.lb2_bound jobs parent t).isSome ∧
      (generate_children SinglePool_ext.pushBack parents size jobs bounds t).isSome) := by
  have k1 : decompose_lb1 push B.lb1_bound jobs parent s = some s1 →
      s1.best = (leafBounds_lb1 B.lb1_bound jobs parent).foldl min s.best ∧
      s1.best ≤ s.best ∧ (leafBounds_lb1 B.lb1_bound jobs parent = [] → s1.best = s.best) := by
    intro h
    have a := (decompose_lb1_any push _ jobs parent s s1 h).1
    exact ⟨a, a ▸ foldl_min_le _ _, fun hn => by rw [a, hn]; rfl⟩
  have k2 : decompose_lb1_d push B.lb1_children_bounds jobs parent s = some s1 →
      s1.best = (leafBounds_lb1_d B.lb1_children_bounds jobs parent).foldl min s.best ∧
      s1.best ≤ s.best ∧
      (leafBounds_lb1_d B.lb1_children_bounds jobs parent = [] → s1.best = s.best) := by
    intro h
    have a := (decompose_lb1_d_any push _ jobs parent s s1 h).1
    exact ⟨a, a ▸ foldl_min_le _ _, fun hn => by rw [a, hn]; rfl⟩
  have k3 : decompose_lb2 push B.lb2_bound jobs parent s = some s1 →
      s1.best = (leafBounds_lb2 B.lb2_bound jobs parent s.best).foldl min s.best ∧
      s1.best ≤ s.best ∧
      (leafBounds_lb2 B.lb2_bound jobs parent s.best = [] → s1.best = s.best) := by
    intro h
    have a := (decompose_lb2_any push _ jobs parent s s1 h).1
    exact ⟨a, a ▸ foldl_min_le _ _, fun hn => by rw [a, hn]; rfl⟩
  refine ⟨k1, k2, k3, ?_, ?_, ?_, ?_⟩
  · intro h
    have a := (generate_children_leaves push parents size jobs bounds s s1 h).1
    exact ⟨a, a ▸ foldl_min_le _ _, fun hn => by rw [a, hn]; rfl⟩
  · intro h
    unfold decompose at h
    split at h
    · exact (k1 h).2.1
    · split at h
      · exact (k2 h).2.1
      · split at h
        · exact (k3 h).2.1
        · cases h
  · intro h
    unfold decompose_ext at h
    split at h
    · exact (k2 h).2.1
    · split at h
      · exact (k1 h).2.1
      · split at h
        · exact (k3 h).2.1
        · cases h
          exact le_refl _
  · intro t ht
    refine ⟨?_, ?_, ?_, ?_⟩
    · obtain ⟨t1, e, _⟩ := foldlM_dispose_spec SinglePool_ext.pushBack _ _ SinglePool_ext.ext_law
        ((((parent.depth + 1) % 256 : Nat) : Int) = jobs)
        (fun i _ => bound_lb1 B.lb1_bound jobs parent i) (child_fwd jobs parent)
        (idxs (parent.limit1 + 1) jobs) t ht
      rw [decompose_lb1_eq, e]
      rfl
    · obtain ⟨t1, e, _⟩ := foldlM_dispose_spec SinglePool_ext.pushBack _ _ SinglePool_ext.ext_law
        ((parent.depth : Int) + 1 = jobs)
        (fun i _ => bound_lb1_d B.lb1_children_bounds jobs parent i) (child_lb1_d jobs parent)
        (idxs (parent.limit1 + 1) jobs) t ht
      rw [decompose_lb1_d_eq, e]
      rfl
    · obtain ⟨t1, e, _⟩ := foldlM_dispose_spec SinglePool_ext.pushBack _ _ SinglePool_ext.ext_law
        ((((parent.depth + 1) % 256 : Nat) : Int) = jobs)
        (fun i b => bound_lb2 B.lb2_bound jobs parent i b) (child_fwd jobs parent)
        (idxs (parent.limit1 + 1) jobs) t ht
      rw [decompose_lb2_eq, e]
      rfl
    · obtain ⟨t1, cs, e, _⟩ := generate_children_spec SinglePool_ext.pushBack _ _
        SinglePool_ext.ext_law parents jobs bounds (idxs 0 size) t ht
      rw [generate_children_eq, e]
      rfl

/-- Instance of C5: the node `[1, 0]` of depth 1 of a 2-job instance, whose only child is
a leaf of bound 1, decomposed with `best = 10`. -/
theorem monotone_incumbent_witness :
    decompose_lb1 SinglePool.push sampleBounds.lb1_bound 2 (child_fwd 2 (initRoot indet 2) 1)
        { best := 10, tree_loc := 0, num_sol := 0, pool := samplePool }
      = some { best := 1, tree_loc := 0, num_sol := 1, pool := samplePool } ∧
    (1 : Int) = (leafBounds_lb1 sampleBounds.lb1_bound 2
        (child_fwd 2 (initRoot indet 2) 1)).foldl min 10 ∧
    (1 : Int) ≤ 10 := by
  have e : decompose_lb1 SinglePool.push sampleBounds.lb1_bound 2
      (child_fwd 2 (initRoot indet 2) 1)
      { best := 10, tree_loc := 0, num_sol := 0, pool := samplePool }
      = some { best := 1, tree_loc := 0, num_sol := 1, pool := samplePool } := by rfl
  have h := (monotone_incumbent SinglePool.push sampleBounds 2 (child_fwd 2 (initRoot indet 2) 1)
    [] 0 [] 1 { best := 10, tree_loc := 0, num_sol := 0, pool := samplePool }
    { best := 1, tree_loc := 0, num_sol := 1, pool := samplePool }).1 e
  exact ⟨e, h.1, h.2.1⟩

/-- C6 as stated fails: the root of a 1-job instance has a single child, a leaf of bound
5; with `best = 0` this leaf is infeasible (`5 ≥ 0`), yet `decompose_lb1` of `pfsp_c.c`
raises `explored_sol` from 0 to 1. -/
theorem leaf_policy_counterexample :
    leafBounds_lb1 (fun _ _ _ => 5) 1 (initRoot indet 1) = [5] ∧ ¬ ((5 : Int) < 0) ∧
    decompose_lb1 SinglePool.push (fun _ _ _ => 5) 1 (initRoot indet 1)
        { best := 0, tree_loc := 0, num_sol := 0, pool := samplePool }
      = some { best := 0, tree_loc := 0, num_sol := 1, pool := samplePool } :=
  ⟨by decide, by decide, by rfl⟩

/-- C6 as amended (branch policy for leaves).  The step `dispose` on a leaf child adds 1
to `explored_sol` whether or not the bound is below `best`, changes neither
`explored_tree` nor the pool, and leaves `best` unchanged when the bound is not below
it.  Accordingly, whenever one of `decompose_lb1`, `decompose_lb1_d`, `decompose_lb2` or
`generate_children` returns, `explored_sol` has grown by the number of leaf children
examined, feasible or not; when the children of the parent are leaves the three
`decompose_*` functions leave `explored_tree` and the pool unchanged; and when no leaf
child has a bound below `best`, `best` is unchanged. -/
theorem leaf_policy {P : Type} (push : P → Node → Option P) (B : Bounds) (jobs : Int)
    (parent : Node) (parents : List Node) (size : Int) (bounds : List Int) (s s1 : Search P) :
    (∀ (lowerbound : Int) (child : Node) (t : Search P),
      dispose push True lowerbound child t
        = some { t with num_sol := t.num_sol + 1, best := min t.best lowerbound } ∧
      (t.best ≤ lowerbound → min t.best lowerbound = t.best)) ∧
    (decompose_lb1 push B.lb1_bound jobs parent s = some s1 →
      s1.num_sol = s.num_sol + (leafBounds_lb1 B.lb1_bound jobs parent).length ∧
      ((((parent.depth + 1) % 256 : Nat) : Int) = jobs →
        s1.tree_loc = s.tree_loc ∧ s1.pool = s.pool) ∧
      ((∀ v ∈ leafBounds_lb1 B.lb1_bound jobs parent, s.best ≤ v) → s1.best = s.best)) ∧
    (decompose_lb1_d push B.lb1_children_bounds jobs parent s = some s1 →
      s1.num_sol = s.num_sol + (leafBounds_lb1_d B.lb1_children_bounds jobs parent).length ∧
      ((parent.depth : Int) + 1 = jobs → s1.tree_loc = s.tree_loc ∧ s1.pool = s.pool) ∧
      ((∀ v ∈ leafBounds_lb1_d B.lb1_children_bounds jobs parent, s.best ≤ v) →
        s1.best = s.best)) ∧
    (decompose_lb2 push B.lb2_bound jobs parent s = some s1 →
      s1.num_sol = s.num_sol + (leafBounds_lb2 B.lb2_bound jobs parent s.best).length ∧
      ((((parent.depth + 1) % 256 : Nat) : Int) = jobs →
        s1.tree_loc = s.tree_loc ∧ s1.pool = s.pool) ∧
      ((∀ v ∈ leafBounds_lb2 B.lb2_bound jobs parent s.best, s.best ≤ v) →
        s1.best = s.best)) ∧
    (generate_children push parents size jobs bounds s = some s1 →
      s1.num_sol = s.num_sol + (leafBounds_gen parents size jobs bounds).length ∧
      ((∀ v ∈ leafBounds_gen parents size jobs bounds, s.best ≤ v) → s1.best = s.best)) := by
  refine ⟨fun lowerbound child t => ⟨?_, fun h => min_eq_left h⟩, ?_, ?_, ?_, ?_⟩
  · by_cases hlt : lowerbound < t.best
    · simp only [dispose, if_true, hlt, min_eq_right hlt.le]
    · simp only [dispose, if_true, hlt, if_false, min_eq_left (not_lt.mp hlt)]
  · intro h
    obtain ⟨a, b, c⟩ := decompose_lb1_any push _ jobs parent s s1 h
    exact ⟨b, c, fun hv => by rw [a, foldl_min_of_le _ _ hv]⟩
  · intro h
    obtain ⟨a, b, c⟩ := decompose_lb1_d_any push _ jobs parent s s1 h
    exact ⟨b, c, fun hv => by rw [a, foldl_min_of_le _ _ hv]⟩
  · intro h
    obtain ⟨a, b, c⟩ := decompose_lb2_any push _ jobs parent s s1 h
    exact ⟨b, c, fun hv => by rw [a, foldl_min_of_le _ _ hv]⟩
  · intro h
    obtain ⟨a, b⟩ := generate_children_leaves push parents size jobs bounds s s1 h
    exact ⟨b, fun hv => by rw [a, foldl_min_of_le _ _ hv]⟩

/-- Instance of C6 as amended, at the input of the counterexample: the infeasible leaf
is counted, and `explored_tree`, the pool and `best` are unchanged. -/
theorem leaf_policy_witness :
    decompose_lb1 SinglePool.push (fun _ _ _ => 5) 1 (initRoot indet 1)
        { best := 0, tree_loc := 0, num_sol := 0, pool := samplePool }
      = some { best := 0, tree_loc := 0, num_sol := 1, pool := samplePool } ∧
    (1 : Nat) = 0 + (leafBounds_lb1 (fun _ _ _ => 5) 1 (initRoot indet 1)).length ∧
    (((((initRoot indet 1).depth + 1) % 256 : Nat) : Int) = 1 →
      (0 : Nat) = 0 ∧ samplePool = samplePool) := by
  have e : decompose_lb1 SinglePool.push (fun _ _ _ => 5) 1 (initRoot indet 1)
      { best := 0, tree_loc := 0, num_sol := 0, pool := samplePool }
      = some { best := 0, tree_loc := 0, num_sol := 1, pool := samplePool } := by rfl
  have h := (leaf_policy SinglePool.push ⟨fun _ _ _ => 5, fun _ _ _ => [], fun _ _ _ _ => 0⟩ 1
    (initRoot indet 1) [] 0 []
    { best := 0, tree_loc := 0, num_sol := 0, pool := samplePool }
    { best := 0, tree_loc := 0, num_sol := 1, pool := samplePool }).2.1 e
  exact ⟨e, h.1, h.2.1⟩

/-! ## Completeness of the sequential search -/

theorem getD_take (l : List Int) (n j : Nat) (h : j < n) : (l.take n).getD j 0 = l.getD j 0 := by
  rw [List.getD_eq_getElem?_getD, List.getD_eq_getElem?_getD, List.getElem?_take_of_lt h]

theorem identity_nodup (J : Int) : (identity J).Nodup := by
  unfold identity
  exact (List.nodup_range _).map (fun a b h => by exact_mod_cast h)

theorem perm_identity_length {J : Int} {q : List Int} (h : q.Perm (identity J)) :
    q.length = J.toNat := by
  rw [h.length_eq, identity_length]

theorem getD_inj_of_nodup (q : List Int) (hq : q.Nodup) (i j : Nat) (hi : i < q.length)
    (hj : j < q.length) (h : q.getD i 0 = q.getD j 0) : i = j := by
  rw [List.getD_eq_getElem _ _ hi, List.getD_eq_getElem _ _ hj] at h
  exact (List.Nodup.getElem_inj_iff hq).1 h

theorem exists_getD_of_mem (l : List Int) (v : Int) (h : v ∈ l) :
    ∃ i, i < l.length ∧ l.getD i 0 = v := by
  obtain ⟨i, hi, e⟩ := List.getElem_of_mem h
  exact ⟨i, hi, by rw [List.getD_eq_getElem _ _ hi]; exact e⟩

theorem child_getD (J : Int) (parent : Node) (i : Nat) (h : NodeInv J parent)
    (hd : (parent.depth : Int) < J) (hi : (i : Int) < J) (j : Nat) (hj : (j : Int) < J) :
    (child_fwd J parent (i : Int)).prmu.getD j 0
      = if j = parent.depth then parent.prmu.getD i 0
        else if j = i then parent.prmu.getD parent.depth 0 else parent.prmu.getD j 0 := by
  have hjn : j < J.toNat := by omega
  have hl := h.take_length
  rw [← getD_take _ J.toNat j hjn, child_fwd_take J parent _ h.le_length hd hi,
    swap_getD _ _ _ _ (by omega) (by omega),
    getD_take _ _ _ (by omega : i < J.toNat), getD_take _ _ _ (by omega : parent.depth < J.toNat),
    getD_take _ _ _ hjn]

theorem cover (J : Int) (hJ : J ≤ 20) (parent : Node) (q : List Int) (h : NodeInv J parent)
    (hd : (parent.depth : Int) < J) (hq : q.Perm (identity J)) (hb : Below q parent) :
    ∃ i : Int, parent.limit1 + 1 ≤ i ∧ i < J ∧ Below q (child_fwd J parent i) := by
  have hql := perm_identity_length hq
  have hl := h.take_length
  have hqn : q.Nodup := hq.nodup_iff.2 (identity_nodup J)
  have hdq : parent.depth < q.length := by omega
  have hmem : q.getD parent.depth 0 ∈ parent.prmu.take J.toNat := by
    rw [List.getD_eq_getElem _ _ hdq]
    exact (h.2.trans hq.symm).mem_iff.2 (List.getElem_mem hdq)
  obtain ⟨i, hi, e⟩ := exists_getD_of_mem _ _ hmem
  rw [hl] at hi
  rw [getD_take _ _ _ hi] at e
  have hge : parent.depth ≤ i := by
    by_contra hlt
    have hlt : i < parent.depth := by omega
    have := hb i hlt
    rw [e] at this
    have := getD_inj_of_nodup q hqn i parent.depth (by omega) hdq this
    omega
  refine ⟨(i : Int), by have := h.1; omega, by omega, ?_⟩
  intro j hj
  have hcd : (child_fwd J parent (i : Int)).depth = parent.depth + 1 := by
    show (parent.depth + 1) % 256 = parent.depth + 1
    omega
  rw [hcd] at hj
  rw [child_getD J parent i h hd (by omega) j (by omega)]
  by_cases hj1 : j = parent.depth
  · rw [if_pos hj1, e, hj1]
  · rw [if_neg hj1]
    have hjd : j < parent.depth := by omega
    rw [if_neg (by omega), hb j hjd]

theorem leaf_eq (J : Int) (c : Node) (q : List Int) (h : NodeInv J c)
    (hq : q.Perm (identity J)) (hd : (c.depth : Int) = J) (hb : Below q c) :
    c.prmu.take J.toNat = q := by
  have hl := h.take_length
  have hql := perm_identity_length hq
  apply List.ext_getElem (by rw [hl, hql])
  intro j h1 h2
  have hj : j < c.depth := by rw [hl] at h1; omega
  have hjJ : j < J.toNat := by rw [hl] at h1; exact h1
  have e := hb j hj
  rw [← getD_take c.prmu J.toNat j hjJ, List.getD_eq_getElem _ _ h1,
    List.getD_eq_getElem _ _ h2] at e
  exact e.symm

theorem poolWeight_append (J : Nat) (a b : List Node) :
    poolWeight J (a ++ b) = poolWeight J a + poolWeight J b := by
  simp [poolWeight]

theorem poolWeight_children (J : Nat) (d : Nat) (f : Int → Node) (l : List Int)
    (h : ∀ i ∈ l, (f i).depth = d) :
    poolWeight J (l.map f) = l.length * (J + 1) ^ (J - d) := by
  induction l with
  | nil => simp [poolWeight]
  | cons i l ih =>
    have e := ih (fun j hj => h j (List.mem_cons_of_mem _ hj))
    simp only [poolWeight, List.map_cons, List.sum_cons, List.length_cons] at e ⊢
    rw [e, h i (List.mem_cons_self _ _)]
    ring

theorem eq_foldl_min (L : List Int) (b x : Int) (h1 : x ≤ b) (h2 : ∀ v ∈ L, x ≤ v)
    (h3 : x = b ∨ x ∈ L) : x = L.foldl min b := by
  apply le_antisymm
  · rcases foldl_min_mem L b with h | h
    · rw [h]; exact h1
    · exact h2 _ h
  · rcases h3 with h | h
    · rw [h]; exact foldl_min_le L b
    · exact foldl_min_le_of_mem L b x h

theorem searchInv_final (J : Int) (lb : List Int → Int → Int → Int) (b0 : Int)
    (s : Search SinglePool) (h : SearchInv J lb b0 s) (he : s.pool.contents = []) :
    s.best = optimum J lb b0 := by
  obtain ⟨_, _, h3, h4, h5⟩ := h
  unfold optimum
  apply eq_foldl_min _ _ _ h3
  · intro v hv
    obtain ⟨q, hq, rfl⟩ := List.mem_map.1 hv
    rcases h5 q (List.mem_permutations.1 hq) with h | ⟨n, hn, _⟩
    · exact h
    · rw [he] at hn
      cases hn
  · rcases h4 with h | ⟨q, hq, e⟩
    · left; exact h
    · right
      exact List.mem_map.2 ⟨q, List.mem_permutations.2 hq, e.symm⟩

theorem search_step (J : Int) (h1 : 1 ≤ J) (hJ : J ≤ 20) (lb : List Int → Int → Int → Int)
    (hadm : Admissible J lb) (b0 : Int) (s : Search SinglePool) (p1 : SinglePool)
    (xs : List Node) (parent : Node) (hs : SearchInv J lb b0 s)
    (hc : s.pool.contents = xs ++ [parent]) (hw : p1.WF) (hc1 : p1.contents = xs) :
    ∃ s2, decompose_lb1 SinglePool.push lb J parent { s with pool := p1 } = some s2 ∧
      SearchInv J lb b0 s2 ∧
      poolWeight J.toNat s2.pool.contents < poolWeight J.toNat s.pool.contents := by
  obtain ⟨_, g2, g3, g4, g5⟩ := hs
  have hpm : parent ∈ s.pool.contents := by rw [hc]; simp
  obtain ⟨hpi, hpd⟩ := g2 parent hpm
  have hxs : ∀ n ∈ xs, n ∈ s.pool.contents := fun n hn => by
    rw [hc]; exact List.mem_append_left _ hn
  have hmod : (parent.depth + 1) % 256 = parent.depth + 1 := by omega
  have hlim : parent.limit1 + 1 = (parent.depth : Int) := hpi.1.symm
  obtain ⟨s2, e, w2, a2, _⟩ := foldlM_dispose_spec SinglePool.push _ _ SinglePool.law
    ((((parent.depth + 1) % 256 : Nat) : Int) = J)
    (fun i _ => bound_lb1 lb J parent i) (child_fwd J parent)
    (idxs (parent.limit1 + 1) J) { s with pool := p1 } hw
  obtain ⟨b2, _, _⟩ := foldlM_dispose_any SinglePool.push _ (fun i _ => bound_lb1 lb J parent i)
    (child_fwd J parent) _ { s with pool := p1 } s2 e
  rw [examined_const] at b2
  simp only [hc1] at a2 b2
  have hwt : poolWeight J.toNat s.pool.contents
      = poolWeight J.toNat xs + (J.toNat + 1) ^ (J.toNat - parent.depth) := by
    rw [hc, poolWeight_append]
    simp [poolWeight]
  have hchild : ∀ i ∈ idxs (parent.limit1 + 1) J,
      NodeInv J (child_fwd J parent i) ∧ (child_fwd J parent i).depth = parent.depth + 1 :=
    fun i hi => child_fwd_inv J parent i hJ hpi (mem_idxs.1 hi).1 (mem_idxs.1 hi).2
  refine ⟨s2, by rw [decompose_lb1_eq]; exact e, ?_⟩
  by_cases hleaf : (((parent.depth + 1) % 256 : Nat) : Int) = J
  · rw [if_pos hleaf] at a2 b2
    rw [List.append_nil] at a2
    have hdJ : ((parent.depth + 1 : Nat) : Int) = J := by rw [← hmod]; exact hleaf
    have hle : s2.best ≤ s.best := by rw [b2]; exact foldl_min_le _ _
    refine ⟨⟨w2, ?_, hle.trans g3, ?_, ?_⟩, ?_⟩
    · intro n hn
      rw [a2] at hn
      exact g2 n (hxs n hn)
    · rcases foldl_min_mem ((idxs (parent.limit1 + 1) J).map (bound_lb1 lb J parent)) s.best
        with h | h
      · rw [← b2] at h
        rw [h]
        exact g4
      · rw [← b2] at h
        obtain ⟨i, hi, hv⟩ := List.mem_map.1 h
        right
        refine ⟨(child_fwd J parent i).prmu.take J.toNat, (hchild i hi).1.2, ?_⟩
        rw [← hv]
        show lb _ (parent.limit1 + 1) J = lb _ (J - 1) J
        have : parent.limit1 + 1 = J - 1 := by push_cast at hdJ; omega
        rw [this]
    · intro q hq
      rcases g5 q hq with h | ⟨n, hn, hb⟩
      · left; exact hle.trans h
      · rw [hc] at hn
        rcases List.mem_append.1 hn with hn | hn
        · right
          exact ⟨n, by rw [a2]; exact hn, hb⟩
        · have hnp : n = parent := by simpa using hn
          subst hnp
          obtain ⟨i, hi1, hi2, hbi⟩ := cover J hJ n q hpi hpd hq hb
          have hi : i ∈ idxs (n.limit1 + 1) J := mem_idxs.2 ⟨hi1, hi2⟩
          have hcl := leaf_eq J (child_fwd J n i) q (hchild i hi).1 hq
            (by rw [(hchild i hi).2]; exact hdJ) hbi
          left
          have hv : bound_lb1 lb J n i = lb q (J - 1) J := by
            show lb _ (n.limit1 + 1) J = lb _ (J - 1) J
            have : n.limit1 + 1 = J - 1 := by push_cast at hdJ; omega
            rw [this, hcl]
          rw [b2, ← hv]
          exact foldl_min_le_of_mem _ _ _ (List.mem_map.2 ⟨i, hi, rfl⟩)
    · rw [a2, hwt]
      have : 0 < (J.toNat + 1) ^ (J.toNat - parent.depth) := Nat.pow_pos (by omega)
      omega
  · rw [if_neg hleaf] at a2 b2
    simp only [List.foldl_nil] at b2
    have hdJ : ¬ (((parent.depth + 1 : Nat) : Int) = J) := by rw [← hmod]; exact hleaf
    have hdlt : (parent.depth : Int) + 1 < J := by push_cast at hdJ; omega
    refine ⟨⟨w2, ?_, by rw [b2]; exact g3, by rw [b2]; exact g4, ?_⟩, ?_⟩
    · intro n hn
      rw [a2] at hn
      rcases List.mem_append.1 hn with hn | hn
      · exact g2 n (hxs n hn)
      · obtain ⟨i, hi, rfl⟩ := List.mem_map.1 hn
        have hi := (List.mem_filter.1 hi).1
        refine ⟨(hchild i hi).1, ?_⟩
        rw [(hchild i hi).2]
        push_cast
        omega
    · intro q hq
      rcases g5 q hq with h | ⟨n, hn, hb⟩
      · left; rw [b2]; exact h
      · rw [hc] at hn
        rcases List.mem_append.1 hn with hn | hn
        · right
          exact ⟨n, by rw [a2]; exact List.mem_append_left _ hn, hb⟩
        · have hnp : n = parent := by simpa using hn
          subst hnp
          obtain ⟨i, hi1, hi2, hbi⟩ := cover J hJ n q hpi hpd hq hb
          have hi : i ∈ idxs (n.limit1 + 1) J := mem_idxs.2 ⟨hi1, hi2⟩
          by_cases hlt : bound_lb1 lb J n i < s.best
          · right
            refine ⟨child_fwd J n i, ?_, hbi⟩
            rw [a2]
            apply List.mem_append_right
            exact List.mem_map.2 ⟨i, List.mem_filter.2 ⟨hi, decide_eq_true hlt⟩, rfl⟩
          · left
            rw [b2]
            refine (not_lt.mp hlt).trans ?_
            show lb _ (n.limit1 + 1) J ≤ lb q (J - 1) J
            apply hadm _ q _ (by omega) (by omega) (hchild i hi).1.2 hq
            intro j hj
            rw [getD_take _ _ _ (by omega)]
            exact (hbi j (by rw [(hchild i hi).2]; omega)).symm
    · rw [a2, hwt, poolWeight_append,
        poolWeight_children J.toNat (parent.depth + 1) (child_fwd J parent) _
          (fun i hi => (hchild i (List.mem_filter.1 hi).1).2)]
      have hpow : (J.toNat + 1) ^ (J.toNat - parent.depth)
          = (J.toNat + 1) * (J.toNat + 1) ^ (J.toNat - (parent.depth + 1)) := by
        have : J.toNat - parent.depth = (J.toNat - (parent.depth + 1)) + 1 := by omega
        rw [this, pow_succ]
        ring
      have hX : 0 < (J.toNat + 1) ^ (J.toNat - (parent.depth + 1)) := Nat.pow_pos (by omega)
      rw [hpow]
      apply Nat.add_lt_add_left
      apply mul_lt_mul_of_pos_right ?_ hX
      exact Nat.lt_succ_of_le ((List.length_filter_le _ _).trans (by rw [idxs_length]; omega))

theorem search_loop (B : Bounds) (J : Int) (h1 : 1 ≤ J) (hJ : J ≤ 20)
    (hadm : Admissible J B.lb1_bound) (b0 : Int) :
    ∀ (fuel : Nat) (s : Search SinglePool), SearchInv J B.lb1_bound b0 s →
      poolWeight J.toNat s.pool.contents < fuel →
      ∃ s1, pfsp_search_loop B J 1 fuel s = some s1 ∧
        s1.best = optimum J B.lb1_bound b0 ∧ s1.pool.size = 0 := by
  intro fuel
  induction fuel with
  | zero =>
    intro s _ h
    omega
  | succ f ih =>
    intro s hs hw
    rcases List.eq_nil_or_concat s.pool.contents with hnil | ⟨xs, parent, hc⟩
    · have hsz : s.pool.size = 0 := (SinglePool.contents_nil_iff _ hs.1).1 hnil
      have hpop := SinglePool.popBack_empty s.pool 0 (by omega)
      refine ⟨s, ?_, searchInv_final J _ b0 s hs hnil, hsz⟩
      simp only [pfsp_search_loop, hpop, if_true]
    · rw [List.concat_eq_append] at hc
      obtain ⟨e1, e2, w, c, _⟩ := SinglePool.popBack_snoc s.pool 0 xs parent hs.1 hc
      obtain ⟨s2, e, i2, lt⟩ :=
        search_step J h1 hJ B.lb1_bound hadm b0 s (s.pool.popBack 0).2.2 xs parent hs hc w c
      obtain ⟨s1, r1, r2, r3⟩ := ih s2 i2 (by omega)
      refine ⟨s1, ?_, r2, r3⟩
      have hd : decompose SinglePool.push B J 1 parent { s with pool := (s.pool.popBack 0).2.2 }
          = some s2 := by
        simp only [decompose, if_true]
        exact e
      simp only [pfsp_search_loop, e1, e2, one_ne_zero, if_false, hd, Option.bind_some]
      exact r1

/-- C1 (completeness of the sequential search).  For a job count `1 ≤ J ≤ 20`, an
initial incumbent `b0` and an admissible bound `lb1_bound`, the search of `pfsp_c.c`
with `lb = 1` (push the root, then `popBack` and `decompose_lb1` until the pool is
empty) returns as soon as it is given enough iterations, with an empty pool and with
`best` equal to the minimum of `b0` and of the leaf bound values of all the `J!` complete
permutations. -/
theorem search_complete (B : Bounds) (J : Int) (b0 : Int) (t0 n0 : Nat) (h1 : 1 ≤ J)
    (hJ : J ≤ 20) (hadm : Admissible J B.lb1_bound) :
    (identity J).permutations.length = J.toNat.factorial ∧
    ∃ N, ∀ fuel, N ≤ fuel → ∃ s, pfsp_search B J 1 b0 t0 n0 fuel = some s ∧
      s.best = ((identity J).permutations.map (fun q => B.lb1_bound q (J - 1) J)).foldl min b0 ∧
      s.pool.size = 0 := by
  refine ⟨by rw [List.length_permutations, identity_length], ?_⟩
  have hri := initRoot_inv J hJ
  obtain ⟨rd0, _, _, _⟩ := initRoot_spec J hJ
  obtain ⟨w, c, _⟩ := SinglePool.pushBack_spec initSinglePool (initRoot indet J) initSinglePool_wf
  rw [initSinglePool_contents, List.nil_append] at c
  have hinv : SearchInv J B.lb1_bound b0
      { best := b0, tree_loc := t0, num_sol := n0,
        pool := initSinglePool.pushBack (initRoot indet J) } := by
    refine ⟨w, ?_, le_refl _, Or.inl rfl, ?_⟩
    · intro n hn
      rw [c] at hn
      have : n = initRoot indet J := by simpa using hn
      subst this
      exact ⟨hri, by rw [rd0]; push_cast; omega⟩
    · intro q _
      right
      refine ⟨initRoot indet J, by rw [c]; simp, ?_⟩
      intro j hj
      rw [rd0] at hj
      omega
  refine ⟨poolWeight J.toNat (initSinglePool.pushBack (initRoot indet J)).contents + 1, ?_⟩
  intro fuel hf
  obtain ⟨s1, e, b, z⟩ := search_loop B J h1 hJ hadm b0 fuel _ hinv (by simp only; omega)
  exact ⟨s1, e, b, z⟩

theorem sample_sum_congr (p q : List Int) (n : Nat)
    (h : ∀ j : Nat, j < n → p.getD j 0 = q.getD j 0) :
    (List.range n).foldl (fun (acc : Int) (j : Nat) => acc + ((j : Int) + 1) * p.getD j 0) 0
      = (List.range n).foldl (fun (acc : Int) (j : Nat) => acc + ((j : Int) + 1) * q.getD j 0) 0 := by
  induction n with
  | zero => rfl
  | succ n ih =>
    rw [List.range_succ, List.foldl_append, List.foldl_append,
      ih (fun j hj => h j (by omega))]
    simp only [List.foldl_cons, List.foldl_nil, h n (by omega)]

theorem sample_sum_mono (q : List Int) (hq : ∀ j : Nat, 0 ≤ q.getD j 0) (n m : Nat) (h : n ≤ m) :
    (List.range n).foldl (fun (acc : Int) (j : Nat) => acc + ((j : Int) + 1) * q.getD j 0) 0
      ≤ (List.range m).foldl (fun (acc : Int) (j : Nat) => acc + ((j : Int) + 1) * q.getD j 0) 0 := by
  induction m with
  | zero =>
    have : n = 0 := by omega
    subst this
    exact le_refl _
  | succ m ih =>
    rcases Nat.lt_or_ge n (m + 1) with hlt | hge
    · refine (ih (by omega)).trans ?_
      rw [List.range_succ, List.foldl_append]
      simp only [List.foldl_cons, List.foldl_nil]
      have := hq m
      have : 0 ≤ ((m : Int) + 1) * q.getD m 0 := mul_nonneg (by omega) this
      omega
    · have : n = m + 1 := by omega
      subst this
      exact le_refl _

theorem sampleBounds_admissible (J : Int) : Admissible J sampleBounds.lb1_bound := by
  intro p q k hk0 hk _ hq hagree
  show (List.range (k + 1).toNat).foldl _ 0 ≤ (List.range (J - 1 + 1).toNat).foldl _ 0
  rw [sample_sum_congr p q _ (fun j hj => hagree j (by omega))]
  apply sample_sum_mono q _ _ _ (by omega)
  intro j
  rw [List.getD_eq_getElem?_getD]
  cases hj : q[j]? with
  | none => simp
  | some v =>
    have hv : v ∈ q := List.getElem?_mem hj
    have hv2 : v ∈ identity J := hq.mem_iff.1 hv
    unfold identity at hv2
    obtain ⟨a, _, rfl⟩ := List.mem_map.1 hv2
    simp

/-- Instance of C1: a 3-job instance with the bounds `sampleBounds` and `b0 = 100`. -/
theorem search_complete_witness :
    ((1 : Int) ≤ 3 ∧ (3 : Int) ≤ 20 ∧ Admissible 3 sampleBounds.lb1_bound) ∧
    (identity 3).permutations.length = (3 : Int).toNat.factorial ∧
    ∃ N, ∀ fuel, N ≤ fuel → ∃ s, pfsp_search sampleBounds 3 1 100 0 0 fuel = some s ∧
      s.best = ((identity 3).permutations.map
        (fun q => sampleBounds.lb1_bound q (3 - 1) 3)).foldl min 100 ∧
      s.pool.size = 0 :=
  ⟨⟨by decide, by decide, sampleBounds_admissible 3⟩,
    search_complete sampleBounds 3 100 0 0 (by decide) (by decide) (sampleBounds_admissible 3)⟩

/-! ## Claims on the command-line parameters -/

/-- C16 fails on the code: with the options `--M 30 --m 50` the function
`parse_parameters` of `pfsp_multigpu_cuda.c` returns with `m = 50` and `M = 30`, the
test `value < *m` of the case `'M'` having seen the default `m = 25`; and with the
single option `--m 60000` the function of `pfsp_dist_multigpu_cuda.c` returns with
`m = 60000` and the default `M = 50000`. -/
theorem parse_parameters_order :
    parse_parameters [('M', 30), ('m', 50)]
      = some { inst := 14, lb := 1, ub := 1, m := 50, M := 30, D := 1 } ∧
    parse_parameters_dist [('M', 30), ('m', 50)]
      = some { inst := 14, lb := 1, ub := 1, m := 50, M := 30, D := 1 } ∧
    parse_parameters_dist [('m', 60000)]
      = some { inst := 14, lb := 1, ub := 1, m := 60000, M := 50000, D := 1 } := by
  refine ⟨by decide, by decide, by decide⟩

/-- C17 as stated fails: the function `parse_parameters` of `pfsp_multigpu_cuda.c`
ends the program on the options `--m 10000 --M 50000`. -/
theorem parse_m_counterexample :
    parse_parameters [('m', 10000), ('M', 50000)] = none := by decide

/-- C17 as amended (domain of `--m`).  For the options `--m v --M w` with
`1 ≤ v ≤ w`: the function of `pfsp_dist_multigpu_cuda.c` returns with `m = v` and
`M = w`; the function of `pfsp_multigpu_cuda.c` does so when `v ≤ 100` and ends the
program when `v > 100`. -/
theorem parse_m_domain (v w : Int) (hv : 1 ≤ v) (hw : v ≤ w) :
    parse_parameters_dist [('m', v), ('M', w)]
      = some { inst := 14, lb := 1, ub := 1, m := v, M := w, D := 1 } ∧
    (v ≤ 100 → parse_parameters [('m', v), ('M', w)]
      = some { inst := 14, lb := 1, ub := 1, m := v, M := w, D := 1 }) ∧
    (100 < v → parse_parameters [('m', v), ('M', w)] = none) := by
  have h1 : ¬ v < 1 := by omega
  have h2 : ¬ w < v := by omega
  refine ⟨?_, fun h => ?_, fun h => ?_⟩
  · simp [parse_parameters_dist, defaultParams, h1, h2]
  · have h3 : ¬ (v < 1 ∨ v > 100) := by omega
    simp [parse_parameters, defaultParams, h3, h2]
  · have h3 : v < 1 ∨ v > 100 := by omega
    simp [parse_parameters, defaultParams, h3]

/-- Instance of C17 as amended: `--m 10000 --M 50000` in the distributed variant and
`--m 100 --M 50000` in `pfsp_multigpu_cuda.c`. -/
theorem parse_m_domain_witness :
    parse_parameters_dist [('m', 10000), ('M', 50000)]
      = some { inst := 14, lb := 1, ub := 1, m := 10000, M := 50000, D := 1 } ∧
    parse_parameters [('m', 100), ('M', 50000)]
      = some { inst := 14, lb := 1, ub := 1, m := 100, M := 50000, D := 1 } :=
  ⟨(parse_m_domain 10000 50000 (by decide) (by decide)).1,
    (parse_m_domain 100 50000 (by decide) (by decide)).2.1 (by decide)⟩

/-! ## Claim on the critical section of a steal -/

theorem foldl_wr_length {α : Type} (f : Int → α) (l : List Int) (p : List α) :
    (l.foldl (fun p i => wr p i (f i)) p).length = p.length := by
  induction l generalizing p with
  | nil => rfl
  | cons x xs ih => rw [List.foldl_cons, ih, wr_length]

/-- C20 (the `DEADCODE` check is unreachable).  For `m ≥ 1`, in both variants, a thief
that holds the lock of a victim never takes the branch that prints `DEADCODE`; when
the victim has `size ≥ 2m`, `popBackBulkFree` hands it a block (not `NULL`) of
`size / 2` nodes, and this count is at least `m`, hence at least 1. -/
theorem deadcode_unreachable (victim : SinglePool_ext) (m M : Int) (hm : 1 ≤ m) :
    (steal_section victim m M).deadcode = false ∧
    (steal_section_dist victim m M).deadcode = false ∧
    (2 * m ≤ victim.size →
      ∃ p, (steal_section victim m M).stolen = some (some p, victim.size / 2) ∧
        (steal_section_dist victim m M).stolen = some (some p, victim.size / 2) ∧
        (p.length : Int) = victim.size / 2 ∧ m ≤ victim.size / 2 ∧ 1 ≤ victim.size / 2) := by
  by_cases h : victim.size ≥ 2 * m
  · have htd : Int.tdiv victim.size 2 = victim.size / 2 :=
      Int.tdiv_eq_ediv (by omega) (by decide)
    have hne : ¬ (victim.size / 2 = 0) := by omega
    have hne2 : ¬ (victim.size = 0) := by omega
    refine ⟨?_, ?_, fun _ => ⟨(idxs 0 (victim.size / 2)).foldl
      (fun p i => wr p i (rd indet victim.elements
        ((victim.front + (victim.size - victim.size / 2)) + i)))
      (List.replicate (victim.size / 2).toNat indet), ?_, ?_, ?_, by omega, by omega⟩⟩
    · simp [steal_section, SinglePool_ext.popBackBulkFree, h, htd, hne]
    · simp [steal_section_dist, SinglePool_ext.popBackBulkFree, h, hne2]
    · simp only [steal_section, SinglePool_ext.popBackBulkFree, h, htd, if_true]
    · simp only [steal_section_dist, SinglePool_ext.popBackBulkFree, h, htd, if_true]
    · rw [foldl_wr_length, List.length_replicate]
      omega
  · refine ⟨by simp [steal_section, h], by simp [steal_section_dist, h], fun h2 => absurd h2 h⟩

/-- Instance of C20: with `m = 1` a thief that locks a pool of three nodes takes the
last one and does not reach the `DEADCODE` branch, in either variant. -/
theorem deadcode_unreachable_witness :
    (1 : Int) ≤ 1 ∧
    (steal_section samplePool_ext 1 5).deadcode = false ∧
    (steal_section_dist samplePool_ext 1 5).deadcode = false ∧
    (steal_section samplePool_ext 1 5).stolen = some (some [sampleNode 3], 1) ∧
    (steal_section_dist samplePool_ext 1 5).stolen = some (some [sampleNode 3], 1) :=
  ⟨by decide, (deadcode_unreachable samplePool_ext 1 5 (by decide)).1,
    (deadcode_unreachable samplePool_ext 1 5 (by decide)).2.1, by rfl, by rfl⟩

/-! ## The bulk push of `pfsp_multi_gpu_cuda.c` -/

theorem foldl_wr_at_length {α : Type} (g : Int → Int) (f : Int → α) (l : List Int)
    (p : List α) : (l.foldl (fun p i => wr p (g i) (f i)) p).length = p.length := by
  induction l generalizing p with
  | nil => rfl
  | cons x xs ih => rw [List.foldl_cons, ih, wr_length]

/-- The loop `for (i = 0; i < k; i++) dst[off + i] = src[i]` on a block `dst` that
holds the indices `off, ..., off + k - 1`. -/
theorem store_loop {α : Type} (d : α) (src dst : List α) (off k : Nat)
    (hk : k ≤ src.length) (hd : off + k ≤ dst.length) :
    (idxs 0 (k : Int)).foldl (fun e i => wr e ((off : Int) + i) (rd d src i)) dst
      = dst.take off ++ src.take k ++ dst.drop (off + k) := by
  induction k with
  | zero => simp [idxs]
  | succ k ih =>
    have e : ((k + 1 : Nat) : Int) = (k : Int) + 1 := by push_cast; rfl
    rw [e, idxs_snoc (by omega), List.foldl_append, ih (by omega) (by omega)]
    simp only [List.foldl_cons, List.foldl_nil]
    rw [show (off : Int) + (k : Int) = ((off + k : Nat) : Int) by push_cast; rfl, wr_natCast,
      rd_natCast]
    have hl1 : (dst.take off ++ src.take k).length = off + k := by
      rw [List.length_append, List.length_take, List.length_take]; omega
    rw [List.set_append, if_neg (by omega), hl1, Nat.sub_self,
      take_succ_getD src k d (by omega)]
    have hdd : dst.drop (off + k) = dst.getD (off + k) d :: dst.drop (off + k + 1) := by
      rw [List.getD_eq_getElem _ _ (by omega)]
      exact List.drop_eq_getElem_cons (by omega)
    rw [hdd, List.set_cons_zero]
    simp [Nat.add_assoc]

/-- What `pushBackBulk` returns on a well-formed unlocked pool, whatever the size of the
batch: the capacity is doubled at most once. -/
theorem SinglePool_ext.ext_pushBackBulk_shape (p nodes : SinglePool_ext) (h : p.WF)
    (hl : p.lock = false) :
    ∃ q, p.pushBackBulk nodes = some q ∧
      q.capacity = (if p.front + p.size ≥ p.capacity then p.capacity * 2 else p.capacity) ∧
      (q.elements.length : Int) = q.capacity ∧ q.size = p.size + nodes.size ∧
      q.front = p.front ∧ q.lock = false := by
  obtain ⟨els, cap, fr, sz, lk⟩ := p
  obtain ⟨h1, hf, h2, h3, h4⟩ := h
  simp only at h1 hf h2 h3 h4 hl
  subst hl
  obtain ⟨c, rfl⟩ := Int.eq_ofNat_of_zero_le h1.le
  have hlen : els.length = c := by exact_mod_cast h4
  by_cases hfull : fr + sz ≥ (c : Int)
  · refine ⟨_, (by
      simp only [SinglePool_ext.pushBackBulk, Bool.false_eq_true, if_false, hfull, if_true]
      rfl), ?_⟩
    simp only [hfull, if_true, foldl_wr_at_length, realloc_double els c hlen,
      List.length_append, List.length_replicate, hlen]
    refine ⟨trivial, by push_cast; omega, trivial, trivial, trivial⟩
  · refine ⟨_, (by
      simp only [SinglePool_ext.pushBackBulk, Bool.false_eq_true, if_false, hfull]
      rfl), ?_⟩
    simp only [hfull, if_false, foldl_wr_at_length, hlen]
    exact ⟨trivial, trivial, trivial, trivial, trivial⟩

theorem drop_take_store {α : Type} (dst src rest : List α) (f s k : Nat)
    (hd : f + s ≤ dst.length) (hk : k ≤ src.length) :
    ((dst.take (f + s) ++ src.take k ++ rest).drop f).take (s + k)
      = (dst.drop f).take s ++ src.take k := by
  have h1 : (dst.take (f + s)).drop f = (dst.drop f).take s := by
    rw [List.drop_take, Nat.add_sub_cancel_left]
  have h2 : ((dst.drop f).take s).length = s := by
    rw [List.length_take, List.length_drop]; omega
  have h3 : (src.take k).length = k := by rw [List.length_take]; omega
  rw [List.append_assoc, List.drop_append_of_le_length (by rw [List.length_take]; omega), h1,
    ← List.append_assoc, List.take_append_of_le_length (by rw [List.length_append, h2, h3]),
    List.take_of_length_le (by rw [List.length_append, h2, h3])]

/-- The function `pushBackBulk` appends the batch when the batch fits in the block
after the single test of the capacity. -/
theorem SinglePool_ext.ext_pushBackBulk_spec (p nodes : SinglePool_ext) (h : p.WF)
    (hl : p.lock = false) (hs : 0 ≤ nodes.size)
    (hn : nodes.size ≤ (nodes.elements.length : Int))
    (hfit : p.front + p.size + nodes.size
      ≤ (if p.front + p.size ≥ p.capacity then p.capacity * 2 else p.capacity)) :
    ∃ q, p.pushBackBulk nodes = some q ∧ q.WF ∧ q.lock = false ∧
      q.contents = p.contents ++ nodes.elements.take nodes.size.toNat ∧
      q.size = p.size + nodes.size ∧ q.front = p.front := by
  obtain ⟨els, cap, fr, sz, lk⟩ := p
  obtain ⟨nels, ncap, nfr, nsz, nlk⟩ := nodes
  obtain ⟨h1, hf, h2, h3, h4⟩ := h
  simp only at h1 hf h2 h3 h4 hl hs hn hfit
  subst hl
  obtain ⟨s, rfl⟩ := Int.eq_ofNat_of_zero_le h2
  obtain ⟨f, rfl⟩ := Int.eq_ofNat_of_zero_le hf
  obtain ⟨c, rfl⟩ := Int.eq_ofNat_of_zero_le h1.le
  obtain ⟨k, rfl⟩ := Int.eq_ofNat_of_zero_le hs
  have hlen : els.length = c := by exact_mod_cast h4
  have hk : k ≤ nels.length := by exact_mod_cast hn
  have e0 : (f : Int) + (s : Int) = ((f + s : Nat) : Int) := by push_cast; rfl
  have e1 : ((s : Int) + (k : Int)).toNat = s + k := by omega
  by_cases hfull : (f : Int) + (s : Int) ≥ (c : Int)
  · rw [if_pos hfull] at hfit
    refine ⟨_, (by
      simp only [SinglePool_ext.pushBackBulk, Bool.false_eq_true, if_false, hfull, if_true]
      rfl), ?_⟩
    simp only [SinglePool_ext.WF, SinglePool_ext.contents, realloc_double els c hlen, e0,
      foldl_wr_at_length, List.length_append, List.length_replicate, Int.toNat_ofNat, e1, hlen]
    refine ⟨⟨by omega, by omega, by omega, by omega, by push_cast; omega⟩, trivial, ?_, trivial,
      trivial⟩
    have hl2 : (els ++ List.replicate c indet).length = c + c := by
      rw [List.length_append, List.length_replicate, hlen]
    rw [store_loop indet nels (els ++ List.replicate c indet) (f + s) k hk (by rw [hl2]; omega),
      drop_take_store (els ++ List.replicate c indet) _ _ f s k (by rw [hl2]; omega) hk,
      List.drop_append_of_le_length (by omega),
      List.take_append_of_le_length (by rw [List.length_drop]; omega)]
  · rw [if_neg hfull] at hfit
    refine ⟨_, (by
      simp only [SinglePool_ext.pushBackBulk, Bool.false_eq_true, if_false, hfull]
      rfl), ?_⟩
    simp only [SinglePool_ext.WF, SinglePool_ext.contents, e0, foldl_wr_at_length,
      Int.toNat_ofNat, e1, hlen]
    refine ⟨⟨by omega, by omega, by omega, by omega, trivial⟩, trivial, ?_, trivial, trivial⟩
    rw [store_loop indet nels els (f + s) k hk (by omega),
      drop_take_store els _ _ f s k (by omega) hk]

/-- C11 fails on the code: `pushBackBulk` tests the capacity once, so a batch larger
than the free part of the block is not appended whole.  On the pool that
`initSinglePool` returns (capacity 1024, empty) and a batch of 1025 nodes
`sampleNode 1`, the call returns a pool with `size = 1025` in a block of 1024 nodes:
only 1024 valid nodes are stored, and the next `popBack` returns the contents of
`elements[1024]`, which is not a node of the batch. -/
theorem pushBackBulk_overflow :
    ∃ q, initSinglePool_ext.pushBackBulk sampleBatch = some q ∧
      q.capacity = 1024 ∧ q.elements.length = 1024 ∧ q.size = 1025 ∧ q.front = 0 ∧
      q.contents.length = 1024 ∧
      (∃ n r, q.popBack 0 = some (n, 1, r) ∧ n ∉ sampleBatch.contents) := by
  have hwf : initSinglePool_ext.WF := by
    refine ⟨by decide, by decide, by decide, by decide, ?_⟩
    show ((List.replicate CAPACITY.toNat indet).length : Int) = CAPACITY
    rw [List.length_replicate]; decide
  obtain ⟨q, e, hc, hlen, hs, hf, hl⟩ :=
    SinglePool_ext.ext_pushBackBulk_shape initSinglePool_ext sampleBatch hwf rfl
  obtain ⟨els, cap, fr, sz, lk⟩ := q
  simp only at hc hlen hs hf hl
  have hc2 : cap = 1024 := by rw [hc]; decide
  have hs2 : sz = 1025 := by rw [hs]; decide
  have hf2 : fr = 0 := by rw [hf]; rfl
  subst hc2 hs2 hf2 hl
  have hlen2 : els.length = 1024 := by exact_mod_cast hlen
  refine ⟨_, e, rfl, hlen2, rfl, rfl, ?_, indet,
    { elements := els, capacity := 1024, front := 0, size := 1024, lock := false }, ?_, ?_⟩
  · simp only [SinglePool_ext.contents]
    rw [List.length_take, List.length_drop, hlen2]
    decide
  · simp only [SinglePool_ext.popBack, Bool.false_eq_true, if_false]
    rw [if_pos (by decide)]
    have : rd indet els ((0 : Int) + (1025 - 1)) = indet := by
      rw [show (0 : Int) + (1025 - 1) = ((1024 : Nat) : Int) by decide, rd_natCast,
        List.getD_eq_default _ _ (by omega)]
    simp only [this]
    rfl
  · intro hmem
    have h2 : sampleBatch.contents = List.replicate 1025 (sampleNode 1) := by
      simp only [SinglePool_ext.contents, sampleBatch]
      rw [show (0 : Int).toNat = 0 by rfl, show (1025 : Int).toNat = 1025 by rfl, List.drop_zero,
        List.take_append_of_le_length (by rw [List.length_replicate]),
        List.take_of_length_le (by rw [List.length_replicate])]
    rw [h2] at hmem
    have := List.eq_of_mem_replicate hmem
    exact absurd this (by decide)

/-! ## Reassembly of the residual pools -/

theorem gather_displs_loop (recvcounts : List Int) (d0 : List Int) (k : Nat)
    (hk : k ≤ d0.length) :
    ∃ d, (idxs 0 (k : Int)).foldl
        (fun (st : List Int × Int) i => (wr st.1 i st.2, st.2 + rd 0 recvcounts i)) (d0, 0)
        = (d, ((List.range k).map (fun r => recvcounts.getD r 0)).sum) ∧
      d.length = d0.length ∧
      ∀ r, r < k → d.getD r 0 = ((List.range r).map (fun r => recvcounts.getD r 0)).sum := by
  induction k with
  | zero => exact ⟨d0, by simp [idxs], rfl, fun r h => absurd h (by omega)⟩
  | succ k ih =>
    obtain ⟨d, e, hl, hd⟩ := ih (by omega)
    have ek : ((k + 1 : Nat) : Int) = (k : Int) + 1 := by push_cast; rfl
    refine ⟨d.set k (((List.range k).map (fun r => recvcounts.getD r 0)).sum), ?_, ?_, ?_⟩
    · rw [ek, idxs_snoc (by omega), List.foldl_append, e]
      simp only [List.foldl_cons, List.foldl_nil, wr_natCast, rd_natCast]
      rw [List.range_succ, List.map_append, List.sum_append]
      simp
    · rw [List.length_set, hl]
    · intro r hr
      by_cases h : r = k
      · subst h
        rw [List.getD_eq_getElem?_getD, List.getElem?_set_self (by omega)]
        rfl
      · rw [List.getD_eq_getElem?_getD, List.getElem?_set_ne (by omega),
          ← List.getD_eq_getElem?_getD]
        exact hd r (by omega)

theorem gather_size_loop (recvcounts : List Int) (s0 : Int) (k : Nat) :
    (idxs 0 (k : Int)).foldl (fun (s : Int) i => s + rd 0 recvcounts i) s0
      = s0 + ((List.range k).map (fun r => recvcounts.getD r 0)).sum := by
  induction k with
  | zero => simp [idxs]
  | succ k ih =>
    have ek : ((k + 1 : Nat) : Int) = (k : Int) + 1 := by push_cast; rfl
    rw [ek, idxs_snoc (by omega), List.foldl_append, ih]
    simp only [List.foldl_cons, List.foldl_nil, rd_natCast]
    rw [List.range_succ, List.map_append, List.sum_append]
    simp [add_assoc]

/-- The counts of the reassembly: `displs[r]` is the sum of the sizes of the pools of
the ranks below `r`, and `total_size` and the growth of the size of the master pool are
the sum of all the sizes. -/
theorem gather_pools_counts (locales : List SinglePool_ext) (pool : SinglePool_ext) :
    (gather_pools locales pool).total_size = (locales.map (fun p => p.size)).sum ∧
    (gather_pools locales pool).pool.size = pool.size + (locales.map (fun p => p.size)).sum ∧
    (gather_pools locales pool).displs.length = locales.length ∧
    ∀ r, r < locales.length →
      (gather_pools locales pool).displs.getD r 0
        = ((locales.take r).map (fun p => p.size)).sum := by
  have hsum : ∀ r, r ≤ locales.length →
      ((List.range r).map (fun r => (locales.map (fun p => p.size)).getD r 0)).sum
        = ((locales.take r).map (fun p => p.size)).sum := by
    intro r hr
    congr 1
    apply List.ext_getElem?
    intro i
    rw [List.getElem?_map, List.getElem?_map]
    by_cases hi : i < r
    · rw [List.getElem?_range hi, List.getElem?_take_of_lt hi,
        List.getElem?_eq_getElem (by omega)]
      simp only [Option.map_some']
      rw [List.getD_eq_getElem _ _ (by rw [List.length_map]; omega), List.getElem_map]
    · rw [List.getElem?_eq_none (by rw [List.length_range]; omega),
        List.getElem?_eq_none (by rw [List.length_take]; omega)]
      rfl
  obtain ⟨d, e, hl, hd⟩ := gather_displs_loop (locales.map (fun p => p.size))
    (List.replicate locales.length 0) locales.length (by rw [List.length_replicate])
  have e2 : gather_displs (locales.length : Int) (locales.map (fun p => p.size))
      = (d, ((List.range locales.length).map
          (fun r => (locales.map (fun p => p.size)).getD r 0)).sum) := by
    rw [← e]
    simp only [gather_displs, Int.toNat_ofNat]
  have hfull := hsum locales.length (le_refl _)
  rw [List.take_length] at hfull
  refine ⟨?_, ?_, ?_, ?_⟩
  · simp only [gather_pools, e2, hfull]
  · simp only [gather_pools, gather_size_loop, hfull]
  · simp only [gather_pools, e2, hl, List.length_replicate]
  · intro r hr
    simp only [gather_pools, e2]
    rw [hd r hr, hsum r (by omega)]

/-- C13 fails on the code: `MPI_Gatherv` is called with the datatype `MPI_INTEGER` and
with counts and displacements that count nodes, so rank `r` transmits `size_r` integers,
not `size_r` nodes.  With two ranks that each hold one residual node (the children of
the root of a 3-job instance built for `i = 1` and `i = 2`), `displs` is `[0, 1]` and
the master pool gets size 2, but its contents are not the two residual nodes: node 0
holds the first word of each of them and node 1 is unwritten. -/
theorem gather_pools_words :
    (gather_pools [sampleLocale (child_fwd 3 (initRoot indet 3) 1),
        sampleLocale (child_fwd 3 (initRoot indet 3) 2)] initSinglePool_ext).displs = [0, 1] ∧
    (gather_pools [sampleLocale (child_fwd 3 (initRoot indet 3) 1),
        sampleLocale (child_fwd 3 (initRoot indet 3) 2)] initSinglePool_ext).pool.size = 2 ∧
    (gather_pools [sampleLocale (child_fwd 3 (initRoot indet 3) 1),
        sampleLocale (child_fwd 3 (initRoot indet 3) 2)] initSinglePool_ext).pool.contents
      = [⟨1, 1, List.replicate 20 0⟩, indet] ∧
    (gather_pools [sampleLocale (child_fwd 3 (initRoot indet 3) 1),
        sampleLocale (child_fwd 3 (initRoot indet 3) 2)] initSinglePool_ext).pool.contents
      ≠ (sampleLocale (child_fwd 3 (initRoot indet 3) 1)).contents
        ++ (sampleLocale (child_fwd 3 (initRoot indet 3) 2)).contents := by
  refine ⟨by decide, by decide, by decide, by decide⟩

/-! ## Partition of the seed pool -/

/-- The loop `for (i = a; i < a + k; i++) dst[i] = h(i)` on a block that holds the
indices below `a + k`. -/
theorem tab_loop {α : Type} (h : Int → α) (dst : List α) (a k : Nat)
    (hd : a + k ≤ dst.length) :
    (idxs (a : Int) ((a + k : Nat) : Int)).foldl (fun e i => wr e i (h i)) dst
      = dst.take a ++ (List.range k).map (fun (j : Nat) => h ((a : Int) + (j : Int)))
          ++ dst.drop (a + k) := by
  induction k with
  | zero => simp [idxs]
  | succ k ih =>
    have e : ((a + (k + 1) : Nat) : Int) = ((a + k : Nat) : Int) + 1 := by push_cast; ring
    rw [e, idxs_snoc (by push_cast; omega), List.foldl_append, ih (by omega)]
    simp only [List.foldl_cons, List.foldl_nil, wr_natCast]
    have hl1 : (dst.take a ++ (List.range k).map
        (fun (j : Nat) => h ((a : Int) + (j : Int)))).length = a + k := by
      rw [List.length_append, List.length_take, List.length_map, List.length_range]; omega
    rw [List.set_append, if_neg (by omega), hl1, Nat.sub_self]
    have hdd : dst.drop (a + k) = dst[a + k] :: dst.drop (a + k + 1) :=
      List.drop_eq_getElem_cons (by omega)
    rw [hdd, List.set_cons_zero, List.range_succ, List.map_append]
    simp [Nat.add_assoc]

/-- The fields of the pool that `chunk` returns, whatever the sizes: `size` grows by `c`,
and by `l - c` more for the last task, and the block keeps its length. -/
theorem chunk_shape (elements : List Node) (f c l D gpuID : Int) (p : SinglePool_ext) :
    (chunk elements f c l D gpuID p).elements.length = p.elements.length ∧
    (chunk elements f c l D gpuID p).size
      = (if gpuID = D - 1 then p.size + c + (l - c) else p.size + c) ∧
    (chunk elements f c l D gpuID p).capacity = p.capacity ∧
    (chunk elements f c l D gpuID p).front = p.front ∧
    (chunk elements f c l D gpuID p).lock = p.lock := by
  unfold chunk
  by_cases h : gpuID = D - 1
  · simp only [h, if_true, foldl_wr_at_length]
    exact ⟨trivial, trivial, trivial, trivial, trivial⟩
  · simp only [h, if_false, foldl_wr_at_length]
    exact ⟨trivial, trivial, trivial, trivial, trivial⟩

/-- The indices that the partition gives to the task `g` of `G`, for a frontier of `n`
nodes, relative to the front. -/
theorem chunk_indices_perm (n G : Nat) (hG : 0 < G) :
    List.Perm
      ((List.range G).flatMap (fun g =>
        (List.range (n / G)).map (fun i => g + i * G)
          ++ (if g = G - 1 then (List.range (n - G * (n / G))).map (fun j => G * (n / G) + j)
              else [])))
      (List.range n) := by
  have hqn : G * (n / G) ≤ n := Nat.mul_div_le n G
  generalize hc : n / G = c at hqn
  have hmul : ∀ i, i < c → i * G + G ≤ G * c := by
    intro i hi
    have : (i + 1) * G ≤ c * G := Nat.mul_le_mul_right G (by omega)
    rw [Nat.add_mul, Nat.one_mul, Nat.mul_comm c G] at this
    exact this
  have hmem : ∀ g t, t ∈ (List.range c).map (fun i => g + i * G)
      ++ (if g = G - 1 then (List.range (n - G * c)).map (fun j => G * c + j) else []) ↔
      ((t < G * c ∧ g < G ∧ t % G = g) ∨ (G * c ≤ t ∧ t < n ∧ g = G - 1)) ∨
        (G ≤ g ∧ t ∈ (List.range c).map (fun i => g + i * G)) := by
    intro g t
    rw [List.mem_append, List.mem_map]
    constructor
    · rintro (⟨i, hi, rfl⟩ | h)
      · rw [List.mem_range] at hi
        by_cases hg : g < G
        · left; left
          refine ⟨by have := hmul i hi; omega, hg, ?_⟩
          rw [Nat.add_mul_mod_self_right, Nat.mod_eq_of_lt hg]
        · right
          exact ⟨by omega, i, List.mem_range.2 hi, rfl⟩
      · split at h
        · rw [List.mem_map] at h
          obtain ⟨j, hj, rfl⟩ := h
          rw [List.mem_range] at hj
          left; right
          exact ⟨by omega, by omega, by assumption⟩
        · simp at h
    · rintro ((⟨h1, h2, h3⟩ | ⟨h1, h2, h3⟩) | ⟨h1, h2⟩)
      · left
        refine ⟨t / G, ?_, ?_⟩
        · rw [List.mem_range]
          exact (Nat.div_lt_iff_lt_mul hG).2 (by rw [Nat.mul_comm]; exact h1)
        · show g + t / G * G = t
          rw [← h3]
          have := Nat.mod_add_div t G
          rw [Nat.mul_comm] at this
          exact this
      · right
        rw [if_pos h3, List.mem_map]
        exact ⟨t - G * c, List.mem_range.2 (by omega), by omega⟩
      · left
        exact h2
  apply (List.perm_ext_iff_of_nodup ?_ (List.nodup_range _)).2
  · intro t
    rw [List.mem_flatMap, List.mem_range]
    constructor
    · rintro ⟨g, hg, ht⟩
      rw [List.mem_range] at hg
      rcases (hmem g t).1 ht with (⟨h1, _, _⟩ | ⟨_, h2, _⟩) | ⟨h1, _⟩
      · omega
      · exact h2
      · omega
    · intro ht
      by_cases h : t < G * c
      · exact ⟨t % G, List.mem_range.2 (Nat.mod_lt _ hG),
          (hmem _ t).2 (Or.inl (Or.inl ⟨h, Nat.mod_lt _ hG, rfl⟩))⟩
      · exact ⟨G - 1, List.mem_range.2 (by omega),
          (hmem _ t).2 (Or.inl (Or.inr ⟨by omega, ht, rfl⟩))⟩
  · rw [List.nodup_flatMap]
    constructor
    · intro g _
      rw [List.nodup_append]
      refine ⟨?_, ?_, ?_⟩
      · refine List.Nodup.map ?_ (List.nodup_range _)
        intro a b hab
        have : a * G = b * G := by simpa using hab
        exact Nat.eq_of_mul_eq_mul_right hG this
      · split
        · refine List.Nodup.map ?_ (List.nodup_range _)
          intro a b hab
          simpa using hab
        · exact List.nodup_nil
      · intro t h1 h2
        rw [List.mem_map] at h1
        obtain ⟨i, hi, rfl⟩ := h1
        rw [List.mem_range] at hi
        split at h2
        · rw [List.mem_map] at h2
          obtain ⟨j, _, hj⟩ := h2
          have := hmul i hi
          omega
        · simp at h2
    · refine List.Pairwise.imp_of_mem ?_ (List.nodup_range _)
      intro a b ha hb hab t h1 h2
      rw [List.mem_range] at ha hb
      rcases (hmem a t).1 h1 with (⟨x1, _, x3⟩ | ⟨y1, _, y3⟩) | ⟨z1, _⟩
      · rcases (hmem b t).1 h2 with (⟨_, _, u3⟩ | ⟨v1, _, _⟩) | ⟨w1, _⟩
        · exact hab (by rw [← x3, ← u3])
        · omega
        · omega
      · rcases (hmem b t).1 h2 with (⟨u1, _, _⟩ | ⟨_, _, v3⟩) | ⟨w1, _⟩
        · omega
        · exact hab (by rw [y3, v3])
        · omega
      · omega

/-- The contents of the pool that `chunk` fills, when the chunk fits in the block: the
nodes at the indices `g, g + G, ...` of the frontier, and for the last task the tail. -/
theorem chunk_contents (src : List Node) (f n G g : Nat) (p : SinglePool_ext)
    (hG : 0 < G) (hf : p.front = 0) (hs : p.size = 0)
    (hfit : n / G + (if g = G - 1 then n - G * (n / G) else 0) ≤ p.elements.length) :
    (chunk src (f : Int) ((n / G : Nat) : Int)
        ((n : Int) - ((G : Int) - 1) * ((n / G : Nat) : Int)) (G : Int) (g : Int) p).contents
      = ((List.range (n / G)).map (fun i => g + i * G)
          ++ (if g = G - 1 then (List.range (n - G * (n / G))).map (fun j => G * (n / G) + j)
              else [])).map (fun t => src.getD (f + t) indet) := by
  obtain ⟨els, cap, fr, sz, lk⟩ := p
  simp only at hf hs hfit
  subst hf hs
  have hqn : G * (n / G) ≤ n := Nat.mul_div_le n G
  generalize n / G = c at hqn hfit
  have hl : (n : Int) - ((G : Int) - 1) * (c : Int) = ((c + (n - G * c) : Nat) : Int) := by
    rw [Nat.cast_add, Nat.cast_sub hqn, Nat.cast_mul]
    ring
  have t1 := tab_loop (fun i => rd indet src ((g : Int) + (f : Int) + i * (G : Int))) els 0 c
    (by split at hfit <;> omega)
  simp only [Nat.cast_zero, Nat.zero_add, zero_add, List.take_zero, List.nil_append] at t1
  have hh1 : ∀ j : Nat, rd indet src ((g : Int) + (f : Int) + (j : Int) * (G : Int))
      = src.getD (f + (g + j * G)) indet := by
    intro j
    rw [← rd_natCast]
    congr 1
    push_cast
    ring
  simp only [hh1] at t1
  have hlen1 : ((List.range c).map (fun j => src.getD (f + (g + j * G)) indet)).length = c := by
    rw [List.length_map, List.length_range]
  by_cases hg : g = G - 1
  · rw [if_pos hg] at hfit
    have hg2 : (g : Int) = (G : Int) - 1 := by omega
    · rw [hl]
      simp only [chunk, eq_true hg2, if_true, SinglePool_ext.contents]
      rw [t1]
      have t2 := tab_loop (fun i => rd indet src ((G : Int) * (c : Int) + (f : Int) + i - (c : Int)))
        ((List.range c).map (fun j => src.getD (f + (g + j * G)) indet) ++ els.drop c)
        c (n - G * c) (by rw [List.length_append, hlen1, List.length_drop]; omega)
      have hh2 : ∀ j : Nat,
          rd indet src ((G : Int) * (c : Int) + (f : Int) + ((c : Int) + (j : Int)) - (c : Int))
            = src.getD (f + (G * c + j)) indet := by
        intro j
        rw [← rd_natCast]
        congr 1
        push_cast
        ring
      simp only [hh2] at t2
      rw [List.take_append_of_le_length (by rw [hlen1]),
        List.take_of_length_le (by rw [hlen1])] at t2
      rw [t2, show ((0 : Int) + (c : Int) + (((c + (n - G * c) : Nat) : Int) - (c : Int))).toNat
        = c + (n - G * c) by omega, show (0 : Int).toNat = 0 by rfl, List.drop_zero,
        List.take_append_of_le_length (by
          rw [List.length_append, hlen1, List.length_map, List.length_range]),
        List.take_of_length_le (by
          rw [List.length_append, hlen1, List.length_map, List.length_range])]
      rw [if_pos hg, List.map_append, List.map_map, List.map_map]
      rfl
  · rw [if_neg hg] at hfit
    have hg2 : ¬ ((g : Int) = (G : Int) - 1) := by omega
    simp only [chunk, hg2, if_false, SinglePool_ext.contents]
    rw [t1, if_neg hg, List.append_nil, List.map_map]
    rw [show (0 : Int).toNat = 0 by rfl, List.drop_zero,
      show ((0 : Int) + (c : Int)).toNat = c by omega,
      List.take_append_of_le_length (by rw [hlen1]), List.take_of_length_le (by rw [hlen1])]
    rfl

theorem range_map_getD {α : Type} (d : α) (l : List α) (f n : Nat) (h : f + n ≤ l.length) :
    (List.range n).map (fun t => l.getD (f + t) d) = (l.drop f).take n := by
  apply List.ext_getElem?
  intro i
  by_cases hi : i < n
  · rw [List.getElem?_map, List.getElem?_range hi, List.getElem?_take_of_lt hi,
      List.getElem?_drop, List.getElem?_eq_getElem (by omega)]
    simp only [Option.map_some']
    rw [List.getD_eq_getElem _ _ (by omega)]
  · rw [List.getElem?_eq_none (by rw [List.length_map, List.length_range]; omega),
      List.getElem?_eq_none (by rw [List.length_take, List.length_drop]; omega)]

theorem idxs_eq_map_range (k : Nat) :
    idxs 0 (k : Int) = (List.range k).map (fun (g : Nat) => (g : Int)) := by
  simp [idxs]

/-- The tasks of a partition whose chunks fit in the fresh blocks hold the frontier:
each pool of `multiPool` is well-formed and unlocked with `front = 0`, the task `g`
holds `c = n / G` nodes, the last one `n - (G-1)*c`, and the nodes of all the tasks
together are the nodes of the frontier. -/
theorem chunks_spec (src : List Node) (f n G : Nat) (hG : 0 < G) (hsrc : f + n ≤ src.length)
    (hfit : ((n - (G - 1) * (n / G) : Nat) : Int) ≤ CAPACITY) :
    (∀ w ∈ (idxs 0 (G : Int)).map (fun gpuID => chunk src (f : Int) ((n / G : Nat) : Int)
        ((n : Int) - ((G : Int) - 1) * ((n / G : Nat) : Int)) (G : Int) gpuID
        initSinglePool_ext), w.WF ∧ w.lock = false ∧ w.front = 0) ∧
    (∀ g : Nat, g < G → (chunk src (f : Int) ((n / G : Nat) : Int)
        ((n : Int) - ((G : Int) - 1) * ((n / G : Nat) : Int)) (G : Int) (g : Int)
        initSinglePool_ext).size = (if g = G - 1 then (n : Int) - ((G : Int) - 1) * ((n / G : Nat) : Int)
          else ((n / G : Nat) : Int))) ∧
    List.Perm (((idxs 0 (G : Int)).map (fun gpuID => chunk src (f : Int) ((n / G : Nat) : Int)
        ((n : Int) - ((G : Int) - 1) * ((n / G : Nat) : Int)) (G : Int) gpuID
        initSinglePool_ext)).flatMap SinglePool_ext.contents)
      ((src.drop f).take n) := by
  have hqn : G * (n / G) ≤ n := Nat.mul_div_le n G
  have hcl : (G - 1) * (n / G) + n / G = G * (n / G) := by
    obtain ⟨k, rfl⟩ : ∃ k, G = k + 1 := ⟨G - 1, by omega⟩
    rw [Nat.add_sub_cancel, Nat.add_mul, Nat.one_mul]
  have hcl2 : (((G - 1) * (n / G) : Nat) : Int) = ((G : Int) - 1) * ((n / G : Nat) : Int) := by
    rw [Nat.cast_mul, Nat.cast_sub (by omega)]
    rfl
  have hXn : ((G : Int) - 1) * ((n / G : Nat) : Int) + ((n / G : Nat) : Int) ≤ (n : Int) := by
    rw [← hcl2]
    exact_mod_cast (by rw [hcl]; exact hqn : (G - 1) * (n / G) + n / G ≤ n)
  have hX0 : 0 ≤ ((G : Int) - 1) * ((n / G : Nat) : Int) := by
    rw [← hcl2]
    exact Int.natCast_nonneg _
  have hfit2 : (n : Int) - ((G : Int) - 1) * ((n / G : Nat) : Int) ≤ CAPACITY := by
    rw [Nat.cast_sub (Nat.le_trans (Nat.mul_le_mul_right _ (Nat.sub_le G 1)) hqn), hcl2] at hfit
    exact hfit
  clear hfit hcl hcl2 hqn
  have hinit : initSinglePool_ext.elements.length = 1024 := by
    show (List.replicate CAPACITY.toNat indet).length = 1024
    rw [List.length_replicate]; rfl
  have hcap : CAPACITY = 1024 := rfl
  have hsize : ∀ g : Nat, g < G → (chunk src (f : Int) ((n / G : Nat) : Int)
        ((n : Int) - ((G : Int) - 1) * ((n / G : Nat) : Int)) (G : Int) (g : Int)
        initSinglePool_ext).size = (if g = G - 1 then (n : Int) - ((G : Int) - 1) * ((n / G : Nat) : Int)
          else ((n / G : Nat) : Int)) := by
    intro g hg
    rw [(chunk_shape _ _ _ _ _ _ _).2.1]
    by_cases h : g = G - 1
    · rw [if_pos h, if_pos (by omega)]
      show (0 : Int) + _ + _ = _
      omega
    · rw [if_neg h, if_neg (by omega)]
      show (0 : Int) + _ = _
      omega
  refine ⟨?_, hsize, ?_⟩
  · intro w hw
    rw [idxs_eq_map_range, List.map_map, List.mem_map] at hw
    obtain ⟨g, hg, rfl⟩ := hw
    rw [List.mem_range] at hg
    obtain ⟨s1, s2, s3, s4, s5⟩ := chunk_shape src (f : Int) ((n / G : Nat) : Int)
        ((n : Int) - ((G : Int) - 1) * ((n / G : Nat) : Int)) (G : Int) (g : Int)
        initSinglePool_ext
    have s2b := hsize g hg
    refine ⟨⟨?_, ?_, ?_, ?_, ?_⟩, ?_, ?_⟩
    · show 0 < (chunk _ _ _ _ _ _ _).capacity
      rw [s3]; decide
    · show 0 ≤ (chunk _ _ _ _ _ _ _).front
      rw [s4]; decide
    · show 0 ≤ (chunk _ _ _ _ _ _ _).size
      rw [s2b]
      clear s2b hsize s2
      have hc0 : (0 : Int) ≤ ((n / G : Nat) : Int) := Int.natCast_nonneg _
      generalize ((G : Int) - 1) * ((n / G : Nat) : Int) = X at *
      generalize ((n / G : Nat) : Int) = c at *
      split <;> omega
    · show (chunk _ _ _ _ _ _ _).front + (chunk _ _ _ _ _ _ _).size
        ≤ (chunk _ _ _ _ _ _ _).capacity
      rw [s4, s2b, s3]
      show (0 : Int) + _ ≤ CAPACITY
      clear s2b hsize s2
      have hc0 : (0 : Int) ≤ ((n / G : Nat) : Int) := Int.natCast_nonneg _
      generalize ((G : Int) - 1) * ((n / G : Nat) : Int) = X at *
      generalize ((n / G : Nat) : Int) = c at *
      split <;> omega
    · show ((chunk _ _ _ _ _ _ _).elements.length : Int) = (chunk _ _ _ _ _ _ _).capacity
      rw [s1, s3, hinit]
      rfl
    · show (chunk _ _ _ _ _ _ _).lock = false
      rw [s5]; rfl
    · show (chunk _ _ _ _ _ _ _).front = 0
      rw [s4]; rfl
  · rw [idxs_eq_map_range, List.map_map, List.flatMap_map]
    have hc : ∀ g ∈ List.range G,
        (SinglePool_ext.contents ∘ ((fun gpuID => chunk src (f : Int) ((n / G : Nat) : Int)
          ((n : Int) - ((G : Int) - 1) * ((n / G : Nat) : Int)) (G : Int) gpuID
          initSinglePool_ext) ∘ (fun (g : Nat) => (g : Int)))) g
        = ((List.range (n / G)).map (fun i => g + i * G)
          ++ (if g = G - 1 then (List.range (n - G * (n / G))).map (fun j => G * (n / G) + j)
              else [])).map (fun t => src.getD (f + t) indet) := by
      intro g hg
      rw [List.mem_range] at hg
      exact chunk_contents src f n G g initSinglePool_ext hG rfl rfl (by
        rw [hinit]
        have h1 : n / G ≤ 1024 := by omega
        have h2 : n / G + (n - G * (n / G)) ≤ 1024 := by
          have : (((n / G + (n - G * (n / G)) : Nat)) : Int)
              = (n : Int) - ((G : Int) - 1) * ((n / G : Nat) : Int) := by
            rw [Nat.cast_add, Nat.cast_sub (Nat.mul_div_le n G), Nat.cast_mul]
            ring
          omega
        split <;> omega)
    refine (List.Perm.of_eq (List.flatMap_congr hc)).trans ?_
    rw [← List.map_flatMap, ← range_map_getD indet src f n hsrc]
    exact (chunk_indices_perm n G hG).map _

theorem tdiv_natCast (n G : Nat) : Int.tdiv (n : Int) (G : Int) = ((n / G : Nat) : Int) := by
  rw [Int.tdiv_eq_ediv (Int.natCast_nonneg n) (Int.natCast_nonneg G)]
  rfl

/-- The partition of `pfsp_multigpu_cuda.c` when the largest chunk fits in a fresh block:
the pool is emptied, `multiPool` has `D` well-formed unlocked pools with `front = 0`,
and the nodes of these pools together are the nodes of the frontier. -/
theorem partition_spec (pool : SinglePool_ext) (D : Nat) (hw : pool.WF) (hD : 0 < D)
    (hfit : pool.size - ((D : Int) - 1) * Int.tdiv pool.size (D : Int) ≤ CAPACITY) :
    (partition pool (D : Int)).1 = { pool with front := 0, size := 0 } ∧
    (partition pool (D : Int)).2.length = D ∧
    (∀ w ∈ (partition pool (D : Int)).2, w.WF ∧ w.lock = false ∧ w.front = 0) ∧
    List.Perm ((partition pool (D : Int)).2.flatMap SinglePool_ext.contents) pool.contents := by
  obtain ⟨els, cap, fr, sz, lk⟩ := pool
  obtain ⟨h1, hf, h2, h3, h4⟩ := hw
  simp only at h1 hf h2 h3 h4 hfit
  obtain ⟨n, rfl⟩ := Int.eq_ofNat_of_zero_le h2
  obtain ⟨f, rfl⟩ := Int.eq_ofNat_of_zero_le hf
  rw [tdiv_natCast] at hfit
  have hsrc : f + n ≤ els.length := by omega
  have hle : (D - 1) * (n / D) ≤ n :=
    Nat.le_trans (Nat.mul_le_mul_right _ (Nat.sub_le D 1)) (Nat.mul_div_le n D)
  have hfit2 : ((n - (D - 1) * (n / D) : Nat) : Int) ≤ CAPACITY := by
    rw [Nat.cast_sub hle, Nat.cast_mul, Nat.cast_sub (by omega)]
    exact hfit
  obtain ⟨a, _, c⟩ := chunks_spec els f n D hD hsrc hfit2
  simp only [partition, tdiv_natCast, SinglePool_ext.contents, Int.toNat_ofNat]
  refine ⟨trivial, ?_, a, c⟩
  rw [List.length_map, idxs_length]
  omega

/-- The two-level partition of `pfsp_dist_multigpu_cuda.c` when the largest chunk of a
rank fits in a fresh block: the nodes of the pools of all the tasks of all the ranks
together are the nodes of the frontier. -/
theorem partition_dist_spec (pool : SinglePool_ext) (P D : Nat) (hw : pool.WF) (hP : 0 < P)
    (hD : 0 < D)
    (hfit : pool.size - ((P : Int) - 1) * Int.tdiv pool.size (P : Int) ≤ CAPACITY) :
    List.Perm
      ((List.range P).flatMap (fun locID =>
        (partition_dist pool (P : Int) (D : Int) (locID : Int)).2.2.flatMap
          SinglePool_ext.contents))
      pool.contents := by
  obtain ⟨els, cap, fr, sz, lk⟩ := pool
  obtain ⟨h1, hf, h2, h3, h4⟩ := hw
  simp only at h1 hf h2 h3 h4 hfit
  obtain ⟨n, rfl⟩ := Int.eq_ofNat_of_zero_le h2
  obtain ⟨f, rfl⟩ := Int.eq_ofNat_of_zero_le hf
  rw [tdiv_natCast] at hfit
  have hsrc : f + n ≤ els.length := by omega
  have hle : (P - 1) * (n / P) ≤ n :=
    Nat.le_trans (Nat.mul_le_mul_right _ (Nat.sub_le P 1)) (Nat.mul_div_le n P)
  have hfit2 : ((n - (P - 1) * (n / P) : Nat) : Int) ≤ CAPACITY := by
    rw [Nat.cast_sub hle, Nat.cast_mul, Nat.cast_sub (by omega)]
    exact hfit
  obtain ⟨a, _, c⟩ := chunks_spec els f n P hP hsrc hfit2
  rw [idxs_eq_map_range, List.map_map, List.flatMap_map] at c
  refine List.Perm.trans (List.Perm.flatMap_left _ ?_) c
  intro r hr
  have hmem := a (chunk els (f : Int) ((n / P : Nat) : Int)
    ((n : Int) - ((P : Int) - 1) * ((n / P : Nat) : Int)) (P : Int) (r : Int)
    initSinglePool_ext) (by
      rw [idxs_eq_map_range, List.map_map, List.mem_map]
      exact ⟨r, hr, rfl⟩)
  have hcapq := (chunk_shape els (f : Int) ((n / P : Nat) : Int)
    ((n : Int) - ((P : Int) - 1) * ((n / P : Nat) : Int)) (P : Int) (r : Int)
    initSinglePool_ext).2.2.1
  simp only [partition_dist, tdiv_natCast, Function.comp]
  generalize chunk els (f : Int) ((n / P : Nat) : Int)
    ((n : Int) - ((P : Int) - 1) * ((n / P : Nat) : Int)) (P : Int) (r : Int)
    initSinglePool_ext = q at hmem hcapq ⊢
  obtain ⟨qels, qcap, qfr, qsz, qlk⟩ := q
  obtain ⟨⟨g1, g2, g3, g4, g5⟩, _, g7⟩ := hmem
  simp only at g1 g2 g3 g4 g5 g7 hcapq
  subst g7 hcapq
  obtain ⟨k, rfl⟩ := Int.eq_ofNat_of_zero_le g3
  have hk : k ≤ 1024 := by
    have : initSinglePool_ext.capacity = 1024 := rfl
    omega
  have hle2 : (D - 1) * (k / D) ≤ k :=
    Nat.le_trans (Nat.mul_le_mul_right _ (Nat.sub_le D 1)) (Nat.mul_div_le k D)
  obtain ⟨_, _, c2⟩ := chunks_spec qels 0 k D hD (by
      have : initSinglePool_ext.capacity = 1024 := rfl
      omega) (by
      have : CAPACITY = 1024 := rfl
      omega)
  simp only [tdiv_natCast, SinglePool_ext.contents, Int.toNat_ofNat]
  exact c2

/-- C12 fails on the code: the blocks that receive the chunks come from `initSinglePool`
and hold 1024 nodes, and the copy does not grow them.  For the frontier `sampleBatch` of
1025 nodes and one rank with one task, the pool of the task ends with `size = 1025` in a
block of 1024 nodes, in the distributed variant and in `pfsp_multigpu_cuda.c`: the pools
of the tasks hold 1024 nodes, one less than the frontier. -/
theorem partition_overflow :
    sampleBatch.WF ∧ sampleBatch.contents.length = 1025 ∧
    (∃ w, (partition_dist sampleBatch 1 1 0).2.2 = [w] ∧ w.size = 1025 ∧
      w.elements.length = 1024 ∧ w.contents.length = 1024) ∧
    (∃ w, (partition sampleBatch 1).2 = [w] ∧ w.size = 1025 ∧
      w.elements.length = 1024 ∧ w.contents.length = 1024) := by
  have hinit : initSinglePool_ext.elements.length = 1024 := by
    show (List.replicate CAPACITY.toNat indet).length = 1024
    rw [List.length_replicate]; rfl
  have hlen : ∀ w : SinglePool_ext, w.front = 0 → w.size = 1025 → w.elements.length = 1024 →
      w.contents.length = 1024 := by
    intro w h1 h2 h3
    simp only [SinglePool_ext.contents, h1, h2]
    rw [List.length_take, List.length_drop, h3]
    rfl
  have hidx : idxs 0 1 = [0] := by decide
  refine ⟨?_, ?_, ?_, ?_⟩
  · refine ⟨by decide, by decide, by decide, by decide, ?_⟩
    show ((List.replicate 1025 (sampleNode 1) ++ List.replicate 1023 indet).length : Int) = 2048
    rw [List.length_append, List.length_replicate, List.length_replicate]
    rfl
  · simp only [SinglePool_ext.contents, sampleBatch]
    rw [List.length_take, List.length_drop, List.length_append, List.length_replicate,
      List.length_replicate]
    rfl
  · simp only [partition_dist, hidx, List.map_cons, List.map_nil]
    obtain ⟨s1, s2, s3, s4, s5⟩ := chunk_shape sampleBatch.elements sampleBatch.front
      (Int.tdiv sampleBatch.size 1) (sampleBatch.size - (1 - 1) * Int.tdiv sampleBatch.size 1)
      1 0 initSinglePool_ext
    have s2b : (chunk sampleBatch.elements sampleBatch.front
      (Int.tdiv sampleBatch.size 1) (sampleBatch.size - (1 - 1) * Int.tdiv sampleBatch.size 1)
      1 0 initSinglePool_ext).size = 1025 := by rw [s2]; decide
    generalize chunk sampleBatch.elements sampleBatch.front
      (Int.tdiv sampleBatch.size 1) (sampleBatch.size - (1 - 1) * Int.tdiv sampleBatch.size 1)
      1 0 initSinglePool_ext = q at s1 s2b s3 s4 s5
    obtain ⟨t1, t2, t3, t4, t5⟩ := chunk_shape q.elements q.front
      (Int.tdiv q.size 1) (q.size - (1 - 1) * Int.tdiv q.size 1) 1 0 initSinglePool_ext
    refine ⟨_, rfl, ?_, ?_, ?_⟩
    · rw [t2, s2b]; decide
    · rw [t1, hinit]
    · exact hlen _ (by rw [t4]; rfl) (by rw [t2, s2b]; decide) (by rw [t1, hinit])
  · simp only [partition, hidx, List.map_cons, List.map_nil]
    obtain ⟨s1, s2, s3, s4, s5⟩ := chunk_shape sampleBatch.elements sampleBatch.front
      (Int.tdiv sampleBatch.size 1) (sampleBatch.size - (1 - 1) * Int.tdiv sampleBatch.size 1)
      1 0 initSinglePool_ext
    refine ⟨_, rfl, ?_, ?_, ?_⟩
    · rw [s2]; decide
    · rw [s1, hinit]
    · exact hlen _ (by rw [s4]; rfl) (by rw [s2]; decide) (by rw [s1, hinit])

/-! ## The decomposition on any pool -/

/-- What `decompose_lb1` returns on a pool that satisfies the law of the push. -/
theorem decompose_lb1_spec {P : Type} (push : P → Node → Option P) (Inv : P → Prop)
    (abs : P → List Node) (law : PoolLaw push Inv abs) (lb : List Int → Int → Int → Int)
    (J : Int) (parent : Node) (s : Search P) (hinv : Inv s.pool) :
    ∃ s2, decompose_lb1 push lb J parent s = some s2 ∧ Inv s2.pool ∧
      abs s2.pool = abs s.pool ++ kids_lb1 lb J parent s.best ∧
      s2.tree_loc = s.tree_loc + (kids_lb1 lb J parent s.best).length ∧
      s2.best = (leafBounds_lb1 lb J parent).foldl min s.best ∧
      s2.num_sol = s.num_sol + (leafBounds_lb1 lb J parent).length := by
  obtain ⟨s2, e, w2, a2, t2⟩ := foldlM_dispose_spec push Inv abs law
    ((((parent.depth + 1) % 256 : Nat) : Int) = J)
    (fun i _ => bound_lb1 lb J parent i) (child_fwd J parent)
    (idxs (parent.limit1 + 1) J) s hinv
  have e2 : decompose_lb1 push lb J parent s = some s2 := by rw [decompose_lb1_eq]; exact e
  obtain ⟨b2, n2, _⟩ := decompose_lb1_any push lb J parent s s2 e2
  refine ⟨s2, e2, w2, ?_, ?_, b2, n2⟩
  · rw [a2]
    unfold kids_lb1
    split <;> rfl
  · rw [t2]
    unfold kids_lb1
    split
    · rfl
    · rw [List.length_map]

theorem kids_lb1_inv (lb : List Int → Int → Int → Int) (J : Int) (hJ : J ≤ 20) (parent : Node)
    (best : Int) (hpi : NodeInv J parent) (hpd : (parent.depth : Int) < J) :
    ∀ c ∈ kids_lb1 lb J parent best,
      NodeInv J c ∧ c.depth = parent.depth + 1 ∧ (c.depth : Int) < J := by
  intro c hc
  unfold kids_lb1 at hc
  have hmod : (parent.depth + 1) % 256 = parent.depth + 1 := by omega
  split at hc
  · simp at hc
  · rename_i hleaf
    obtain ⟨i, hi, rfl⟩ := List.mem_map.1 hc
    have hi2 := mem_idxs.1 (List.mem_filter.1 hi).1
    obtain ⟨a, b⟩ := child_fwd_inv J parent i hJ hpi hi2.1 hi2.2
    refine ⟨a, b, ?_⟩
    rw [b]
    rw [hmod] at hleaf
    push_cast at hleaf ⊢
    omega

theorem kids_lb1_length (lb : List Int → Int → Int → Int) (J : Int) (parent : Node)
    (best : Int) :
    (kids_lb1 lb J parent best).length ≤ (J - (parent.limit1 + 1)).toNat := by
  unfold kids_lb1
  split
  · simp
  · rw [List.length_map]
    exact (List.length_filter_le _ _).trans (by rw [idxs_length])

theorem kids_lb1_weight (lb : List Int → Int → Int → Int) (J : Int) (hJ : J ≤ 20)
    (parent : Node) (best : Int) (hpi : NodeInv J parent) (hpd : (parent.depth : Int) < J) :
    poolWeight J.toNat (kids_lb1 lb J parent best) < poolWeight J.toNat [parent] := by
  have hw1 : poolWeight J.toNat [parent] = (J.toNat + 1) ^ (J.toNat - parent.depth) := by
    simp [poolWeight]
  rw [hw1]
  have hmod : (parent.depth + 1) % 256 = parent.depth + 1 := by omega
  have hlim : parent.limit1 + 1 = (parent.depth : Int) := hpi.1.symm
  unfold kids_lb1
  split
  · exact Nat.pow_pos (by omega)
  · rw [poolWeight_children J.toNat (parent.depth + 1) (child_fwd J parent) _ (fun i hi => by
      have hi2 := mem_idxs.1 (List.mem_filter.1 hi).1
      exact (child_fwd_inv J parent i hJ hpi hi2.1 hi2.2).2)]
    have hpow : (J.toNat + 1) ^ (J.toNat - parent.depth)
        = (J.toNat + 1) * (J.toNat + 1) ^ (J.toNat - (parent.depth + 1)) := by
      have : J.toNat - parent.depth = (J.toNat - (parent.depth + 1)) + 1 := by omega
      rw [this, pow_succ]
      ring
    have hX : 0 < (J.toNat + 1) ^ (J.toNat - (parent.depth + 1)) := Nat.pow_pos (by omega)
    rw [hpow]
    apply mul_lt_mul_of_pos_right ?_ hX
    exact Nat.lt_succ_of_le ((List.length_filter_le _ _).trans (by rw [idxs_length]; omega))

theorem leafBounds_lb1_values (lb : List Int → Int → Int → Int) (J : Int) (hJ : J ≤ 20)
    (parent : Node) (hpi : NodeInv J parent) (hpd : (parent.depth : Int) < J) :
    ∀ v ∈ leafBounds_lb1 lb J parent, ∃ q, q.Perm (identity J) ∧ v = lb q (J - 1) J := by
  intro v hv
  unfold leafBounds_lb1 at hv
  have hmod : (parent.depth + 1) % 256 = parent.depth + 1 := by omega
  split at hv
  · rename_i hleaf
    rw [hmod] at hleaf
    obtain ⟨i, hi, rfl⟩ := List.mem_map.1 hv
    have hi2 := mem_idxs.1 hi
    refine ⟨(child_fwd J parent i).prmu.take J.toNat,
      (child_fwd_inv J parent i hJ hpi hi2.1 hi2.2).1.2, ?_⟩
    show lb _ (parent.limit1 + 1) J = lb _ (J - 1) J
    have : parent.limit1 + 1 = J - 1 := by
      have := hpi.1
      push_cast at hleaf
      omega
    rw [this]
  · simp at hv

/-- One decomposition keeps the cover: a complete permutation below `parent` has a value
that the new incumbent does not exceed, or lies below one of the children pushed. -/
theorem kids_lb1_cover (lb : List Int → Int → Int → Int) (J : Int) (hJ : J ≤ 20)
    (hadm : Admissible J lb) (parent : Node) (best : Int) (hpi : NodeInv J parent)
    (hpd : (parent.depth : Int) < J) (q : List Int) (hq : q.Perm (identity J))
    (hb : Below q parent) :
    (leafBounds_lb1 lb J parent).foldl min best ≤ lb q (J - 1) J ∨
      ∃ c ∈ kids_lb1 lb J parent best, Below q c := by
  have hmod : (parent.depth + 1) % 256 = parent.depth + 1 := by omega
  have hlim : parent.limit1 + 1 = (parent.depth : Int) := hpi.1.symm
  obtain ⟨i, hi1, hi2, hbi⟩ := cover J hJ parent q hpi hpd hq hb
  have hi : i ∈ idxs (parent.limit1 + 1) J := mem_idxs.2 ⟨hi1, hi2⟩
  obtain ⟨hci, hcd⟩ := child_fwd_inv J parent i hJ hpi hi1 hi2
  by_cases hleaf : (((parent.depth + 1) % 256 : Nat) : Int) = J
  · left
    have hdJ : ((parent.depth + 1 : Nat) : Int) = J := by rw [← hmod]; exact hleaf
    have hcl := leaf_eq J (child_fwd J parent i) q hci hq (by rw [hcd]; exact hdJ) hbi
    have hv : bound_lb1 lb J parent i = lb q (J - 1) J := by
      show lb _ (parent.limit1 + 1) J = lb _ (J - 1) J
      have : parent.limit1 + 1 = J - 1 := by push_cast at hdJ; omega
      rw [this, hcl]
    rw [← hv]
    apply foldl_min_le_of_mem
    unfold leafBounds_lb1
    rw [if_pos hleaf]
    exact List.mem_map.2 ⟨i, hi, rfl⟩
  · have hdJ : ¬ (((parent.depth + 1 : Nat) : Int) = J) := by rw [← hmod]; exact hleaf
    have hdlt : (parent.depth : Int) + 1 < J := by push_cast at hdJ; omega
    have hlf : leafBounds_lb1 lb J parent = [] := by
      unfold leafBounds_lb1
      rw [if_neg hleaf]
    rw [hlf, List.foldl_nil]
    by_cases hlt : bound_lb1 lb J parent i < best
    · right
      refine ⟨child_fwd J parent i, ?_, hbi⟩
      unfold kids_lb1
      rw [if_neg hleaf]
      exact List.mem_map.2 ⟨i, List.mem_filter.2 ⟨hi, decide_eq_true hlt⟩, rfl⟩
    · left
      refine (not_lt.mp hlt).trans ?_
      show lb _ (parent.limit1 + 1) J ≤ lb q (J - 1) J
      apply hadm _ q _ (by omega) (by omega) hci.2 hq
      intro j hj
      rw [getD_take _ _ _ (by omega)]
      exact (hbi j (by rw [hcd]; omega)).symm

/-! ## Step 1 of the multi-GPU searches -/

/-- One loop of dispositions over the candidates of an interior node, on any pool: the
nodes pushed are at most `J - depth`, are one level deeper and weigh less than the
parent. -/
theorem dispose_fold_step {P : Type} (push : P → Node → Option P) (Inv : P → Prop)
    (abs : P → List Node) (law : PoolLaw push Inv abs) (J : Int) (hJ : J ≤ 20)
    (parent : Node) (hsh : Shape J parent) (leaf : Prop) [Decidable leaf]
    (hleaf : leaf ↔ (parent.depth : Int) + 1 = J) (bnd : Int → Int → Int) (ch : Int → Node)
    (hch : ∀ i, (ch i).depth = (parent.depth + 1) % 256 ∧ (ch i).limit1 = parent.limit1 + 1)
    (s : Search P) (hinv : Inv s.pool) :
    ∃ s2 cs, (idxs (parent.limit1 + 1) J).foldlM
        (fun (s : Search P) (i : Int) => dispose push leaf (bnd i s.best) (ch i) s) s = some s2 ∧
      Inv s2.pool ∧ abs s2.pool = abs s.pool ++ cs ∧
      (cs.length : Int) ≤ J - (parent.depth : Int) ∧
      (∀ c ∈ cs, Shape J c ∧ c.depth = parent.depth + 1) ∧
      poolWeight J.toNat cs < poolWeight J.toNat [parent] ∧
      s2.tree_loc = s.tree_loc + cs.length ∧ s.num_sol ≤ s2.num_sol ∧ s2.best ≤ s.best := by
  obtain ⟨h1, h2⟩ := hsh
  have hmod : (parent.depth + 1) % 256 = parent.depth + 1 := by omega
  obtain ⟨s2, e, w2, a2, t2⟩ := foldlM_dispose_spec push Inv abs law leaf bnd ch
    (idxs (parent.limit1 + 1) J) s hinv
  obtain ⟨b2, n2, _⟩ := foldlM_dispose_any push leaf bnd ch _ s s2 e
  have hw1 : poolWeight J.toNat [parent] = (J.toNat + 1) ^ (J.toNat - parent.depth) := by
    simp [poolWeight]
  refine ⟨s2, _, e, w2, a2, ?_, ?_, ?_, ?_, by rw [n2]; omega,
    by rw [b2]; exact foldl_min_le _ _⟩
  · split
    · simp only [List.length_nil]
      push_cast
      omega
    · rw [List.length_map]
      have := List.length_filter_le (fun i => decide (bnd i s.best < s.best))
        (idxs (parent.limit1 + 1) J)
      rw [idxs_length] at this
      omega
  · intro c hc
    split at hc
    · simp at hc
    · rename_i hl
      obtain ⟨i, _, rfl⟩ := List.mem_map.1 hc
      obtain ⟨d1, d2⟩ := hch i
      rw [hmod] at d1
      have hl2 : ¬ ((parent.depth : Int) + 1 = J) := fun h => hl (hleaf.2 h)
      refine ⟨⟨?_, ?_⟩, d1⟩
      · rw [d1, d2]; push_cast; omega
      · rw [d1]; push_cast; omega
  · rw [hw1]
    split
    · exact Nat.pow_pos (by omega)
    · rw [poolWeight_children J.toNat (parent.depth + 1) ch _ (fun i _ => by
        rw [(hch i).1, hmod])]
      have hpow : (J.toNat + 1) ^ (J.toNat - parent.depth)
          = (J.toNat + 1) * (J.toNat + 1) ^ (J.toNat - (parent.depth + 1)) := by
        have : J.toNat - parent.depth = (J.toNat - (parent.depth + 1)) + 1 := by omega
        rw [this, pow_succ]
        ring
      have hX : 0 < (J.toNat + 1) ^ (J.toNat - (parent.depth + 1)) := Nat.pow_pos (by omega)
      rw [hpow]
      apply mul_lt_mul_of_pos_right ?_ hX
      exact Nat.lt_succ_of_le ((List.length_filter_le _ _).trans (by rw [idxs_length]; omega))
  · rw [t2]
    split
    · rfl
    · rw [List.length_map]

/-- One call of `decompose` of `pfsp_multigpu_cuda.c` on an interior node, for any value
of `lb` and any bounds, on any pool. -/
theorem decompose_ext_step {P : Type} (push : P → Node → Option P) (Inv : P → Prop)
    (abs : P → List Node) (law : PoolLaw push Inv abs) (B : Bounds) (J : Int) (hJ : J ≤ 20)
    (lb : Int) (parent : Node) (hsh : Shape J parent) (s : Search P) (hinv : Inv s.pool) :
    ∃ s2 cs, decompose_ext push B J lb parent s = some s2 ∧
      Inv s2.pool ∧ abs s2.pool = abs s.pool ++ cs ∧
      (cs.length : Int) ≤ J - (parent.depth : Int) ∧
      (∀ c ∈ cs, Shape J c ∧ c.depth = parent.depth + 1) ∧
      poolWeight J.toNat cs < poolWeight J.toNat [parent] ∧
      s2.tree_loc = s.tree_loc + cs.length ∧ s.num_sol ≤ s2.num_sol ∧ s2.best ≤ s.best := by
  have hmod : (parent.depth + 1) % 256 = parent.depth + 1 := by
    have := hsh.2
    omega
  have hl1 : ((((parent.depth + 1) % 256 : Nat) : Int) = J) ↔ (parent.depth : Int) + 1 = J := by
    rw [hmod]
    push_cast
    rfl
  unfold decompose_ext
  by_cases h0 : lb = 0
  · rw [if_pos h0, decompose_lb1_d_eq]
    exact dispose_fold_step push Inv abs law J hJ parent hsh _ Iff.rfl
      (fun i _ => bound_lb1_d B.lb1_children_bounds J parent i) (child_lb1_d J parent)
      (fun _ => ⟨rfl, rfl⟩) s hinv
  · rw [if_neg h0]
    by_cases h1 : lb = 1
    · rw [if_pos h1, decompose_lb1_eq]
      exact dispose_fold_step push Inv abs law J hJ parent hsh _ hl1
        (fun i _ => bound_lb1 B.lb1_bound J parent i) (child_fwd J parent)
        (fun _ => ⟨rfl, rfl⟩) s hinv
    · rw [if_neg h1]
      by_cases h2 : lb = 2
      · rw [if_pos h2, decompose_lb2_eq]
        exact dispose_fold_step push Inv abs law J hJ parent hsh _ hl1
          (fun i b => bound_lb2 B.lb2_bound J parent i b) (child_fwd J parent)
          (fun _ => ⟨rfl, rfl⟩) s hinv
      · rw [if_neg h2]
        refine ⟨s, [], rfl, hinv, by rw [List.append_nil], ?_, ?_, ?_, rfl, le_refl _, le_refl _⟩
        · have := hsh.2
          simp only [List.length_nil]
          push_cast
          omega
        · intro c hc
          simp at hc
        · simp only [poolWeight, List.map_nil, List.sum_nil, List.map_cons, List.sum_cons]
          have : 0 < (J.toNat + 1) ^ (J.toNat - parent.depth) := Nat.pow_pos (by omega)
          omega

/-- Induction rule for the loop of step 1: a property `R` of the state that every
iteration keeps while a measure `μ` decreases holds when the loop exits, and the loop
exits with an empty pool or with at least `T` nodes. -/
theorem step1_loop_rule (B : Bounds) (J : Int) (lb : Int) (T : Int)
    (R : Search SinglePool_ext → Prop) (μ : Search SinglePool_ext → Nat)
    (hwf : ∀ s, R s → s.pool.WF)
    (hstep : ∀ s parent xs, R s → s.pool.size < T → s.pool.contents = parent :: xs →
      ∃ s2, decompose_ext SinglePool_ext.pushBack B J lb parent
          { s with pool := (s.pool.popFront 0).2.2 } = some s2 ∧ R s2 ∧ μ s2 < μ s) :
    ∀ (fuel : Nat) (s : Search SinglePool_ext), R s → μ s < fuel →
      ∃ s1, step1_loop B J lb T fuel s = some s1 ∧ R s1 ∧
        (s1.pool.size = 0 ∨ T ≤ s1.pool.size) := by
  intro fuel
  induction fuel with
  | zero =>
    intro s _ h
    omega
  | succ f ih =>
    intro s hs hm
    by_cases hT : s.pool.size < T
    · have hw := hwf s hs
      have hlen := SinglePool_ext.ext_contents_length s.pool hw
      cases hc : s.pool.contents with
      | nil =>
        rw [hc] at hlen
        have hsz : s.pool.size = 0 := by simpa using hlen.symm
        have hpop := SinglePool_ext.popFront_empty s.pool 0 (by omega)
        refine ⟨s, ?_, hs, Or.inl hsz⟩
        simp only [step1_loop, hT, if_true, hpop]
      | cons parent xs =>
        obtain ⟨e1, _, _⟩ := SinglePool_ext.popFront_cons s.pool 0 xs parent hw hc
        obtain ⟨s2, e, r2, lt⟩ := hstep s parent xs hs hT hc
        obtain ⟨s1, r1, a, b⟩ := ih s2 r2 (by omega)
        refine ⟨s1, ?_, a, b⟩
        rw [e1] at e
        simp only [step1_loop, hT, if_true, e1, one_ne_zero, if_false, e, Option.bind_some]
        exact r1
    · refine ⟨s, ?_, hs, Or.inr (by omega)⟩
      simp only [step1_loop, hT, if_false]

/-- The root in a fresh pool: what `initSinglePool` and `pushBack(&pool, root)` give. -/
theorem initial_pool (J : Int) :
    ∃ p, initSinglePool_ext.pushBack (initRoot indet J) = some p ∧ p.Ready ∧
      p.contents = [initRoot indet J] ∧ p.size = 1 ∧ p.front = 0 := by
  have hwf : initSinglePool_ext.WF := by
    refine ⟨by decide, by decide, by decide, by decide, ?_⟩
    show ((List.replicate CAPACITY.toNat indet).length : Int) = CAPACITY
    rw [List.length_replicate]; decide
  obtain ⟨q, e, w, l, c, sz, fr⟩ :=
    SinglePool_ext.ext_pushBack_spec initSinglePool_ext (initRoot indet J) hwf rfl
  refine ⟨q, e, ⟨w, l⟩, ?_, by rw [sz]; rfl, by rw [fr]; rfl⟩
  rw [c]
  rfl

/-- The size of the pool at the exit of step 1. -/
theorem step1_loop_size (B : Bounds) (J : Int) (hJ : J ≤ 20) (lb : Int) (T : Int) :
    ∀ (fuel : Nat) (s : Search SinglePool_ext), s.pool.Ready →
      (∀ n ∈ s.pool.contents, Shape J n) → s.pool.size ≤ max 1 (T + J - 2) →
      poolWeight J.toNat s.pool.contents < fuel →
      ∃ s1, step1_loop B J lb T fuel s = some s1 ∧ s1.pool.Ready ∧
        (∀ n ∈ s1.pool.contents, Shape J n) ∧ s1.pool.size ≤ max 1 (T + J - 2) ∧
        (s1.pool.size = 0 ∨ T ≤ s1.pool.size) := by
  intro fuel s h1 h2 h3 h4
  obtain ⟨s1, e, ⟨a, b, c⟩, d⟩ := step1_loop_rule B J lb T
    (fun s => s.pool.Ready ∧ (∀ n ∈ s.pool.contents, Shape J n) ∧
      s.pool.size ≤ max 1 (T + J - 2))
    (fun s => poolWeight J.toNat s.pool.contents) (fun s h => h.1.1) (by
      intro s parent xs ⟨hr, hsh, _⟩ hT hc
      obtain ⟨e1, w1, c1⟩ := SinglePool_ext.popFront_cons s.pool 0 xs parent hr.1 hc
      have hl1 : (s.pool.popFront 0).2.2.lock = false := by rw [e1]; exact hr.2
      have hshp : Shape J parent := hsh parent (by rw [hc]; simp)
      obtain ⟨s2, cs, e, i2, a2, len, shc, wt, _⟩ := decompose_ext_step
        SinglePool_ext.pushBack SinglePool_ext.Ready SinglePool_ext.contents
        SinglePool_ext.ext_law B J hJ lb parent hshp
        { s with pool := (s.pool.popFront 0).2.2 } ⟨w1, hl1⟩
      simp only [c1] at a2
      have hlen0 := SinglePool_ext.ext_contents_length s.pool hr.1
      have hlen2 := SinglePool_ext.ext_contents_length s2.pool i2.1
      rw [hc] at hlen0
      rw [a2] at hlen2
      simp only [List.length_append, List.length_cons] at hlen0 hlen2
      push_cast at hlen0 hlen2
      refine ⟨s2, e, ⟨i2, ?_, ?_⟩, ?_⟩
      · intro n hn
        rw [a2] at hn
        rcases List.mem_append.1 hn with hn | hn
        · exact hsh n (by rw [hc]; exact List.mem_cons_of_mem _ hn)
        · exact (shc n hn).1
      · have := Int.natCast_nonneg parent.depth
        omega
      · show poolWeight J.toNat s2.pool.contents < poolWeight J.toNat s.pool.contents
        rw [a2, hc, poolWeight_append,
          show parent :: xs = [parent] ++ xs from rfl, poolWeight_append]
        omega) fuel s ⟨h1, h2, h3⟩ h4
  exact ⟨s1, e, a, b, c, d⟩

/-- C18 as stated fails: with 3 jobs, the threshold `D*m = 2`, the bounds `sampleBounds`
and the initial best 100, step 1 exits with 3 nodes in the pool. -/
theorem step1_counterexample :
    (step1 sampleBounds 3 1 2 100 0 0 5).map (fun s => s.pool.size) = some 3 := by
  rfl

/-- C18 as amended (size of the pool at the exit of step 1).  For `1 ≤ J ≤ 20`, any
bounds, any value of `lb`, any initial best and any threshold `T` (`D*m`, or
`numLocales*D*m` in the distributed variant), step 1 returns as soon as it is given
enough iterations, and at its exit the pool holds at most `max(1, T + J - 2)` nodes; it
is empty or holds at least `T` nodes. -/
theorem step1_pool_bound (B : Bounds) (J : Int) (lb : Int) (T : Int) (b0 : Int)
    (t0 n0 : Nat) (h1 : 1 ≤ J) (hJ : J ≤ 20) :
    ∃ N, ∀ fuel, N ≤ fuel → ∃ s, step1 B J lb T b0 t0 n0 fuel = some s ∧
      s.pool.size ≤ max 1 (T + J - 2) ∧ (s.pool.size = 0 ∨ T ≤ s.pool.size) := by
  obtain ⟨p, e, r, c, sz, _⟩ := initial_pool J
  obtain ⟨rd0, rl0, _, _⟩ := initRoot_spec J hJ
  refine ⟨poolWeight J.toNat [initRoot indet J] + 1, ?_⟩
  intro fuel hf
  obtain ⟨s1, e1, _, _, b, d⟩ := step1_loop_size B J hJ lb T fuel
    { best := b0, tree_loc := t0, num_sol := n0, pool := p } r (by
      intro n hn
      simp only [c] at hn
      have : n = initRoot indet J := by simpa using hn
      subst this
      exact ⟨by rw [rd0, rl0]; rfl, by rw [rd0]; push_cast; omega⟩)
    (by simp only [sz]; omega) (by simp only [c]; omega)
  refine ⟨s1, ?_, b, d⟩
  simp only [step1, e, Option.bind_some]
  exact e1

/-- Instance of C18 as amended: 3 jobs, the bounds `sampleBounds`, `lb = 1`, threshold
2 and initial best 100. -/
theorem step1_pool_bound_witness :
    (1 : Int) ≤ 3 ∧ (3 : Int) ≤ 20 ∧
    ∃ N, ∀ fuel, N ≤ fuel → ∃ s, step1 sampleBounds 3 1 2 100 0 0 fuel = some s ∧
      s.pool.size ≤ max 1 (2 + 3 - 2) ∧ (s.pool.size = 0 ∨ 2 ≤ s.pool.size) :=
  ⟨by decide, by decide, step1_pool_bound sampleBounds 3 1 2 100 0 0 (by decide) (by decide)⟩

/-! ## The number of explored solutions of the sequential search -/

/-- Induction rule for the loop of `pfsp_search` in `pfsp_c.c`: a property `R` of the
state that every iteration keeps while a measure `μ` decreases holds when the loop
returns, and the loop returns with an empty pool. -/
theorem search_loop_rule (B : Bounds) (J : Int) (lb : Int)
    (R : Search SinglePool → Prop) (μ : Search SinglePool → Nat)
    (hwf : ∀ s, R s → s.pool.WF)
    (hstep : ∀ s parent xs, R s → s.pool.contents = xs ++ [parent] →
      ∃ s2, decompose SinglePool.push B J lb parent
          { s with pool := (s.pool.popBack 0).2.2 } = some s2 ∧ R s2 ∧ μ s2 < μ s) :
    ∀ (fuel : Nat) (s : Search SinglePool), R s → μ s < fuel →
      ∃ s1, pfsp_search_loop B J lb fuel s = some s1 ∧ R s1 ∧ s1.pool.contents = [] ∧
        s1.pool.size = 0 := by
  intro fuel
  induction fuel with
  | zero =>
    intro s _ h
    omega
  | succ f ih =>
    intro s hs hm
    have hw := hwf s hs
    rcases List.eq_nil_or_concat s.pool.contents with hnil | ⟨xs, parent, hc⟩
    · have hsz : s.pool.size = 0 := (SinglePool.contents_nil_iff _ hw).1 hnil
      have hpop := SinglePool.popBack_empty s.pool 0 (by omega)
      refine ⟨s, ?_, hs, hnil, hsz⟩
      simp only [pfsp_search_loop, hpop, if_true]
    · rw [List.concat_eq_append] at hc
      obtain ⟨e1, e2, _, _, _⟩ := SinglePool.popBack_snoc s.pool 0 xs parent hw hc
      obtain ⟨s2, e, r2, lt⟩ := hstep s parent xs hs hc
      obtain ⟨s1, r1, a, b⟩ := ih s2 r2 (by omega)
      refine ⟨s1, ?_, a, b⟩
      simp only [pfsp_search_loop, e1, e2, one_ne_zero, if_false, e, Option.bind_some]
      exact r1

/-- The state of `pfsp_search` of `pfsp_c.c` before its loop satisfies the invariant of
the loop. -/
theorem searchInv_init (J : Int) (h1 : 1 ≤ J) (hJ : J ≤ 20) (lb : List Int → Int → Int → Int)
    (b0 : Int) (t0 n0 : Nat) :
    SearchInv J lb b0
      { best := b0, tree_loc := t0, num_sol := n0,
        pool := initSinglePool.pushBack (initRoot indet J) } ∧
    (initSinglePool.pushBack (initRoot indet J)).contents = [initRoot indet J] := by
  have hri := initRoot_inv J hJ
  obtain ⟨rd0, _, _, _⟩ := initRoot_spec J hJ
  obtain ⟨w, c, _⟩ := SinglePool.pushBack_spec initSinglePool (initRoot indet J) initSinglePool_wf
  rw [initSinglePool_contents, List.nil_append] at c
  refine ⟨⟨w, ?_, le_refl _, Or.inl rfl, ?_⟩, c⟩
  · intro n hn
    rw [c] at hn
    have : n = initRoot indet J := by simpa using hn
    subst this
    exact ⟨hri, by rw [rd0]; push_cast; omega⟩
  · intro q _
    right
    refine ⟨initRoot indet J, by rw [c]; simp, ?_⟩
    intro j hj
    rw [rd0] at hj
    omega

theorem optimum_le (J : Int) (lb : List Int → Int → Int → Int) (b0 : Int) (q : List Int)
    (hq : q.Perm (identity J)) : optimum J lb b0 ≤ lb q (J - 1) J := by
  unfold optimum
  apply foldl_min_le_of_mem
  exact List.mem_map.2 ⟨q, List.mem_permutations.2 hq, rfl⟩

/-- C19 as stated fails: with 2 jobs, a bound that gives 7 to every node and every leaf
(it is admissible) and the initial best 7, which is the optimum, the search of
`pfsp_c.c` prunes the two children of the root and returns with `explored_sol = 0`. -/
theorem explored_sol_counterexample :
    Admissible 2 (flatBounds 7).lb1_bound ∧
    optimum 2 (flatBounds 7).lb1_bound 7 = 7 ∧
    (pfsp_search (flatBounds 7) 2 1 7 0 0 2).map (fun s => (s.best, s.tree_loc, s.num_sol))
      = some (7, 0, 0) := by
  refine ⟨fun _ _ _ _ _ _ _ _ => le_refl _, ?_, by rfl⟩
  unfold optimum
  apply foldl_min_of_le
  intro v hv
  obtain ⟨q, _, rfl⟩ := List.mem_map.1 hv
  exact le_refl _

/-- C19 as amended (at least one solution is explored when the initial best can be
improved).  For `1 ≤ J ≤ 20` and an admissible bound, when the initial best `b0` is
above the value of some leaf (as with `ub = 0`, where it is `INT_MAX`), or when `J = 1`,
the search of `pfsp_c.c` with `lb = 1` returns as soon as it is given enough iterations,
with at least one solution counted. -/
theorem explored_sol_pos (B : Bounds) (J : Int) (b0 : Int) (t0 n0 : Nat) (h1 : 1 ≤ J)
    (hJ : J ≤ 20) (hadm : Admissible J B.lb1_bound)
    (hb : (∃ q, q.Perm (identity J) ∧ B.lb1_bound q (J - 1) J < b0) ∨ J = 1) :
    ∃ N, ∀ fuel, N ≤ fuel → ∃ s, pfsp_search B J 1 b0 t0 n0 fuel = some s ∧
      n0 + 1 ≤ s.num_sol := by
  obtain ⟨hinv, hc0⟩ := searchInv_init J h1 hJ B.lb1_bound b0 t0 n0
  refine ⟨poolWeight J.toNat (initSinglePool.pushBack (initRoot indet J)).contents + 1, ?_⟩
  intro fuel hf
  obtain ⟨s1, e, ⟨i1, _, q1⟩, hnil, _⟩ := search_loop_rule B J 1
    (fun s => SearchInv J B.lb1_bound b0 s ∧ n0 ≤ s.num_sol ∧
      (n0 < s.num_sol ∨ (s.best = b0 ∧ (J = 1 → s.pool.contents ≠ []))))
    (fun s => poolWeight J.toNat s.pool.contents) (fun s h => h.1.1) (by
      intro s parent xs ⟨hs, hn0, hq⟩ hc
      obtain ⟨e1, e2, w, c, _⟩ := SinglePool.popBack_snoc s.pool 0 xs parent hs.1 hc
      obtain ⟨s2, e, i2, lt⟩ :=
        search_step J h1 hJ B.lb1_bound hadm b0 s (s.pool.popBack 0).2.2 xs parent hs hc w c
      obtain ⟨b2, n2, _⟩ := decompose_lb1_any SinglePool.push B.lb1_bound J parent _ s2 e
      simp only at b2 n2
      refine ⟨s2, by simp only [decompose, if_true]; exact e, ⟨i2, by omega, ?_⟩, lt⟩
      rcases hq with hq | ⟨hq1, hq2⟩
      · left; omega
      · by_cases hl : leafBounds_lb1 B.lb1_bound J parent = []
        · right
          rw [hl] at b2
          refine ⟨by rw [b2]; exact hq1, ?_⟩
          intro hJ1
          exfalso
          have hp := hs.2.1 parent (by rw [hc]; simp)
          have hd0 : parent.depth = 0 := by have := hp.2; omega
          have hl0 : parent.limit1 + 1 = 0 := by have := hp.1.1; omega
          apply List.ne_nil_of_length_pos ?_ hl
          unfold leafBounds_lb1
          rw [hd0, if_pos (by rw [hJ1]; rfl), List.length_map, idxs_length, hl0, hJ1]
          decide
        · left
          have := List.length_pos.2 hl
          omega) fuel _ ⟨hinv, le_refl _, Or.inr ⟨rfl, fun _ => (by rw [hc0]; simp)⟩⟩
      (by simp only; omega)
  refine ⟨s1, e, ?_⟩
  rcases q1 with h | ⟨h1b, h2b⟩
  · omega
  · exfalso
    have hfin := searchInv_final J B.lb1_bound b0 s1 i1 hnil
    rcases hb with ⟨q, hq, hlt⟩ | hJ1
    · have := optimum_le J B.lb1_bound b0 q hq
      omega
    · exact h2b hJ1 hnil

/-- Instance of C19 as amended: 3 jobs, the bounds `sampleBounds` and the initial best
100, above the value 4 of the leaf `[2, 1, 0]`. -/
theorem explored_sol_pos_witness :
    (1 : Int) ≤ 3 ∧ (3 : Int) ≤ 20 ∧ Admissible 3 sampleBounds.lb1_bound ∧
    sampleBounds.lb1_bound [2, 1, 0] (3 - 1) 3 < 100 ∧
    ∃ N, ∀ fuel, N ≤ fuel → ∃ s, pfsp_search sampleBounds 3 1 100 0 0 fuel = some s ∧
      0 + 1 ≤ s.num_sol :=
  ⟨by decide, by decide, sampleBounds_admissible 3, by decide,
    explored_sol_pos sampleBounds 3 100 0 0 (by decide) (by decide)
      (sampleBounds_admissible 3) (Or.inl ⟨[2, 1, 0], by decide, by decide⟩)⟩

/-! ## A batch of parents on any pool -/

theorem dispose_congr {P : Type} (push : P → Node → Option P) (leaf1 leaf2 : Prop)
    [Decidable leaf1] [Decidable leaf2] (h : leaf1 ↔ leaf2) (b : Int) (c : Node)
    (s : Search P) : dispose push leaf1 b c s = dispose push leaf2 b c s := by
  unfold dispose
  by_cases h1 : leaf1
  · rw [if_pos h1, if_pos (h.1 h1)]
  · rw [if_neg h1, if_neg (fun h2 => h1 (h.2 h2))]

theorem foldlM_option_congr {α β : Type} (f g : β → α → Option β) (l : List α)
    (h : ∀ s, ∀ x ∈ l, f s x = g s x) (s : β) : l.foldlM f s = l.foldlM g s := by
  induction l generalizing s with
  | nil => rfl
  | cons x xs ih =>
    rw [List.foldlM_cons, List.foldlM_cons, h s x (List.mem_cons_self _ _)]
    cases g s x with
    | none => rfl
    | some t => exact ih (fun s y hy => h s y (List.mem_cons_of_mem _ hy)) t

theorem idxs_foldlM_take {α β : Type} (d : α) (ps : List α) (F : α → β → Option β) (k : Nat)
    (hk : k ≤ ps.length) (s : β) :
    (idxs 0 (k : Int)).foldlM (fun s i => F (rd d ps i) s) s
      = (ps.take k).foldlM (fun s p => F p s) s := by
  induction k generalizing s with
  | zero => simp [idxs]
  | succ k ih =>
    have e : ((k + 1 : Nat) : Int) = (k : Int) + 1 := by push_cast; rfl
    rw [e, idxs_snoc (by omega), List.foldlM_append, ih (by omega),
      take_succ_getD ps k d (by omega), List.foldlM_append]
    congr 1

/-- The decompositions of the parents `ps` in turn, on any pool. -/
theorem lb1_foldlM_spec {P : Type} (push : P → Node → Option P) (Inv : P → Prop)
    (abs : P → List Node) (law : PoolLaw push Inv abs) (lb : List Int → Int → Int → Int)
    (J : Int) (ps : List Node) (s : Search P) (hinv : Inv s.pool) :
    ∃ s2, ps.foldlM (fun s p => decompose_lb1 push lb J p s) s = some s2 ∧ Inv s2.pool ∧
      abs s2.pool = abs s.pool ++ batch_kids lb J ps s.best ∧
      s2.best = batch_best lb J ps s.best ∧
      s2.tree_loc = s.tree_loc + (batch_kids lb J ps s.best).length ∧
      s2.num_sol = s.num_sol + batch_leaves lb J ps := by
  induction ps generalizing s with
  | nil =>
    exact ⟨s, rfl, hinv, by simp [batch_kids], rfl, by simp [batch_kids],
      by simp [batch_leaves]⟩
  | cons p ps ih =>
    obtain ⟨s1, e1, i1, a1, t1, b1, n1⟩ := decompose_lb1_spec push Inv abs law lb J p s hinv
    obtain ⟨s2, e2, i2, a2, b2, t2, n2⟩ := ih s1 i1
    refine ⟨s2, ?_, i2, ?_, ?_, ?_, ?_⟩
    · rw [List.foldlM_cons, e1]
      exact e2
    · rw [a2, a1, b1, List.append_assoc]
      rfl
    · rw [b2, b1]
      rfl
    · rw [t2, t1, b1]
      simp only [batch_kids, List.length_append]
      omega
    · rw [n2, n1]
      simp only [batch_leaves, List.map_cons, List.sum_cons]
      omega

theorem batch_best_le (lb : List Int → Int → Int → Int) (J : Int) (ps : List Node) (b : Int) :
    batch_best lb J ps b ≤ b := by
  induction ps generalizing b with
  | nil => exact le_refl _
  | cons p ps ih => exact (ih _).trans (foldl_min_le _ _)

theorem batch_kids_inv (lb : List Int → Int → Int → Int) (J : Int) (hJ : J ≤ 20)
    (ps : List Node) (b : Int) (hps : NodesOK J ps) : NodesOK J (batch_kids lb J ps b) := by
  induction ps generalizing b with
  | nil =>
    intro n hn
    simp [batch_kids] at hn
  | cons p ps ih =>
    intro n hn
    simp only [batch_kids] at hn
    rcases List.mem_append.1 hn with h | h
    · obtain ⟨hp1, hp2⟩ := hps p (List.mem_cons_self _ _)
      obtain ⟨a, _, c⟩ := kids_lb1_inv lb J hJ p b hp1 hp2 n h
      exact ⟨a, c⟩
    · exact ih _ (fun n hn => hps n (List.mem_cons_of_mem _ hn)) n h

theorem batch_best_ok (lb : List Int → Int → Int → Int) (J : Int) (hJ : J ≤ 20) (b0 : Int)
    (ps : List Node) (b : Int) (hps : NodesOK J ps) (hb : BestOK J lb b0 b) :
    BestOK J lb b0 (batch_best lb J ps b) := by
  induction ps generalizing b with
  | nil => exact hb
  | cons p ps ih =>
    apply ih _ (fun n hn => hps n (List.mem_cons_of_mem _ hn))
    obtain ⟨hp1, hp2⟩ := hps p (List.mem_cons_self _ _)
    refine ⟨(foldl_min_le _ _).trans hb.1, ?_⟩
    rcases foldl_min_mem (leafBounds_lb1 lb J p) b with h | h
    · rw [h]
      exact hb.2
    · right
      exact leafBounds_lb1_values lb J hJ p hp1 hp2 _ h

/-- A batch keeps the cover: a complete permutation below one of the parents has a value
that the new incumbent does not exceed, or lies below one of the children pushed. -/
theorem batch_cover (lb : List Int → Int → Int → Int) (J : Int) (hJ : J ≤ 20)
    (hadm : Admissible J lb) (ps : List Node) (b : Int) (hps : NodesOK J ps) (q : List Int)
    (hq : q.Perm (identity J)) (hb : ∃ p ∈ ps, Below q p) :
    batch_best lb J ps b ≤ lb q (J - 1) J ∨ ∃ c ∈ batch_kids lb J ps b, Below q c := by
  induction ps generalizing b with
  | nil =>
    obtain ⟨p, hp, _⟩ := hb
    simp at hp
  | cons p ps ih =>
    obtain ⟨p1, hp1, hbelow⟩ := hb
    rcases List.mem_cons.1 hp1 with h | h
    · subst h
      obtain ⟨hn1, hn2⟩ := hps p1 (List.mem_cons_self _ _)
      rcases kids_lb1_cover lb J hJ hadm p1 b hn1 hn2 q hq hbelow with h | ⟨c, hc, hbc⟩
      · left
        exact (batch_best_le lb J ps _).trans h
      · right
        exact ⟨c, by simp only [batch_kids]; exact List.mem_append_left _ hc, hbc⟩
    · rcases ih ((leafBounds_lb1 lb J p).foldl min b)
          (fun n hn => hps n (List.mem_cons_of_mem _ hn)) ⟨p1, h, hbelow⟩ with h2 | ⟨c, hc, hbc⟩
      · left
        exact h2
      · right
        exact ⟨c, by simp only [batch_kids]; exact List.mem_append_right _ hc, hbc⟩

theorem batch_weight (lb : List Int → Int → Int → Int) (J : Int) (hJ : J ≤ 20)
    (ps : List Node) (b : Int) (hps : NodesOK J ps) :
    poolWeight J.toNat (batch_kids lb J ps b) + ps.length ≤ poolWeight J.toNat ps := by
  induction ps generalizing b with
  | nil => simp [batch_kids, poolWeight]
  | cons p ps ih =>
    obtain ⟨hn1, hn2⟩ := hps p (List.mem_cons_self _ _)
    have h1 := kids_lb1_weight lb J hJ p b hn1 hn2
    have h2 := ih ((leafBounds_lb1 lb J p).foldl min b)
      (fun n hn => hps n (List.mem_cons_of_mem _ hn))
    simp only [batch_kids]
    rw [poolWeight_append, show p :: ps = [p] ++ ps from rfl, poolWeight_append]
    simp only [List.length_append, List.length_singleton]
    omega

theorem rd_map_idxs {α : Type} (d : α) (f : Int → α) (N x : Int) (h0 : 0 ≤ x) (hN : x < N) :
    rd d ((idxs 0 N).map f) x = f x := by
  obtain ⟨t, rfl⟩ := Int.eq_ofNat_of_zero_le h0
  rw [rd_natCast, List.getD_eq_getElem?_getD, List.getElem?_map,
    idxs_getElem? 0 N t (by omega)]
  simp

/-- With the bounds of the kernel for `lb = 1`, `generate_children` on a batch of
interior nodes is the decomposition of the parents in turn by `decompose_lb1`. -/
theorem generate_children_lb1 {P : Type} (push : P → Node → Option P) (B : Bounds) (J : Int)
    (hJ : J ≤ 20) (parents : List Node) (k : Nat) (hk : k ≤ parents.length) (best : Int)
    (hps : ∀ p ∈ parents.take k, Shape J p) (s : Search P) :
    generate_children push parents (k : Int) J
        (evaluate_gpu B J 1 (J * (k : Int)) best parents) s
      = (parents.take k).foldlM (fun s p => decompose_lb1 push B.lb1_bound J p s) s := by
  rw [generate_children_eq]
  have hstep : ∀ (s : Search P), ∀ i ∈ idxs 0 (k : Int),
      (idxs ((rd indet parents i).limit1 + 1) J).foldlM (fun (s : Search P) (j : Int) =>
        dispose push (((rd indet parents i).depth : Int) + 1 = J)
          (rd 0 (evaluate_gpu B J 1 (J * (k : Int)) best parents) (j + i * J))
          (child_fwd J (rd indet parents i) j) s) s
      = decompose_lb1 push B.lb1_bound J (rd indet parents i) s := by
    intro s i hi
    obtain ⟨hi0, hik⟩ := mem_idxs.1 hi
    obtain ⟨t, rfl⟩ := Int.eq_ofNat_of_zero_le hi0
    have htk : t < k := by omega
    have hmem : rd indet parents (t : Int) ∈ parents.take k := by
      rw [rd_natCast, List.getD_eq_getElem _ _ (by omega)]
      exact List.mem_take_iff_getElem.2 ⟨t, by omega, rfl⟩
    obtain ⟨hs1, hs2⟩ := hps _ hmem
    generalize hp : rd indet parents (t : Int) = parent at hs1 hs2 ⊢
    have hmod : (parent.depth + 1) % 256 = parent.depth + 1 := by omega
    rw [decompose_lb1_eq]
    apply foldlM_option_congr
    intro s j hj
    obtain ⟨hj0, hjJ⟩ := mem_idxs.1 hj
    have hJ0 : J ≠ 0 := by omega
    have hx0 : 0 ≤ j + (t : Int) * J := by
      have : 0 ≤ (t : Int) * J := mul_nonneg (by omega) (by omega)
      omega
    have hxN : j + (t : Int) * J < J * (k : Int) := by
      have : ((t : Int) + 1) * J ≤ (k : Int) * J :=
        mul_le_mul_of_nonneg_right (by omega) (by omega)
      rw [add_mul, one_mul, mul_comm (k : Int) J] at this
      omega
    have hdiv : (j + (t : Int) * J) / J = (t : Int) := by
      rw [Int.add_mul_ediv_right _ _ hJ0, Int.ediv_eq_zero_of_lt (by omega) hjJ, zero_add]
    have hmd : (j + (t : Int) * J) % J = j := by
      rw [Int.add_mul_emod_self, Int.emod_eq_of_lt (by omega) hjJ]
    have hb : rd 0 (evaluate_gpu B J 1 (J * (k : Int)) best parents) (j + (t : Int) * J)
        = bound_lb1 B.lb1_bound J (rd indet parents (t : Int)) j := by
      unfold evaluate_gpu
      rw [rd_map_idxs 0 _ _ _ hx0 hxN]
      simp only [hdiv, hmd, one_ne_zero, if_false, if_true]
    rw [hb, hp]
    apply dispose_congr
    rw [hmod]
    push_cast
    rfl
  rw [foldlM_option_congr _ _ _ hstep]
  exact idxs_foldlM_take indet parents (fun p s => decompose_lb1 push B.lb1_bound J p s) k hk s

/-! ## The pool calls of step 2 -/

/-- What `popBackBulk` returns on a well-formed unlocked pool, for `1 ≤ m` and
`1 ≤ M ≤ |parents|`: nothing when `size < m`, else the last `min(size, M) > 0` nodes. -/
theorem SinglePool_ext.ext_popBackBulk_spec (p : SinglePool_ext) (m M : Int)
    (parents : List Node) (hp : p.Ready) (hm : 1 ≤ m) (hM : 1 ≤ M)
    (hpar : M ≤ (parents.length : Int)) :
    (p.size < m → p.popBackBulk m M parents = some (0, parents, p)) ∧
    (m ≤ p.size → ∃ (k : Nat) (ps : List Node) (q : SinglePool_ext) (rest batch : List Node),
      p.popBackBulk m M parents = some ((k : Int), ps, q) ∧ 0 < k ∧ k ≤ ps.length ∧
      q.Ready ∧ p.contents = rest ++ batch ∧ q.contents = rest ∧ ps.take k = batch) := by
  obtain ⟨els, cap, fr, sz, lk⟩ := p
  obtain ⟨⟨h1, hf, h2, h3, h4⟩, hl⟩ := hp
  simp only at h1 hf h2 h3 h4 hl
  subst hl
  constructor
  · intro hlt
    simp only at hlt
    simp [SinglePool_ext.popBackBulk, hlt]
  · intro hge
    simp only at hge
    obtain ⟨s, rfl⟩ := Int.eq_ofNat_of_zero_le h2
    obtain ⟨f, rfl⟩ := Int.eq_ofNat_of_zero_le hf
    obtain ⟨k, hk⟩ : ∃ k : Nat, min (s : Int) M = (k : Int) :=
      ⟨(min (s : Int) M).toNat, by omega⟩
    have hks : k ≤ s := by omega
    have hk0 : 0 < k := by omega
    have hnlt : ¬ ((s : Int) < m) := by omega
    have hlen : f + s ≤ els.length := by omega
    have hoff : (f : Int) + ((s : Int) - (k : Int)) = ((f + (s - k) : Nat) : Int) := by omega
    have hsk : (s : Int) - (k : Int) = ((s - k : Nat) : Int) := by omega
    obtain ⟨b1, b2, b3⟩ := SinglePool_ext.bulk_split els cap f s k false hks
    have hloop := copy_loop indet els ((f : Int) + ((s : Int) - (k : Int))) (by omega) parents k
      (by omega) (by omega)
    rw [hoff, Int.toNat_ofNat] at hloop
    have hl2 : ((els.drop (f + (s - k))).take k).length = k := by
      rw [List.length_take, List.length_drop]; omega
    refine ⟨k, (els.drop (f + (s - k))).take k ++ parents.drop k,
      ⟨els, cap, f, ((s - k : Nat) : Int), false⟩,
      SinglePool_ext.contents ⟨els, cap, f, ((s - k : Nat) : Int), false⟩,
      (els.drop (f + (s - k))).take k, ?_, hk0, ?_, ⟨⟨h1, ?_, ?_, ?_, h4⟩, rfl⟩, b3, rfl, ?_⟩
    · simp only [SinglePool_ext.popBackBulk, Bool.false_eq_true, if_false, hnlt, hk]
      rw [← hloop, hoff, hsk]
    · rw [List.length_append, hl2]; omega
    · simp only; omega
    · simp only; omega
    · simp only; omega
    · rw [List.take_append_of_le_length (by omega), List.take_of_length_le (by omega)]

/-- What `popBackBulkFree` returns on a well-formed unlocked pool: the last `size / 2`
nodes when `size ≥ 2m`, else nothing. -/
theorem SinglePool_ext.ext_popBackBulkFree_spec (p : SinglePool_ext) (m M n : Int)
    (hp : p.Ready) :
    (2 * m ≤ p.size → ∃ (ps : List Node) (q : SinglePool_ext) (rest : List Node),
      p.popBackBulkFree m M n = (some ps, (ps.length : Int), q) ∧ q.Ready ∧
      p.contents = rest ++ ps ∧ q.contents = rest) ∧
    (p.size < 2 * m → p.popBackBulkFree m M n = (none, n, p)) := by
  obtain ⟨els, cap, fr, sz, lk⟩ := p
  obtain ⟨⟨h1, hf, h2, h3, h4⟩, hl⟩ := hp
  simp only at h1 hf h2 h3 h4 hl
  subst hl
  constructor
  · intro hge
    simp only at hge
    obtain ⟨s, rfl⟩ := Int.eq_ofNat_of_zero_le h2
    obtain ⟨f, rfl⟩ := Int.eq_ofNat_of_zero_le hf
    have htd : Int.tdiv (s : Int) 2 = (s : Int) / 2 := Int.tdiv_eq_ediv h2 (by decide)
    obtain ⟨k, hk⟩ : ∃ k : Nat, (s : Int) / 2 = (k : Int) := ⟨s / 2, by omega⟩
    have hks : k ≤ s := by omega
    have hoff : (f : Int) + ((s : Int) - (k : Int)) = ((f + (s - k) : Nat) : Int) := by omega
    have hsk : (s : Int) - (k : Int) = ((s - k : Nat) : Int) := by omega
    obtain ⟨b1, b2, b3⟩ := SinglePool_ext.bulk_split els cap f s k false hks
    have hloop := copy_loop indet els ((f : Int) + ((s : Int) - (k : Int))) (by omega)
      (List.replicate k indet) k (by simp) (by omega)
    rw [hoff, Int.toNat_ofNat] at hloop
    have hl2 : ((els.drop (f + (s - k))).take k).length = k := by
      rw [List.length_take, List.length_drop]; omega
    refine ⟨(els.drop (f + (s - k))).take k, ⟨els, cap, f, ((s - k : Nat) : Int), false⟩,
      SinglePool_ext.contents ⟨els, cap, f, ((s - k : Nat) : Int), false⟩, ?_,
      ⟨⟨h1, ?_, ?_, ?_, h4⟩, rfl⟩, b3, rfl⟩
    · have hge2 : (s : Int) ≥ 2 * m := hge
      simp only [SinglePool_ext.popBackBulkFree, hge2, if_true, htd, hk, Int.toNat_ofNat]
      rw [hoff, hloop, hl2, hsk]
      simp
    · simp only; omega
    · simp only; omega
    · simp only; omega
  · intro hlt
    simp only at hlt
    have : ¬ (sz ≥ 2 * m) := by omega
    simp [SinglePool_ext.popBackBulkFree, this]

/-- A pass of a task with `lb = 1` takes a batch from the back of its pool and pushes
the children that the decompositions of the batch keep. -/
theorem task_batch_spec (B : Bounds) (J : Int) (hJ : J ≤ 20) (m M : Int) (hm : 1 ≤ m)
    (hM : 1 ≤ M) (w w1 : Search SinglePool_ext) (hw : w.pool.Ready)
    (hn : NodesOK J w.pool.contents) (h : task_batch B J 1 m M w = some w1) :
    ∃ rest batch, batch ≠ [] ∧ w.pool.contents = rest ++ batch ∧ w1.pool.Ready ∧
      w1.pool.contents = rest ++ batch_kids B.lb1_bound J batch w.best ∧
      w1.best = batch_best B.lb1_bound J batch w.best ∧
      w1.tree_loc = w.tree_loc + (batch_kids B.lb1_bound J batch w.best).length ∧
      w1.num_sol = w.num_sol + batch_leaves B.lb1_bound J batch := by
  obtain ⟨a, b⟩ := SinglePool_ext.ext_popBackBulk_spec w.pool m M (List.replicate M.toNat indet)
    hw hm hM (by rw [List.length_replicate]; omega)
  by_cases hsz : w.pool.size < m
  · rw [task_batch, a hsz] at h
    simp at h
  · obtain ⟨k, ps, q, rest, batch, e, hk0, hkl, hq, hc, hqc, hb⟩ := b (by omega)
    rw [task_batch, e] at h
    simp only [Option.some_bind] at h
    rw [if_pos (by omega)] at h
    have hbn : NodesOK J batch := fun n hn2 => hn n (by rw [hc]; exact List.mem_append_right _ hn2)
    rw [generate_children_lb1 SinglePool_ext.pushBack B J hJ ps k hkl w.best (by
      rw [hb]
      intro p hp
      exact ⟨(hbn p hp).1.1, (hbn p hp).2⟩), hb] at h
    obtain ⟨s2, e2, i2, a2, b2, t2, n2⟩ := lb1_foldlM_spec SinglePool_ext.pushBack
      SinglePool_ext.Ready SinglePool_ext.contents SinglePool_ext.ext_law B.lb1_bound J batch
      { w with pool := q } hq
    rw [e2] at h
    have hw1 : s2 = w1 := by simpa using h
    subst hw1
    refine ⟨rest, batch, ?_, hc, i2, ?_, b2, t2, n2⟩
    · intro hnil
      rw [hnil] at hb
      have hlen := congrArg List.length hb
      rw [List.length_take, List.length_nil] at hlen
      omega
    · rw [a2]
      simp only [hqc]

/-- A steal attempt on well-formed unlocked pools moves the nodes `ps` (none when the
victim has less than `2m` nodes) from the back of the victim to the back of the thief. -/
theorem task_steal_spec (m M : Int) (thief victim t q : SinglePool_ext) (ht : thief.Ready)
    (hv : victim.Ready) (h : task_steal m M thief victim = some (t, q)) :
    t.Ready ∧ q.Ready ∧ ∃ rest ps, victim.contents = rest ++ ps ∧ q.contents = rest ∧
      t.contents = thief.contents ++ ps := by
  obtain ⟨a, b⟩ := SinglePool_ext.ext_popBackBulkFree_spec victim m M victim.size hv
  unfold task_steal at h
  by_cases hsz : victim.size ≥ 2 * m
  · obtain ⟨ps, q1, rest, e, hq, hc, hqc⟩ := a hsz
    simp only [steal_section, hsz, if_true, e] at h
    obtain ⟨t1, e1, w1, l1, c1, _, _⟩ :=
      SinglePool_ext.ext_pushBackAll_spec (ps.take (ps.length : Int).toNat) thief ht.1 ht.2
    rw [show (ps.length : Int).toNat = ps.length from Int.toNat_ofNat _, List.take_length] at e1 c1
    simp only [SinglePool_ext.pushBackBulk3, Int.toNat_ofNat, List.take_length, e1,
      Option.map_some', Option.some.injEq, Prod.mk.injEq] at h
    obtain ⟨rfl, rfl⟩ := h
    exact ⟨⟨w1, l1⟩, hq, rest, ps, hc, hqc, c1⟩
  · simp only [steal_section, hsz, if_false, Option.some.injEq, Prod.mk.injEq] at h
    obtain ⟨rfl, rfl⟩ := h
    exact ⟨ht, hv, victim.contents, [], by rw [List.append_nil], rfl, by rw [List.append_nil]⟩

theorem drain_loop (l : List Int) :
    ∀ (xs ys : List Node) (pl p : SinglePool_ext), pl.Ready → p.Ready →
      pl.contents = xs ++ ys → ys.length = l.length →
      ∃ pl1 p1, l.foldlM
          (fun (st : SinglePool_ext × SinglePool_ext × Bool) (_ : Int) =>
            if st.2.2 then some st
            else
              (st.1.popBack 0).bind (fun r =>
                (st.2.1.pushBack r.1).map (fun p => (r.2.2, p, decide (r.2.1 = 0)))))
          (pl, p, false) = some (pl1, p1, false) ∧
        pl1.Ready ∧ p1.Ready ∧ pl1.contents = xs ∧ p1.contents = p.contents ++ ys.reverse := by
  induction l with
  | nil =>
    intro xs ys pl p h1 h2 hc hl
    have : ys = [] := List.length_eq_zero.1 hl
    subst this
    exact ⟨pl, p, rfl, h1, h2, by rw [hc, List.append_nil], by simp⟩
  | cons i l ih =>
    intro xs ys pl p h1 h2 hc hl
    rcases List.eq_nil_or_concat ys with hnil | ⟨zs, n, hys⟩
    · rw [hnil] at hl
      simp at hl
    · rw [List.concat_eq_append] at hys
      subst hys
      rw [← List.append_assoc] at hc
      obtain ⟨q, e, w, lk, c, _, _⟩ :=
        SinglePool_ext.ext_popBack_snoc pl 0 (xs ++ zs) n h1.1 h1.2 hc
      obtain ⟨p2, e2, w2, l2, c2, _, _⟩ := SinglePool_ext.ext_pushBack_spec p n h2.1 h2.2
      obtain ⟨pl1, p1, e3, r1, r2, c3, c4⟩ := ih xs zs q p2 ⟨w, lk⟩ ⟨w2, l2⟩ c (by
        simp only [List.length_append, List.length_singleton, List.length_cons,
          List.length_nil] at hl
        omega)
      refine ⟨pl1, p1, ?_, r1, r2, c3, ?_⟩
      · rw [List.foldlM_cons]
        simp only [Bool.false_eq_true, if_false, e, Option.some_bind, e2, Option.map_some',
          one_ne_zero, decide_False]
        exact e3
      · rw [c4, c2]
        simp

/-- The critical section moves all the nodes of `pool_loc` to `pool`, last node first. -/
theorem drain_spec (pl p : SinglePool_ext) (h1 : pl.Ready) (h2 : p.Ready) :
    ∃ pl1 p1, drain pl p = some (pl1, p1) ∧ p1.Ready ∧
      p1.contents = p.contents ++ pl.contents.reverse := by
  have hlen := SinglePool_ext.ext_contents_length pl h1.1
  obtain ⟨pl1, p1, e, _, r2, _, c⟩ := drain_loop (idxs 0 pl.size) [] pl.contents pl p h1 h2
    (by simp) (by rw [idxs_length]; omega)
  refine ⟨pl1, p1, ?_, r2, c⟩
  unfold drain
  rw [e]
  rfl

/-- The critical sections of the tasks `ord` in turn. -/
theorem drain_all (ord : List (Search SinglePool_ext)) :
    ∀ (p : SinglePool_ext), p.Ready → (∀ w ∈ ord, w.pool.Ready) →
      ∃ p1, ord.foldlM (fun (pool : SinglePool_ext) (w : Search SinglePool_ext) =>
          (drain w.pool pool).map (fun r => r.2)) p = some p1 ∧ p1.Ready ∧
        p1.contents = p.contents ++ ord.flatMap (fun w => w.pool.contents.reverse) := by
  induction ord with
  | nil =>
    intro p hp _
    exact ⟨p, rfl, hp, by simp⟩
  | cons w ord ih =>
    intro p hp hw
    obtain ⟨pl1, p1, e, r, c⟩ := drain_spec w.pool p (hw w (List.mem_cons_self _ _)) hp
    obtain ⟨p2, e2, r2, c2⟩ := ih p1 r (fun u hu => hw u (List.mem_cons_of_mem _ hu))
    refine ⟨p2, ?_, r2, ?_⟩
    · rw [List.foldlM_cons, e]
      exact e2
    · rw [c2, c, List.flatMap_cons, List.append_assoc]

theorem findMin_loop (pre xs : List Int) (b : Int) :
    (idxs (pre.length : Int) ((pre.length + xs.length : Nat) : Int)).foldl
        (fun mn i => min mn (rd 0 (pre ++ xs) i)) b
      = xs.foldl min b := by
  induction xs generalizing pre b with
  | nil => simp [idxs]
  | cons x xs ih =>
    rw [idxs_cons (by simp only [List.length_cons]; push_cast; omega), List.foldl_cons,
      List.foldl_cons, rd_natCast, List.getD_eq_getElem?_getD,
      List.getElem?_append_right (le_refl _), Nat.sub_self,
      show (x :: xs)[0]?.getD 0 = x by simp]
    have := ih (pre ++ [x]) (min b x)
    simp only [List.length_append, List.length_singleton, List.append_assoc,
      List.singleton_append] at this
    rw [show ((pre.length : Int) + 1) = ((pre.length + 1 : Nat) : Int) by push_cast; rfl,
      show pre.length + (x :: xs).length = pre.length + 1 + xs.length by
        simp only [List.length_cons]; omega]
    exact this

/-- The value `findMin(eachBest, D)` is the least of the `D` values. -/
theorem findMin_spec (x : Int) (xs : List Int) :
    findMin (x :: xs) (((x :: xs).length : Nat) : Int) = xs.foldl min x := by
  unfold findMin
  have := findMin_loop [x] xs x
  simp only [List.length_singleton, List.singleton_append] at this
  rw [show ((x :: xs).length : Int) = ((1 + xs.length : Nat) : Int) by
    simp only [List.length_cons]; push_cast; omega]
  rw [show rd 0 (x :: xs) 0 = x from rfl]
  exact this

/-- Induction rule for the loop of step 3: a property `R` of the state that every
iteration keeps while a measure `μ` decreases holds when the loop returns, and the loop
returns with an empty pool. -/
theorem step3_loop_rule (B : Bounds) (J : Int) (lb : Int)
    (R : Search SinglePool_ext → Prop) (μ : Search SinglePool_ext → Nat)
    (hwf : ∀ s, R s → s.pool.Ready)
    (hstep : ∀ s parent xs q, R s → s.pool.contents = xs ++ [parent] →
      s.pool.popBack 0 = some (parent, 1, q) → q.Ready → q.contents = xs →
      ∃ s2, decompose_ext SinglePool_ext.pushBack B J lb parent { s with pool := q } = some s2 ∧
        R s2 ∧ μ s2 < μ s) :
    ∀ (fuel : Nat) (s : Search SinglePool_ext), R s → μ s < fuel →
      ∃ s1, step3_loop B J lb fuel s = some s1 ∧ R s1 ∧ s1.pool.contents = [] := by
  intro fuel
  induction fuel with
  | zero =>
    intro s _ h
    omega
  | succ f ih =>
    intro s hs hm
    have hw := hwf s hs
    rcases List.eq_nil_or_concat s.pool.contents with hnil | ⟨xs, parent, hc⟩
    · have hlen := SinglePool_ext.ext_contents_length s.pool hw.1
      rw [hnil] at hlen
      have hpop := SinglePool_ext.ext_popBack_empty s.pool 0 hw.2 (by simpa using hlen.symm.le)
      refine ⟨s, ?_, hs, hnil⟩
      simp only [step3_loop, hpop, Option.some_bind, if_true]
    · rw [List.concat_eq_append] at hc
      obtain ⟨q, e, w, lk, c, _, _⟩ :=
        SinglePool_ext.ext_popBack_snoc s.pool 0 xs parent hw.1 hw.2 hc
      obtain ⟨s2, e2, r2, lt⟩ := hstep s parent xs q hs hc e ⟨w, lk⟩ c
      obtain ⟨s1, r1, a, b⟩ := ih s2 r2 (by omega)
      refine ⟨s1, ?_, a, b⟩
      simp only [step3_loop, e, Option.some_bind, one_ne_zero, if_false, e2]
      exact r1

/-! ## Completeness of the search on several pools -/

theorem mem_set_cases {α : Type} (l : List α) (g : Nat) (a b x : α) (hg : l[g]? = some a)
    (hx : x ∈ l) : x ∈ l.set g b ∨ x = a := by
  obtain ⟨i, hi, rfl⟩ := List.mem_iff_getElem.1 hx
  by_cases h : i = g
  · right
    subst h
    rw [List.getElem?_eq_getElem hi] at hg
    exact Option.some.inj hg
  · left
    have : (l.set g b)[i]? = some l[i] := by
      rw [List.getElem?_set_ne (fun e => h e.symm), List.getElem?_eq_getElem hi]
    exact List.getElem?_mem this

theorem mem_of_mem_set {α : Type} (l : List α) (g : Nat) (b x : α) (hx : x ∈ l.set g b) :
    x ∈ l ∨ x = b := by
  rcases List.mem_or_eq_of_mem_set hx with h | h
  · exact Or.inl h
  · exact Or.inr h

theorem mem_set_self {α : Type} (l : List α) (g : Nat) (a b : α) (hg : l[g]? = some a) :
    b ∈ l.set g b := by
  have hlt : g < l.length := by
    by_contra h
    rw [List.getElem?_eq_none (by omega)] at hg
    cases hg
  exact List.getElem?_mem (List.getElem?_set_self hlt)

theorem sum_map_set {α : Type} (f : α → Nat) (l : List α) (g : Nat) (a b : α)
    (hg : l[g]? = some a) : ((l.set g b).map f).sum + f a = (l.map f).sum + f b := by
  induction l generalizing g with
  | nil => simp at hg
  | cons x xs ih =>
    cases g with
    | zero =>
      simp only [List.getElem?_cons_zero, Option.some.injEq] at hg
      subst hg
      simp only [List.set_cons_zero, List.map_cons, List.sum_cons]
      omega
    | succ g =>
      simp only [List.getElem?_cons_succ] at hg
      have := ih g hg
      simp only [List.set_cons_succ, List.map_cons, List.sum_cons]
      omega

theorem covered_mono (J : Int) (lb : List Int → Int → Int → Int) (bests bests1 : List Int)
    (c c1 : List Node) (hb : ∀ x ∈ bests, ∃ y ∈ bests1, y ≤ x) (hc : ∀ n ∈ c, n ∈ c1)
    (h : Covered J lb bests c) : Covered J lb bests1 c1 := by
  intro q hq
  rcases h q hq with ⟨x, hx, hle⟩ | ⟨n, hn, hbl⟩
  · obtain ⟨y, hy, hyx⟩ := hb x hx
    exact Or.inl ⟨y, hy, hyx.trans hle⟩
  · exact Or.inr ⟨n, hc n hn, hbl⟩

/-- The cover after the decompositions of a batch: the nodes of the batch are replaced
by the children pushed and the incumbent of the batch by its new value. -/
theorem covered_step (J : Int) (hJ : J ≤ 20) (lb : List Int → Int → Int → Int)
    (hadm : Admissible J lb) (bests bests1 : List Int) (c c1 batch : List Node) (b : Int)
    (hb : ∀ x ∈ bests, ∃ y ∈ bests1, y ≤ x) (hnew : batch_best lb J batch b ∈ bests1)
    (hc : ∀ n ∈ c, n ∈ c1 ∨ n ∈ batch) (hkids : ∀ n ∈ batch_kids lb J batch b, n ∈ c1)
    (hbatch : NodesOK J batch) (h : Covered J lb bests c) : Covered J lb bests1 c1 := by
  intro q hq
  rcases h q hq with ⟨x, hx, hle⟩ | ⟨n, hn, hbl⟩
  · obtain ⟨y, hy, hyx⟩ := hb x hx
    exact Or.inl ⟨y, hy, hyx.trans hle⟩
  · rcases hc n hn with h1 | h1
    · exact Or.inr ⟨n, h1, hbl⟩
    · rcases batch_cover lb J hJ hadm batch b hbatch q hq ⟨n, h1, hbl⟩ with h2 | ⟨k, hk, hkb⟩
      · exact Or.inl ⟨_, hnew, h2⟩
      · exact Or.inr ⟨k, hkids k hk, hkb⟩

theorem best_final (J : Int) (lb : List Int → Int → Int → Int) (b0 best : Int)
    (h1 : BestOK J lb b0 best) (h2 : Covered J lb [best] []) : best = optimum J lb b0 := by
  unfold optimum
  apply eq_foldl_min _ _ _ h1.1
  · intro v hv
    obtain ⟨q, hq, rfl⟩ := List.mem_map.1 hv
    rcases h2 q (List.mem_permutations.1 hq) with ⟨b, hb, hle⟩ | ⟨n, hn, _⟩
    · have : b = best := by simpa using hb
      rw [← this]
      exact hle
    · cases hn
  · rcases h1.2 with h | ⟨q, hq, e⟩
    · left; exact h
    · right
      exact List.mem_map.2 ⟨q, List.mem_permutations.2 hq, e.symm⟩

theorem poolWeight_perm (J : Nat) (a b : List Node) (h : a.Perm b) :
    poolWeight J a = poolWeight J b := by
  unfold poolWeight
  exact (h.map _).sum_eq

theorem poolWeight_flatMap {α : Type} (J : Nat) (l : List α) (f : α → List Node) :
    poolWeight J (l.flatMap f) = (l.map (fun x => poolWeight J (f x))).sum := by
  induction l with
  | nil => rfl
  | cons x xs ih =>
    rw [List.flatMap_cons, poolWeight_append, ih]
    rfl

/-- A step of step 2 keeps the invariant and the number of tasks, and does not increase
the weight of the pools. -/
theorem step2_inv (B : Bounds) (J : Int) (hJ : J ≤ 20) (hadm : Admissible J B.lb1_bound)
    (b0 m M : Int) (hm : 1 ≤ m) (hM : 1 ≤ M) (ws ws1 : List (Search SinglePool_ext))
    (h : TasksInv J B.lb1_bound b0 ws) (hs : Step2 B J 1 m M ws ws1) :
    TasksInv J B.lb1_bound b0 ws1 ∧ tasksWeight J.toNat ws1 ≤ tasksWeight J.toNat ws ∧
      ws1.length = ws.length := by
  obtain ⟨h1, h2⟩ := h
  cases hs with
  | batch g w w1 hg hb =>
    have hwm : w ∈ ws := List.getElem?_mem hg
    obtain ⟨hr, hn, hbo⟩ := h1 w hwm
    obtain ⟨rest, batch, _, hc, r1, c1, b1, _, _⟩ :=
      task_batch_spec B J hJ m M hm hM w w1 hr hn hb
    have hbn : NodesOK J batch :=
      fun n hn2 => hn n (by rw [hc]; exact List.mem_append_right _ hn2)
    have hkn := batch_kids_inv B.lb1_bound J hJ batch w.best hbn
    have hw1m : w1 ∈ ws.set g w1 := mem_set_self ws g w w1 hg
    refine ⟨⟨?_, ?_⟩, ?_, by rw [List.length_set]⟩
    · intro u hu
      rcases mem_of_mem_set ws g w1 u hu with hu | hu
      · exact h1 u hu
      · subst hu
        refine ⟨r1, ?_, ?_⟩
        · intro n hn2
          rw [c1] at hn2
          rcases List.mem_append.1 hn2 with h3 | h3
          · exact hn n (by rw [hc]; exact List.mem_append_left _ h3)
          · exact hkn n h3
        · rw [b1]
          exact batch_best_ok B.lb1_bound J hJ b0 batch w.best hbn hbo
    · apply covered_step J hJ B.lb1_bound hadm _ _ _ _ batch w.best ?_ ?_ ?_ ?_ hbn h2
      · intro x hx
        obtain ⟨u, hu, rfl⟩ := List.mem_map.1 hx
        rcases mem_set_cases ws g w w1 u hg hu with h3 | h3
        · exact ⟨u.best, List.mem_map.2 ⟨u, h3, rfl⟩, le_refl _⟩
        · subst h3
          exact ⟨w1.best, List.mem_map.2 ⟨w1, hw1m, rfl⟩,
            by rw [b1]; exact batch_best_le _ _ _ _⟩
      · rw [← b1]
        exact List.mem_map.2 ⟨w1, hw1m, rfl⟩
      · intro n hn2
        obtain ⟨u, hu, hnu⟩ := List.mem_flatMap.1 hn2
        rcases mem_set_cases ws g w w1 u hg hu with h3 | h3
        · exact Or.inl (List.mem_flatMap.2 ⟨u, h3, hnu⟩)
        · subst h3
          rw [hc] at hnu
          rcases List.mem_append.1 hnu with h4 | h4
          · exact Or.inl (List.mem_flatMap.2 ⟨w1, hw1m,
              by rw [c1]; exact List.mem_append_left _ h4⟩)
          · exact Or.inr h4
      · intro n hn2
        exact List.mem_flatMap.2 ⟨w1, hw1m, by rw [c1]; exact List.mem_append_right _ hn2⟩
    · have hsum := sum_map_set (fun u => poolWeight J.toNat u.pool.contents) ws g w w1 hg
      simp only at hsum
      have hwt := batch_weight B.lb1_bound J hJ batch w.best hbn
      rw [c1, hc, poolWeight_append, poolWeight_append] at hsum
      unfold tasksWeight
      omega
  | steal g v w u t q hg hv hne _ hst =>
    have hwm : w ∈ ws := List.getElem?_mem hg
    have hum : u ∈ ws := List.getElem?_mem hv
    obtain ⟨hr, hn, hbo⟩ := h1 w hwm
    obtain ⟨hr2, hn2, hbo2⟩ := h1 u hum
    obtain ⟨rt, rq, rest, ps, hc, hqc, htc⟩ := task_steal_spec m M w.pool u.pool t q hr hr2 hst
    have hv2 : (ws.set g { w with pool := t })[v]? = some u := by
      rw [List.getElem?_set_ne hne]
      exact hv
    have hm1 : ({ u with pool := q } : Search SinglePool_ext)
        ∈ (ws.set g { w with pool := t }).set v { u with pool := q } :=
      mem_set_self _ v u _ hv2
    have hm0 : ({ w with pool := t } : Search SinglePool_ext)
        ∈ (ws.set g { w with pool := t }).set v { u with pool := q } := by
      have hlt : g < ws.length := by
        by_contra h
        rw [List.getElem?_eq_none (by omega)] at hg
        cases hg
      have : ((ws.set g { w with pool := t }).set v { u with pool := q })[g]?
          = some { w with pool := t } := by
        rw [List.getElem?_set_ne (fun e => hne e.symm), List.getElem?_set_self hlt]
      exact List.getElem?_mem this
    have hold : ∀ x ∈ ws, x ∈ (ws.set g { w with pool := t }).set v { u with pool := q } ∨
        x = w ∨ x = u := by
      intro x hx
      rcases mem_set_cases ws g w { w with pool := t } x hg hx with h3 | h3
      · rcases mem_set_cases _ v u { u with pool := q } x hv2 h3 with h4 | h4
        · exact Or.inl h4
        · exact Or.inr (Or.inr h4)
      · exact Or.inr (Or.inl h3)
    have hnew : ∀ x ∈ (ws.set g { w with pool := t }).set v { u with pool := q },
        x ∈ ws ∨ x = { w with pool := t } ∨ x = { u with pool := q } := by
      intro x hx
      rcases mem_of_mem_set _ v _ x hx with h3 | h3
      · rcases mem_of_mem_set ws g _ x h3 with h4 | h4
        · exact Or.inl h4
        · exact Or.inr (Or.inl h4)
      · exact Or.inr (Or.inr h3)
    refine ⟨⟨?_, ?_⟩, ?_, by rw [List.length_set, List.length_set]⟩
    · intro x hx
      rcases hnew x hx with h3 | h3 | h3
      · exact h1 x h3
      · subst h3
        refine ⟨rt, ?_, hbo⟩
        intro n hn3
        simp only [htc] at hn3
        rcases List.mem_append.1 hn3 with h4 | h4
        · exact hn n h4
        · exact hn2 n (by rw [hc]; exact List.mem_append_right _ h4)
      · subst h3
        refine ⟨rq, ?_, hbo2⟩
        intro n hn3
        simp only [hqc] at hn3
        exact hn2 n (by rw [hc]; exact List.mem_append_left _ hn3)
    · apply covered_mono J B.lb1_bound _ _ _ _ ?_ ?_ h2
      · intro x hx
        obtain ⟨y, hy, rfl⟩ := List.mem_map.1 hx
        rcases hold y hy with h3 | h3 | h3
        · exact ⟨y.best, List.mem_map.2 ⟨y, h3, rfl⟩, le_refl _⟩
        · subst h3
          exact ⟨y.best, List.mem_map.2 ⟨_, hm0, rfl⟩, le_refl _⟩
        · subst h3
          exact ⟨y.best, List.mem_map.2 ⟨_, hm1, rfl⟩, le_refl _⟩
      · intro n hn3
        obtain ⟨y, hy, hny⟩ := List.mem_flatMap.1 hn3
        rcases hold y hy with h3 | h3 | h3
        · exact List.mem_flatMap.2 ⟨y, h3, hny⟩
        · subst h3
          exact List.mem_flatMap.2 ⟨_, hm0, by
            simp only [htc]; exact List.mem_append_left _ hny⟩
        · subst h3
          rw [hc] at hny
          rcases List.mem_append.1 hny with h4 | h4
          · exact List.mem_flatMap.2 ⟨_, hm1, by simp only [hqc]; exact h4⟩
          · exact List.mem_flatMap.2 ⟨_, hm0, by
              simp only [htc]; exact List.mem_append_right _ h4⟩
    · have s1 := sum_map_set (fun x => poolWeight J.toNat x.pool.contents) ws g w
        { w with pool := t } hg
      have s2 := sum_map_set (fun x => poolWeight J.toNat x.pool.contents)
        (ws.set g { w with pool := t }) v u { u with pool := q } hv2
      simp only [htc, hqc, hc, poolWeight_append] at s1 s2
      unfold tasksWeight
      omega

/-- Every state that step 2 reaches keeps the invariant. -/
theorem reach2_inv (B : Bounds) (J : Int) (hJ : J ≤ 20) (hadm : Admissible J B.lb1_bound)
    (b0 m M : Int) (hm : 1 ≤ m) (hM : 1 ≤ M) (ws ws1 : List (Search SinglePool_ext))
    (h : TasksInv J B.lb1_bound b0 ws) (hr : Reach2 B J 1 m M ws ws1) :
    TasksInv J B.lb1_bound b0 ws1 ∧ tasksWeight J.toNat ws1 ≤ tasksWeight J.toNat ws ∧
      ws1.length = ws.length := by
  induction hr with
  | refl => exact ⟨h, le_refl _, rfl⟩
  | step wa wb _ hs ih =>
    obtain ⟨a, b, c⟩ := ih
    obtain ⟨a2, b2, c2⟩ := step2_inv B J hJ hadm b0 m M hm hM _ _ a hs
    exact ⟨a2, b2.trans b, c2.trans c⟩

/-- One call `decompose(...)` of `pfsp_multigpu_cuda.c` with `lb = 1` on a node popped
from a pool of interior nodes. -/
theorem lb1_pop_step (B : Bounds) (J : Int) (hJ : J ≤ 20) (b0 : Int)
    (s : Search SinglePool_ext) (q : SinglePool_ext) (xs : List Node) (parent : Node)
    (hq : q.Ready) (hqc : q.contents = xs) (hn : NodesOK J (parent :: xs))
    (hb : BestOK J B.lb1_bound b0 s.best) :
    ∃ s2, decompose_ext SinglePool_ext.pushBack B J 1 parent { s with pool := q } = some s2 ∧
      s2.pool.Ready ∧ s2.pool.contents = xs ++ kids_lb1 B.lb1_bound J parent s.best ∧
      NodesOK J s2.pool.contents ∧ BestOK J B.lb1_bound b0 s2.best ∧
      poolWeight J.toNat s2.pool.contents < poolWeight J.toNat (parent :: xs) ∧
      s2.tree_loc = s.tree_loc + (kids_lb1 B.lb1_bound J parent s.best).length ∧
      s2.num_sol = s.num_sol + (leafBounds_lb1 B.lb1_bound J parent).length ∧
      s2.best = (leafBounds_lb1 B.lb1_bound J parent).foldl min s.best := by
  obtain ⟨hp1, hp2⟩ := hn parent (List.mem_cons_self _ _)
  obtain ⟨s2, e, i2, a2, t2, b2, n2⟩ := decompose_lb1_spec SinglePool_ext.pushBack
    SinglePool_ext.Ready SinglePool_ext.contents SinglePool_ext.ext_law B.lb1_bound J parent
    { s with pool := q } hq
  simp only [hqc] at a2 t2 b2 n2
  have hk := kids_lb1_inv B.lb1_bound J hJ parent s.best hp1 hp2
  refine ⟨s2, ?_, i2, a2, ?_, ?_, ?_, t2, n2, b2⟩
  · simp only [decompose_ext, one_ne_zero, if_false, if_true]
    exact e
  · intro n hn2
    rw [a2] at hn2
    rcases List.mem_append.1 hn2 with h | h
    · exact hn n (List.mem_cons_of_mem _ h)
    · exact ⟨(hk n h).1, (hk n h).2.2⟩
  · have := batch_best_ok B.lb1_bound J hJ b0 [parent] s.best
      (fun n hn2 => hn n (by
        have : n = parent := by simpa using hn2
        rw [this]
        exact List.mem_cons_self _ _)) hb
    rw [b2]
    exact this
  · rw [a2, poolWeight_append, show parent :: xs = [parent] ++ xs from rfl, poolWeight_append]
    have := kids_lb1_weight B.lb1_bound J hJ parent s.best hp1 hp2
    omega

/-- The cover after one decomposition with `lb = 1`. -/
theorem covered_pop (J : Int) (hJ : J ≤ 20) (lb : List Int → Int → Int → Int)
    (hadm : Admissible J lb) (xs c : List Node) (parent : Node) (b : Int)
    (hc : ∀ n ∈ c, n = parent ∨ n ∈ xs) (hp : NodeInv J parent ∧ (parent.depth : Int) < J)
    (h : Covered J lb [b] c) :
    Covered J lb [(leafBounds_lb1 lb J parent).foldl min b] (xs ++ kids_lb1 lb J parent b) := by
  apply covered_step J hJ lb hadm [b] _ c _ [parent] b ?_ ?_ ?_ ?_ ?_ h
  · intro x hx
    have : x = b := by simpa using hx
    subst this
    exact ⟨_, List.mem_singleton.2 rfl, foldl_min_le _ _⟩
  · exact List.mem_singleton.2 rfl
  · intro n hn
    rcases hc n hn with h1 | h1
    · exact Or.inr (by rw [h1]; exact List.mem_singleton.2 rfl)
    · exact Or.inl (List.mem_append_left _ h1)
  · intro n hn
    simp only [batch_kids, List.append_nil] at hn
    exact List.mem_append_right _ hn
  · intro n hn
    have : n = parent := by simpa using hn
    rw [this]
    exact hp

/-- Step 1 with `lb = 1`: it returns as soon as it is given enough iterations, with a
well-formed unlocked pool of interior nodes that covers every complete permutation. -/
theorem step1_inv (B : Bounds) (J : Int) (h1 : 1 ≤ J) (hJ : J ≤ 20)
    (hadm : Admissible J B.lb1_bound) (T b0 : Int) (t0 n0 : Nat) (fuel : Nat)
    (hf : poolWeight J.toNat [initRoot indet J] < fuel) :
    ∃ s1, step1 B J 1 T b0 t0 n0 fuel = some s1 ∧ s1.pool.Ready ∧
      NodesOK J s1.pool.contents ∧ BestOK J B.lb1_bound b0 s1.best ∧
      Covered J B.lb1_bound [s1.best] s1.pool.contents ∧
      poolWeight J.toNat s1.pool.contents ≤ poolWeight J.toNat [initRoot indet J] ∧
      s1.pool.size ≤ max 1 (T + J - 2) := by
  obtain ⟨p, e, r, c, sz, _⟩ := initial_pool J
  obtain ⟨rd0, rl0, _, _⟩ := initRoot_spec J hJ
  have hri := initRoot_inv J hJ
  have hn0 : NodesOK J p.contents := by
    intro n hn
    simp only [c] at hn
    have : n = initRoot indet J := by simpa using hn
    subst this
    exact ⟨hri, by rw [rd0]; push_cast; omega⟩
  have hc0 : Covered J B.lb1_bound [b0] p.contents := by
    intro q _
    right
    refine ⟨initRoot indet J, by simp only [c]; simp, ?_⟩
    intro j hj
    rw [rd0] at hj
    omega
  obtain ⟨s1, e1, ⟨a1, a2, a3, a4, a5, a6⟩, _⟩ := step1_loop_rule B J 1 T
    (fun s => s.pool.Ready ∧ NodesOK J s.pool.contents ∧ BestOK J B.lb1_bound b0 s.best ∧
      Covered J B.lb1_bound [s.best] s.pool.contents ∧
      poolWeight J.toNat s.pool.contents ≤ poolWeight J.toNat [initRoot indet J] ∧
      s.pool.size ≤ max 1 (T + J - 2))
    (fun s => poolWeight J.toNat s.pool.contents) (fun s h => h.1.1) (by
      intro s parent xs ⟨hr, hn, hb, hcov, hwt, _⟩ hT hc
      obtain ⟨ep, w1, c1⟩ := SinglePool_ext.popFront_cons s.pool 0 xs parent hr.1 hc
      have hl1 : (s.pool.popFront 0).2.2.lock = false := by rw [ep]; exact hr.2
      rw [hc] at hn hcov hwt
      obtain ⟨s2, e2, r2, c2, n2, b2, w2, _, _, bb⟩ :=
        lb1_pop_step B J hJ b0 s (s.pool.popFront 0).2.2 xs parent ⟨w1, hl1⟩ c1 hn hb
      have hlen0 := SinglePool_ext.ext_contents_length s.pool hr.1
      have hlen2 := SinglePool_ext.ext_contents_length s2.pool r2.1
      have hkl := kids_lb1_length B.lb1_bound J parent s.best
      have hp := hn parent (List.mem_cons_self _ _)
      rw [hc] at hlen0
      rw [c2] at hlen2
      simp only [List.length_append, List.length_cons] at hlen0 hlen2
      push_cast at hlen0 hlen2
      refine ⟨s2, e2, ⟨r2, n2, b2, ?_, by omega, ?_⟩, by simp only [hc]; exact w2⟩
      · rw [c2, bb]
        exact covered_pop J hJ B.lb1_bound hadm xs (parent :: xs) parent s.best
          (fun n hn2 => by simpa using hn2) hp hcov
      · have := hp.1.1
        have := Int.natCast_nonneg parent.depth
        omega) fuel
    { best := b0, tree_loc := t0, num_sol := n0, pool := p }
    ⟨r, hn0, ⟨le_refl _, Or.inl rfl⟩, hc0, (by simp only [c]; exact le_refl _),
      (by simp only [sz]; omega)⟩ (by simp only [c]; exact hf)
  refine ⟨s1, ?_, a1, a2, a3, a4, a5, a6⟩
  simp only [step1, e, Option.bind_some]
  exact e1

/-- The largest chunk of the partition of `pfsp_multigpu_cuda.c` fits in a fresh block
when `m ≤ 100` and `D ≤ 16`, for a pool that step 1 leaves. -/
theorem partition_fit (n D : Nat) (m J : Int) (hD : 1 ≤ D) (hD2 : D ≤ 16) (hm : 1 ≤ m)
    (hm2 : m ≤ 100) (hJ : J ≤ 20) (hn : (n : Int) ≤ max 1 ((D : Int) * m + J - 2)) :
    (n : Int) - ((D : Int) - 1) * Int.tdiv (n : Int) (D : Int) ≤ CAPACITY := by
  rw [tdiv_natCast]
  have hcap : CAPACITY = 1024 := rfl
  have hDm : (D : Int) * m ≤ 16 * 100 :=
    mul_le_mul (by omega) hm2 (by omega) (by omega)
  have hX1 : D * (n / D) ≤ n := Nat.mul_div_le n D
  have hX2 : n < D * (n / D + 1) := Nat.lt_mul_div_succ n (by omega)
  have hX3 : ((D : Int) - 1) * ((n / D : Nat) : Int)
      = ((D * (n / D) : Nat) : Int) - ((n / D : Nat) : Int) := by
    push_cast
    ring
  rw [hX3, hcap]
  rw [Nat.mul_add, Nat.mul_one] at hX2
  by_cases h1 : D = 1
  · subst h1
    simp only [Nat.div_one, Nat.one_mul, Nat.cast_one, one_mul] at *
    omega
  · have hX4 : 2 * (n / D) ≤ D * (n / D) := Nat.mul_le_mul_right _ (by omega)
    generalize D * (n / D) = X at *
    generalize n / D = c at *
    omega

/-- The tasks at the start of step 2 satisfy the invariant, for a pool that step 1
leaves. -/
theorem init_tasks_inv (J : Int) (lb : List Int → Int → Int → Int) (b0 : Int)
    (s : Search SinglePool_ext) (D : Nat) (hD : 1 ≤ D) (hr : s.pool.Ready)
    (hn : NodesOK J s.pool.contents) (hb : BestOK J lb b0 s.best)
    (hc : Covered J lb [s.best] s.pool.contents)
    (hfit : s.pool.size - ((D : Int) - 1) * Int.tdiv s.pool.size (D : Int) ≤ CAPACITY) :
    TasksInv J lb b0 (init_tasks s (D : Int)) ∧
      tasksWeight J.toNat (init_tasks s (D : Int)) = poolWeight J.toNat s.pool.contents ∧
      (init_tasks s (D : Int)).length = D ∧
      (∀ w ∈ init_tasks s (D : Int), w.best = s.best ∧ w.tree_loc = 0 ∧ w.num_sol = 0) ∧
      List.Perm ((init_tasks s (D : Int)).flatMap (fun w => w.pool.contents))
        s.pool.contents := by
  obtain ⟨_, plen, pw, pp⟩ := partition_spec s.pool D hr.1 hD hfit
  have hfm : (init_tasks s (D : Int)).flatMap (fun w => w.pool.contents)
      = (partition s.pool (D : Int)).2.flatMap SinglePool_ext.contents := by
    unfold init_tasks
    rw [List.flatMap_map]
  have hlen : (init_tasks s (D : Int)).length = D := by
    unfold init_tasks
    rw [List.length_map, plen]
  have hne : init_tasks s (D : Int) ≠ [] := by
    intro h
    rw [h] at hlen
    simp at hlen
    omega
  have hall : ∀ w ∈ init_tasks s (D : Int),
      w.best = s.best ∧ w.tree_loc = 0 ∧ w.num_sol = 0 ∧
        w.pool ∈ (partition s.pool (D : Int)).2 := by
    intro w hw
    unfold init_tasks at hw
    obtain ⟨p, hp, rfl⟩ := List.mem_map.1 hw
    exact ⟨rfl, rfl, rfl, hp⟩
  refine ⟨⟨?_, ?_⟩, ?_, hlen, fun w hw => ⟨(hall w hw).1, (hall w hw).2.1, (hall w hw).2.2.1⟩,
    by rw [hfm]; exact pp⟩
  · intro w hw
    obtain ⟨e1, _, _, hp⟩ := hall w hw
    obtain ⟨a, b, _⟩ := pw w.pool hp
    refine ⟨⟨a, b⟩, ?_, by rw [e1]; exact hb⟩
    intro n hn2
    apply hn n
    apply pp.mem_iff.1
    exact List.mem_flatMap.2 ⟨w.pool, hp, hn2⟩
  · apply covered_mono J lb [s.best] _ s.pool.contents _ ?_ ?_ hc
    · intro x hx
      have : x = s.best := by simpa using hx
      subst this
      obtain ⟨w, hw⟩ := List.exists_mem_of_ne_nil _ hne
      exact ⟨w.best, List.mem_map.2 ⟨w, hw, rfl⟩, by rw [(hall w hw).1]⟩
    · intro n hn2
      rw [hfm]
      exact pp.mem_iff.2 hn2
  · unfold tasksWeight
    rw [← poolWeight_flatMap, hfm]
    exact poolWeight_perm _ _ _ pp

/-- Step 3 with `lb = 1` from a pool that covers every complete permutation: it returns
as soon as it is given enough iterations, with the optimum and an empty pool. -/
theorem step3_best (B : Bounds) (J : Int) (hJ : J ≤ 20) (hadm : Admissible J B.lb1_bound)
    (b0 : Int) (fuel : Nat) (s : Search SinglePool_ext) (hr : s.pool.Ready)
    (hn : NodesOK J s.pool.contents) (hb : BestOK J B.lb1_bound b0 s.best)
    (hc : Covered J B.lb1_bound [s.best] s.pool.contents)
    (hf : poolWeight J.toNat s.pool.contents < fuel) :
    ∃ r, step3_loop B J 1 fuel s = some r ∧ r.best = optimum J B.lb1_bound b0 ∧
      r.pool.contents = [] := by
  obtain ⟨r, e, ⟨_, _, a3, a4⟩, hnil⟩ := step3_loop_rule B J 1
    (fun s => s.pool.Ready ∧ NodesOK J s.pool.contents ∧ BestOK J B.lb1_bound b0 s.best ∧
      Covered J B.lb1_bound [s.best] s.pool.contents)
    (fun s => poolWeight J.toNat s.pool.contents) (fun s h => h.1) (by
      intro s parent xs q ⟨_, hn, hb, hcov⟩ hc _ hq hqc
      have hn2 : NodesOK J (parent :: xs) := fun n hm => hn n (by
        rw [hc]
        rcases List.mem_cons.1 hm with h | h
        · rw [h]; simp
        · exact List.mem_append_left _ h)
      obtain ⟨s2, e2, r2, c2, n2, b2, w2, _, _, bb⟩ :=
        lb1_pop_step B J hJ b0 s q xs parent hq hqc hn2 hb
      refine ⟨s2, e2, ⟨r2, n2, b2, ?_⟩, ?_⟩
      · rw [c2, bb]
        exact covered_pop J hJ B.lb1_bound hadm xs s.pool.contents parent s.best
          (fun n hm => by
            rw [hc] at hm
            rcases List.mem_append.1 hm with h | h
            · exact Or.inr h
            · exact Or.inl (by simpa using h))
          (hn2 parent (List.mem_cons_self _ _)) hcov
      · simp only [hc]
        rw [poolWeight_perm _ _ _ (List.perm_append_singleton parent xs)]
        exact w2) fuel s ⟨hr, hn, hb, hc⟩ hf
  refine ⟨r, e, ?_, hnil⟩
  rw [hnil] at a4
  exact best_final J B.lb1_bound b0 r.best a3 a4

theorem findMin_le (l : List Int) (hne : l ≠ []) :
    (∀ x ∈ l, findMin l (l.length : Int) ≤ x) ∧ findMin l (l.length : Int) ∈ l := by
  cases l with
  | nil => exact absurd rfl hne
  | cons x xs =>
    rw [findMin_spec]
    constructor
    · intro y hy
      rcases List.mem_cons.1 hy with h | h
      · rw [h]; exact foldl_min_le _ _
      · exact foldl_min_le_of_mem _ _ _ h
    · rcases foldl_min_mem xs x with h | h
      · rw [h]; exact List.mem_cons_self _ _
      · exact List.mem_cons_of_mem _ h

theorem tasksWeight_perm (J : Nat) (a b : List (Search SinglePool_ext)) (h : a.Perm b) :
    tasksWeight J a = tasksWeight J b := by
  unfold tasksWeight
  exact (h.map _).sum_eq

/-- The end of the search from tasks that satisfy the invariant of step 2: the pool
receives all the nodes of the tasks, and step 3 returns the optimum. -/
theorem finish_best (B : Bounds) (J : Int) (hJ : J ≤ 20) (hadm : Admissible J B.lb1_bound)
    (b0 : Int) (ws ord : List (Search SinglePool_ext)) (s : Search SinglePool_ext)
    (fuel : Nat) (hinv : TasksInv J B.lb1_bound b0 ws) (hne : ws ≠ []) (hperm : ord.Perm ws)
    (hs : s.pool.Ready) (hse : s.pool.contents = []) (hf : tasksWeight J.toNat ws < fuel) :
    ∃ r, finish B J 1 ws ord s fuel = some r ∧ r.best = optimum J B.lb1_bound b0 ∧
      r.pool.contents = [] := by
  obtain ⟨h1, h2⟩ := hinv
  obtain ⟨p1, e1, r1, c1⟩ := drain_all ord s.pool hs (fun w hw => (h1 w (hperm.mem_iff.1 hw)).1)
  rw [hse, List.nil_append] at c1
  have hbne : ws.map (fun w => w.best) ≠ [] := by
    intro h
    exact hne (List.map_eq_nil_iff.1 h)
  obtain ⟨f1, f2⟩ := findMin_le (ws.map (fun w => w.best)) hbne
  rw [List.length_map] at f1 f2
  have hmem : ∀ n, n ∈ p1.contents ↔ ∃ w ∈ ws, n ∈ w.pool.contents := by
    intro n
    rw [c1, List.mem_flatMap]
    constructor
    · rintro ⟨w, hw, hn⟩
      exact ⟨w, hperm.mem_iff.1 hw, List.mem_reverse.1 hn⟩
    · rintro ⟨w, hw, hn⟩
      exact ⟨w, hperm.mem_iff.2 hw, List.mem_reverse.2 hn⟩
  obtain ⟨r, e, rb, rc⟩ := step3_best B J hJ hadm b0 fuel
    { best := findMin (ws.map (fun w => w.best)) (ws.length : Int),
      tree_loc := ws.foldl (fun t w => t + w.tree_loc) s.tree_loc,
      num_sol := ws.foldl (fun t w => t + w.num_sol) s.num_sol,
      pool := p1 } r1 (by
      intro n hn
      obtain ⟨w, hw, hnw⟩ := (hmem n).1 hn
      exact (h1 w hw).2.1 n hnw) (by
      obtain ⟨w, hw, hbw⟩ := List.mem_map.1 f2
      simp only
      rw [← hbw]
      exact (h1 w hw).2.2) (by
      apply covered_mono J B.lb1_bound _ _ _ _ ?_ ?_ h2
      · intro x hx
        exact ⟨_, List.mem_singleton.2 rfl, f1 x hx⟩
      · intro n hn
        obtain ⟨w, hw, hnw⟩ := List.mem_flatMap.1 hn
        exact (hmem n).2 ⟨w, hw, hnw⟩) (by
      simp only [c1]
      rw [poolWeight_flatMap]
      have : (ord.map (fun w => poolWeight J.toNat w.pool.contents.reverse))
          = ord.map (fun w => poolWeight J.toNat w.pool.contents) := by
        apply List.map_congr_left
        intro w _
        exact poolWeight_perm _ _ _ (List.reverse_perm _)
      rw [this]
      have := tasksWeight_perm J.toNat ord ws hperm
      unfold tasksWeight at this hf
      omega)
  refine ⟨r, ?_, rb, rc⟩
  unfold finish
  rw [e1]
  exact e

/-- Every run of the search of `pfsp_multigpu_cuda.c` with `lb = 1` returns the optimum:
step 1 returns, and from every state that step 2 reaches, with the tasks entering the
critical section in any order, the end of the search returns the optimum. -/
theorem multi_runs (B : Bounds) (J : Int) (b0 : Int) (t0 n0 : Nat) (m M : Int) (D : Nat)
    (h1 : 1 ≤ J) (hJ : J ≤ 20) (hadm : Admissible J B.lb1_bound) (hm : 1 ≤ m) (hm2 : m ≤ 100)
    (hM : 1 ≤ M) (hD : 1 ≤ D) (hD2 : D ≤ 16) (fuel : Nat)
    (hf : poolWeight J.toNat [initRoot indet J] < fuel) :
    ∃ s1, step1 B J 1 ((D : Int) * m) b0 t0 n0 fuel = some s1 ∧
      ∀ ws ord, Reach2 B J 1 m M (init_tasks s1 (D : Int)) ws → ord.Perm ws →
        ∃ r, finish B J 1 ws ord { s1 with pool := (partition s1.pool (D : Int)).1 } fuel
            = some r ∧ r.best = optimum J B.lb1_bound b0 ∧ r.pool.contents = [] := by
  obtain ⟨s1, e1, r1, n1, b1, c1, w1, z1⟩ :=
    step1_inv B J h1 hJ hadm ((D : Int) * m) b0 t0 n0 fuel hf
  refine ⟨s1, e1, ?_⟩
  intro ws ord hreach hperm
  obtain ⟨sz, hsz⟩ := Int.eq_ofNat_of_zero_le r1.1.2.2.1
  have hfit : s1.pool.size - ((D : Int) - 1) * Int.tdiv s1.pool.size (D : Int) ≤ CAPACITY := by
    rw [hsz]
    exact partition_fit sz D m J hD hD2 hm hm2 hJ (by rw [← hsz]; exact z1)
  obtain ⟨hinv, hwt, hlen, _, _⟩ := init_tasks_inv J B.lb1_bound b0 s1 D hD r1 n1 b1 c1 hfit
  obtain ⟨hinv2, hwt2, hlen2⟩ := reach2_inv B J hJ hadm b0 m M hm hM _ _ hinv hreach
  obtain ⟨pe, _, _, _⟩ := partition_spec s1.pool D r1.1 hD hfit
  have hne : ws ≠ [] := by
    intro h
    rw [h] at hlen2
    simp only [List.length_nil] at hlen2
    omega
  obtain ⟨g1, g2, g3, g4, g5⟩ := r1.1
  exact finish_best B J hJ hadm b0 ws ord _ fuel hinv2 hne hperm
    (by
      simp only [pe]
      exact ⟨⟨g1, le_refl _, le_refl _, by simp only; omega, g5⟩, r1.2⟩)
    (by
      simp only [pe]
      rfl)
    (by omega)

/-- C15 (determinism of the answer).  For `1 ≤ J ≤ 20`, an admissible bound, any initial
best `b0`, `1 ≤ m ≤ 100`, `1 ≤ M` and any number `1 ≤ D ≤ 16` of tasks, the search of
`pfsp_multigpu_cuda.c` with `lb = 1` has a run as soon as it is given enough
iterations, and every run (any interleaving of the passes and of the steal attempts of
the tasks in step 2, from which the tasks leave in any order) returns the same `best`:
the minimum of `b0` and of the values of all the leaves. -/
theorem multi_best (B : Bounds) (J : Int) (b0 : Int) (t0 n0 : Nat) (m M : Int) (D : Nat)
    (h1 : 1 ≤ J) (hJ : J ≤ 20) (hadm : Admissible J B.lb1_bound) (hm : 1 ≤ m) (hm2 : m ≤ 100)
    (hM : 1 ≤ M) (hD : 1 ≤ D) (hD2 : D ≤ 16) :
    ∃ N, ∀ fuel, N ≤ fuel →
      (∃ r, MultiRun B J 1 m M (D : Int) b0 t0 n0 fuel r) ∧
      ∀ r, MultiRun B J 1 m M (D : Int) b0 t0 n0 fuel r →
        r.best = ((identity J).permutations.map
          (fun q => B.lb1_bound q (J - 1) J)).foldl min b0 := by
  refine ⟨poolWeight J.toNat [initRoot indet J] + 1, ?_⟩
  intro fuel hf
  obtain ⟨s1, e1, hall⟩ := multi_runs B J b0 t0 n0 m M D h1 hJ hadm hm hm2 hM hD hD2 fuel
    (by omega)
  constructor
  · obtain ⟨r, e, _, _⟩ := hall (init_tasks s1 (D : Int)) (init_tasks s1 (D : Int))
      (Reach2.refl _) (List.Perm.refl _)
    exact ⟨r, s1, _, _, e1, Reach2.refl _, List.Perm.refl _, e⟩
  · rintro r ⟨s2, ws, ord, e2, hreach, hperm, e⟩
    rw [e1] at e2
    have : s1 = s2 := Option.some.inj e2
    subst this
    obtain ⟨r2, e3, rb, _⟩ := hall ws ord hreach hperm
    rw [e] at e3
    have : r = r2 := Option.some.inj e3
    subst this
    exact rb

/-- Instance of C15: 3 jobs, the bounds `sampleBounds`, initial best 100, `m = 1`,
`M = 2` and 2 tasks. -/
theorem multi_best_witness :
    ((1 : Int) ≤ 3 ∧ (3 : Int) ≤ 20 ∧ Admissible 3 sampleBounds.lb1_bound ∧ (1 : Int) ≤ 1 ∧
      (1 : Int) ≤ 100 ∧ (1 : Int) ≤ 2 ∧ 1 ≤ 2 ∧ 2 ≤ 16) ∧
    ∃ N, ∀ fuel, N ≤ fuel →
      (∃ r, MultiRun sampleBounds 3 1 1 2 ((2 : Nat) : Int) 100 0 0 fuel r) ∧
      ∀ r, MultiRun sampleBounds 3 1 1 2 ((2 : Nat) : Int) 100 0 0 fuel r →
        r.best = ((identity 3).permutations.map
          (fun q => sampleBounds.lb1_bound q (3 - 1) 3)).foldl min 100 :=
  ⟨⟨by decide, by decide, sampleBounds_admissible 3, by decide, by decide, by decide,
      by decide, by decide⟩,
    multi_best sampleBounds 3 100 0 0 1 2 2 (by decide) (by decide)
      (sampleBounds_admissible 3) (by decide) (by decide) (by decide) (by decide) (by decide)⟩

/-! ## The counters of the searches when no leaf improves the initial best -/

theorem potential_append (lb : List Int → Int → Int → Int) (J b : Int) (a c : List Node) :
    potential lb J b (a ++ c)
      = ((potential lb J b a).1 + (potential lb J b c).1,
          (potential lb J b a).2 + (potential lb J b c).2) := by
  simp [potential]

theorem potential_perm (lb : List Int → Int → Int → Int) (J b : Int) (a c : List Node)
    (h : a.Perm c) : potential lb J b a = potential lb J b c := by
  unfold potential
  rw [(h.map _).sum_eq, (h.map _).sum_eq]

theorem potential_flatMap {α : Type} (lb : List Int → Int → Int → Int) (J b : Int)
    (l : List α) (f : α → List Node) :
    (potential lb J b (l.flatMap f)).1 = (l.map (fun x => (potential lb J b (f x)).1)).sum ∧
    (potential lb J b (l.flatMap f)).2 = (l.map (fun x => (potential lb J b (f x)).2)).sum := by
  induction l with
  | nil => exact ⟨rfl, rfl⟩
  | cons x xs ih =>
    rw [List.flatMap_cons, potential_append]
    simp only [List.map_cons, List.sum_cons, ih.1, ih.2]
    exact ⟨trivial, trivial⟩

theorem sum_map_one_add {α : Type} (l : List α) (f : α → Nat) :
    (l.map (fun x => 1 + f x)).sum = l.length + (l.map f).sum := by
  induction l with
  | nil => rfl
  | cons x xs ih =>
    simp only [List.map_cons, List.sum_cons, List.length_cons, ih]
    omega

/-- The counts below an interior node are the counts of its decomposition plus the
counts below the children it pushes. -/
theorem potential_parent (lb : List Int → Int → Int → Int) (J : Int) (hJ : J ≤ 20) (b : Int)
    (parent : Node) (hp : NodeInv J parent) (hd : (parent.depth : Int) < J) :
    (potential lb J b [parent]).1
      = (kids_lb1 lb J parent b).length + (potential lb J b (kids_lb1 lb J parent b)).1 ∧
    (potential lb J b [parent]).2
      = (leafBounds_lb1 lb J parent).length
        + (potential lb J b (kids_lb1 lb J parent b)).2 := by
  have hk := kids_lb1_inv lb J hJ parent b hp hd
  have hf : J.toNat - parent.depth = (J.toNat - (parent.depth + 1)) + 1 := by omega
  have h1 : (kids_lb1 lb J parent b).map
      (fun c => (subtreeCount lb J b (J.toNat - c.depth) c).1)
      = (kids_lb1 lb J parent b).map
        (fun c => (subtreeCount lb J b (J.toNat - (parent.depth + 1)) c).1) := by
    apply List.map_congr_left
    intro c hc
    rw [(hk c hc).2.1]
  have h2 : (kids_lb1 lb J parent b).map
      (fun c => (subtreeCount lb J b (J.toNat - c.depth) c).2)
      = (kids_lb1 lb J parent b).map
        (fun c => (subtreeCount lb J b (J.toNat - (parent.depth + 1)) c).2) := by
    apply List.map_congr_left
    intro c hc
    rw [(hk c hc).2.1]
  simp only [potential, List.map_cons, List.map_nil, List.sum_cons, List.sum_nil, Nat.add_zero,
    h1, h2]
  rw [hf]
  simp only [subtreeCount]
  rw [sum_map_one_add]
  exact ⟨rfl, trivial⟩

theorem leaves_const (lb : List Int → Int → Int → Int) (J : Int) (hJ : J ≤ 20) (b0 : Int)
    (hopt : ∀ q, q.Perm (identity J) → b0 ≤ lb q (J - 1) J) (parent : Node)
    (hp : NodeInv J parent) (hd : (parent.depth : Int) < J) :
    (leafBounds_lb1 lb J parent).foldl min b0 = b0 := by
  apply foldl_min_of_le
  intro v hv
  obtain ⟨q, hq, rfl⟩ := leafBounds_lb1_values lb J hJ parent hp hd v hv
  exact hopt q hq

/-- The counts of a batch when no leaf improves `b0`: `best` stays `b0` and the counts
below the batch are the counts of its decompositions plus the counts below the children
pushed. -/
theorem potential_batch (lb : List Int → Int → Int → Int) (J : Int) (hJ : J ≤ 20) (b0 : Int)
    (hopt : ∀ q, q.Perm (identity J) → b0 ≤ lb q (J - 1) J) (batch : List Node)
    (hn : NodesOK J batch) :
    batch_best lb J batch b0 = b0 ∧
    (potential lb J b0 batch).1
      = (batch_kids lb J batch b0).length + (potential lb J b0 (batch_kids lb J batch b0)).1 ∧
    (potential lb J b0 batch).2
      = batch_leaves lb J batch + (potential lb J b0 (batch_kids lb J batch b0)).2 := by
  induction batch with
  | nil => exact ⟨rfl, rfl, rfl⟩
  | cons p ps ih =>
    obtain ⟨hp, hd⟩ := hn p (List.mem_cons_self _ _)
    obtain ⟨i1, i2, i3⟩ := ih (fun n h => hn n (List.mem_cons_of_mem _ h))
    have hl := leaves_const lb J hJ b0 hopt p hp hd
    obtain ⟨p1, p2⟩ := potential_parent lb J hJ b0 p hp hd
    simp only [batch_best, batch_kids, batch_leaves, hl, List.map_cons, List.sum_cons]
    rw [show p :: ps = [p] ++ ps from rfl, potential_append, potential_append]
    simp only [List.length_append]
    refine ⟨i1, ?_, ?_⟩
    · rw [p1, i2]
      omega
    · rw [p2, i3]
      unfold batch_leaves
      omega

/-- One decomposition with `lb = 1` on any pool when no leaf improves `b0`: `best` stays
`b0` and the counters plus the counts still to come do not change. -/
theorem count_step {P : Type} (push : P → Node → Option P) (Inv : P → Prop)
    (abs : P → List Node) (law : PoolLaw push Inv abs) (lb : List Int → Int → Int → Int)
    (J : Int) (hJ : J ≤ 20) (b0 : Int)
    (hopt : ∀ q, q.Perm (identity J) → b0 ≤ lb q (J - 1) J) (parent : Node) (xs : List Node)
    (s : Search P) (hinv : Inv s.pool) (habs : abs s.pool = xs) (hb : s.best = b0)
    (hn : NodesOK J (parent :: xs)) :
    ∃ s2, decompose_lb1 push lb J parent s = some s2 ∧ Inv s2.pool ∧
      NodesOK J (abs s2.pool) ∧ s2.best = b0 ∧
      s2.tree_loc + (potential lb J b0 (abs s2.pool)).1
        = s.tree_loc + (potential lb J b0 (parent :: xs)).1 ∧
      s2.num_sol + (potential lb J b0 (abs s2.pool)).2
        = s.num_sol + (potential lb J b0 (parent :: xs)).2 ∧
      poolWeight J.toNat (abs s2.pool) < poolWeight J.toNat (parent :: xs) := by
  obtain ⟨hp, hd⟩ := hn parent (List.mem_cons_self _ _)
  obtain ⟨s2, e, i2, a2, t2, b2, n2⟩ := decompose_lb1_spec push Inv abs law lb J parent s hinv
  rw [hb] at a2 t2 b2
  rw [habs] at a2
  have hk := kids_lb1_inv lb J hJ parent b0 hp hd
  obtain ⟨p1, p2⟩ := potential_parent lb J hJ b0 parent hp hd
  have hw := kids_lb1_weight lb J hJ parent b0 hp hd
  refine ⟨s2, e, i2, ?_, by rw [b2]; exact leaves_const lb J hJ b0 hopt parent hp hd, ?_, ?_, ?_⟩
  · intro n hn2
    rw [a2] at hn2
    rcases List.mem_append.1 hn2 with h | h
    · exact hn n (List.mem_cons_of_mem _ h)
    · exact ⟨(hk n h).1, (hk n h).2.2⟩
  · rw [a2, t2, potential_append, show parent :: xs = [parent] ++ xs from rfl,
      potential_append, p1]
    simp only
    omega
  · rw [a2, n2, potential_append, show parent :: xs = [parent] ++ xs from rfl,
      potential_append, p2]
    simp only
    omega
  · rw [a2, poolWeight_append, show parent :: xs = [parent] ++ xs from rfl, poolWeight_append]
    omega

/-- The sequential search of `pfsp_c.c` with `lb = 1` when no leaf improves `b0`: it
returns `b0` and the counts below the root. -/
theorem seq_counts (B : Bounds) (J : Int) (h1 : 1 ≤ J) (hJ : J ≤ 20) (b0 : Int) (t0 n0 : Nat)
    (hopt : ∀ q, q.Perm (identity J) → b0 ≤ B.lb1_bound q (J - 1) J) (fuel : Nat)
    (hf : poolWeight J.toNat [initRoot indet J] < fuel) :
    ∃ s, pfsp_search B J 1 b0 t0 n0 fuel = some s ∧ s.best = b0 ∧
      s.tree_loc = t0 + (potential B.lb1_bound J b0 [initRoot indet J]).1 ∧
      s.num_sol = n0 + (potential B.lb1_bound J b0 [initRoot indet J]).2 := by
  obtain ⟨hinv, hc0⟩ := searchInv_init J h1 hJ B.lb1_bound b0 t0 n0
  obtain ⟨s1, e, ⟨_, _, a3, a4, a5⟩, hnil, _⟩ := search_loop_rule B J 1
    (fun s => s.pool.WF ∧ NodesOK J s.pool.contents ∧ s.best = b0 ∧
      s.tree_loc + (potential B.lb1_bound J b0 s.pool.contents).1
        = t0 + (potential B.lb1_bound J b0 [initRoot indet J]).1 ∧
      s.num_sol + (potential B.lb1_bound J b0 s.pool.contents).2
        = n0 + (potential B.lb1_bound J b0 [initRoot indet J]).2)
    (fun s => poolWeight J.toNat s.pool.contents) (fun s h => h.1) (by
      intro s parent xs ⟨hw, hn, hb, ht, hs⟩ hc
      obtain ⟨_, _, w, c, _⟩ := SinglePool.popBack_snoc s.pool 0 xs parent hw hc
      have hperm : (xs ++ [parent]).Perm (parent :: xs) := List.perm_append_singleton parent xs
      have hn2 : NodesOK J (parent :: xs) := fun n hm => hn n (by
        rw [hc]; exact hperm.mem_iff.2 hm)
      obtain ⟨s2, e2, i2, n2, b2, t2, m2, w2⟩ := count_step SinglePool.push SinglePool.WF
        SinglePool.contents SinglePool.law B.lb1_bound J hJ b0 hopt parent xs
        { s with pool := (s.pool.popBack 0).2.2 } w c hb hn2
      rw [hc, potential_perm _ _ _ _ _ hperm] at ht hs
      refine ⟨s2, by simp only [decompose, if_true]; exact e2, ⟨i2, n2, b2, ?_, ?_⟩, ?_⟩
      · rw [t2]; exact ht
      · rw [m2]; exact hs
      · simp only [hc]
        rw [poolWeight_perm _ _ _ hperm]
        exact w2) fuel
    { best := b0, tree_loc := t0, num_sol := n0,
      pool := initSinglePool.pushBack (initRoot indet J) }
    ⟨hinv.1, hinv.2.1, rfl, (by simp only [hc0]), (by simp only [hc0])⟩
    (by simp only [hc0]; exact hf)
  refine ⟨s1, e, a3, ?_, ?_⟩
  · rw [hnil] at a4
    simpa [potential] using a4
  · rw [hnil] at a5
    simpa [potential] using a5

/-- Step 1 with `lb = 1` when no leaf improves `b0`. -/
theorem step1_counts (B : Bounds) (J : Int) (h1 : 1 ≤ J) (hJ : J ≤ 20) (T b0 : Int)
    (t0 n0 : Nat) (hopt : ∀ q, q.Perm (identity J) → b0 ≤ B.lb1_bound q (J - 1) J)
    (fuel : Nat) (hf : poolWeight J.toNat [initRoot indet J] < fuel) :
    ∃ s1, step1 B J 1 T b0 t0 n0 fuel = some s1 ∧ s1.pool.Ready ∧
      NodesOK J s1.pool.contents ∧ s1.best = b0 ∧
      s1.tree_loc + (potential B.lb1_bound J b0 s1.pool.contents).1
        = t0 + (potential B.lb1_bound J b0 [initRoot indet J]).1 ∧
      s1.num_sol + (potential B.lb1_bound J b0 s1.pool.contents).2
        = n0 + (potential B.lb1_bound J b0 [initRoot indet J]).2 ∧
      poolWeight J.toNat s1.pool.contents ≤ poolWeight J.toNat [initRoot indet J] ∧
      s1.pool.size ≤ max 1 (T + J - 2) := by
  obtain ⟨p, e, r, c, sz, _⟩ := initial_pool J
  obtain ⟨rd0, rl0, _, _⟩ := initRoot_spec J hJ
  have hri := initRoot_inv J hJ
  have hn0 : NodesOK J p.contents := by
    intro n hn
    simp only [c] at hn
    have : n = initRoot indet J := by simpa using hn
    subst this
    exact ⟨hri, by rw [rd0]; push_cast; omega⟩
  obtain ⟨s1, e1, ⟨a1, a2, a3, a4, a5, a6, a7⟩, _⟩ := step1_loop_rule B J 1 T
    (fun s => s.pool.Ready ∧ NodesOK J s.pool.contents ∧ s.best = b0 ∧
      s.tree_loc + (potential B.lb1_bound J b0 s.pool.contents).1
        = t0 + (potential B.lb1_bound J b0 [initRoot indet J]).1 ∧
      s.num_sol + (potential B.lb1_bound J b0 s.pool.contents).2
        = n0 + (potential B.lb1_bound J b0 [initRoot indet J]).2 ∧
      poolWeight J.toNat s.pool.contents ≤ poolWeight J.toNat [initRoot indet J] ∧
      s.pool.size ≤ max 1 (T + J - 2))
    (fun s => poolWeight J.toNat s.pool.contents) (fun s h => h.1.1) (by
      intro s parent xs ⟨hr, hn, hb, ht, hs, hwt, _⟩ hT hc
      obtain ⟨ep, w1, c1⟩ := SinglePool_ext.popFront_cons s.pool 0 xs parent hr.1 hc
      have hl1 : (s.pool.popFront 0).2.2.lock = false := by rw [ep]; exact hr.2
      rw [hc] at hn ht hs hwt
      obtain ⟨s2, e2, i2, n2, b2, t2, m2, w2⟩ := count_step SinglePool_ext.pushBack
        SinglePool_ext.Ready SinglePool_ext.contents SinglePool_ext.ext_law B.lb1_bound J hJ b0
        hopt parent xs { s with pool := (s.pool.popFront 0).2.2 } ⟨w1, hl1⟩ c1 hb hn
      obtain ⟨s3, e3, _, c3, _⟩ := decompose_lb1_spec SinglePool_ext.pushBack
        SinglePool_ext.Ready SinglePool_ext.contents SinglePool_ext.ext_law B.lb1_bound J parent
        { s with pool := (s.pool.popFront 0).2.2 } ⟨w1, hl1⟩
      rw [e2] at e3
      have h32 : s2 = s3 := Option.some.inj e3
      subst h32
      simp only [c1] at c3
      have hlen0 := SinglePool_ext.ext_contents_length s.pool hr.1
      have hlen2 := SinglePool_ext.ext_contents_length s2.pool i2.1
      have hkl := kids_lb1_length B.lb1_bound J parent s.best
      have hp := hn parent (List.mem_cons_self _ _)
      rw [hc] at hlen0
      rw [c3] at hlen2
      simp only [List.length_append, List.length_cons] at hlen0 hlen2
      push_cast at hlen0 hlen2
      refine ⟨s2, ?_, ⟨i2, n2, b2, by rw [t2]; exact ht, by rw [m2]; exact hs, by omega, ?_⟩,
        by simp only [hc]; exact w2⟩
      · simp only [decompose_ext, one_ne_zero, if_false, if_true]
        exact e2
      · have := hp.1.1
        have := Int.natCast_nonneg parent.depth
        omega) fuel
    { best := b0, tree_loc := t0, num_sol := n0, pool := p }
    ⟨r, hn0, rfl, (by simp only [c]), (by simp only [c]),
      (by simp only [c]; exact le_refl _), (by simp only [sz]; omega)⟩
    (by simp only [c]; exact hf)
  refine ⟨s1, ?_, a1, a2, a3, a4, a5, a6, a7⟩
  simp only [step1, e, Option.bind_some]
  exact e1

/-- The tasks at the start of step 2 satisfy the invariant of the counts. -/
theorem init_tasks_count (J : Int) (lb : List Int → Int → Int → Int) (b0 : Int)
    (s : Search SinglePool_ext) (D : Nat) (hD : 1 ≤ D) (hr : s.pool.Ready)
    (hn : NodesOK J s.pool.contents) (hb : s.best = b0)
    (hfit : s.pool.size - ((D : Int) - 1) * Int.tdiv s.pool.size (D : Int) ≤ CAPACITY) :
    CountInv J lb b0 (potential lb J b0 s.pool.contents) (init_tasks s (D : Int)) ∧
      tasksWeight J.toNat (init_tasks s (D : Int)) = poolWeight J.toNat s.pool.contents ∧
      (init_tasks s (D : Int)).length = D := by
  obtain ⟨_, plen, pw, pp⟩ := partition_spec s.pool D hr.1 hD hfit
  have hfm : (init_tasks s (D : Int)).flatMap (fun w => w.pool.contents)
      = (partition s.pool (D : Int)).2.flatMap SinglePool_ext.contents := by
    unfold init_tasks
    rw [List.flatMap_map]
  have hall : ∀ w ∈ init_tasks s (D : Int),
      w.best = s.best ∧ w.tree_loc = 0 ∧ w.num_sol = 0 ∧
        w.pool ∈ (partition s.pool (D : Int)).2 := by
    intro w hw
    unfold init_tasks at hw
    obtain ⟨p, hp, rfl⟩ := List.mem_map.1 hw
    exact ⟨rfl, rfl, rfl, hp⟩
  have hpot := potential_flatMap lb J b0 (init_tasks s (D : Int)) (fun w => w.pool.contents)
  rw [hfm, potential_perm lb J b0 _ _ pp] at hpot
  refine ⟨⟨?_, ?_, ?_⟩, ?_, by unfold init_tasks; rw [List.length_map, plen]⟩
  · intro w hw
    obtain ⟨e1, _, _, hp⟩ := hall w hw
    obtain ⟨a, b, _⟩ := pw w.pool hp
    refine ⟨⟨a, b⟩, ?_, by rw [e1]; exact hb⟩
    intro n hn2
    apply hn n
    apply pp.mem_iff.1
    exact List.mem_flatMap.2 ⟨w.pool, hp, hn2⟩
  · rw [hpot.1]
    congr 1
    apply List.map_congr_left
    intro w hw
    rw [(hall w hw).2.1, Nat.zero_add]
  · rw [hpot.2]
    congr 1
    apply List.map_congr_left
    intro w hw
    rw [(hall w hw).2.2.1, Nat.zero_add]
  · unfold tasksWeight
    rw [← poolWeight_flatMap, hfm]
    exact poolWeight_perm _ _ _ pp

/-- A step of step 2 keeps the invariant of the counts when no leaf improves `b0`. -/
theorem step2_count (B : Bounds) (J : Int) (hJ : J ≤ 20) (b0 : Int)
    (hopt : ∀ q, q.Perm (identity J) → b0 ≤ B.lb1_bound q (J - 1) J) (K : Nat × Nat)
    (m M : Int) (hm : 1 ≤ m) (hM : 1 ≤ M) (ws ws1 : List (Search SinglePool_ext))
    (h : CountInv J B.lb1_bound b0 K ws) (hs : Step2 B J 1 m M ws ws1) :
    CountInv J B.lb1_bound b0 K ws1 ∧ tasksWeight J.toNat ws1 ≤ tasksWeight J.toNat ws ∧
      ws1.length = ws.length := by
  obtain ⟨h1, h2, h3⟩ := h
  cases hs with
  | batch g w w1 hg hb =>
    have hwm : w ∈ ws := List.getElem?_mem hg
    obtain ⟨hr, hn, hbo⟩ := h1 w hwm
    obtain ⟨rest, batch, _, hc, r1, c1, b1, t1, n1⟩ :=
      task_batch_spec B J hJ m M hm hM w w1 hr hn hb
    have hbn : NodesOK J batch :=
      fun n hn2 => hn n (by rw [hc]; exact List.mem_append_right _ hn2)
    rw [hbo] at c1 b1 t1
    have hkn := batch_kids_inv B.lb1_bound J hJ batch b0 hbn
    obtain ⟨q1, q2, q3⟩ := potential_batch B.lb1_bound J hJ b0 hopt batch hbn
    refine ⟨⟨?_, ?_, ?_⟩, ?_, by rw [List.length_set]⟩
    · intro u hu
      rcases mem_of_mem_set ws g w1 u hu with hu | hu
      · exact h1 u hu
      · subst hu
        refine ⟨r1, ?_, by rw [b1]; exact q1⟩
        intro n hn2
        rw [c1] at hn2
        rcases List.mem_append.1 hn2 with h4 | h4
        · exact hn n (by rw [hc]; exact List.mem_append_left _ h4)
        · exact hkn n h4
    · have hsum := sum_map_set
        (fun u => u.tree_loc + (potential B.lb1_bound J b0 u.pool.contents).1) ws g w w1 hg
      simp only [c1, hc, t1, potential_append] at hsum
      omega
    · have hsum := sum_map_set
        (fun u => u.num_sol + (potential B.lb1_bound J b0 u.pool.contents).2) ws g w w1 hg
      simp only [c1, hc, n1, potential_append] at hsum
      omega
    · have hsum := sum_map_set (fun u => poolWeight J.toNat u.pool.contents) ws g w w1 hg
      simp only at hsum
      have hwt := batch_weight B.lb1_bound J hJ batch b0 hbn
      rw [c1, hc, poolWeight_append, poolWeight_append] at hsum
      unfold tasksWeight
      omega
  | steal g v w u t q hg hv hne _ hst =>
    have hwm : w ∈ ws := List.getElem?_mem hg
    have hum : u ∈ ws := List.getElem?_mem hv
    obtain ⟨hr, hn, hbo⟩ := h1 w hwm
    obtain ⟨hr2, hn2, hbo2⟩ := h1 u hum
    obtain ⟨rt, rq, rest, ps, hc, hqc, htc⟩ := task_steal_spec m M w.pool u.pool t q hr hr2 hst
    have hv2 : (ws.set g { w with pool := t })[v]? = some u := by
      rw [List.getElem?_set_ne hne]
      exact hv
    have hnew : ∀ x ∈ (ws.set g { w with pool := t }).set v { u with pool := q },
        x ∈ ws ∨ x = { w with pool := t } ∨ x = { u with pool := q } := by
      intro x hx
      rcases mem_of_mem_set _ v _ x hx with h4 | h4
      · rcases mem_of_mem_set ws g _ x h4 with h5 | h5
        · exact Or.inl h5
        · exact Or.inr (Or.inl h5)
      · exact Or.inr (Or.inr h4)
    refine ⟨⟨?_, ?_, ?_⟩, ?_, by rw [List.length_set, List.length_set]⟩
    · intro x hx
      rcases hnew x hx with h4 | h4 | h4
      · exact h1 x h4
      · subst h4
        refine ⟨rt, ?_, hbo⟩
        intro n hn3
        simp only [htc] at hn3
        rcases List.mem_append.1 hn3 with h5 | h5
        · exact hn n h5
        · exact hn2 n (by rw [hc]; exact List.mem_append_right _ h5)
      · subst h4
        refine ⟨rq, ?_, hbo2⟩
        intro n hn3
        simp only [hqc] at hn3
        exact hn2 n (by rw [hc]; exact List.mem_append_left _ hn3)
    · have s1 := sum_map_set
        (fun x => x.tree_loc + (potential B.lb1_bound J b0 x.pool.contents).1) ws g w
        { w with pool := t } hg
      have s2 := sum_map_set
        (fun x => x.tree_loc + (potential B.lb1_bound J b0 x.pool.contents).1)
        (ws.set g { w with pool := t }) v u { u with pool := q } hv2
      simp only [htc, hqc, hc, potential_append] at s1 s2
      omega
    · have s1 := sum_map_set
        (fun x => x.num_sol + (potential B.lb1_bound J b0 x.pool.contents).2) ws g w
        { w with pool := t } hg
      have s2 := sum_map_set
        (fun x => x.num_sol + (potential B.lb1_bound J b0 x.pool.contents).2)
        (ws.set g { w with pool := t }) v u { u with pool := q } hv2
      simp only [htc, hqc, hc, potential_append] at s1 s2
      omega
    · have s1 := sum_map_set (fun x => poolWeight J.toNat x.pool.contents) ws g w
        { w with pool := t } hg
      have s2 := sum_map_set (fun x => poolWeight J.toNat x.pool.contents)
        (ws.set g { w with pool := t }) v u { u with pool := q } hv2
      simp only [htc, hqc, hc, poolWeight_append] at s1 s2
      unfold tasksWeight
      omega

theorem reach2_count (B : Bounds) (J : Int) (hJ : J ≤ 20) (b0 : Int)
    (hopt : ∀ q, q.Perm (identity J) → b0 ≤ B.lb1_bound q (J - 1) J) (K : Nat × Nat)
    (m M : Int) (hm : 1 ≤ m) (hM : 1 ≤ M) (ws ws1 : List (Search SinglePool_ext))
    (h : CountInv J B.lb1_bound b0 K ws) (hr : Reach2 B J 1 m M ws ws1) :
    CountInv J B.lb1_bound b0 K ws1 ∧ tasksWeight J.toNat ws1 ≤ tasksWeight J.toNat ws ∧
      ws1.length = ws.length := by
  induction hr with
  | refl => exact ⟨h, le_refl _, rfl⟩
  | step wa wb _ hs ih =>
    obtain ⟨a, b, c⟩ := ih
    obtain ⟨a2, b2, c2⟩ := step2_count B J hJ b0 hopt K m M hm hM _ _ a hs
    exact ⟨a2, b2.trans b, c2.trans c⟩

/-- Step 3 with `lb = 1` when no leaf improves `b0`: it returns `b0`, and the counters
grow by the counts below the nodes of the pool. -/
theorem step3_counts (B : Bounds) (J : Int) (hJ : J ≤ 20) (b0 : Int)
    (hopt : ∀ q, q.Perm (identity J) → b0 ≤ B.lb1_bound q (J - 1) J) (fuel : Nat)
    (s : Search SinglePool_ext) (hr : s.pool.Ready) (hn : NodesOK J s.pool.contents)
    (hb : s.best = b0) (hf : poolWeight J.toNat s.pool.contents < fuel) :
    ∃ r, step3_loop B J 1 fuel s = some r ∧ r.best = b0 ∧
      r.tree_loc = s.tree_loc + (potential B.lb1_bound J b0 s.pool.contents).1 ∧
      r.num_sol = s.num_sol + (potential B.lb1_bound J b0 s.pool.contents).2 := by
  obtain ⟨r, e, ⟨_, _, a3, a4, a5⟩, hnil⟩ := step3_loop_rule B J 1
    (fun t => t.pool.Ready ∧ NodesOK J t.pool.contents ∧ t.best = b0 ∧
      t.tree_loc + (potential B.lb1_bound J b0 t.pool.contents).1
        = s.tree_loc + (potential B.lb1_bound J b0 s.pool.contents).1 ∧
      t.num_sol + (potential B.lb1_bound J b0 t.pool.contents).2
        = s.num_sol + (potential B.lb1_bound J b0 s.pool.contents).2)
    (fun t => poolWeight J.toNat t.pool.contents) (fun t h => h.1) (by
      intro t parent xs q ⟨_, hn, hb, ht, hs⟩ hc _ hq hqc
      have hperm : (xs ++ [parent]).Perm (parent :: xs) := List.perm_append_singleton parent xs
      have hn2 : NodesOK J (parent :: xs) := fun n hm => hn n (by
        rw [hc]; exact hperm.mem_iff.2 hm)
      obtain ⟨s2, e2, i2, n2, b2, t2, m2, w2⟩ := count_step SinglePool_ext.pushBack
        SinglePool_ext.Ready SinglePool_ext.contents SinglePool_ext.ext_law B.lb1_bound J hJ b0
        hopt parent xs { t with pool := q } hq hqc hb hn2
      rw [hc, potential_perm _ _ _ _ _ hperm] at ht hs
      refine ⟨s2, ?_, ⟨i2, n2, b2, by rw [t2]; exact ht, by rw [m2]; exact hs⟩, ?_⟩
      · simp only [decompose_ext, one_ne_zero, if_false, if_true]
        exact e2
      · simp only [hc]
        rw [poolWeight_perm _ _ _ hperm]
        exact w2) fuel s ⟨hr, hn, hb, rfl, rfl⟩ hf
  refine ⟨r, e, a3, ?_, ?_⟩
  · rw [hnil] at a4
    simpa [potential] using a4
  · rw [hnil] at a5
    simpa [potential] using a5

theorem foldl_add_map {α : Type} (l : List α) (f : α → Nat) (t : Nat) :
    l.foldl (fun t w => t + f w) t = t + (l.map f).sum := by
  induction l generalizing t with
  | nil => rfl
  | cons x xs ih =>
    rw [List.foldl_cons, ih]
    simp only [List.map_cons, List.sum_cons]
    omega

theorem sum_map_add {α : Type} (l : List α) (f g : α → Nat) :
    (l.map (fun x => f x + g x)).sum = (l.map f).sum + (l.map g).sum := by
  induction l with
  | nil => rfl
  | cons x xs ih =>
    simp only [List.map_cons, List.sum_cons, ih]
    omega

/-- The end of the search from tasks that satisfy the invariant of the counts. -/
theorem finish_counts (B : Bounds) (J : Int) (hJ : J ≤ 20) (b0 : Int)
    (hopt : ∀ q, q.Perm (identity J) → b0 ≤ B.lb1_bound q (J - 1) J) (K : Nat × Nat)
    (ws ord : List (Search SinglePool_ext)) (s : Search SinglePool_ext) (fuel : Nat)
    (hinv : CountInv J B.lb1_bound b0 K ws) (hne : ws ≠ []) (hperm : ord.Perm ws)
    (hs : s.pool.Ready) (hse : s.pool.contents = []) (hf : tasksWeight J.toNat ws < fuel) :
    ∃ r, finish B J 1 ws ord s fuel = some r ∧ r.best = b0 ∧
      r.tree_loc = s.tree_loc + K.1 ∧ r.num_sol = s.num_sol + K.2 := by
  obtain ⟨h1, h2, h3⟩ := hinv
  obtain ⟨p1, e1, r1, c1⟩ := drain_all ord s.pool hs (fun w hw => (h1 w (hperm.mem_iff.1 hw)).1)
  rw [hse, List.nil_append] at c1
  have hbne : ws.map (fun w => w.best) ≠ [] := by
    intro h
    exact hne (List.map_eq_nil_iff.1 h)
  obtain ⟨_, f2⟩ := findMin_le (ws.map (fun w => w.best)) hbne
  rw [List.length_map] at f2
  have hbest : findMin (ws.map (fun w => w.best)) (ws.length : Int) = b0 := by
    obtain ⟨w, hw, hbw⟩ := List.mem_map.1 f2
    rw [← hbw]
    exact (h1 w hw).2.2
  have hpc : potential B.lb1_bound J b0 p1.contents
      = potential B.lb1_bound J b0 (ws.flatMap (fun w => w.pool.contents)) := by
    rw [c1]
    apply potential_perm
    refine List.Perm.trans (List.Perm.flatMap_left _ (fun w _ => List.reverse_perm _)) ?_
    exact List.Perm.flatMap_right _ hperm
  obtain ⟨g1, g2⟩ := potential_flatMap B.lb1_bound J b0 ws (fun w => w.pool.contents)
  obtain ⟨r, e, rb, rt, rs⟩ := step3_counts B J hJ b0 hopt fuel
    { best := findMin (ws.map (fun w => w.best)) (ws.length : Int),
      tree_loc := ws.foldl (fun t w => t + w.tree_loc) s.tree_loc,
      num_sol := ws.foldl (fun t w => t + w.num_sol) s.num_sol,
      pool := p1 } r1 (by
      intro n hn
      simp only [c1] at hn
      obtain ⟨w, hw, hnw⟩ := List.mem_flatMap.1 hn
      exact (h1 w (hperm.mem_iff.1 hw)).2.1 n (List.mem_reverse.1 hnw)) hbest (by
      simp only [c1]
      rw [poolWeight_flatMap]
      have : (ord.map (fun w => poolWeight J.toNat w.pool.contents.reverse))
          = ord.map (fun w => poolWeight J.toNat w.pool.contents) := by
        apply List.map_congr_left
        intro w _
        exact poolWeight_perm _ _ _ (List.reverse_perm _)
      rw [this]
      have := tasksWeight_perm J.toNat ord ws hperm
      unfold tasksWeight at this hf
      omega)
  refine ⟨r, ?_, by rw [rb], ?_, ?_⟩
  · unfold finish
    rw [e1]
    exact e
  · rw [rt]
    simp only [hpc, g1, foldl_add_map]
    rw [sum_map_add] at h2
    omega
  · rw [rs]
    simp only [hpc, g2, foldl_add_map]
    rw [sum_map_add] at h3
    omega

/-- Every run of the search of `pfsp_multigpu_cuda.c` with `lb = 1` returns the counts
below the root when no leaf improves `b0`. -/
theorem multi_counts (B : Bounds) (J : Int) (b0 : Int) (t0 n0 : Nat) (m M : Int) (D : Nat)
    (h1 : 1 ≤ J) (hJ : J ≤ 20)
    (hopt : ∀ q, q.Perm (identity J) → b0 ≤ B.lb1_bound q (J - 1) J) (hm : 1 ≤ m)
    (hm2 : m ≤ 100) (hM : 1 ≤ M) (hD : 1 ≤ D) (hD2 : D ≤ 16) (fuel : Nat)
    (hf : poolWeight J.toNat [initRoot indet J] < fuel) :
    ∃ s1, step1 B J 1 ((D : Int) * m) b0 t0 n0 fuel = some s1 ∧
      ∀ ws ord, Reach2 B J 1 m M (init_tasks s1 (D : Int)) ws → ord.Perm ws →
        ∃ r, finish B J 1 ws ord { s1 with pool := (partition s1.pool (D : Int)).1 } fuel
            = some r ∧ r.best = b0 ∧
          r.tree_loc = t0 + (potential B.lb1_bound J b0 [initRoot indet J]).1 ∧
          r.num_sol = n0 + (potential B.lb1_bound J b0 [initRoot indet J]).2 := by
  obtain ⟨s1, e1, r1, n1, b1, ct, cs, w1, z1⟩ :=
    step1_counts B J h1 hJ ((D : Int) * m) b0 t0 n0 hopt fuel hf
  refine ⟨s1, e1, ?_⟩
  intro ws ord hreach hperm
  obtain ⟨sz, hsz⟩ := Int.eq_ofNat_of_zero_le r1.1.2.2.1
  have hfit : s1.pool.size - ((D : Int) - 1) * Int.tdiv s1.pool.size (D : Int) ≤ CAPACITY := by
    rw [hsz]
    exact partition_fit sz D m J hD hD2 hm hm2 hJ (by rw [← hsz]; exact z1)
  obtain ⟨hinv, hwt, hlen⟩ := init_tasks_count J B.lb1_bound b0 s1 D hD r1 n1 b1 hfit
  obtain ⟨hinv2, hwt2, hlen2⟩ := reach2_count B J hJ b0 hopt _ m M hm hM _ _ hinv hreach
  obtain ⟨pe, _, _, _⟩ := partition_spec s1.pool D r1.1 hD hfit
  have hne : ws ≠ [] := by
    intro h
    rw [h] at hlen2
    simp only [List.length_nil] at hlen2
    omega
  obtain ⟨g1, g2, g3, g4, g5⟩ := r1.1
  obtain ⟨r, e, rb, rt, rs⟩ := finish_counts B J hJ b0 hopt _ ws ord
    { s1 with pool := (partition s1.pool (D : Int)).1 } fuel hinv2 hne hperm
    (by
      simp only [pe]
      exact ⟨⟨g1, le_refl _, le_refl _, by simp only; omega, g5⟩, r1.2⟩)
    (by
      simp only [pe]
      rfl)
    (by omega)
  refine ⟨r, e, rb, ?_, ?_⟩
  · rw [rt]
    simp only
    omega
  · rw [rs]
    simp only
    omega

/-- C14 (a single task reproduces the sequential run).  For `1 ≤ J ≤ 20`, the bound
`lb1` under any bound data, an initial best `b0` that no leaf improves (as with
`ub = 1`, where `b0` is the optimum), `1 ≤ m ≤ 100`, `1 ≤ M` and `D = 1`, the sequential
search of `pfsp_c.c` returns as soon as it is given enough iterations, the search of
`pfsp_multigpu_cuda.c` has a run, and every run of it returns the same `best`, the same
`exploredTree` and the same `exploredSol` as the sequential search. -/
theorem single_worker (B : Bounds) (J : Int) (b0 : Int) (t0 n0 : Nat) (m M : Int)
    (h1 : 1 ≤ J) (hJ : J ≤ 20)
    (hopt : ∀ q, q.Perm (identity J) → b0 ≤ B.lb1_bound q (J - 1) J) (hm : 1 ≤ m)
    (hm2 : m ≤ 100) (hM : 1 ≤ M) :
    ∃ N, ∀ fuel, N ≤ fuel → ∃ s, pfsp_search B J 1 b0 t0 n0 fuel = some s ∧
      (∃ r, MultiRun B J 1 m M 1 b0 t0 n0 fuel r) ∧
      ∀ r, MultiRun B J 1 m M 1 b0 t0 n0 fuel r →
        r.best = s.best ∧ r.tree_loc = s.tree_loc ∧ r.num_sol = s.num_sol := by
  refine ⟨poolWeight J.toNat [initRoot indet J] + 1, ?_⟩
  intro fuel hf
  obtain ⟨s, es, sb, st, ss⟩ := seq_counts B J h1 hJ b0 t0 n0 hopt fuel (by omega)
  obtain ⟨s1, e1, hall⟩ := multi_counts B J b0 t0 n0 m M 1 h1 hJ hopt hm hm2 hM (le_refl _)
    (by decide) fuel (by omega)
  simp only [Nat.cast_one] at e1 hall
  refine ⟨s, es, ?_, ?_⟩
  · obtain ⟨r, e, _⟩ := hall (init_tasks s1 1) (init_tasks s1 1) (Reach2.refl _)
      (List.Perm.refl _)
    exact ⟨r, s1, _, _, e1, Reach2.refl _, List.Perm.refl _, e⟩
  · rintro r ⟨s2, ws, ord, e2, hreach, hperm, e⟩
    rw [e1] at e2
    have : s1 = s2 := Option.some.inj e2
    subst this
    obtain ⟨r2, e3, rb, rt, rs⟩ := hall ws ord hreach hperm
    rw [e] at e3
    have : r = r2 := Option.some.inj e3
    subst this
    exact ⟨by rw [rb, sb], by rw [rt, st], by rw [rs, ss]⟩

theorem sampleBounds_leaf_ge (q : List Int) (hq : q.Perm (identity 3)) :
    4 ≤ sampleBounds.lb1_bound q (3 - 1) 3 := by
  have hlen := hq.length_eq
  have hid : identity 3 = [0, 1, 2] := by decide
  rw [hid] at hq hlen
  match q, hlen with
  | [a, b, c], _ =>
    have ha : a ∈ ([0, 1, 2] : List Int) := hq.mem_iff.1 (by simp)
    have hb : b ∈ ([0, 1, 2] : List Int) := hq.mem_iff.1 (by simp)
    have hc : c ∈ ([0, 1, 2] : List Int) := hq.mem_iff.1 (by simp)
    have hnd : ([a, b, c] : List Int).Nodup := hq.nodup_iff.2 (by decide)
    simp only [List.mem_cons, List.mem_singleton, List.not_mem_nil, or_false] at ha hb hc
    simp only [List.nodup_cons, List.mem_cons, List.mem_singleton, List.not_mem_nil,
      or_false, not_or, not_false_eq_true, List.nodup_nil, and_true] at hnd
    have hv : sampleBounds.lb1_bound [a, b, c] (3 - 1) 3 = a + 2 * b + 3 * c := by
      show (List.range ((3 : Int) - 1 + 1).toNat).foldl
        (fun (acc : Int) (j : Nat) => acc + ((j : Int) + 1) * ([a, b, c] : List Int).getD j 0) 0
          = a + 2 * b + 3 * c
      rw [show ((3 : Int) - 1 + 1).toNat = 3 by decide,
        show List.range 3 = [0, 1, 2] by decide]
      simp only [List.foldl_cons, List.foldl_nil, List.getD_cons_zero, List.getD_cons_succ,
        Nat.cast_zero, Nat.cast_one, Nat.cast_ofNat]
      ring
    rw [hv]
    omega

/-- Instance of C14: 3 jobs, the bounds `sampleBounds`, the initial best 4, which is
the value of the best leaf `[2, 1, 0]`, `m = 1` and `M = 2`. -/
theorem single_worker_witness :
    ((1 : Int) ≤ 3 ∧ (3 : Int) ≤ 20 ∧
      (∀ q, q.Perm (identity 3) → 4 ≤ sampleBounds.lb1_bound q (3 - 1) 3) ∧
      sampleBounds.lb1_bound [2, 1, 0] (3 - 1) 3 = 4 ∧
      (1 : Int) ≤ 1 ∧ (1 : Int) ≤ 100 ∧ (1 : Int) ≤ 2) ∧
    ∃ N, ∀ fuel, N ≤ fuel → ∃ s, pfsp_search sampleBounds 3 1 4 0 0 fuel = some s ∧
      (∃ r, MultiRun sampleBounds 3 1 1 2 1 4 0 0 fuel r) ∧
      ∀ r, MultiRun sampleBounds 3 1 1 2 1 4 0 0 fuel r →
        r.best = s.best ∧ r.tree_loc = s.tree_loc ∧ r.num_sol = s.num_sol :=
  ⟨⟨by decide, by decide, sampleBounds_leaf_ge, by decide, by decide, by decide, by decide⟩,
    single_worker sampleBounds 3 4 0 0 1 2 (by decide) (by decide) sampleBounds_leaf_ge
      (by decide) (by decide) (by decide)⟩

/-! ## The decomposition with `lb1_d` against the one with `lb1` -/

theorem child_lb1_d_shape (J : Int) (parent : Node) (i : Int)
    (hd : (parent.depth : Int) = parent.limit1 + 1) :
    child_lb1_d J parent i = child_fwd J parent i := by
  simp only [child_lb1_d, child_fwd, hd]

theorem leaf_test_eq (J : Int) (hJ : J ≤ 20) (parent : Node) (hlt : (parent.depth : Int) < J) :
    ((((parent.depth + 1) % 256 : Nat) : Int) = J) ↔ ((parent.depth : Int) + 1 = J) := by
  have h : (parent.depth + 1) % 256 = parent.depth + 1 := Nat.mod_eq_of_lt (by omega)
  rw [h]
  constructor <;> intro h2 <;> omega

/-- C22: for a parent with `depth == limit1 + 1` and `depth < J <= 20`, when the array
`lb_begin` that `lb1_children_bounds` returns holds at the entry `parent.prmu[i]` the value
of `lb1_bound` on the child that exchanges the positions `limit1 + 1` and `i`, for every
`limit1 < i < J`, the call of `decompose_lb1_d` and the call of `decompose_lb1` return the
same `*best`, `*tree_loc`, `*num_sol` and pool, whatever the pool and its `pushBack` are:
they make the same calls of `pushBack` with the same children in the same order. -/
theorem lb1_d_specialisation {P : Type} (push : P → Node → Option P)
    (lb : List Int → Int → Int → Int) (lbs : List Int → Int → Int → List Int) (J : Int)
    (parent : Node) (hd : (parent.depth : Int) = parent.limit1 + 1)
    (hlt : (parent.depth : Int) < J) (hJ : J ≤ 20)
    (hb : ∀ i, parent.limit1 < i → i < J →
      rd 0 (lbs (parent.prmu.take J.toNat) parent.limit1 J) (rd 0 parent.prmu i)
        = lb ((child_lb1_d J parent i).prmu.take J.toNat) (parent.limit1 + 1) J)
    (s : Search P) :
    decompose_lb1_d push lbs J parent s = decompose_lb1 push lb J parent s := by
  rw [decompose_lb1_d_eq, decompose_lb1_eq]
  apply foldlM_option_congr
  intro s i hi
  rw [mem_idxs] at hi
  have h1 : bound_lb1_d lbs J parent i = bound_lb1 lb J parent i := by
    have := hb i (by omega) hi.2
    rw [child_lb1_d_shape J parent i hd] at this
    exact this
  rw [h1, child_lb1_d_shape J parent i hd]
  exact dispose_congr push _ _ (leaf_test_eq J hJ parent hlt).symm _ _ _

theorem lb1_d_specialisation_witness :
    decompose_lb1_d SinglePool.push (flatBounds 7).lb1_children_bounds 3 (initRoot indet 3)
        { best := 9, tree_loc := 0, num_sol := 0, pool := initSinglePool }
      = decompose_lb1 SinglePool.push (flatBounds 7).lb1_bound 3 (initRoot indet 3)
        { best := 9, tree_loc := 0, num_sol := 0, pool := initSinglePool } :=
  lb1_d_specialisation SinglePool.push (flatBounds 7).lb1_bound
    (flatBounds 7).lb1_children_bounds 3 (initRoot indet 3) (by decide) (by decide) (by decide)
    (by
      intro i h1 h2
      have h3 : (initRoot indet 3).limit1 = -1 := by decide
      rw [h3] at h1
      interval_cases i <;> decide) _

/-! ## The offloaded evaluation against `decompose_lb1` -/

theorem leaf_test_u8 (J : Int) (h1 : 1 ≤ J) (hJ : J < 256) (d : Nat) (hd : d < 256) :
    ((d : Int) + 1 = J) ↔ ((((d + 1) % 256 : Nat) : Int) = J) := by
  by_cases h : d + 1 < 256
  · rw [Nat.mod_eq_of_lt h]
    constructor <;> intro h2 <;> omega
  · have h2 : d = 255 := by omega
    subst h2
    constructor <;> intro h3
    · omega
    · have : (((255 + 1) % 256 : Nat) : Int) = 0 := by decide
      omega

/-- C21: for a batch `parents[0..size)` of nodes, `1 <= J < 256`, and an array `bounds`
that holds at `bounds[j + i*J]` the value of `lb1_bound` on the child of `parents[i]`
that exchanges the positions `parents[i].depth` and `j`, for every
`parents[i].limit1 < j < J`, the call `generate_children(parents, size, J, bounds, ...)`
returns what the calls of `decompose_lb1` on `parents[0]`, `parents[1]`, ...,
`parents[size-1]` in turn return: the same `*exploredTree`, `*exploredSol`, `*best` and
pool, whatever the pool and its `pushBack` are, so the same children are pushed in the
same order. -/
theorem generate_children_refines {P : Type} (push : P → Node → Option P)
    (lb : List Int → Int → Int → Int) (J : Int) (h1 : 1 ≤ J) (hJ : J < 256)
    (parents : List Node) (size : Int) (bounds : List Int)
    (hu8 : ∀ i, 0 ≤ i → i < size → (rd indet parents i).depth < 256)
    (hb : ∀ i j, 0 ≤ i → i < size → (rd indet parents i).limit1 < j → j < J →
      rd 0 bounds (j + i * J)
        = lb ((child_fwd J (rd indet parents i) j).prmu.take J.toNat)
            ((rd indet parents i).limit1 + 1) J)
    (s : Search P) :
    generate_children push parents size J bounds s
      = (idxs 0 size).foldlM
          (fun (s : Search P) (i : Int) => decompose_lb1 push lb J (rd indet parents i) s) s := by
  rw [generate_children_eq]
  apply foldlM_option_congr
  intro s i hi
  rw [mem_idxs] at hi
  rw [decompose_lb1_eq]
  apply foldlM_option_congr
  intro s j hj
  rw [mem_idxs] at hj
  have hbj := hb i j hi.1 hi.2 (by omega) hj.2
  have h2 : bound_lb1 lb J (rd indet parents i) j = rd 0 bounds (j + i * J) := by
    rw [hbj]; rfl
  rw [h2]
  exact dispose_congr push _ _ (leaf_test_u8 J h1 hJ _ (hu8 i hi.1 hi.2)) _ _ _

theorem generate_children_refines_witness :
    generate_children SinglePool.push [initRoot indet 3] 1 3 [7, 7, 7]
        { best := 9, tree_loc := 0, num_sol := 0, pool := initSinglePool }
      = (idxs 0 1).foldlM
          (fun (s : Search SinglePool) (i : Int) =>
            decompose_lb1 SinglePool.push (flatBounds 7).lb1_bound 3
              (rd indet [initRoot indet 3] i) s)
          { best := 9, tree_loc := 0, num_sol := 0, pool := initSinglePool } :=
  generate_children_refines SinglePool.push (flatBounds 7).lb1_bound 3 (by decide) (by decide)
    [initRoot indet 3] 1 [7, 7, 7]
    (by
      intro i h1 h2
      interval_cases i
      decide)
    (by
      intro i j h1 h2 h3 h4
      interval_cases i
      have h5 : (rd indet [initRoot indet 3] 0).limit1 = -1 := by decide
      rw [h5] at h3
      interval_cases j <;> decide) _

/-! ## The counters of the single-GPU search -/

theorem foldl_keeps {α β : Type} (R : β → Prop) (f : β → α → β)
    (h : ∀ b a, R b → R (f b a)) (l : List α) (b : β) (hb : R b) : R (l.foldl f b) := by
  induction l generalizing b with
  | nil => exact hb
  | cons a l ih => exact ih (f b a) (h b a hb)

theorem generate_children_gpu_counters (parents : List Node) (size jobs : Int)
    (bounds : List Int) (s : Search SinglePool) :
    (generate_children_gpu parents size jobs bounds s).s.tree_loc = s.tree_loc ∧
    (generate_children_gpu parents size jobs bounds s).s.num_sol = s.num_sol := by
  unfold generate_children_gpu
  apply foldl_keeps (fun (g : GenLocals) => g.s.tree_loc = s.tree_loc ∧ g.s.num_sol = s.num_sol)
  · intro g i hg
    apply foldl_keeps
      (fun (g : GenLocals) => g.s.tree_loc = s.tree_loc ∧ g.s.num_sol = s.num_sol)
    · intro g j hg
      simp only
      split_ifs <;> exact hg
    · exact hg
  · exact ⟨rfl, rfl⟩

/-- C23 fails: in `pfsp_gpu_cuda.c` no call of `generate_children` changes the counters
of its caller.  The call of `generate_children` on the root of a
3-job instance, with bounds 7 below `*best = 9`, pushes three children and leaves the
counter of the caller at 0, having advanced its own pointer `exploredTree` by 3; on a
parent of depth 2 it evaluates one leaf, lowers `*best` to 7 and leaves the counter of
explored solutions at 0.  On the 3-job instance whose interior nodes have the bound 7 and
whose leaves have the value 9, with the initial best 9, no node is pruned: the search of
`pfsp_c.c` reports the 9 nodes pushed after the root and the 6 leaves, and the search of
`pfsp_gpu_cuda.c` with `m = 1`, `M = 5` reports 3 nodes and 1 leaf, those of its two calls
of `decompose`. -/
theorem gpu_counters_not_updated :
    (∀ (parents : List Node) (size jobs : Int) (bounds : List Int) (s : Search SinglePool),
      (generate_children_gpu parents size jobs bounds s).s.tree_loc = s.tree_loc ∧
      (generate_children_gpu parents size jobs bounds s).s.num_sol = s.num_sol) ∧
    ((generate_children_gpu [initRoot indet 3] 1 3 [7, 7, 7]
        { best := 9, tree_loc := 0, num_sol := 0, pool := initSinglePool }).s.pool.size,
      (generate_children_gpu [initRoot indet 3] 1 3 [7, 7, 7]
        { best := 9, tree_loc := 0, num_sol := 0, pool := initSinglePool }).s.tree_loc,
      (generate_children_gpu [initRoot indet 3] 1 3 [7, 7, 7]
        { best := 9, tree_loc := 0, num_sol := 0, pool := initSinglePool }).exploredTree)
      = (3, 0, 3) ∧
    ((generate_children_gpu [⟨2, 1, [0, 1, 2]⟩] 1 3 [7, 7, 7]
        { best := 9, tree_loc := 0, num_sol := 0, pool := initSinglePool }).s.best,
      (generate_children_gpu [⟨2, 1, [0, 1, 2]⟩] 1 3 [7, 7, 7]
        { best := 9, tree_loc := 0, num_sol := 0, pool := initSinglePool }).s.num_sol,
      (generate_children_gpu [⟨2, 1, [0, 1, 2]⟩] 1 3 [7, 7, 7]
        { best := 9, tree_loc := 0, num_sol := 0, pool := initSinglePool }).exploredSol)
      = (7, 0, 1) ∧
    (pfsp_search_gpu stepBounds 3 1 1 5 9 0 0 3).map
        (fun s => (s.best, s.tree_loc, s.num_sol, s.pool.size)) = some (9, 3, 1, 0) ∧
    (pfsp_search stepBounds 3 1 9 0 0 11).map
        (fun s => (s.best, s.tree_loc, s.num_sol, s.pool.size)) = some (9, 9, 6, 0) := by
  refine ⟨generate_children_gpu_counters, by rfl, by rfl, by rfl, by rfl⟩

/-! ## The acquisition of the lock of a victim -/

theorem ws1_loop_dist_free (lockAt : Nat → Bool) (k : Nat) :
    ∀ (nn : Nat) (expected : Bool) (n : Nat) (b : Bool),
      (ws1_loop_dist lockAt k nn expected).entered = some (n, b) → b = false := by
  induction k with
  | zero => intro nn e n b h; simp [ws1_loop_dist] at h
  | succ k ih =>
    intro nn e n b h
    unfold ws1_loop_dist at h
    simp only [atomic_compare_exchange_strong] at h
    by_cases hl : lockAt nn = false
    · simp only [hl, if_true, Option.some.injEq, Prod.mk.injEq] at h
      exact h.2.symm
    · simp only [hl, if_false] at h
      exact ih _ _ n b h

theorem ws1_loop_first (lockAt : Nat → Bool) (k nn : Nat) (h : lockAt nn = false) :
    ws1_loop lockAt true (k + 1) nn false = { entered := some (nn, false), expected := false } := by
  simp [ws1_loop, atomic_compare_exchange_weak, h]

/-- C25 fails: in `pfsp_multigpu_cuda.c`, a task that starts with `expected == false` on a
victim whose lock is held (true) at its first two attempts fails its first
compare-and-swap, which stores true in `expected`, and succeeds at the second one with
`expected == true`: it enters the critical section while the lock is held, and
`expected` is still true when it turns to its next victim.  When `expected` is true and
the lock of the victim is free, the first attempt fails and the second succeeds.  The loop
of `pfsp_dist_multigpu_cuda.c`, which stores false in `expected` before each
compare-and-swap, makes its 10 attempts on the held lock without entering. -/
theorem cas_expected_overwritten :
    ws1_loop (fun _ => true) true 10 0 false = { entered := some (1, true), expected := true } ∧
    ws1_loop (fun _ => false) true 10 0 true
      = { entered := some (1, false), expected := false } ∧
    ws1_loop (fun _ => false) true 10 0 false
      = { entered := some (0, false), expected := false } ∧
    ws1_loop_dist (fun _ => true) 10 0 false = { entered := none, expected := true } := by
  refine ⟨by decide, by decide, by decide, by decide⟩

/-! ## The sizes of the chunks -/

theorem chunk_sizes_some (poolSize D : Int) (h : D ≠ 0) :
    chunk_sizes poolSize D
      = some (Int.tdiv poolSize D, poolSize - (D - 1) * Int.tdiv poolSize D) := by
  simp [chunk_sizes, int_div, h]

/-- C28 fails: `parse_parameters` of `pfsp_multigpu_cuda.c` and of
`pfsp_dist_multigpu_cuda.c` accept the option `--D 0` and return `D = 0`; step 1 with the
threshold `0 * m` returns at once with the root alone in the pool, and the division
`poolSize / D` of the chunk sizes is then a division by zero, whatever `poolSize` is. -/
theorem chunk_sizes_div_zero :
    (parse_parameters [('D', 0)]).map (fun p => p.D) = some 0 ∧
    (parse_parameters_dist [('D', 0)]).map (fun p => p.D) = some 0 ∧
    (step1 sampleBounds 3 1 (0 * 25) 9 0 0 1).map (fun s => s.pool.size) = some 1 ∧
    chunk_sizes 1 0 = none ∧
    ∀ poolSize : Int, chunk_sizes poolSize 0 = none := by
  refine ⟨by rfl, by rfl, by rfl, by rfl, fun _ => by rfl⟩

/-! ## The critical section that returns the nodes of a task -/

theorem initSinglePool_ext_ready : initSinglePool_ext.Ready := by
  refine ⟨⟨by decide, by decide, by decide, by decide, ?_⟩, rfl⟩
  show ((List.replicate CAPACITY.toNat indet).length : Int) = CAPACITY
  rw [List.length_replicate]; decide

/-- C26: for a task pool `pool_loc` and a pool `pool` that are well-formed and unlocked,
the critical section at the end of the parallel region (`poolLocSize` iterations of
`pushBack(&pool, popBack(pool_loc, &hasWork))`, with `pool_lloc` for `pool` in
`pfsp_dist_multigpu_cuda.c`) returns; afterwards `pool_loc` is empty and `pool` holds its
earlier nodes followed by the nodes of `pool_loc` in reverse order, so that the nodes of
the two pools together are the same multiset as before. -/
theorem drain_moves_all (pool_loc pool : SinglePool_ext) (h1 : pool_loc.Ready)
    (h2 : pool.Ready) :
    ∃ pl1 p1, drain pool_loc pool = some (pl1, p1) ∧ pl1.Ready ∧ p1.Ready ∧
      pl1.size = 0 ∧ pl1.contents = [] ∧
      p1.contents = pool.contents ++ pool_loc.contents.reverse ∧
      p1.size = pool.size + pool_loc.size ∧
      (pl1.contents ++ p1.contents).Perm (pool_loc.contents ++ pool.contents) := by
  have hlen := SinglePool_ext.ext_contents_length pool_loc h1.1
  obtain ⟨pl1, p1, e, r1, r2, c1, c⟩ :=
    drain_loop (idxs 0 pool_loc.size) [] pool_loc.contents pool_loc pool h1 h2
      (by simp) (by rw [idxs_length]; omega)
  have hl1 := SinglePool_ext.ext_contents_length pl1 r1.1
  have hl2 := SinglePool_ext.ext_contents_length p1 r2.1
  have hl3 := SinglePool_ext.ext_contents_length pool h2.1
  refine ⟨pl1, p1, ?_, r1, r2, ?_, c1, c, ?_, ?_⟩
  · unfold drain
    rw [e]
    rfl
  · rw [c1] at hl1
    simp only [List.length_nil] at hl1
    omega
  · rw [c] at hl2
    simp only [List.length_append, List.length_reverse] at hl2
    omega
  · rw [c1, c, List.nil_append]
    exact (List.perm_append_comm).trans
      (List.Perm.append_right _ (List.reverse_perm _))

theorem drain_moves_all_witness :
    ∃ pl1 p1, drain samplePool_ext initSinglePool_ext = some (pl1, p1) ∧ pl1.Ready ∧
      p1.Ready ∧ pl1.size = 0 ∧ pl1.contents = [] ∧
      p1.contents = initSinglePool_ext.contents ++ samplePool_ext.contents.reverse ∧
      p1.size = initSinglePool_ext.size + samplePool_ext.size ∧
      (pl1.contents ++ p1.contents).Perm
        (samplePool_ext.contents ++ initSinglePool_ext.contents) :=
  drain_moves_all samplePool_ext initSinglePool_ext
    ⟨⟨by decide, by decide, by decide, by decide, by decide⟩, rfl⟩
    initSinglePool_ext_ready

/-! ## The capacity of a `SinglePool_ext` -/

theorem ext_ops_wf (p : SinglePool_ext) (h : p.WF) :
    (∀ n q, p.pushBack n = some q → q.WF) ∧
    (∀ hw r, p.popBack hw = some r → r.2.2.WF) ∧
    (∀ hw, (p.popBackFree hw).2.2.WF) ∧
    (∀ m M parents r, 0 ≤ M → p.popBackBulk m M parents = some r → r.2.2.WF) ∧
    (∀ m M n, (p.popBackBulkFree m M n).2.2.WF) ∧
    (∀ hw, (p.popFront hw).2.2.WF) := by
  obtain ⟨h1, h2, h3, h4, h5⟩ := h
  refine ⟨?_, ?_, ?_, ?_, ?_, ?_⟩
  · intro n q e
    by_cases hl : p.lock = true
    · simp [SinglePool_ext.pushBack, hl] at e
    · obtain ⟨q1, e1, w, _⟩ := SinglePool_ext.ext_pushBack_spec p n ⟨h1, h2, h3, h4, h5⟩
        (by simpa using hl)
      rw [e1] at e
      cases e
      exact w
  · intro hw r e
    unfold SinglePool_ext.popBack at e
    by_cases hl : p.lock = true
    · simp [hl] at e
    · simp only [hl, if_false] at e
      split_ifs at e <;> cases e
      all_goals first
        | exact ⟨h1, h2, h3, h4, h5⟩
        | exact ⟨h1, h2, (by simp only; omega), (by simp only; omega), h5⟩
  · intro hw
    unfold SinglePool_ext.popBackFree
    split_ifs with hs
    · exact ⟨h1, h2, by simp only; omega, by simp only; omega, h5⟩
    · exact ⟨h1, h2, h3, h4, h5⟩
  · intro m M parents r hM e
    unfold SinglePool_ext.popBackBulk at e
    by_cases hl : p.lock = true
    · simp [hl] at e
    · simp only [hl, if_false] at e
      have := min_le_left p.size M
      have := le_min h3 hM
      split_ifs at e <;> cases e
      all_goals first
        | exact ⟨h1, h2, h3, h4, h5⟩
        | exact ⟨h1, h2, (by simp only; omega), (by simp only; omega), h5⟩
  · intro m M n
    unfold SinglePool_ext.popBackBulkFree
    split_ifs with hs
    · have hd1 : 0 ≤ Int.tdiv p.size 2 := Int.tdiv_nonneg h3 (by decide)
      have hd2 : Int.tdiv p.size 2 ≤ p.size := by
        rw [Int.tdiv_eq_ediv h3 (by decide)]
        omega
      exact ⟨h1, h2, by simp only; omega, by simp only; omega, h5⟩
    · exact ⟨h1, h2, h3, h4, h5⟩
  · intro hw
    unfold SinglePool_ext.popFront
    split_ifs with hs
    · exact ⟨h1, by simp only; omega, by simp only; omega, by simp only; omega, h5⟩
    · exact ⟨h1, h2, h3, h4, h5⟩

/-- C27 fails for `pushBackBulk`: on the well-formed pool with a block of 4 nodes that
holds 3 nodes from `front = 1` on, the call with a batch of 5 nodes doubles the capacity
to 8 and returns with `front + size = 9 > capacity = 8`, the last node of the batch having
been written at the index 8, outside the block of 8 nodes; the pool then holds 7 nodes
where its `size` says 8.  On the pool that `initSinglePool` and one `pushBack` give, the
call with a batch of 1025 nodes tests `0 + 1 >= 1024`, keeps the capacity 1024 and returns
with `front + size = 1026`. -/
theorem pushBackBulk_capacity :
    samplePool_ext.WF ∧
    (∃ q, samplePool_ext.pushBackBulk sampleBatch5 = some q ∧
      q.capacity = 8 ∧ q.elements.length = 8 ∧ q.front = 1 ∧ q.size = 8 ∧
      q.capacity < q.front + q.size ∧ ¬ q.WF ∧ q.contents.length = 7) ∧
    (sampleLocale (sampleNode 1)).WF ∧
    ∃ q, (sampleLocale (sampleNode 1)).pushBackBulk sampleBatch = some q ∧
      q.capacity = 1024 ∧ q.front + q.size = 1026 ∧ ¬ q.WF := by
  have hwf : (sampleLocale (sampleNode 1)).WF := by
    refine ⟨by decide, by decide, by decide, by decide, ?_⟩
    show (((sampleNode 1) :: List.replicate 1023 indet).length : Int) = 1024
    rw [List.length_cons, List.length_replicate]; rfl
  refine ⟨⟨by decide, by decide, by decide, by decide, by decide⟩,
    ⟨_, rfl, by decide, by decide, by decide, by decide, by decide, ?_, by decide⟩, hwf, ?_⟩
  · rintro ⟨_, _, _, h, _⟩
    revert h
    decide
  · obtain ⟨q, e, c, _, sz, fr, _⟩ :=
      SinglePool_ext.ext_pushBackBulk_shape (sampleLocale (sampleNode 1)) sampleBatch hwf rfl
    have c1 : q.capacity = 1024 := by rw [c]; decide
    have s1 : q.front + q.size = 1026 := by rw [sz, fr]; decide
    refine ⟨q, e, c1, s1, ?_⟩
    rintro ⟨_, _, _, h, _⟩
    omega

/-! ## The conservation of the nodes in a steal -/

theorem ext_popBackBulkFree_count (p : SinglePool_ext) (m M n : Int) (h : 2 * m ≤ p.size) :
    (p.popBackBulkFree m M n).2.1 = Int.tdiv p.size 2 := by
  have h2 : p.size ≥ 2 * m := h
  simp only [SinglePool_ext.popBackBulkFree, h2, if_true]

theorem set_same {α : Type} (l : List α) (g : Nat) (a : α) (hg : l[g]? = some a) :
    l.set g a = l := by
  induction l generalizing g with
  | nil => rfl
  | cons x xs ih =>
    cases g with
    | zero =>
      simp only [List.getElem?_cons_zero, Option.some.injEq] at hg
      subst hg
      rfl
    | succ g =>
      simp only [List.getElem?_cons_succ] at hg
      simp only [List.set_cons_succ, ih g hg]

theorem count_flatMap_sum {α : Type} (a : Node) (l : List α) (f : α → List Node) :
    (l.flatMap f).count a = (l.map (fun x => (f x).count a)).sum := by
  induction l with
  | nil => rfl
  | cons x xs ih =>
    rw [List.flatMap_cons, List.count_append, ih]
    rfl

/-- A steal attempt on a victim whose lock is free returns: from a victim with
`size >= 2*m` the thief gets the last `size / 2` nodes of the victim after its own nodes
and the victim keeps the others; a victim with `size < 2*m` leaves both pools as they
are. -/
theorem task_steal_total (m M : Int) (thief victim : SinglePool_ext) (ht : thief.Ready)
    (hv : victim.Ready) :
    (2 * m ≤ victim.size → ∃ t q rest ps, task_steal m M thief victim = some (t, q) ∧
      t.Ready ∧ q.Ready ∧ (ps.length : Int) = Int.tdiv victim.size 2 ∧
      victim.contents = rest ++ ps ∧ q.contents = rest ∧ t.contents = thief.contents ++ ps) ∧
    (victim.size < 2 * m → task_steal m M thief victim = some (thief, victim)) := by
  obtain ⟨hA, _⟩ := SinglePool_ext.ext_popBackBulkFree_spec victim m M victim.size hv
  constructor
  · intro hge
    obtain ⟨ps, q, rest, e, hq, hc, hq2⟩ := hA hge
    have hcnt := ext_popBackBulkFree_count victim m M victim.size hge
    rw [e] at hcnt
    simp only at hcnt
    have hge2 : victim.size ≥ 2 * m := hge
    obtain ⟨t, e1, w1, l1, c1, _, _⟩ :=
      SinglePool_ext.ext_pushBackAll_spec (ps.take (ps.length : Int).toNat) thief ht.1 ht.2
    rw [show (ps.length : Int).toNat = ps.length from Int.toNat_ofNat _, List.take_length]
      at e1 c1
    refine ⟨t, q, rest, ps, ?_, ⟨w1, l1⟩, hq, hcnt, hc, hq2, c1⟩
    simp only [task_steal, steal_section, hge2, if_true, e, SinglePool_ext.pushBackBulk3,
      Int.toNat_ofNat, List.take_length, e1, Option.map_some']
  · intro hlt
    have : ¬ (victim.size ≥ 2 * m) := by omega
    simp only [task_steal, steal_section, this, if_false]

/-- C24: in a state `ws` of the tasks of `pfsp_multigpu_cuda.c`, a steal attempt of the
task `g` on another task `v`, the pools of both well-formed and unlocked, returns.  When
the victim holds `s >= 2*m` nodes, the victim keeps its first `s - s/2` nodes, the thief
holds its earlier nodes followed by the last `s/2` nodes of the victim in their order,
the attempt is a step of step 2, the pool of every other task is as before and the nodes
of all the pools together are the same multiset as before.  When `s < 2*m` both pools are
returned as they are and the state of the tasks is as before.  Here `s/2` is the quotient
of C, and the call `pushBackBulk(pool_loc, p, size)` appends the `size` nodes of `p`. -/
theorem steal_conserves (B : Bounds) (jobs lb m M : Int) (ws : List (Search SinglePool_ext))
    (g v : Nat) (w u : Search SinglePool_ext) (hg : ws[g]? = some w) (hv : ws[v]? = some u)
    (hne : g ≠ v) (hw : w.pool.Ready) (hu : u.pool.Ready) :
    (2 * m ≤ u.pool.size → ∃ t q, task_steal m M w.pool u.pool = some (t, q) ∧
      t.Ready ∧ q.Ready ∧
      q.size = u.pool.size - Int.tdiv u.pool.size 2 ∧
      t.size = w.pool.size + Int.tdiv u.pool.size 2 ∧
      q.contents = u.pool.contents.take (u.pool.size - Int.tdiv u.pool.size 2).toNat ∧
      t.contents = w.pool.contents
        ++ u.pool.contents.drop (u.pool.size - Int.tdiv u.pool.size 2).toNat ∧
      Step2 B jobs lb m M ws ((ws.set g { w with pool := t }).set v { u with pool := q }) ∧
      (∀ k, k ≠ g → k ≠ v →
        ((ws.set g { w with pool := t }).set v { u with pool := q })[k]? = ws[k]?) ∧
      (((ws.set g { w with pool := t }).set v { u with pool := q }).flatMap
        (fun x => x.pool.contents)).Perm (ws.flatMap (fun x => x.pool.contents))) ∧
    (u.pool.size < 2 * m → task_steal m M w.pool u.pool = some (w.pool, u.pool) ∧
      (ws.set g { w with pool := w.pool }).set v { u with pool := u.pool } = ws) := by
  obtain ⟨hA, hB⟩ := task_steal_total m M w.pool u.pool hw hu
  constructor
  · intro hge
    obtain ⟨t, q, rest, ps, e, rt, rq, hps, hc, hqc, htc⟩ := hA hge
    have lu := SinglePool_ext.ext_contents_length u.pool hu.1
    have lw := SinglePool_ext.ext_contents_length w.pool hw.1
    have lt := SinglePool_ext.ext_contents_length t rt.1
    have lq := SinglePool_ext.ext_contents_length q rq.1
    have hlen : rest.length + ps.length = u.pool.contents.length := by
      rw [hc, List.length_append]
    have hrest : (u.pool.size - Int.tdiv u.pool.size 2).toNat = rest.length := by omega
    refine ⟨t, q, e, rt, rq, ?_, ?_, ?_, ?_, Step2.steal ws g v w u t q hg hv hne hu.2 e, ?_, ?_⟩
    · rw [hqc] at lq
      omega
    · rw [htc, List.length_append] at lt
      omega
    · rw [hrest, hqc, hc, List.take_left]
    · rw [hrest, htc, hc, List.drop_left]
    · intro k hk1 hk2
      rw [List.getElem?_set_ne (fun h => hk2 h.symm), List.getElem?_set_ne (fun h => hk1 h.symm)]
    · rw [List.perm_iff_count]
      intro a
      rw [count_flatMap_sum, count_flatMap_sum]
      have hv1 : (ws.set g { w with pool := t })[v]? = some u := by
        rw [List.getElem?_set_ne hne]; exact hv
      have s1 := sum_map_set (fun (x : Search SinglePool_ext) => x.pool.contents.count a)
        (ws.set g { w with pool := t }) v u { u with pool := q } hv1
      have s2 := sum_map_set (fun (x : Search SinglePool_ext) => x.pool.contents.count a)
        ws g w { w with pool := t } hg
      simp only at s1 s2
      rw [hqc] at s1
      rw [htc, List.count_append] at s2
      rw [hc, List.count_append] at s1
      omega
  · intro hlt
    refine ⟨hB hlt, ?_⟩
    have e1 : ({ w with pool := w.pool } : Search SinglePool_ext) = w := rfl
    have e2 : ({ u with pool := u.pool } : Search SinglePool_ext) = u := rfl
    rw [e1, e2]
    rw [set_same ws g w hg, set_same ws v u hv]

theorem steal_conserves_witness :
    ((0 : Nat) ≠ 1 ∧ initSinglePool_ext.Ready ∧ samplePool_ext.Ready ∧
      2 * (1 : Int) ≤ samplePool_ext.size) ∧
    ∃ t q, task_steal 1 2 initSinglePool_ext samplePool_ext = some (t, q) ∧
      t.Ready ∧ q.Ready ∧
      q.size = samplePool_ext.size - Int.tdiv samplePool_ext.size 2 ∧
      t.size = initSinglePool_ext.size + Int.tdiv samplePool_ext.size 2 ∧
      q.contents
        = samplePool_ext.contents.take
            (samplePool_ext.size - Int.tdiv samplePool_ext.size 2).toNat ∧
      t.contents = initSinglePool_ext.contents
        ++ samplePool_ext.contents.drop
            (samplePool_ext.size - Int.tdiv samplePool_ext.size 2).toNat ∧
      Step2 sampleBounds 3 1 1 2
        [⟨9, 0, 0, initSinglePool_ext⟩, ⟨9, 0, 0, samplePool_ext⟩]
        (([(⟨9, 0, 0, initSinglePool_ext⟩ : Search SinglePool_ext),
            ⟨9, 0, 0, samplePool_ext⟩].set 0
            { (⟨9, 0, 0, initSinglePool_ext⟩ : Search SinglePool_ext) with pool := t }).set 1
          { (⟨9, 0, 0, samplePool_ext⟩ : Search SinglePool_ext) with pool := q }) ∧
      (∀ k, k ≠ 0 → k ≠ 1 →
        (([(⟨9, 0, 0, initSinglePool_ext⟩ : Search SinglePool_ext),
            ⟨9, 0, 0, samplePool_ext⟩].set 0
            { (⟨9, 0, 0, initSinglePool_ext⟩ : Search SinglePool_ext) with pool := t }).set 1
          { (⟨9, 0, 0, samplePool_ext⟩ : Search SinglePool_ext) with pool := q })[k]?
          = [(⟨9, 0, 0, initSinglePool_ext⟩ : Search SinglePool_ext),
              ⟨9, 0, 0, samplePool_ext⟩][k]?) ∧
      ((([(⟨9, 0, 0, initSinglePool_ext⟩ : Search SinglePool_ext),
            ⟨9, 0, 0, samplePool_ext⟩].set 0
            { (⟨9, 0, 0, initSinglePool_ext⟩ : Search SinglePool_ext) with pool := t }).set 1
          { (⟨9, 0, 0, samplePool_ext⟩ : Search SinglePool_ext) with pool := q }).flatMap
        (fun x => x.pool.contents)).Perm
        ([(⟨9, 0, 0, initSinglePool_ext⟩ : Search SinglePool_ext),
            ⟨9, 0, 0, samplePool_ext⟩].flatMap (fun x => x.pool.contents)) :=
  ⟨⟨by decide, initSinglePool_ext_ready,
      ⟨⟨by decide, by decide, by decide, by decide, by decide⟩, rfl⟩, by decide⟩,
    (steal_conserves sampleBounds 3 1 1 2
      [⟨9, 0, 0, initSinglePool_ext⟩, ⟨9, 0, 0, samplePool_ext⟩] 0 1
      ⟨9, 0, 0, initSinglePool_ext⟩ ⟨9, 0, 0, samplePool_ext⟩ rfl rfl (by decide)
      initSinglePool_ext_ready
      ⟨⟨by decide, by decide, by decide, by decide, by decide⟩, rfl⟩).1 (by decide)⟩

/-! ## Termination of the depth-first searches -/

theorem decompose_ext_nop {P : Type} (push : P → Node → Option P) (B : Bounds) (J : Int)
    (lb : Int) (parent : Node) (h : J ≤ parent.limit1 + 1) (s : Search P) :
    decompose_ext push B J lb parent s = some s := by
  unfold decompose_ext
  split_ifs
  · rw [decompose_lb1_d_eq, idxs_nil h]; rfl
  · rw [decompose_lb1_eq, idxs_nil h]; rfl
  · rw [decompose_lb2_eq, idxs_nil h]; rfl
  · rfl

theorem decompose_eq_ext {P : Type} (push : P → Node → Option P) (B : Bounds) (J : Int)
    (lb : Int) (hlb : lb = 0 ∨ lb = 1 ∨ lb = 2) (parent : Node) (s : Search P) :
    decompose push B J lb parent s = decompose_ext push B J lb parent s := by
  unfold decompose decompose_ext
  rcases hlb with h | h | h <;> subst h <;> simp

/-- One decomposition of a node with `depth == limit1 + 1` returns, pushes nodes with
`depth == limit1 + 1`, and the nodes it pushes weigh less than the node. -/
theorem decompose_ext_term {P : Type} (push : P → Node → Option P) (Inv : P → Prop)
    (abs : P → List Node) (law : PoolLaw push Inv abs) (B : Bounds) (J : Int) (hJ : J ≤ 20)
    (lb : Int) (parent : Node) (hd : (parent.depth : Int) = parent.limit1 + 1)
    (s : Search P) (hinv : Inv s.pool) :
    ∃ s2 cs, decompose_ext push B J lb parent s = some s2 ∧
      Inv s2.pool ∧ abs s2.pool = abs s.pool ++ cs ∧
      (∀ c ∈ cs, (c.depth : Int) = c.limit1 + 1) ∧
      poolWeight J.toNat cs < poolWeight J.toNat [parent] := by
  by_cases hlt : (parent.depth : Int) < J
  · obtain ⟨s2, cs, e, i2, a2, _, sh, lt, _⟩ :=
      decompose_ext_step push Inv abs law B J hJ lb parent ⟨hd, hlt⟩ s hinv
    exact ⟨s2, cs, e, i2, a2, fun c hc => (sh c hc).1.1, lt⟩
  · refine ⟨s, [], decompose_ext_nop push B J lb parent (by omega) s, hinv,
      by rw [List.append_nil], fun c hc => by simp at hc, ?_⟩
    simp only [poolWeight, List.map_nil, List.sum_nil, List.map_cons, List.sum_cons]
    have : 0 < (J.toNat + 1) ^ (J.toNat - parent.depth) := Nat.pow_pos (by omega)
    omega

/-- C29: for `J <= 20`, any bound functions and any initial values of `*best` and of the
counters, the function `pfsp_search` of `pfsp_c.c` with `lb` in `{0, 1, 2}` returns as
soon as it is given enough iterations, with an empty pool; and the loop of step 3 of
`pfsp_multigpu_cuda.c`, started with any `lb` from any well-formed unlocked pool whose
nodes satisfy the node invariant, returns as soon as it is given enough iterations, with
an empty pool. -/
theorem search_terminates (B : Bounds) (J : Int) (hJ : J ≤ 20) (lb : Int) :
    (lb = 0 ∨ lb = 1 ∨ lb = 2 → ∀ (best : Int) (exploredTree exploredSol : Nat),
      ∃ N, ∀ fuel, N ≤ fuel →
        ∃ s, pfsp_search B J lb best exploredTree exploredSol fuel = some s ∧
          s.pool.size = 0) ∧
    (∀ s : Search SinglePool_ext, s.pool.Ready → (∀ n ∈ s.pool.contents, NodeInv J n) →
      ∃ N, ∀ fuel, N ≤ fuel →
        ∃ s1, step3_loop B J lb fuel s = some s1 ∧ s1.pool.contents = []) := by
  constructor
  · intro hlb best t n
    obtain ⟨hw0, hc0, _⟩ :=
      SinglePool.pushBack_spec initSinglePool (initRoot indet J) initSinglePool_wf
    rw [initSinglePool_contents, List.nil_append] at hc0
    obtain ⟨hr1, hr2, _⟩ := initRoot_spec J hJ
    refine ⟨poolWeight J.toNat [initRoot indet J] + 1, ?_⟩
    intro fuel hf
    obtain ⟨s1, e, _, _, hsz⟩ := search_loop_rule B J lb
      (fun s => s.pool.WF ∧ ∀ n ∈ s.pool.contents, (n.depth : Int) = n.limit1 + 1)
      (fun s => poolWeight J.toNat s.pool.contents) (fun s h => h.1) (by
        intro s parent xs ⟨hw, hn⟩ hc
        obtain ⟨_, _, w, c, _⟩ := SinglePool.popBack_snoc s.pool 0 xs parent hw hc
        obtain ⟨s2, cs, e2, i2, a2, sh, lt⟩ :=
          decompose_ext_term SinglePool.push SinglePool.WF SinglePool.contents
            SinglePool.law B J hJ lb parent (hn parent (by rw [hc]; simp))
            { s with pool := (s.pool.popBack 0).2.2 } w
        simp only at a2
        rw [c] at a2
        refine ⟨s2, by rw [decompose_eq_ext _ _ _ _ hlb]; exact e2, ⟨i2, ?_⟩, ?_⟩
        · intro x hx
          rw [a2] at hx
          rcases List.mem_append.1 hx with hx | hx
          · exact hn x (by rw [hc]; exact List.mem_append_left _ hx)
          · exact sh x hx
        · simp only
          rw [a2, hc, poolWeight_append, poolWeight_append]
          omega) fuel
      { best := best, tree_loc := t, num_sol := n,
        pool := initSinglePool.pushBack (initRoot indet J) }
      ⟨hw0, by
        intro x hx
        simp only at hx
        rw [hc0] at hx
        simp only [List.mem_singleton] at hx
        subst hx
        rw [hr1, hr2]; rfl⟩
      (by simp only; rw [hc0]; omega)
    exact ⟨s1, e, hsz⟩
  · intro s hr hn
    refine ⟨poolWeight J.toNat s.pool.contents + 1, ?_⟩
    intro fuel hf
    obtain ⟨s1, e, _, hnil⟩ := step3_loop_rule B J lb
      (fun s => s.pool.Ready ∧ ∀ n ∈ s.pool.contents, (n.depth : Int) = n.limit1 + 1)
      (fun s => poolWeight J.toNat s.pool.contents) (fun s h => h.1) (by
        intro s parent xs q ⟨hw, hn⟩ hc _ hq hqc
        obtain ⟨s2, cs, e2, i2, a2, sh, lt⟩ :=
          decompose_ext_term SinglePool_ext.pushBack SinglePool_ext.Ready
            SinglePool_ext.contents SinglePool_ext.ext_law B J hJ lb parent
            (hn parent (by rw [hc]; simp)) { s with pool := q } hq
        simp only at a2
        rw [hqc] at a2
        refine ⟨s2, e2, ⟨i2, ?_⟩, ?_⟩
        · intro x hx
          rw [a2] at hx
          rcases List.mem_append.1 hx with hx | hx
          · exact hn x (by rw [hc]; exact List.mem_append_left _ hx)
          · exact sh x hx
        · simp only
          rw [a2, hc, poolWeight_append, poolWeight_append]
          omega) fuel s ⟨hr, fun x hx => (hn x hx).1⟩ (by simp only; omega)
    exact ⟨s1, e, hnil⟩

theorem search_terminates_witness :
    (3 : Int) ≤ 20 ∧
    (∃ N, ∀ fuel, N ≤ fuel →
        ∃ s, pfsp_search sampleBounds 3 1 100 0 0 fuel = some s ∧ s.pool.size = 0) ∧
    (∃ N, ∀ fuel, N ≤ fuel →
        ∃ s1, step3_loop sampleBounds 3 1 fuel
            { best := 100, tree_loc := 0, num_sol := 0,
              pool := sampleLocale (initRoot indet 3) } = some s1 ∧
          s1.pool.contents = []) :=
  ⟨by decide,
    (search_terminates sampleBounds 3 (by decide) 1).1 (Or.inr (Or.inl rfl)) 100 0 0,
    (search_terminates sampleBounds 3 (by decide) 1).2
      { best := 100, tree_loc := 0, num_sol := 0, pool := sampleLocale (initRoot indet 3) }
      ⟨⟨by decide, by decide, by decide, by decide, by
          show (((initRoot indet 3) :: List.replicate 1023 indet).length : Int) = 1024
          rw [List.length_cons, List.length_replicate]; rfl⟩, rfl⟩
      (by
        intro n hn
        have hc : (sampleLocale (initRoot indet 3)).contents = [initRoot indet 3] := rfl
        rw [hc] at hn
        simp only [List.mem_singleton] at hn
        subst hn
        exact initRoot_inv 3 (by decide))⟩

/-! ## The block of the reassembled pool -/

/-- The reassembly keeps `capacity` and `front` of the pool of rank 0 and installs a
block of `total_size` nodes. -/
theorem gather_pools_block (locales : List SinglePool_ext) (pool : SinglePool_ext) :
    (gather_pools locales pool).pool.capacity = pool.capacity ∧
    (gather_pools locales pool).pool.front = pool.front ∧
    (gather_pools locales pool).pool.elements.length
      = (gather_pools locales pool).total_size.toNat := by
  refine ⟨rfl, rfl, ?_⟩
  simp only [gather_pools, List.length_map, List.length_range]

/-- C30 fails: with one rank whose residual pool holds one node, rank 0 installs a block
of one node in its pool, whose `capacity` stays 1024: the block does not hold `capacity`
nodes.  In step 3, after the `popBack` of the gathered node, the first `pushBack` finds
`front + size < capacity`, does not reallocate and writes `elements[0]`; the second one
writes `elements[1]`, outside the block of one node, and returns with `size = 2` and one
node held.  With a rank whose residual pool holds 1025 nodes, the pool is left with
`front + size = 1025 > capacity = 1024`. -/
theorem gathered_pool_block :
    (gather_pools [sampleLocale (sampleNode 1)] initSinglePool_ext).pool.size = 1 ∧
    (gather_pools [sampleLocale (sampleNode 1)] initSinglePool_ext).pool.front = 0 ∧
    (gather_pools [sampleLocale (sampleNode 1)] initSinglePool_ext).pool.capacity = 1024 ∧
    (gather_pools [sampleLocale (sampleNode 1)] initSinglePool_ext).pool.elements.length = 1 ∧
    ¬ (gather_pools [sampleLocale (sampleNode 1)] initSinglePool_ext).pool.WF ∧
    (∃ n r q1 q2,
      (gather_pools [sampleLocale (sampleNode 1)] initSinglePool_ext).pool.popBack 0
        = some (n, 1, r) ∧
      r.pushBack (sampleNode 2) = some q1 ∧ q1.pushBack (sampleNode 3) = some q2 ∧
      q2.capacity = 1024 ∧ q2.elements.length = 1 ∧ q2.size = 2 ∧
      q2.contents = [sampleNode 2]) ∧
    (gather_pools [sampleBatch] initSinglePool_ext).pool.capacity = 1024 ∧
    (gather_pools [sampleBatch] initSinglePool_ext).pool.front
      + (gather_pools [sampleBatch] initSinglePool_ext).pool.size = 1025 := by
  refine ⟨by rfl, by rfl, by rfl, by rfl, ?_, ⟨_, _, _, _, rfl, rfl, rfl, by rfl, by rfl,
    by rfl, by rfl⟩, by rfl, ?_⟩
  · rintro ⟨_, _, _, _, h⟩
    revert h
    decide
  · obtain ⟨_, h, _⟩ := gather_pools_counts [sampleBatch] initSinglePool_ext
    rw [h]
    rfl

end PFSP
